import Mathlib

/-!
Sentinel-based red-black tree (`src/src/rbtree.c`).

A shallow embedding of the C program.  Pointers are natural numbers (`NULL = 0`), the node
memory is a total map from pointers to node records, and the tree record (`root`, `nil`)
is carried together with that memory and the allocator's break.  Every `while` loop of the
source is a function with a fuel argument that returns `none` when the fuel is used up.
-/

namespace RB

/-! ## Definitions -/

/-- Addresses of node records. -/
abbrev Ptr := Nat

/-- The C null pointer. -/
def NULL : Ptr := 0

/-- Modelled from the spec: the enum `color_t` of the missing header `rbtree.h`
(one of RED, BLACK). -/
inductive color_t where
  | RBTREE_RED
  | RBTREE_BLACK
deriving DecidableEq, Repr

open color_t

/-- Modelled from the spec: the record `node_t` of the missing header `rbtree.h`
(a key, a colour, the two child links and the parent back-reference). -/
structure node_t where
  color : color_t
  key : Int
  parent : Ptr
  left : Ptr
  right : Ptr
deriving DecidableEq, Repr

/-- Modelled from the spec: the record `rbtree` of the missing header (`root` and `nil`),
bundled with the node memory it lives in and the next address `malloc` hands out. -/
structure rbtree where
  root : Ptr
  nil : Ptr
  mem : Ptr → node_t
  brk : Ptr

/-- Memory write of a whole record at one address. -/
def upd (m : Ptr → node_t) (p : Ptr) (v : node_t) : Ptr → node_t :=
  fun q => if q = p then v else m q

/-- The assignment `p->color = c`. -/
def set_color (t : rbtree) (p : Ptr) (c : color_t) : rbtree :=
  { t with mem := upd t.mem p { t.mem p with color := c } }

/-- The assignment `p->key = k`. -/
def set_key (t : rbtree) (p : Ptr) (k : Int) : rbtree :=
  { t with mem := upd t.mem p { t.mem p with key := k } }

/-- The assignment `p->parent = v`. -/
def set_parent (t : rbtree) (p : Ptr) (v : Ptr) : rbtree :=
  { t with mem := upd t.mem p { t.mem p with parent := v } }

/-- The assignment `p->left = v`. -/
def set_left (t : rbtree) (p : Ptr) (v : Ptr) : rbtree :=
  { t with mem := upd t.mem p { t.mem p with left := v } }

/-- The assignment `p->right = v`. -/
def set_right (t : rbtree) (p : Ptr) (v : Ptr) : rbtree :=
  { t with mem := upd t.mem p { t.mem p with right := v } }

/-- The assignment `t->root = v`. -/
def set_root (t : rbtree) (v : Ptr) : rbtree :=
  { t with root := v }

/-- The allocator: `malloc` returns the break and advances it (allocation never fails and
never hands out an address twice, where the C allocator may hand out a freed address
again). -/
def malloc (t : rbtree) : rbtree × Ptr :=
  ({ t with brk := t.brk + 1 }, t.brk)

/-- The call `free(p)`: the record is given back, its contents are left as they are.  A
read of the record after this call is undefined in C; the model is meant for runs that
make none. -/
def free (t : rbtree) (_p : Ptr) : rbtree := t

/-- The memory before `new_rbtree`: address 0 is `NULL`, nothing is allocated, and the tree
record is zeroed (`calloc`). -/
def empty_memory : rbtree :=
  { root := NULL, nil := NULL, mem := fun _ => ⟨RBTREE_RED, 0, NULL, NULL, NULL⟩, brk := 1 }

/-- The function `new_rbtree` (lines 7-17). -/
def new_rbtree : rbtree :=
  let newTree := empty_memory
  let (newTree, p) := malloc newTree
  let newTree := { newTree with nil := p }
  let newTree := set_color newTree newTree.nil RBTREE_BLACK
  let newTree := set_parent newTree newTree.nil newTree.nil
  let newTree := set_right newTree newTree.nil (newTree.mem newTree.nil).parent
  let newTree := set_left newTree newTree.nil (newTree.mem newTree.nil).right
  let newTree := set_key newTree newTree.nil 0
  set_root newTree newTree.nil

/-- The function `left_rotate` (lines 40-56). -/
def left_rotate (t : rbtree) (x : Ptr) : rbtree :=
  let y := (t.mem x).right
  let t := set_right t x (t.mem y).left
  let t := if (t.mem y).left ≠ t.nil then set_parent t (t.mem y).left x else t
  let t := set_parent t y (t.mem x).parent
  let t :=
    if (t.mem x).parent = t.nil then set_root t y
    else if x = (t.mem (t.mem x).parent).left then set_left t (t.mem x).parent y
    else set_right t (t.mem x).parent y
  let t := set_left t y x
  set_parent t x y

/-- The function `right_rotate` (lines 58-74). -/
def right_rotate (t : rbtree) (y : Ptr) : rbtree :=
  let x := (t.mem y).left
  let t := set_left t y (t.mem x).right
  let t := if (t.mem x).right ≠ t.nil then set_parent t (t.mem x).right y else t
  let t := set_parent t x (t.mem y).parent
  let t :=
    if (t.mem y).parent = t.nil then set_root t x
    else if y = (t.mem (t.mem y).parent).left then set_left t (t.mem y).parent x
    else set_right t (t.mem y).parent x
  let t := set_right t x y
  set_parent t y x

/-- The function `rbtree_insert_fixup` (lines 76-116); one unit of fuel per loop test. -/
def rbtree_insert_fixup : Nat → rbtree → Ptr → Option rbtree
  | 0, _, _ => none
  | fuel + 1, t, z =>
    if (t.mem (t.mem z).parent).color = RBTREE_RED then
      if (t.mem z).parent = (t.mem (t.mem (t.mem z).parent).parent).left then
        let y := (t.mem (t.mem (t.mem z).parent).parent).right
        if (t.mem y).color = RBTREE_RED then
          let t := set_color t (t.mem z).parent RBTREE_BLACK
          let t := set_color t y RBTREE_BLACK
          let t := set_color t (t.mem (t.mem z).parent).parent RBTREE_RED
          let z := (t.mem (t.mem z).parent).parent
          rbtree_insert_fixup fuel t z
        else
          let (t, z) :=
            if z = (t.mem (t.mem z).parent).right then
              let z := (t.mem z).parent
              (left_rotate t z, z)
            else (t, z)
          let t := set_color t (t.mem z).parent RBTREE_BLACK
          let t := set_color t (t.mem (t.mem z).parent).parent RBTREE_RED
          let t := right_rotate t (t.mem (t.mem z).parent).parent
          rbtree_insert_fixup fuel t z
      else
        let y := (t.mem (t.mem (t.mem z).parent).parent).left
        if (t.mem y).color = RBTREE_RED then
          let t := set_color t (t.mem z).parent RBTREE_BLACK
          let t := set_color t y RBTREE_BLACK
          let t := set_color t (t.mem (t.mem z).parent).parent RBTREE_RED
          let z := (t.mem (t.mem z).parent).parent
          rbtree_insert_fixup fuel t z
        else
          let (t, z) :=
            if z = (t.mem (t.mem z).parent).left then
              let z := (t.mem z).parent
              (right_rotate t z, z)
            else (t, z)
          let t := set_color t (t.mem z).parent RBTREE_BLACK
          let t := set_color t (t.mem (t.mem z).parent).parent RBTREE_RED
          let t := left_rotate t (t.mem (t.mem z).parent).parent
          rbtree_insert_fixup fuel t z
    else
      some (set_color t t.root RBTREE_BLACK)

/-- The descent loop of `rbtree_insert` (lines 128-135); returns the trailing pointer `y`. -/
def insert_descend : Nat → rbtree → Ptr → Ptr → Ptr → Option Ptr
  | 0, _, _, _, _ => none
  | fuel + 1, t, z, y, x =>
    if x ≠ t.nil then
      let y := x
      let x := if (t.mem z).key < (t.mem x).key then (t.mem x).left else (t.mem x).right
      insert_descend fuel t z y x
    else some y

/-- The function `rbtree_insert` (lines 118-151). -/
def rbtree_insert (fuel : Nat) (t : rbtree) (key : Int) : Option (rbtree × Ptr) :=
  let (t, z) := malloc t
  let t := set_key t z key
  let t := set_right t z t.nil
  let t := set_left t z (t.mem z).right
  let t := set_color t z RBTREE_RED
  let y := t.nil
  let x := t.root
  match insert_descend fuel t z y x with
  | none => none
  | some y =>
    let t := set_parent t z y
    let t :=
      if y = t.nil then set_root t z
      else if (t.mem z).key < (t.mem y).key then set_left t y z
      else set_right t y z
    match rbtree_insert_fixup fuel t z with
    | none => none
    | some t => some (t, z)

/-- The loop of `rbtree_find` (lines 160-166). -/
def find_loop : Nat → rbtree → Int → Ptr → Option Ptr
  | 0, _, _, _ => none
  | fuel + 1, t, key, x =>
    if x ≠ t.nil ∧ (t.mem x).key ≠ key then
      find_loop fuel t key (if key < (t.mem x).key then (t.mem x).left else (t.mem x).right)
    else some x

/-- The function `rbtree_find` (lines 156-173). -/
def rbtree_find (fuel : Nat) (t : rbtree) (key : Int) : Option Ptr :=
  match find_loop fuel t key t.root with
  | none => none
  | some x => if x = t.nil then some NULL else some x

/-- The function `_rbtree_min_from_node` (lines 175-180). -/
def _rbtree_min_from_node : Nat → rbtree → Ptr → Option Ptr
  | 0, _, _ => none
  | fuel + 1, t, x =>
    if (t.mem x).left ≠ t.nil then _rbtree_min_from_node fuel t (t.mem x).left
    else some x

/-- The function `rbtree_min` (line 182). -/
def rbtree_min (fuel : Nat) (t : rbtree) : Option Ptr :=
  _rbtree_min_from_node fuel t t.root

/-- The loop of `rbtree_max` (lines 188-190). -/
def max_loop : Nat → rbtree → Ptr → Option Ptr
  | 0, _, _ => none
  | fuel + 1, t, x =>
    if (t.mem x).right ≠ t.nil then max_loop fuel t (t.mem x).right
    else some x

/-- The function `rbtree_max` (lines 184-193). -/
def rbtree_max (fuel : Nat) (t : rbtree) : Option Ptr :=
  max_loop fuel t t.root

/-- The function `rbtree_transplant` (lines 198-208). -/
def rbtree_transplant (t : rbtree) (u v : Ptr) : rbtree :=
  let t :=
    if (t.mem u).parent = t.nil then set_root t v
    else if u = (t.mem (t.mem u).parent).left then set_left t (t.mem u).parent v
    else set_right t (t.mem u).parent v
  set_parent t v (t.mem u).parent

/-- The function `rbtree_delete_fixup` (lines 210-271); one unit of fuel per loop test. -/
def rbtree_delete_fixup : Nat → rbtree → Ptr → Option rbtree
  | 0, _, _ => none
  | fuel + 1, t, x =>
    if x ≠ t.root ∧ (t.mem x).color = RBTREE_BLACK then
      if x = (t.mem (t.mem x).parent).left then
        let w := (t.mem (t.mem x).parent).right
        let (t, w) :=
          if (t.mem w).color = RBTREE_RED then
            let t := set_color t w RBTREE_BLACK
            let t := set_color t (t.mem x).parent RBTREE_RED
            let t := left_rotate t (t.mem x).parent
            (t, (t.mem (t.mem x).parent).right)
          else (t, w)
        if (t.mem (t.mem w).left).color = RBTREE_BLACK
            ∧ (t.mem (t.mem w).right).color = RBTREE_BLACK then
          let t := set_color t w RBTREE_RED
          let x := (t.mem x).parent
          rbtree_delete_fixup fuel t x
        else
          let (t, w) :=
            if (t.mem (t.mem w).right).color = RBTREE_BLACK then
              let t := set_color t (t.mem w).left RBTREE_BLACK
              let t := set_color t w RBTREE_RED
              let t := right_rotate t w
              (t, (t.mem (t.mem x).parent).right)
            else (t, w)
          let t := set_color t w (t.mem (t.mem x).parent).color
          let t := set_color t (t.mem x).parent RBTREE_BLACK
          let t := set_color t (t.mem w).right RBTREE_BLACK
          let t := left_rotate t (t.mem x).parent
          let x := t.root
          rbtree_delete_fixup fuel t x
      else
        let w := (t.mem (t.mem x).parent).left
        let (t, w) :=
          if (t.mem w).color = RBTREE_RED then
            let t := set_color t w RBTREE_BLACK
            let t := set_color t (t.mem x).parent RBTREE_RED
            let t := right_rotate t (t.mem x).parent
            (t, (t.mem (t.mem x).parent).left)
          else (t, w)
        if (t.mem (t.mem w).left).color = RBTREE_BLACK
            ∧ (t.mem (t.mem w).right).color = RBTREE_BLACK then
          let t := set_color t w RBTREE_RED
          let x := (t.mem x).parent
          rbtree_delete_fixup fuel t x
        else
          let (t, w) :=
            if (t.mem (t.mem w).left).color = RBTREE_BLACK then
              let t := set_color t (t.mem w).right RBTREE_BLACK
              let t := set_color t w RBTREE_RED
              let t := left_rotate t w
              (t, (t.mem (t.mem x).parent).left)
            else (t, w)
          let t := set_color t w (t.mem (t.mem x).parent).color
          let t := set_color t (t.mem x).parent RBTREE_BLACK
          let t := set_color t (t.mem w).left RBTREE_BLACK
          let t := right_rotate t (t.mem x).parent
          let x := t.root
          rbtree_delete_fixup fuel t x
    else
      some (set_color t x RBTREE_BLACK)

/-- The three-way splice of `rbtree_erase` (lines 277-303): the tree after the splice, the
node `x` that took the spliced node's place and the colour that left the tree. -/
def erase_splice (fuel : Nat) (t : rbtree) (z : Ptr) : Option (rbtree × Ptr × color_t) :=
  let y := z
  let original_color := (t.mem y).color
  if (t.mem z).left = t.nil then
    let x := (t.mem z).right
    let t := rbtree_transplant t z (t.mem z).right
    some (t, x, original_color)
  else if (t.mem z).right = t.nil then
    let x := (t.mem z).left
    let t := rbtree_transplant t z (t.mem z).left
    some (t, x, original_color)
  else
    match _rbtree_min_from_node fuel t (t.mem z).right with
    | none => none
    | some y =>
      let original_color := (t.mem y).color
      let x := (t.mem y).right
      let t :=
        if (t.mem y).parent = z then set_parent t x y
        else
          let t := rbtree_transplant t y (t.mem y).right
          let t := set_right t y (t.mem z).right
          set_parent t (t.mem y).right y
      let t := rbtree_transplant t z y
      let t := set_left t y (t.mem z).left
      let t := set_parent t (t.mem y).left y
      let t := set_color t y (t.mem z).color
      some (t, x, original_color)

/-- The function `rbtree_erase` (lines 273-311). -/
def rbtree_erase (fuel : Nat) (t : rbtree) (z : Ptr) : Option (rbtree × Int) :=
  if z = NULL ∨ z = t.nil then some (t, 0)
  else
    match erase_splice fuel t z with
    | none => none
    | some (t, x, original_color) =>
      if original_color = RBTREE_BLACK then
        match rbtree_delete_fixup fuel t x with
        | none => none
        | some t => some (free t z, 1)
      else some (free t z, 1)

/-- The static helper `inorder_traversal` (lines 316-334); the fuel bounds the recursion
depth and the buffer is a map from indices to keys. -/
def inorder_traversal : Nat → rbtree → Ptr → (Nat → Int) → Nat → Nat → Option ((Nat → Int) × Nat)
  | 0, _, _, _, _, _ => none
  | fuel + 1, t, node, arr, index, n =>
    if node = t.nil then some (arr, index)
    else
      match (if (t.mem node).left ≠ t.nil
             then inorder_traversal fuel t (t.mem node).left arr index n
             else some (arr, index)) with
      | none => none
      | some (arr, index) =>
        let (arr, index) :=
          if index < n then (Function.update arr index (t.mem node).key, index + 1)
          else (arr, index)
        if (t.mem node).right ≠ t.nil
        then inorder_traversal fuel t (t.mem node).right arr index n
        else some (arr, index)

/-- The function `rbtree_to_array` (line 336): the body is `return 0;`. -/
def rbtree_to_array (t : rbtree) (arr : Nat → Int) (_n : Nat) : rbtree × (Nat → Int) × Int :=
  (t, arr, 0)

/-- The abstract shape of a pointer structure: which node record sits where. -/
inductive Tree where
  | leaf
  | node (a : Ptr) (c : color_t) (k : Int) (l r : Tree)
deriving DecidableEq, Repr

/-- One step of a path from a position up to the root: the parent record and the sibling
subtree.  `L` means the position is the parent's left child, `R` its right child. -/
inductive Frame where
  | L (a : Ptr) (c : color_t) (k : Int) (r : Tree)
  | R (a : Ptr) (c : color_t) (k : Int) (l : Tree)
deriving DecidableEq, Repr

/-- A path from a position up to the root, innermost frame first. -/
abbrev Ctx := List Frame

/-- Put a subtree below one frame. -/
def fill : Frame → Tree → Tree
  | .L a c k r, s => .node a c k s r
  | .R a c k l, s => .node a c k l s

/-- Put a subtree at the position a path leads to. -/
def plug : Ctx → Tree → Tree
  | [], s => s
  | f :: rest, s => plug rest (fill f s)

/-- The pointer that stands for a subtree: its root record, or the sentinel. -/
def rootAddr (nil : Ptr) : Tree → Ptr
  | .leaf => nil
  | .node a _ _ _ _ => a

/-- The colour of the root of a subtree (the sentinel is BLACK). -/
def rootColor : Tree → color_t
  | .leaf => RBTREE_BLACK
  | .node _ c _ _ _ => c

/-- The address of a frame's record. -/
def Frame.addr : Frame → Ptr
  | .L a _ _ _ => a
  | .R a _ _ _ => a

/-- The colour of a frame's record. -/
def Frame.color : Frame → color_t
  | .L _ c _ _ => c
  | .R _ c _ _ => c

/-- The sibling subtree a frame carries. -/
def Frame.sib : Frame → Tree
  | .L _ _ _ r => r
  | .R _ _ _ l => l

/-- The parent pointer a position has: the innermost frame, or the sentinel at the root. -/
def ctxParent (nil : Ptr) : Ctx → Ptr
  | [] => nil
  | f :: _ => f.addr

/-- The colour of the parent of a position (the sentinel above the root is BLACK). -/
def ctxColor : Ctx → color_t
  | [] => RBTREE_BLACK
  | f :: _ => f.color

/-- The records of a tree in order, each with its address and key. -/
def nodes : Tree → List (Ptr × Int)
  | .leaf => []
  | .node a _ k l r => nodes l ++ (a, k) :: nodes r

/-- The addresses of a tree in order. -/
def addrs (T : Tree) : List Ptr := (nodes T).map Prod.fst

/-- The keys of a tree in order. -/
def keys (T : Tree) : List Int := (nodes T).map Prod.snd

/-- The records that come before the position of a path, in order. -/
def ctxBefore : Ctx → List (Ptr × Int)
  | [] => []
  | .L _ _ _ _ :: rest => ctxBefore rest
  | .R a _ k l :: rest => ctxBefore rest ++ nodes l ++ [(a, k)]

/-- The records that come after the position of a path, in order. -/
def ctxAfter : Ctx → List (Ptr × Int)
  | [] => []
  | .L a _ k r :: rest => (a, k) :: nodes r ++ ctxAfter rest
  | .R _ _ _ _ :: rest => ctxAfter rest

/-- The addresses of the records on a path and in its sibling subtrees. -/
def ctxAddrs : Ctx → List Ptr
  | [] => []
  | f :: rest => f.addr :: (addrs f.sib ++ ctxAddrs rest)

/-- The number of records of a tree. -/
def size : Tree → Nat
  | .leaf => 0
  | .node _ _ _ l r => size l + 1 + size r

/-- The number of records on the longest path from the root down to the sentinel. -/
def height : Tree → Nat
  | .leaf => 0
  | .node _ _ _ l r => max (height l) (height r) + 1

/-- The memory holds the tree `T` below a record at `par`: every record of `T` is stored
at its address with its colour and key, its child links point to the roots of its subtrees
(the sentinel for an empty one) and its parent link to the record above. -/
def Shape (m : Ptr → node_t) (nil : Ptr) : Ptr → Tree → Prop
  | _, .leaf => True
  | par, .node a c k l r =>
    m a = ⟨c, k, par, rootAddr nil l, rootAddr nil r⟩ ∧ Shape m nil a l ∧ Shape m nil a r

/-- The memory holds the path `ctx` from the position holding `hole` up to the root. -/
def CtxShape (m : Ptr → node_t) (nil : Ptr) (root : Ptr) : Ctx → Ptr → Prop
  | [], hole => root = hole
  | .L a c k r :: rest, hole =>
    m a = ⟨c, k, ctxParent nil rest, hole, rootAddr nil r⟩ ∧ Shape m nil a r
      ∧ CtxShape m nil root rest a
  | .R a c k l :: rest, hole =>
    m a = ⟨c, k, ctxParent nil rest, rootAddr nil l, hole⟩ ∧ Shape m nil a l
      ∧ CtxShape m nil root rest a

/-- The state `t` holds exactly the tree `T`: the root pointer leads to it, no address is
used twice, none is the sentinel or `NULL`, all are allocated, and the sentinel is BLACK
with both child links on itself. -/
structure Rep (t : rbtree) (T : Tree) : Prop where
  root : t.root = rootAddr t.nil T
  shape : Shape t.mem t.nil t.nil T
  nodup : (t.nil :: NULL :: addrs T).Nodup
  bound : ∀ a ∈ t.nil :: addrs T, a < t.brk
  nil_color : (t.mem t.nil).color = RBTREE_BLACK
  nil_left : (t.mem t.nil).left = t.nil
  nil_right : (t.mem t.nil).right = t.nil

/-- The zipper view of `Rep`: the state holds the path `ctx` and, at its position, the
subtree `s`. -/
structure RepZ (t : rbtree) (ctx : Ctx) (s : Tree) : Prop where
  path : CtxShape t.mem t.nil t.root ctx (rootAddr t.nil s)
  sub : Shape t.mem t.nil (ctxParent t.nil ctx) s
  nodup : (t.nil :: NULL :: (addrs s ++ ctxAddrs ctx)).Nodup
  bound : ∀ a ∈ t.nil :: (addrs s ++ ctxAddrs ctx), a < t.brk
  nil_color : (t.mem t.nil).color = RBTREE_BLACK
  nil_left : (t.mem t.nil).left = t.nil
  nil_right : (t.mem t.nil).right = t.nil

/-- No RED record has a RED child. -/
def NoRedRed : Tree → Prop
  | .leaf => True
  | .node _ c _ l r =>
    (c = RBTREE_RED → rootColor l = RBTREE_BLACK ∧ rootColor r = RBTREE_BLACK)
      ∧ NoRedRed l ∧ NoRedRed r

/-- Every path from the root of the subtree down to the sentinel passes through exactly
`n` BLACK records. -/
def BH : Tree → Nat → Prop
  | .leaf, n => n = 0
  | .node _ RBTREE_RED _ l r, n => BH l n ∧ BH r n
  | .node _ RBTREE_BLACK _ _ _, 0 => False
  | .node _ RBTREE_BLACK _ l r, n + 1 => BH l n ∧ BH r n

/-- No RED record on the path or in its sibling subtrees has a RED child, the position
itself left aside. -/
def CtxNoRedRed : Ctx → Prop
  | [] => True
  | f :: rest =>
    NoRedRed f.sib
      ∧ (f.color = RBTREE_RED → rootColor f.sib = RBTREE_BLACK ∧ ctxColor rest = RBTREE_BLACK)
      ∧ CtxNoRedRed rest

/-- With a subtree of black-height `n` at the position, all paths of the whole tree pass
through the same number of BLACK records. -/
def CtxBH : Ctx → Nat → Prop
  | [], _ => True
  | f :: rest, n =>
    BH f.sib n ∧ CtxBH rest (if f.color = RBTREE_BLACK then n + 1 else n)

/-- The colour of the record at the root end of a path (BLACK for the empty path). -/
def ctxRootColor : Ctx → color_t
  | [] => RBTREE_BLACK
  | [f] => f.color
  | _ :: g :: rest => ctxRootColor (g :: rest)

/-- The red-black colour properties of a tree: BLACK root, no RED record with a RED child,
the same number of BLACK records on every path down to the sentinel. -/
structure RBProps (T : Tree) : Prop where
  root_black : rootColor T = RBTREE_BLACK
  no_red_red : NoRedRed T
  black_height : ∃ n, BH T n

/-- The tree with its root record coloured BLACK. -/
def blacken : Tree → Tree
  | .leaf => .leaf
  | .node a _ k l r => .node a RBTREE_BLACK k l r

/-- The second state has the sentinel of the first, the same break, and the same record in
the sentinel. -/
structure SameNil (t t' : rbtree) : Prop where
  nil : t'.nil = t.nil
  brk : t'.brk = t.brk
  mem_nil : t'.mem t.nil = t.mem t.nil

/-- What both fix-up procedures deliver: a state that holds a red-black tree with the same
records in the same order. -/
structure FixResult (t : rbtree) (T : Tree) (t' : rbtree) (T' : Tree) : Prop where
  rep : Rep t' T'
  rb : RBProps T'
  nodes : nodes T' = nodes T
  same : SameNil t t'

/-- The loop invariant of `rbtree_insert_fixup` at a RED record `s`: the only possible
violation is a RED parent of `s`. -/
structure InsInv (ctx : Ctx) (s : Tree) : Prop where
  sub : NoRedRed s
  path : CtxNoRedRed ctx
  bh : ∃ n, BH s n ∧ CtxBH ctx n
  root : ctxRootColor ctx = RBTREE_BLACK

/-- The path `rbtree_insert` walks down for `key`: left when `key` is smaller than the key
of the record, right otherwise; it ends at the sentinel link that will take the new record. -/
def insCtx (key : Int) : Tree → Ctx → Ctx
  | .leaf, ctx => ctx
  | .node a c k l r, ctx =>
    if key < k then insCtx key l (.L a c k r :: ctx) else insCtx key r (.R a c k l :: ctx)

/-- The innermost frame of a path agrees with the comparison `rbtree_insert` makes when it
attaches the new record. -/
def InsDir (key : Int) : Ctx → Prop
  | [] => True
  | .L _ _ k _ :: _ => key < k
  | .R _ _ k _ :: _ => ¬ key < k

/-- The statements of `rbtree_insert` that hang the new record `z` below the trailing
pointer (lines 137-145). -/
def attach (t : rbtree) (z y : Ptr) : rbtree :=
  let t := set_parent t z y
  if y = t.nil then set_root t z
  else if (t.mem z).key < (t.mem y).key then set_left t y z
  else set_right t y z

/-- The state of `rbtree_insert` after the new record is allocated and initialised
(lines 119-122). -/
def alloc_node (t : rbtree) (key : Int) : rbtree :=
  let (t, z) := malloc t
  let t := set_key t z key
  let t := set_right t z t.nil
  let t := set_left t z (t.mem z).right
  set_color t z RBTREE_RED

/-- The tree `rbtree_insert` builds before the fix-up: the new RED record at the end of the
descent path. -/
def insTree (key : Int) (z : Ptr) (T : Tree) : Tree :=
  plug (insCtx key T []) (.node z RBTREE_RED key .leaf .leaf)

/-- What `rbtree_delete_fixup` delivers: like `FixResult`, but the sentinel's parent link
may have been anything before. -/
structure DelResult (t : rbtree) (T : Tree) (t' : rbtree) (T' : Tree) : Prop where
  rep : Rep t' T'
  rb : RBProps T'
  nodes : nodes T' = nodes T
  same : SameNil t t'

/-- The loop invariant of `rbtree_delete_fixup` at the position of `x`: the paths through
`x` are one BLACK record short, and `x` itself may be RED below a RED parent. -/
structure DelInv (ctx : Ctx) (s : Tree) : Prop where
  sub : NoRedRed (blacken s)
  path : CtxNoRedRed ctx
  bh : ∃ n, BH s n ∧ CtxBH ctx (n + 1)
  root : ctxRootColor ctx = RBTREE_BLACK

/-- The statements of `rbtree_erase` for a successor `y` that is the right child of `z`
(lines 292 and 299-302), with `x = y->right`. -/
def splice_near (t : rbtree) (z y : Ptr) : rbtree :=
  let x := (t.mem y).right
  let t := set_parent t x y
  let t := rbtree_transplant t z y
  let t := set_left t y (t.mem z).left
  let t := set_parent t (t.mem y).left y
  set_color t y (t.mem z).color

/-- The statements of `rbtree_erase` for a successor `y` further down, after `y` was
replaced by its right child (lines 295-296 and 299-302). -/
def splice_far (t : rbtree) (z y : Ptr) : rbtree :=
  let t := set_right t y (t.mem z).right
  let t := set_parent t (t.mem y).right y
  let t := rbtree_transplant t z y
  let t := set_left t y (t.mem z).left
  let t := set_parent t (t.mem y).left y
  set_color t y (t.mem z).color

/-- Every frame of the path is a step to a left child. -/
def AllL : Ctx → Prop
  | [] => True
  | .L _ _ _ _ :: rest => AllL rest
  | .R _ _ _ _ :: _ => False

/-- The red-black properties of `plug ctx s`, split into what they say about the subtree
`s`, about the path `ctx`, and about the edge between the two. -/
structure AtPos (ctx : Ctx) (s : Tree) : Prop where
  sub : NoRedRed s
  path : CtxNoRedRed ctx
  edge : rootColor s = RBTREE_RED → ctxColor ctx = RBTREE_BLACK
  bh : ∃ n, BH s n ∧ CtxBH ctx n
  root : ctxRootColor ctx = RBTREE_BLACK
  top : ctx = [] → rootColor s = RBTREE_BLACK

/-- What the splice of `rbtree_erase` leaves behind: the tree without `z`, seen from the
position of `x`, and what the colour that left the tree says about it. -/
structure SpliceOut (t : rbtree) (T : Tree) (rem : List (Ptr × Int)) (t1 : rbtree)
    (ctx' : Ctx) (s : Tree) (oc : color_t) : Prop where
  rep : RepZ t1 ctx' s
  nil : t1.nil = t.nil
  brk : t1.brk = t.brk
  par : s = .leaf → (t1.mem t1.nil).parent = ctxParent t1.nil ctx'
  nodes : nodes (plug ctx' s) = rem
  len : ctx'.length ≤ height T
  black : oc = RBTREE_BLACK → DelInv ctx' s
  red : oc = RBTREE_RED → RBProps (plug ctx' s)

/-- The numbers of BLACK records on the paths from the root of a tree down to the sentinel,
one entry per path. -/
def blackCounts : Tree → List Nat
  | .leaf => [0]
  | .node _ c _ l r =>
    (blackCounts l ++ blackCounts r).map (fun n => if c = RBTREE_BLACK then n + 1 else n)

/-- The four colour properties read off the memory of a state that holds the tree `T`: the
record at the root pointer is BLACK, the sentinel is BLACK, no RED record of the tree has a
RED record at its parent link, and every path down to the sentinel has the same number of
BLACK records. -/
structure RBInvariants (t : rbtree) (T : Tree) : Prop where
  root_black : (t.mem t.root).color = RBTREE_BLACK
  sentinel_black : (t.mem t.nil).color = RBTREE_BLACK
  no_red_red : ∀ a ∈ addrs T, (t.mem a).color = RBTREE_RED →
    (t.mem (t.mem a).parent).color ≠ RBTREE_RED
  black_height : ∃ n, ∀ m ∈ blackCounts T, m = n

/-- The search order with ties allowed on both sides: at every record the keys of the left
subtree are at most its key and the keys of the right subtree are at least its key. -/
def BSTOrder : Tree → Prop
  | .leaf => True
  | .node _ _ k l r =>
    (∀ x ∈ keys l, x ≤ k) ∧ (∀ x ∈ keys r, k ≤ x) ∧ BSTOrder l ∧ BSTOrder r

/-- The search order with a strict left side: at every record the keys of the left subtree
are strictly below its key and the keys of the right subtree are at least its key. -/
def StrictLeftOrder : Tree → Prop
  | .leaf => True
  | .node _ _ k l r =>
    (∀ x ∈ keys l, x < k) ∧ (∀ x ∈ keys r, k ≤ x) ∧ StrictLeftOrder l ∧ StrictLeftOrder r

/-- One call of a client that changes the tree: `rbtree_insert(t, key)` or
`rbtree_erase(t, z)`. -/
inductive Op where
  | insert (key : Int)
  | erase (z : Ptr)

/-- A run of calls from left to right, each on the state the one before left. -/
def run_ops (fuel : Nat) : List Op → rbtree → Option rbtree
  | [], t => some t
  | .insert key :: ops, t =>
    match rbtree_insert fuel t key with
    | none => none
    | some (t, _) => run_ops fuel ops t
  | .erase z :: ops, t =>
    match rbtree_erase fuel t z with
    | none => none
    | some (t, _) => run_ops fuel ops t

/-- The state a run of calls from `new_rbtree` ends in (`new_rbtree` itself when the run
does not finish with the fuel given). -/
def state_of (fuel : Nat) (ops : List Op) : rbtree :=
  (run_ops fuel ops new_rbtree).getD new_rbtree

/-- The states a client can reach: `new_rbtree`, then any number of calls of
`rbtree_insert` and of `rbtree_erase` on records that are in the tree at the time of the
call, each call taken for any fuel with which it returns. -/
inductive Reachable : rbtree → Prop
  | new : Reachable new_rbtree
  | insert {t t' : rbtree} {z : Ptr} (fuel : Nat) (key : Int) :
    Reachable t → rbtree_insert fuel t key = some (t', z) → Reachable t'
  | erase {t t' : rbtree} {T : Tree} {ret : Int} (fuel : Nat) (z : Ptr) :
    Reachable t → Rep t T → z ∈ addrs T → rbtree_erase fuel t z = some (t', ret) →
    Reachable t'

/-- Every frame of the path is a step to a right child. -/
def AllR : Ctx → Prop
  | [] => True
  | .R _ _ _ _ :: rest => AllR rest
  | .L _ _ _ _ :: _ => False

/-- Whether a memory holds a given tree can be checked record by record. -/
instance Shape.instDecidable (m : Ptr → node_t) (nil : Ptr) :
    ∀ (T : Tree) (par : Ptr), Decidable (Shape m nil par T)
  | .leaf, _ => isTrue trivial
  | .node a c k l r, par =>
    have := Shape.instDecidable m nil l a
    have := Shape.instDecidable m nil r a
    inferInstanceAs (Decidable (m a = ⟨c, k, par, rootAddr nil l, rootAddr nil r⟩
      ∧ Shape m nil a l ∧ Shape m nil a r))

/-- Whether a state holds a given tree can be checked. -/
instance Rep.instDecidable (t : rbtree) (T : Tree) : Decidable (Rep t T) :=
  decidable_of_iff
    (t.root = rootAddr t.nil T ∧ Shape t.mem t.nil t.nil T ∧ (t.nil :: NULL :: addrs T).Nodup
      ∧ (∀ a ∈ t.nil :: addrs T, a < t.brk) ∧ (t.mem t.nil).color = RBTREE_BLACK
      ∧ (t.mem t.nil).left = t.nil ∧ (t.mem t.nil).right = t.nil)
    ⟨fun ⟨a, b, c, d, e, f, g⟩ => ⟨a, b, c, d, e, f, g⟩,
     fun h => ⟨h.root, h.shape, h.nodup, h.bound, h.nil_color, h.nil_left, h.nil_right⟩⟩

/-- The records `left_rotate(t, x)` writes are different records: the pivot `x`, its right
child `y`, the left child `b` of `y` and the parent `p` of `x`. -/
structure LeftPre (t : rbtree) (x : Ptr) : Prop where
  yx : (t.mem x).right ≠ x
  bx : (t.mem (t.mem x).right).left ≠ x
  by_ : (t.mem (t.mem x).right).left ≠ (t.mem x).right
  px : (t.mem x).parent ≠ x
  py : (t.mem x).parent ≠ (t.mem x).right
  pb : (t.mem (t.mem x).right).left ≠ t.nil →
    (t.mem x).parent ≠ (t.mem (t.mem x).right).left

/-- The records `right_rotate(t, y)` writes are different records: the pivot `y`, its left
child `x`, the right child `b` of `x` and the parent `p` of `y`. -/
structure RightPre (t : rbtree) (y : Ptr) : Prop where
  xy : (t.mem y).left ≠ y
  by_ : (t.mem (t.mem y).left).right ≠ y
  bx : (t.mem (t.mem y).left).right ≠ (t.mem y).left
  py : (t.mem y).parent ≠ y
  px : (t.mem y).parent ≠ (t.mem y).left
  pb : (t.mem (t.mem y).left).right ≠ t.nil →
    (t.mem y).parent ≠ (t.mem (t.mem y).left).right

/-- The links around the pivot of `left_rotate` are those of a tree: the rising child and
its inner subtree point back to their parents, and the pivot hangs in a child slot of its
parent, or is the root. -/
structure LeftLinks (t : rbtree) (x : Ptr) : Prop where
  y_parent : (t.mem (t.mem x).right).parent = x
  b_parent : (t.mem (t.mem x).right).left ≠ t.nil →
    (t.mem (t.mem (t.mem x).right).left).parent = (t.mem x).right
  slot : (t.mem x).parent ≠ t.nil →
    (t.mem (t.mem x).parent).left = x
      ∨ ((t.mem (t.mem x).parent).right = x
          ∧ (t.mem (t.mem x).parent).left ≠ x
          ∧ (t.mem (t.mem x).parent).left ≠ (t.mem x).right)
  root : (t.mem x).parent = t.nil → t.root = x

/-- The links around the pivot of `right_rotate` are those of a tree. -/
structure RightLinks (t : rbtree) (y : Ptr) : Prop where
  x_parent : (t.mem (t.mem y).left).parent = y
  b_parent : (t.mem (t.mem y).left).right ≠ t.nil →
    (t.mem (t.mem (t.mem y).left).right).parent = (t.mem y).left
  slot : (t.mem y).parent ≠ t.nil →
    (t.mem (t.mem y).parent).left = y
      ∨ ((t.mem (t.mem y).parent).right = y
          ∧ (t.mem (t.mem y).parent).left ≠ y
          ∧ (t.mem (t.mem y).parent).left ≠ (t.mem y).left)
  root : (t.mem y).parent = t.nil → t.root = y

/-- The parent back-reference of the record at `a` differs between two states. -/
@[reducible] def parent_changed (t t' : rbtree) (a : Ptr) : Prop :=
  (t'.mem a).parent ≠ (t.mem a).parent

/-- Writing a list of keys into a buffer from index `i` on, as long as the index is below
the capacity `n`: the buffer and the index after the last key. -/
def write_keys : List Int → (Nat → Int) → Nat → Nat → (Nat → Int) × Nat
  | [], arr, i, _ => (arr, i)
  | k :: ks, arr, i, n =>
    if i < n then write_keys ks (Function.update arr i k) (i + 1) n
    else write_keys ks arr i n

/-- The body of the loop of `rbtree_delete_fixup` (lines 212-267): the state and the `x` one
iteration leaves. -/
def delete_fixup_body (t : rbtree) (x : Ptr) : rbtree × Ptr :=
  if x = (t.mem (t.mem x).parent).left then
    let w := (t.mem (t.mem x).parent).right
    let (t, w) :=
      if (t.mem w).color = RBTREE_RED then
        let t := set_color t w RBTREE_BLACK
        let t := set_color t (t.mem x).parent RBTREE_RED
        let t := left_rotate t (t.mem x).parent
        (t, (t.mem (t.mem x).parent).right)
      else (t, w)
    if (t.mem (t.mem w).left).color = RBTREE_BLACK
        ∧ (t.mem (t.mem w).right).color = RBTREE_BLACK then
      let t := set_color t w RBTREE_RED
      let x := (t.mem x).parent
      (t, x)
    else
      let (t, w) :=
        if (t.mem (t.mem w).right).color = RBTREE_BLACK then
          let t := set_color t (t.mem w).left RBTREE_BLACK
          let t := set_color t w RBTREE_RED
          let t := right_rotate t w
          (t, (t.mem (t.mem x).parent).right)
        else (t, w)
      let t := set_color t w (t.mem (t.mem x).parent).color
      let t := set_color t (t.mem x).parent RBTREE_BLACK
      let t := set_color t (t.mem w).right RBTREE_BLACK
      let t := left_rotate t (t.mem x).parent
      let x := t.root
      (t, x)
  else
    let w := (t.mem (t.mem x).parent).left
    let (t, w) :=
      if (t.mem w).color = RBTREE_RED then
        let t := set_color t w RBTREE_BLACK
        let t := set_color t (t.mem x).parent RBTREE_RED
        let t := right_rotate t (t.mem x).parent
        (t, (t.mem (t.mem x).parent).left)
      else (t, w)
    if (t.mem (t.mem w).left).color = RBTREE_BLACK
        ∧ (t.mem (t.mem w).right).color = RBTREE_BLACK then
      let t := set_color t w RBTREE_RED
      let x := (t.mem x).parent
      (t, x)
    else
      let (t, w) :=
        if (t.mem (t.mem w).left).color = RBTREE_BLACK then
          let t := set_color t (t.mem w).right RBTREE_BLACK
          let t := set_color t w RBTREE_RED
          let t := left_rotate t w
          (t, (t.mem (t.mem x).parent).left)
        else (t, w)
      let t := set_color t w (t.mem (t.mem x).parent).color
      let t := set_color t (t.mem x).parent RBTREE_BLACK
      let t := set_color t (t.mem w).left RBTREE_BLACK
      let t := right_rotate t (t.mem x).parent
      let x := t.root
      (t, x)

/-- The loop of `rbtree_delete_fixup` (lines 211-268) without the assignment that follows
it: the state and the `x` on exit; one unit of fuel per loop test. -/
def delete_fixup_loop : Nat → rbtree → Ptr → Option (rbtree × Ptr)
  | 0, _, _ => none
  | fuel + 1, t, x =>
    if x ≠ t.root ∧ (t.mem x).color = RBTREE_BLACK then
      delete_fixup_loop fuel (delete_fixup_body t x).1 (delete_fixup_body t x).2
    else some (t, x)

/-- The body of the loop of `rbtree_insert_fixup` (lines 79-113): the state and the `z` one
iteration leaves. -/
def insert_fixup_body (t : rbtree) (z : Ptr) : rbtree × Ptr :=
  if (t.mem z).parent = (t.mem (t.mem (t.mem z).parent).parent).left then
    let y := (t.mem (t.mem (t.mem z).parent).parent).right
    if (t.mem y).color = RBTREE_RED then
      let t := set_color t (t.mem z).parent RBTREE_BLACK
      let t := set_color t y RBTREE_BLACK
      let t := set_color t (t.mem (t.mem z).parent).parent RBTREE_RED
      let z := (t.mem (t.mem z).parent).parent
      (t, z)
    else
      let (t, z) :=
        if z = (t.mem (t.mem z).parent).right then
          let z := (t.mem z).parent
          (left_rotate t z, z)
        else (t, z)
      let t := set_color t (t.mem z).parent RBTREE_BLACK
      let t := set_color t (t.mem (t.mem z).parent).parent RBTREE_RED
      let t := right_rotate t (t.mem (t.mem z).parent).parent
      (t, z)
  else
    let y := (t.mem (t.mem (t.mem z).parent).parent).left
    if (t.mem y).color = RBTREE_RED then
      let t := set_color t (t.mem z).parent RBTREE_BLACK
      let t := set_color t y RBTREE_BLACK
      let t := set_color t (t.mem (t.mem z).parent).parent RBTREE_RED
      let z := (t.mem (t.mem z).parent).parent
      (t, z)
    else
      let (t, z) :=
        if z = (t.mem (t.mem z).parent).left then
          let z := (t.mem z).parent
          (right_rotate t z, z)
        else (t, z)
      let t := set_color t (t.mem z).parent RBTREE_BLACK
      let t := set_color t (t.mem (t.mem z).parent).parent RBTREE_RED
      let t := left_rotate t (t.mem (t.mem z).parent).parent
      (t, z)

/-- The uncle `y` the body of the loop of `rbtree_insert_fixup` reads (lines 80 and 97). -/
def insert_fixup_uncle (t : rbtree) (z : Ptr) : Ptr :=
  if (t.mem z).parent = (t.mem (t.mem (t.mem z).parent).parent).left then
    (t.mem (t.mem (t.mem z).parent).parent).right
  else (t.mem (t.mem (t.mem z).parent).parent).left

/-- The state and the `z` of the loop of `rbtree_insert_fixup` after `n` loop tests; they
stay as they are once the loop is left. -/
def insert_fixup_iter : Nat → rbtree → Ptr → rbtree × Ptr
  | 0, t, z => (t, z)
  | n + 1, t, z =>
    if (t.mem (t.mem z).parent).color = RBTREE_RED then
      insert_fixup_iter n (insert_fixup_body t z).1 (insert_fixup_body t z).2
    else (t, z)

/-- What the loop of `rbtree_insert_fixup` keeps at `z`: `z` is a record of the tree the
state holds, and the root of that tree is BLACK unless `z` is the root. -/
def InsAt (t : rbtree) (z : Ptr) : Prop :=
  ∃ ctx c k l r, RepZ t ctx (.node z c k l r) ∧ ctxRootColor ctx = RBTREE_BLACK

/-! ## Theorems -/

@[simp] theorem rootAddr_leaf (nil : Ptr) : rootAddr nil .leaf = nil := rfl

@[simp] theorem rootAddr_node (nil a : Ptr) (c : color_t) (k : Int) (l r : Tree) :
    rootAddr nil (.node a c k l r) = a := rfl

@[simp] theorem ctxParent_nil (nil : Ptr) : ctxParent nil [] = nil := rfl

@[simp] theorem ctxParent_L (nil a : Ptr) (c : color_t) (k : Int) (r : Tree) (rest : Ctx) :
    ctxParent nil (.L a c k r :: rest) = a := rfl

@[simp] theorem ctxParent_R (nil a : Ptr) (c : color_t) (k : Int) (l : Tree) (rest : Ctx) :
    ctxParent nil (.R a c k l :: rest) = a := rfl

@[simp] theorem addrs_leaf : addrs .leaf = [] := rfl

@[simp] theorem addrs_node (a : Ptr) (c : color_t) (k : Int) (l r : Tree) :
    addrs (.node a c k l r) = addrs l ++ a :: addrs r := by
  simp [addrs, nodes]

@[simp] theorem keys_leaf : keys .leaf = [] := rfl

@[simp] theorem keys_node (a : Ptr) (c : color_t) (k : Int) (l r : Tree) :
    keys (.node a c k l r) = keys l ++ k :: keys r := by
  simp [keys, nodes]

@[simp] theorem ctxAddrs_nil : ctxAddrs [] = [] := rfl

@[simp] theorem ctxAddrs_L (a : Ptr) (c : color_t) (k : Int) (r : Tree) (rest : Ctx) :
    ctxAddrs (.L a c k r :: rest) = a :: (addrs r ++ ctxAddrs rest) := rfl

@[simp] theorem ctxAddrs_R (a : Ptr) (c : color_t) (k : Int) (l : Tree) (rest : Ctx) :
    ctxAddrs (.R a c k l :: rest) = a :: (addrs l ++ ctxAddrs rest) := rfl

theorem nodes_plug (ctx : Ctx) (s : Tree) :
    nodes (plug ctx s) = ctxBefore ctx ++ nodes s ++ ctxAfter ctx := by
  induction ctx generalizing s with
  | nil => simp [plug, ctxBefore, ctxAfter]
  | cons f rest ih =>
    cases f <;> simp [plug, fill, ih, nodes, ctxBefore, ctxAfter]

theorem addrs_plug_perm (ctx : Ctx) (s : Tree) :
    (addrs (plug ctx s)).Perm (addrs s ++ ctxAddrs ctx) := by
  induction ctx generalizing s with
  | nil => simp [plug]
  | cons f rest ih =>
    cases f with
    | L a c k r =>
      refine (ih _).trans ?_
      simp only [fill, addrs_node, ctxAddrs_L, List.append_assoc, List.cons_append]
      exact List.Perm.refl _
    | R a c k l =>
      refine (ih _).trans ?_
      simp only [fill, addrs_node, ctxAddrs_R, List.append_assoc, List.cons_append]
      rw [List.perm_iff_count]
      intro x
      simp only [List.count_append, List.count_cons]
      omega

theorem plug_append (c1 c2 : Ctx) (s : Tree) : plug (c1 ++ c2) s = plug c2 (plug c1 s) := by
  induction c1 generalizing s with
  | nil => rfl
  | cons f rest ih => simp [plug, ih]

theorem Shape.frame {m m' : Ptr → node_t} {nil par : Ptr} {T : Tree}
    (h : Shape m nil par T) (hm : ∀ a ∈ addrs T, m' a = m a) : Shape m' nil par T := by
  induction T generalizing par with
  | leaf => trivial
  | node a c k l r ihl ihr =>
    obtain ⟨h1, h2, h3⟩ := h
    refine ⟨?_, ihl h2 ?_, ihr h3 ?_⟩
    · rw [hm a (by simp)]; exact h1
    · intro b hb; exact hm b (by simp [hb])
    · intro b hb; exact hm b (by simp [hb])

theorem CtxShape.frame_ctx {m m' : Ptr → node_t} {nil root : Ptr} {ctx : Ctx} {hole : Ptr}
    (h : CtxShape m nil root ctx hole) (hm : ∀ a ∈ ctxAddrs ctx, m' a = m a) :
    CtxShape m' nil root ctx hole := by
  induction ctx generalizing hole with
  | nil => exact h
  | cons f rest ih =>
    cases f with
    | L a c k r =>
      obtain ⟨h1, h2, h3⟩ := h
      refine ⟨?_, h2.frame ?_, ih h3 ?_⟩
      · rw [hm a (by simp)]; exact h1
      · intro b hb; exact hm b (by simp [hb])
      · intro b hb; exact hm b (by simp [hb])
    | R a c k l =>
      obtain ⟨h1, h2, h3⟩ := h
      refine ⟨?_, h2.frame ?_, ih h3 ?_⟩
      · rw [hm a (by simp)]; exact h1
      · intro b hb; exact hm b (by simp [hb])
      · intro b hb; exact hm b (by simp [hb])

/-- Changing the root pointer and the hole of a path together, at the root end or not. -/
theorem shape_plug_iff (m : Ptr → node_t) (nil root : Ptr) (ctx : Ctx) (s : Tree) :
    (root = rootAddr nil (plug ctx s) ∧ Shape m nil nil (plug ctx s)) ↔
      (CtxShape m nil root ctx (rootAddr nil s) ∧ Shape m nil (ctxParent nil ctx) s) := by
  induction ctx generalizing s with
  | nil => simp [plug, CtxShape, ctxParent]
  | cons f rest ih =>
    cases f with
    | L a c k r =>
      simp only [plug, fill, ih, Shape, CtxShape, rootAddr_node, ctxParent_L, ctxParent_R]
      tauto
    | R a c k l =>
      simp only [plug, fill, ih, Shape, CtxShape, rootAddr_node, ctxParent_L, ctxParent_R]
      tauto

theorem rep_plug_iff (t : rbtree) (ctx : Ctx) (s : Tree) :
    Rep t (plug ctx s) ↔ RepZ t ctx s := by
  have hp := addrs_plug_perm ctx s
  have hmem : ∀ a, a ∈ addrs (plug ctx s) ↔ a ∈ addrs s ++ ctxAddrs ctx :=
    fun a => hp.mem_iff
  have hnd : (t.nil :: NULL :: addrs (plug ctx s)).Nodup ↔
      (t.nil :: NULL :: (addrs s ++ ctxAddrs ctx)).Nodup :=
    List.Perm.nodup_iff ((hp.cons _).cons _)
  constructor
  · intro h
    have := (shape_plug_iff t.mem t.nil t.root ctx s).1 ⟨h.root, h.shape⟩
    refine ⟨this.1, this.2, hnd.1 h.nodup, ?_, h.nil_color, h.nil_left, h.nil_right⟩
    intro a ha
    apply h.bound
    simpa only [List.mem_cons, hmem] using ha
  · intro h
    have := (shape_plug_iff t.mem t.nil t.root ctx s).2 ⟨h.path, h.sub⟩
    refine ⟨this.1, this.2, hnd.2 h.nodup, ?_, h.nil_color, h.nil_left, h.nil_right⟩
    intro a ha
    apply h.bound
    simpa only [List.mem_cons, hmem] using ha

theorem RepZ.up {t : rbtree} {f : Frame} {rest : Ctx} {s : Tree}
    (h : RepZ t (f :: rest) s) : RepZ t rest (fill f s) :=
  (rep_plug_iff t rest (fill f s)).1 ((rep_plug_iff t (f :: rest) s).2 h)

theorem RepZ.down {t : rbtree} {f : Frame} {rest : Ctx} {s : Tree}
    (h : RepZ t rest (fill f s)) : RepZ t (f :: rest) s :=
  (rep_plug_iff t (f :: rest) s).1 ((rep_plug_iff t rest (fill f s)).2 h)

@[simp] theorem upd_same (m : Ptr → node_t) (p : Ptr) (v : node_t) : upd m p v p = v := by
  simp [upd]

theorem upd_ne {p q : Ptr} (h : q ≠ p) (m : Ptr → node_t) (v : node_t) : upd m p v q = m q := by
  simp [upd, h]

theorem upd_ne' {p q : Ptr} (h : p ≠ q) (m : Ptr → node_t) (v : node_t) : upd m p v q = m q := by
  simp [upd, h.symm]

@[simp] theorem set_color_mem (t : rbtree) (p : Ptr) (c : color_t) :
    (set_color t p c).mem = upd t.mem p { t.mem p with color := c } := rfl

@[simp] theorem set_color_root (t : rbtree) (p : Ptr) (c : color_t) :
    (set_color t p c).root = t.root := rfl

@[simp] theorem set_color_nil (t : rbtree) (p : Ptr) (c : color_t) :
    (set_color t p c).nil = t.nil := rfl

@[simp] theorem set_color_brk (t : rbtree) (p : Ptr) (c : color_t) :
    (set_color t p c).brk = t.brk := rfl

@[simp] theorem set_key_mem (t : rbtree) (p : Ptr) (k : Int) :
    (set_key t p k).mem = upd t.mem p { t.mem p with key := k } := rfl

@[simp] theorem set_key_root (t : rbtree) (p : Ptr) (k : Int) :
    (set_key t p k).root = t.root := rfl

@[simp] theorem set_key_nil (t : rbtree) (p : Ptr) (k : Int) :
    (set_key t p k).nil = t.nil := rfl

@[simp] theorem set_key_brk (t : rbtree) (p : Ptr) (k : Int) :
    (set_key t p k).brk = t.brk := rfl

@[simp] theorem set_parent_mem (t : rbtree) (p v : Ptr) :
    (set_parent t p v).mem = upd t.mem p { t.mem p with parent := v } := rfl

@[simp] theorem set_parent_root (t : rbtree) (p v : Ptr) : (set_parent t p v).root = t.root := rfl

@[simp] theorem set_parent_nil (t : rbtree) (p v : Ptr) : (set_parent t p v).nil = t.nil := rfl

@[simp] theorem set_parent_brk (t : rbtree) (p v : Ptr) : (set_parent t p v).brk = t.brk := rfl

@[simp] theorem set_left_mem (t : rbtree) (p v : Ptr) :
    (set_left t p v).mem = upd t.mem p { t.mem p with left := v } := rfl

@[simp] theorem set_left_root (t : rbtree) (p v : Ptr) : (set_left t p v).root = t.root := rfl

@[simp] theorem set_left_nil (t : rbtree) (p v : Ptr) : (set_left t p v).nil = t.nil := rfl

@[simp] theorem set_left_brk (t : rbtree) (p v : Ptr) : (set_left t p v).brk = t.brk := rfl

@[simp] theorem set_right_mem (t : rbtree) (p v : Ptr) :
    (set_right t p v).mem = upd t.mem p { t.mem p with right := v } := rfl

@[simp] theorem set_right_root (t : rbtree) (p v : Ptr) : (set_right t p v).root = t.root := rfl

@[simp] theorem set_right_nil (t : rbtree) (p v : Ptr) : (set_right t p v).nil = t.nil := rfl

@[simp] theorem set_right_brk (t : rbtree) (p v : Ptr) : (set_right t p v).brk = t.brk := rfl

@[simp] theorem set_root_mem (t : rbtree) (v : Ptr) : (set_root t v).mem = t.mem := rfl

@[simp] theorem set_root_root (t : rbtree) (v : Ptr) : (set_root t v).root = v := rfl

@[simp] theorem set_root_nil (t : rbtree) (v : Ptr) : (set_root t v).nil = t.nil := rfl

@[simp] theorem set_root_brk (t : rbtree) (v : Ptr) : (set_root t v).brk = t.brk := rfl

theorem frame_of_disjoint {m m' : Ptr → node_t} {F : List Ptr}
    (h : ∀ q, q ∉ F → m' q = m q) {L : List Ptr} (hd : L.Disjoint F) :
    ∀ q ∈ L, m' q = m q :=
  fun q hq => h q (fun hF => hd hq hF)

@[simp] theorem left_rotate_nil (t : rbtree) (x : Ptr) : (left_rotate t x).nil = t.nil := by
  unfold left_rotate; simp only []; split_ifs <;> rfl

@[simp] theorem left_rotate_brk (t : rbtree) (x : Ptr) : (left_rotate t x).brk = t.brk := by
  unfold left_rotate; simp only []; split_ifs <;> rfl

@[simp] theorem right_rotate_nil (t : rbtree) (x : Ptr) : (right_rotate t x).nil = t.nil := by
  unfold right_rotate; simp only []; split_ifs <;> rfl

@[simp] theorem right_rotate_brk (t : rbtree) (x : Ptr) : (right_rotate t x).brk = t.brk := by
  unfold right_rotate; simp only []; split_ifs <;> rfl

theorem not_mem_cons_both (a b : Ptr) (l : List Ptr) :
    a ∉ b :: l ↔ (¬ a = b ∧ ¬ b = a) ∧ a ∉ l := by
  simp only [List.mem_cons, not_or]
  constructor
  · rintro ⟨h1, h2⟩; exact ⟨⟨h1, fun e => h1 e.symm⟩, h2⟩
  · rintro ⟨⟨h1, _⟩, h2⟩; exact ⟨h1, h2⟩

theorem ne_rootAddr {a nil : Ptr} {S : Tree} (h1 : ¬ a = nil) (h2 : a ∉ addrs S) :
    a ≠ rootAddr nil S := by
  cases S with
  | leaf => exact h1
  | node s c k l r =>
    intro e
    apply h2
    simp only [rootAddr_node] at e
    simp [e]

/-- `left_rotate` at a position whose right child is a record turns `x (A, y (B, C))` into
`y (x (A, B), C)` and leaves the sentinel's record alone. -/
theorem RepZ.rot_left {t : rbtree} {ctx : Ctx} {x y : Ptr} {cx cy : color_t} {kx ky : Int}
    {A B C : Tree} (h : RepZ t ctx (.node x cx kx A (.node y cy ky B C))) :
    RepZ (left_rotate t x) ctx (.node y cy ky (.node x cx kx A B) C)
      ∧ (left_rotate t x).mem t.nil = t.mem t.nil := by
  obtain ⟨hp, hs, hnd, hb, hc, hl, hr⟩ := h
  have hnd' := hnd
  rcases B with _ | ⟨b, cb, kb, BL, BR⟩ <;>
    rcases ctx with _ | ⟨(⟨p, cp, kp, S⟩ | ⟨p, cp, kp, S⟩), rest⟩
  case mk.leaf.nil =>
    simp only [addrs_node, addrs_leaf, ctxAddrs_nil, ctxAddrs_L, ctxAddrs_R, List.nodup_cons,
      List.nodup_append, List.mem_append, not_mem_cons_both, not_or, List.disjoint_cons_left,
      List.disjoint_cons_right, List.disjoint_append_left, List.disjoint_append_right,
      List.append_nil, List.nil_append, List.not_mem_nil, not_false_eq_true, true_and, and_true,
      List.nodup_nil, List.disjoint_nil_left, List.disjoint_nil_right] at hnd'
    simp only [Shape, CtxShape, rootAddr_node, rootAddr_leaf, ctxParent_nil, ctxParent_L,
      ctxParent_R] at hs hp
    obtain ⟨hx, hA, hy, -, hC⟩ := hs
    have E : left_rotate t x =
        set_parent (set_left (set_root (set_parent (set_right t x t.nil) y t.nil) y) y x) x y := by
      simp only [left_rotate, hx, hy, set_right_mem, set_left_mem, set_parent_mem, set_root_mem, set_right_nil, set_left_nil,
        set_parent_nil, upd_same, upd_ne, hnd', ne_eq, not_false_eq_true, not_true_eq_false, if_true, if_false]
    have ex : (left_rotate t x).mem x = ⟨cx, kx, y, rootAddr t.nil A, t.nil⟩ := by
      simp only [E, hx, hy, set_right_mem, set_left_mem, set_parent_mem, set_root_mem, upd_same, upd_ne, hnd', ne_eq,
        not_false_eq_true]
    have ey : (left_rotate t x).mem y = ⟨cy, ky, t.nil, x, rootAddr t.nil C⟩ := by
      simp only [E, hx, hy, set_right_mem, set_left_mem, set_parent_mem, set_root_mem, upd_same, upd_ne, hnd', ne_eq,
        not_false_eq_true]
    have er : (left_rotate t x).root = y := by
      simp only [E, set_right_root, set_left_root, set_parent_root, set_root_root]
    have hfr : ∀ q, q ∉ [x, y] → (left_rotate t x).mem q = t.mem q := by
      intro q hq
      simp only [not_mem_cons_both, List.not_mem_nil, not_false_eq_true, and_true] at hq
      simp only [E, set_right_mem, set_left_mem, set_parent_mem, set_root_mem, upd_ne, hq, ne_eq, not_false_eq_true]
    have enil : (left_rotate t x).mem t.nil = t.mem t.nil :=
      hfr t.nil (by simp only [not_mem_cons_both, List.not_mem_nil, hnd', not_false_eq_true, and_self])
    refine ⟨⟨?_, ?_, ?_, ?_, ?_, ?_, ?_⟩, enil⟩
    · simp only [CtxShape, rootAddr_node, er]
    · simp only [Shape, rootAddr_node, rootAddr_leaf, ctxParent_L, ctxParent_R, ctxParent_nil, left_rotate_nil]
      refine ⟨ey, ⟨ex, hA.frame (frame_of_disjoint hfr ?_), trivial⟩, hC.frame (frame_of_disjoint hfr ?_)⟩
      all_goals simp only [List.disjoint_cons_right, List.disjoint_nil_right, hnd', not_false_eq_true,
        and_self]
    · simpa only [left_rotate_nil, addrs_node, List.append_assoc, List.cons_append] using hnd
    · simpa only [left_rotate_nil, left_rotate_brk, addrs_node, List.append_assoc, List.cons_append]
        using hb
    · rw [left_rotate_nil, enil]; exact hc
    · rw [left_rotate_nil, enil]; exact hl
    · rw [left_rotate_nil, enil]; exact hr
  case mk.leaf.cons.L =>
    simp only [addrs_node, addrs_leaf, ctxAddrs_nil, ctxAddrs_L, ctxAddrs_R, List.nodup_cons,
      List.nodup_append, List.mem_append, not_mem_cons_both, not_or, List.disjoint_cons_left,
      List.disjoint_cons_right, List.disjoint_append_left, List.disjoint_append_right,
      List.append_nil, List.nil_append, List.not_mem_nil, not_false_eq_true, true_and, and_true,
      List.nodup_nil, List.disjoint_nil_left, List.disjoint_nil_right] at hnd'
    simp only [Shape, CtxShape, rootAddr_node, rootAddr_leaf, ctxParent_nil, ctxParent_L,
      ctxParent_R] at hs hp
    obtain ⟨hx, hA, hy, -, hC⟩ := hs
    obtain ⟨hp0, hS, hrest⟩ := hp
    have E : left_rotate t x =
        set_parent (set_left (set_left (set_parent (set_right t x t.nil) y p) p y) y x) x y := by
      simp only [left_rotate, hx, hy, hp0, set_right_mem, set_left_mem, set_parent_mem, set_root_mem, set_right_nil, set_left_nil,
        set_parent_nil, upd_same, upd_ne, hnd', ne_eq, not_false_eq_true, not_true_eq_false, if_true, if_false]
    have ex : (left_rotate t x).mem x = ⟨cx, kx, y, rootAddr t.nil A, t.nil⟩ := by
      simp only [E, hx, hy, hp0, set_right_mem, set_left_mem, set_parent_mem, set_root_mem, upd_same, upd_ne, hnd', ne_eq,
        not_false_eq_true]
    have ey : (left_rotate t x).mem y = ⟨cy, ky, p, x, rootAddr t.nil C⟩ := by
      simp only [E, hx, hy, hp0, set_right_mem, set_left_mem, set_parent_mem, set_root_mem, upd_same, upd_ne, hnd', ne_eq,
        not_false_eq_true]
    have ep : (left_rotate t x).mem p = ⟨cp, kp, ctxParent t.nil rest, y, rootAddr t.nil S⟩ := by
      simp only [E, hx, hy, hp0, set_right_mem, set_left_mem, set_parent_mem, set_root_mem, upd_same, upd_ne, hnd', ne_eq,
        not_false_eq_true]
    have er : (left_rotate t x).root = t.root := by
      simp only [E, set_right_root, set_left_root, set_parent_root, set_root_root]
    have hfr : ∀ q, q ∉ [x, y, p] → (left_rotate t x).mem q = t.mem q := by
      intro q hq
      simp only [not_mem_cons_both, List.not_mem_nil, not_false_eq_true, and_true] at hq
      simp only [E, set_right_mem, set_left_mem, set_parent_mem, set_root_mem, upd_ne, hq, ne_eq, not_false_eq_true]
    have enil : (left_rotate t x).mem t.nil = t.mem t.nil :=
      hfr t.nil (by simp only [not_mem_cons_both, List.not_mem_nil, hnd', not_false_eq_true, and_self])
    refine ⟨⟨?_, ?_, ?_, ?_, ?_, ?_, ?_⟩, enil⟩
    · simp only [CtxShape, rootAddr_node, er, left_rotate_nil]
      refine ⟨ep, hS.frame (frame_of_disjoint hfr ?_), hrest.frame_ctx (frame_of_disjoint hfr ?_)⟩
      all_goals simp only [List.disjoint_cons_right, List.disjoint_nil_right, hnd', not_false_eq_true,
        and_self]
    · simp only [Shape, rootAddr_node, rootAddr_leaf, ctxParent_L, ctxParent_R, ctxParent_nil, left_rotate_nil]
      refine ⟨ey, ⟨ex, hA.frame (frame_of_disjoint hfr ?_), trivial⟩, hC.frame (frame_of_disjoint hfr ?_)⟩
      all_goals simp only [List.disjoint_cons_right, List.disjoint_nil_right, hnd', not_false_eq_true,
        and_self]
    · simpa only [left_rotate_nil, addrs_node, List.append_assoc, List.cons_append] using hnd
    · simpa only [left_rotate_nil, left_rotate_brk, addrs_node, List.append_assoc, List.cons_append]
        using hb
    · rw [left_rotate_nil, enil]; exact hc
    · rw [left_rotate_nil, enil]; exact hl
    · rw [left_rotate_nil, enil]; exact hr
  case mk.leaf.cons.R =>
    simp only [addrs_node, addrs_leaf, ctxAddrs_nil, ctxAddrs_L, ctxAddrs_R, List.nodup_cons,
      List.nodup_append, List.mem_append, not_mem_cons_both, not_or, List.disjoint_cons_left,
      List.disjoint_cons_right, List.disjoint_append_left, List.disjoint_append_right,
      List.append_nil, List.nil_append, List.not_mem_nil, not_false_eq_true, true_and, and_true,
      List.nodup_nil, List.disjoint_nil_left, List.disjoint_nil_right] at hnd'
    simp only [Shape, CtxShape, rootAddr_node, rootAddr_leaf, ctxParent_nil, ctxParent_L,
      ctxParent_R] at hs hp
    obtain ⟨hx, hA, hy, -, hC⟩ := hs
    obtain ⟨hp0, hS, hrest⟩ := hp
    have hps : x ≠ rootAddr t.nil S :=
      ne_rootAddr (by simp only [hnd', not_false_eq_true]) (by simp only [hnd', not_false_eq_true])
    have E : left_rotate t x =
        set_parent (set_left (set_right (set_parent (set_right t x t.nil) y p) p y) y x) x y := by
      simp only [left_rotate, hx, hy, hp0, set_right_mem, set_left_mem, set_parent_mem, set_root_mem, set_right_nil, set_left_nil,
        set_parent_nil, upd_same, upd_ne, hnd', ne_eq, not_false_eq_true, not_true_eq_false, if_true, if_false, hps]
    have ex : (left_rotate t x).mem x = ⟨cx, kx, y, rootAddr t.nil A, t.nil⟩ := by
      simp only [E, hx, hy, hp0, set_right_mem, set_left_mem, set_parent_mem, set_root_mem, upd_same, upd_ne, hnd', ne_eq,
        not_false_eq_true]
    have ey : (left_rotate t x).mem y = ⟨cy, ky, p, x, rootAddr t.nil C⟩ := by
      simp only [E, hx, hy, hp0, set_right_mem, set_left_mem, set_parent_mem, set_root_mem, upd_same, upd_ne, hnd', ne_eq,
        not_false_eq_true]
    have ep : (left_rotate t x).mem p = ⟨cp, kp, ctxParent t.nil rest, rootAddr t.nil S, y⟩ := by
      simp only [E, hx, hy, hp0, set_right_mem, set_left_mem, set_parent_mem, set_root_mem, upd_same, upd_ne, hnd', ne_eq,
        not_false_eq_true]
    have er : (left_rotate t x).root = t.root := by
      simp only [E, set_right_root, set_left_root, set_parent_root, set_root_root]
    have hfr : ∀ q, q ∉ [x, y, p] → (left_rotate t x).mem q = t.mem q := by
      intro q hq
      simp only [not_mem_cons_both, List.not_mem_nil, not_false_eq_true, and_true] at hq
      simp only [E, set_right_mem, set_left_mem, set_parent_mem, set_root_mem, upd_ne, hq, ne_eq, not_false_eq_true]
    have enil : (left_rotate t x).mem t.nil = t.mem t.nil :=
      hfr t.nil (by simp only [not_mem_cons_both, List.not_mem_nil, hnd', not_false_eq_true, and_self])
    refine ⟨⟨?_, ?_, ?_, ?_, ?_, ?_, ?_⟩, enil⟩
    · simp only [CtxShape, rootAddr_node, er, left_rotate_nil]
      refine ⟨ep, hS.frame (frame_of_disjoint hfr ?_), hrest.frame_ctx (frame_of_disjoint hfr ?_)⟩
      all_goals simp only [List.disjoint_cons_right, List.disjoint_nil_right, hnd', not_false_eq_true,
        and_self]
    · simp only [Shape, rootAddr_node, rootAddr_leaf, ctxParent_L, ctxParent_R, ctxParent_nil, left_rotate_nil]
      refine ⟨ey, ⟨ex, hA.frame (frame_of_disjoint hfr ?_), trivial⟩, hC.frame (frame_of_disjoint hfr ?_)⟩
      all_goals simp only [List.disjoint_cons_right, List.disjoint_nil_right, hnd', not_false_eq_true,
        and_self]
    · simpa only [left_rotate_nil, addrs_node, List.append_assoc, List.cons_append] using hnd
    · simpa only [left_rotate_nil, left_rotate_brk, addrs_node, List.append_assoc, List.cons_append]
        using hb
    · rw [left_rotate_nil, enil]; exact hc
    · rw [left_rotate_nil, enil]; exact hl
    · rw [left_rotate_nil, enil]; exact hr
  case mk.node.nil =>
    simp only [addrs_node, addrs_leaf, ctxAddrs_nil, ctxAddrs_L, ctxAddrs_R, List.nodup_cons,
      List.nodup_append, List.mem_append, not_mem_cons_both, not_or, List.disjoint_cons_left,
      List.disjoint_cons_right, List.disjoint_append_left, List.disjoint_append_right,
      List.append_nil, List.nil_append, List.not_mem_nil, not_false_eq_true, true_and, and_true,
      List.nodup_nil, List.disjoint_nil_left, List.disjoint_nil_right] at hnd'
    simp only [Shape, CtxShape, rootAddr_node, rootAddr_leaf, ctxParent_nil, ctxParent_L,
      ctxParent_R] at hs hp
    obtain ⟨hx, hA, hy, ⟨hb0, hBL, hBR⟩, hC⟩ := hs
    have E : left_rotate t x =
        set_parent (set_left (set_root (set_parent (set_parent (set_right t x b) b x) y t.nil) y) y x) x y := by
      simp only [left_rotate, hx, hy, hb0, set_right_mem, set_left_mem, set_parent_mem, set_root_mem, set_right_nil, set_left_nil,
        set_parent_nil, upd_same, upd_ne, hnd', ne_eq, not_false_eq_true, not_true_eq_false, if_true, if_false]
    have ex : (left_rotate t x).mem x = ⟨cx, kx, y, rootAddr t.nil A, b⟩ := by
      simp only [E, hx, hy, hb0, set_right_mem, set_left_mem, set_parent_mem, set_root_mem, upd_same, upd_ne, hnd', ne_eq,
        not_false_eq_true]
    have ey : (left_rotate t x).mem y = ⟨cy, ky, t.nil, x, rootAddr t.nil C⟩ := by
      simp only [E, hx, hy, hb0, set_right_mem, set_left_mem, set_parent_mem, set_root_mem, upd_same, upd_ne, hnd', ne_eq,
        not_false_eq_true]
    have eb : (left_rotate t x).mem b = ⟨cb, kb, x, rootAddr t.nil BL, rootAddr t.nil BR⟩ := by
      simp only [E, hx, hy, hb0, set_right_mem, set_left_mem, set_parent_mem, set_root_mem, upd_same, upd_ne, hnd', ne_eq,
        not_false_eq_true]
    have er : (left_rotate t x).root = y := by
      simp only [E, set_right_root, set_left_root, set_parent_root, set_root_root]
    have hfr : ∀ q, q ∉ [x, y, b] → (left_rotate t x).mem q = t.mem q := by
      intro q hq
      simp only [not_mem_cons_both, List.not_mem_nil, not_false_eq_true, and_true] at hq
      simp only [E, set_right_mem, set_left_mem, set_parent_mem, set_root_mem, upd_ne, hq, ne_eq, not_false_eq_true]
    have enil : (left_rotate t x).mem t.nil = t.mem t.nil :=
      hfr t.nil (by simp only [not_mem_cons_both, List.not_mem_nil, hnd', not_false_eq_true, and_self])
    refine ⟨⟨?_, ?_, ?_, ?_, ?_, ?_, ?_⟩, enil⟩
    · simp only [CtxShape, rootAddr_node, er]
    · simp only [Shape, rootAddr_node, rootAddr_leaf, ctxParent_L, ctxParent_R, ctxParent_nil, left_rotate_nil]
      refine ⟨ey, ⟨ex, hA.frame (frame_of_disjoint hfr ?_), eb, hBL.frame (frame_of_disjoint hfr ?_), hBR.frame (frame_of_disjoint hfr ?_)⟩, hC.frame (frame_of_disjoint hfr ?_)⟩
      all_goals simp only [List.disjoint_cons_right, List.disjoint_nil_right, hnd', not_false_eq_true,
        and_self]
    · simpa only [left_rotate_nil, addrs_node, List.append_assoc, List.cons_append] using hnd
    · simpa only [left_rotate_nil, left_rotate_brk, addrs_node, List.append_assoc, List.cons_append]
        using hb
    · rw [left_rotate_nil, enil]; exact hc
    · rw [left_rotate_nil, enil]; exact hl
    · rw [left_rotate_nil, enil]; exact hr
  case mk.node.cons.L =>
    simp only [addrs_node, addrs_leaf, ctxAddrs_nil, ctxAddrs_L, ctxAddrs_R, List.nodup_cons,
      List.nodup_append, List.mem_append, not_mem_cons_both, not_or, List.disjoint_cons_left,
      List.disjoint_cons_right, List.disjoint_append_left, List.disjoint_append_right,
      List.append_nil, List.nil_append, List.not_mem_nil, not_false_eq_true, true_and, and_true,
      List.nodup_nil, List.disjoint_nil_left, List.disjoint_nil_right] at hnd'
    simp only [Shape, CtxShape, rootAddr_node, rootAddr_leaf, ctxParent_nil, ctxParent_L,
      ctxParent_R] at hs hp
    obtain ⟨hx, hA, hy, ⟨hb0, hBL, hBR⟩, hC⟩ := hs
    obtain ⟨hp0, hS, hrest⟩ := hp
    have E : left_rotate t x =
        set_parent (set_left (set_left (set_parent (set_parent (set_right t x b) b x) y p) p y) y x) x y := by
      simp only [left_rotate, hx, hy, hb0, hp0, set_right_mem, set_left_mem, set_parent_mem, set_root_mem, set_right_nil, set_left_nil,
        set_parent_nil, upd_same, upd_ne, hnd', ne_eq, not_false_eq_true, not_true_eq_false, if_true, if_false]
    have ex : (left_rotate t x).mem x = ⟨cx, kx, y, rootAddr t.nil A, b⟩ := by
      simp only [E, hx, hy, hb0, hp0, set_right_mem, set_left_mem, set_parent_mem, set_root_mem, upd_same, upd_ne, hnd', ne_eq,
        not_false_eq_true]
    have ey : (left_rotate t x).mem y = ⟨cy, ky, p, x, rootAddr t.nil C⟩ := by
      simp only [E, hx, hy, hb0, hp0, set_right_mem, set_left_mem, set_parent_mem, set_root_mem, upd_same, upd_ne, hnd', ne_eq,
        not_false_eq_true]
    have eb : (left_rotate t x).mem b = ⟨cb, kb, x, rootAddr t.nil BL, rootAddr t.nil BR⟩ := by
      simp only [E, hx, hy, hb0, hp0, set_right_mem, set_left_mem, set_parent_mem, set_root_mem, upd_same, upd_ne, hnd', ne_eq,
        not_false_eq_true]
    have ep : (left_rotate t x).mem p = ⟨cp, kp, ctxParent t.nil rest, y, rootAddr t.nil S⟩ := by
      simp only [E, hx, hy, hb0, hp0, set_right_mem, set_left_mem, set_parent_mem, set_root_mem, upd_same, upd_ne, hnd', ne_eq,
        not_false_eq_true]
    have er : (left_rotate t x).root = t.root := by
      simp only [E, set_right_root, set_left_root, set_parent_root, set_root_root]
    have hfr : ∀ q, q ∉ [x, y, b, p] → (left_rotate t x).mem q = t.mem q := by
      intro q hq
      simp only [not_mem_cons_both, List.not_mem_nil, not_false_eq_true, and_true] at hq
      simp only [E, set_right_mem, set_left_mem, set_parent_mem, set_root_mem, upd_ne, hq, ne_eq, not_false_eq_true]
    have enil : (left_rotate t x).mem t.nil = t.mem t.nil :=
      hfr t.nil (by simp only [not_mem_cons_both, List.not_mem_nil, hnd', not_false_eq_true, and_self])
    refine ⟨⟨?_, ?_, ?_, ?_, ?_, ?_, ?_⟩, enil⟩
    · simp only [CtxShape, rootAddr_node, er, left_rotate_nil]
      refine ⟨ep, hS.frame (frame_of_disjoint hfr ?_), hrest.frame_ctx (frame_of_disjoint hfr ?_)⟩
      all_goals simp only [List.disjoint_cons_right, List.disjoint_nil_right, hnd', not_false_eq_true,
        and_self]
    · simp only [Shape, rootAddr_node, rootAddr_leaf, ctxParent_L, ctxParent_R, ctxParent_nil, left_rotate_nil]
      refine ⟨ey, ⟨ex, hA.frame (frame_of_disjoint hfr ?_), eb, hBL.frame (frame_of_disjoint hfr ?_), hBR.frame (frame_of_disjoint hfr ?_)⟩, hC.frame (frame_of_disjoint hfr ?_)⟩
      all_goals simp only [List.disjoint_cons_right, List.disjoint_nil_right, hnd', not_false_eq_true,
        and_self]
    · simpa only [left_rotate_nil, addrs_node, List.append_assoc, List.cons_append] using hnd
    · simpa only [left_rotate_nil, left_rotate_brk, addrs_node, List.append_assoc, List.cons_append]
        using hb
    · rw [left_rotate_nil, enil]; exact hc
    · rw [left_rotate_nil, enil]; exact hl
    · rw [left_rotate_nil, enil]; exact hr
  case mk.node.cons.R =>
    simp only [addrs_node, addrs_leaf, ctxAddrs_nil, ctxAddrs_L, ctxAddrs_R, List.nodup_cons,
      List.nodup_append, List.mem_append, not_mem_cons_both, not_or, List.disjoint_cons_left,
      List.disjoint_cons_right, List.disjoint_append_left, List.disjoint_append_right,
      List.append_nil, List.nil_append, List.not_mem_nil, not_false_eq_true, true_and, and_true,
      List.nodup_nil, List.disjoint_nil_left, List.disjoint_nil_right] at hnd'
    simp only [Shape, CtxShape, rootAddr_node, rootAddr_leaf, ctxParent_nil, ctxParent_L,
      ctxParent_R] at hs hp
    obtain ⟨hx, hA, hy, ⟨hb0, hBL, hBR⟩, hC⟩ := hs
    obtain ⟨hp0, hS, hrest⟩ := hp
    have hps : x ≠ rootAddr t.nil S :=
      ne_rootAddr (by simp only [hnd', not_false_eq_true]) (by simp only [hnd', not_false_eq_true])
    have E : left_rotate t x =
        set_parent (set_left (set_right (set_parent (set_parent (set_right t x b) b x) y p) p y) y x) x y := by
      simp only [left_rotate, hx, hy, hb0, hp0, set_right_mem, set_left_mem, set_parent_mem, set_root_mem, set_right_nil, set_left_nil,
        set_parent_nil, upd_same, upd_ne, hnd', ne_eq, not_false_eq_true, not_true_eq_false, if_true, if_false, hps]
    have ex : (left_rotate t x).mem x = ⟨cx, kx, y, rootAddr t.nil A, b⟩ := by
      simp only [E, hx, hy, hb0, hp0, set_right_mem, set_left_mem, set_parent_mem, set_root_mem, upd_same, upd_ne, hnd', ne_eq,
        not_false_eq_true]
    have ey : (left_rotate t x).mem y = ⟨cy, ky, p, x, rootAddr t.nil C⟩ := by
      simp only [E, hx, hy, hb0, hp0, set_right_mem, set_left_mem, set_parent_mem, set_root_mem, upd_same, upd_ne, hnd', ne_eq,
        not_false_eq_true]
    have eb : (left_rotate t x).mem b = ⟨cb, kb, x, rootAddr t.nil BL, rootAddr t.nil BR⟩ := by
      simp only [E, hx, hy, hb0, hp0, set_right_mem, set_left_mem, set_parent_mem, set_root_mem, upd_same, upd_ne, hnd', ne_eq,
        not_false_eq_true]
    have ep : (left_rotate t x).mem p = ⟨cp, kp, ctxParent t.nil rest, rootAddr t.nil S, y⟩ := by
      simp only [E, hx, hy, hb0, hp0, set_right_mem, set_left_mem, set_parent_mem, set_root_mem, upd_same, upd_ne, hnd', ne_eq,
        not_false_eq_true]
    have er : (left_rotate t x).root = t.root := by
      simp only [E, set_right_root, set_left_root, set_parent_root, set_root_root]
    have hfr : ∀ q, q ∉ [x, y, b, p] → (left_rotate t x).mem q = t.mem q := by
      intro q hq
      simp only [not_mem_cons_both, List.not_mem_nil, not_false_eq_true, and_true] at hq
      simp only [E, set_right_mem, set_left_mem, set_parent_mem, set_root_mem, upd_ne, hq, ne_eq, not_false_eq_true]
    have enil : (left_rotate t x).mem t.nil = t.mem t.nil :=
      hfr t.nil (by simp only [not_mem_cons_both, List.not_mem_nil, hnd', not_false_eq_true, and_self])
    refine ⟨⟨?_, ?_, ?_, ?_, ?_, ?_, ?_⟩, enil⟩
    · simp only [CtxShape, rootAddr_node, er, left_rotate_nil]
      refine ⟨ep, hS.frame (frame_of_disjoint hfr ?_), hrest.frame_ctx (frame_of_disjoint hfr ?_)⟩
      all_goals simp only [List.disjoint_cons_right, List.disjoint_nil_right, hnd', not_false_eq_true,
        and_self]
    · simp only [Shape, rootAddr_node, rootAddr_leaf, ctxParent_L, ctxParent_R, ctxParent_nil, left_rotate_nil]
      refine ⟨ey, ⟨ex, hA.frame (frame_of_disjoint hfr ?_), eb, hBL.frame (frame_of_disjoint hfr ?_), hBR.frame (frame_of_disjoint hfr ?_)⟩, hC.frame (frame_of_disjoint hfr ?_)⟩
      all_goals simp only [List.disjoint_cons_right, List.disjoint_nil_right, hnd', not_false_eq_true,
        and_self]
    · simpa only [left_rotate_nil, addrs_node, List.append_assoc, List.cons_append] using hnd
    · simpa only [left_rotate_nil, left_rotate_brk, addrs_node, List.append_assoc, List.cons_append]
        using hb
    · rw [left_rotate_nil, enil]; exact hc
    · rw [left_rotate_nil, enil]; exact hl
    · rw [left_rotate_nil, enil]; exact hr

/-- `right_rotate` at a position whose left child is a record turns `y (x (A, B), C)` into
`x (A, y (B, C))` and leaves the sentinel's record alone. -/
theorem RepZ.rot_right {t : rbtree} {ctx : Ctx} {x y : Ptr} {cx cy : color_t} {kx ky : Int}
    {A B C : Tree} (h : RepZ t ctx (.node y cy ky (.node x cx kx A B) C)) :
    RepZ (right_rotate t y) ctx (.node x cx kx A (.node y cy ky B C))
      ∧ (right_rotate t y).mem t.nil = t.mem t.nil := by
  obtain ⟨hp, hs, hnd, hb, hc, hl, hr⟩ := h
  have hnd' := hnd
  rcases B with _ | ⟨b, cb, kb, BL, BR⟩ <;>
    rcases ctx with _ | ⟨(⟨p, cp, kp, S⟩ | ⟨p, cp, kp, S⟩), rest⟩
  case mk.leaf.nil =>
    simp only [addrs_node, addrs_leaf, ctxAddrs_nil, ctxAddrs_L, ctxAddrs_R, List.nodup_cons,
      List.nodup_append, List.mem_append, not_mem_cons_both, not_or, List.disjoint_cons_left,
      List.disjoint_cons_right, List.disjoint_append_left, List.disjoint_append_right,
      List.append_nil, List.nil_append, List.not_mem_nil, not_false_eq_true, true_and, and_true,
      List.nodup_nil, List.disjoint_nil_left, List.disjoint_nil_right] at hnd'
    simp only [Shape, CtxShape, rootAddr_node, rootAddr_leaf, ctxParent_nil, ctxParent_L,
      ctxParent_R] at hs hp
    obtain ⟨hy, ⟨hx, hA, -⟩, hC⟩ := hs
    have E : right_rotate t y =
        set_parent (set_right (set_root (set_parent (set_left t y t.nil) x t.nil) x) x y) y x := by
      simp only [right_rotate, hx, hy, set_right_mem, set_left_mem, set_parent_mem, set_root_mem, set_right_nil, set_left_nil,
        set_parent_nil, upd_same, upd_ne, hnd', ne_eq, not_false_eq_true, not_true_eq_false, if_true, if_false]
    have ex : (right_rotate t y).mem x = ⟨cx, kx, t.nil, rootAddr t.nil A, y⟩ := by
      simp only [E, hx, hy, set_right_mem, set_left_mem, set_parent_mem, set_root_mem, upd_same, upd_ne, hnd', ne_eq,
        not_false_eq_true]
    have ey : (right_rotate t y).mem y = ⟨cy, ky, x, t.nil, rootAddr t.nil C⟩ := by
      simp only [E, hx, hy, set_right_mem, set_left_mem, set_parent_mem, set_root_mem, upd_same, upd_ne, hnd', ne_eq,
        not_false_eq_true]
    have er : (right_rotate t y).root = x := by
      simp only [E, set_right_root, set_left_root, set_parent_root, set_root_root]
    have hfr : ∀ q, q ∉ [x, y] → (right_rotate t y).mem q = t.mem q := by
      intro q hq
      simp only [not_mem_cons_both, List.not_mem_nil, not_false_eq_true, and_true] at hq
      simp only [E, set_right_mem, set_left_mem, set_parent_mem, set_root_mem, upd_ne, hq, ne_eq, not_false_eq_true]
    have enil : (right_rotate t y).mem t.nil = t.mem t.nil :=
      hfr t.nil (by simp only [not_mem_cons_both, List.not_mem_nil, hnd', not_false_eq_true, and_self])
    refine ⟨⟨?_, ?_, ?_, ?_, ?_, ?_, ?_⟩, enil⟩
    · simp only [CtxShape, rootAddr_node, er]
    · simp only [Shape, rootAddr_node, rootAddr_leaf, ctxParent_L, ctxParent_R, ctxParent_nil, right_rotate_nil]
      refine ⟨ex, hA.frame (frame_of_disjoint hfr ?_), ey, trivial, hC.frame (frame_of_disjoint hfr ?_)⟩
      all_goals simp only [List.disjoint_cons_right, List.disjoint_nil_right, hnd', not_false_eq_true,
        and_self]
    · simpa only [right_rotate_nil, addrs_node, List.append_assoc, List.cons_append] using hnd
    · simpa only [right_rotate_nil, right_rotate_brk, addrs_node, List.append_assoc, List.cons_append]
        using hb
    · rw [right_rotate_nil, enil]; exact hc
    · rw [right_rotate_nil, enil]; exact hl
    · rw [right_rotate_nil, enil]; exact hr
  case mk.leaf.cons.L =>
    simp only [addrs_node, addrs_leaf, ctxAddrs_nil, ctxAddrs_L, ctxAddrs_R, List.nodup_cons,
      List.nodup_append, List.mem_append, not_mem_cons_both, not_or, List.disjoint_cons_left,
      List.disjoint_cons_right, List.disjoint_append_left, List.disjoint_append_right,
      List.append_nil, List.nil_append, List.not_mem_nil, not_false_eq_true, true_and, and_true,
      List.nodup_nil, List.disjoint_nil_left, List.disjoint_nil_right] at hnd'
    simp only [Shape, CtxShape, rootAddr_node, rootAddr_leaf, ctxParent_nil, ctxParent_L,
      ctxParent_R] at hs hp
    obtain ⟨hy, ⟨hx, hA, -⟩, hC⟩ := hs
    obtain ⟨hp0, hS, hrest⟩ := hp
    have E : right_rotate t y =
        set_parent (set_right (set_left (set_parent (set_left t y t.nil) x p) p x) x y) y x := by
      simp only [right_rotate, hx, hy, hp0, set_right_mem, set_left_mem, set_parent_mem, set_root_mem, set_right_nil, set_left_nil,
        set_parent_nil, upd_same, upd_ne, hnd', ne_eq, not_false_eq_true, not_true_eq_false, if_true, if_false]
    have ex : (right_rotate t y).mem x = ⟨cx, kx, p, rootAddr t.nil A, y⟩ := by
      simp only [E, hx, hy, hp0, set_right_mem, set_left_mem, set_parent_mem, set_root_mem, upd_same, upd_ne, hnd', ne_eq,
        not_false_eq_true]
    have ey : (right_rotate t y).mem y = ⟨cy, ky, x, t.nil, rootAddr t.nil C⟩ := by
      simp only [E, hx, hy, hp0, set_right_mem, set_left_mem, set_parent_mem, set_root_mem, upd_same, upd_ne, hnd', ne_eq,
        not_false_eq_true]
    have ep : (right_rotate t y).mem p = ⟨cp, kp, ctxParent t.nil rest, x, rootAddr t.nil S⟩ := by
      simp only [E, hx, hy, hp0, set_right_mem, set_left_mem, set_parent_mem, set_root_mem, upd_same, upd_ne, hnd', ne_eq,
        not_false_eq_true]
    have er : (right_rotate t y).root = t.root := by
      simp only [E, set_right_root, set_left_root, set_parent_root, set_root_root]
    have hfr : ∀ q, q ∉ [x, y, p] → (right_rotate t y).mem q = t.mem q := by
      intro q hq
      simp only [not_mem_cons_both, List.not_mem_nil, not_false_eq_true, and_true] at hq
      simp only [E, set_right_mem, set_left_mem, set_parent_mem, set_root_mem, upd_ne, hq, ne_eq, not_false_eq_true]
    have enil : (right_rotate t y).mem t.nil = t.mem t.nil :=
      hfr t.nil (by simp only [not_mem_cons_both, List.not_mem_nil, hnd', not_false_eq_true, and_self])
    refine ⟨⟨?_, ?_, ?_, ?_, ?_, ?_, ?_⟩, enil⟩
    · simp only [CtxShape, rootAddr_node, er, right_rotate_nil]
      refine ⟨ep, hS.frame (frame_of_disjoint hfr ?_), hrest.frame_ctx (frame_of_disjoint hfr ?_)⟩
      all_goals simp only [List.disjoint_cons_right, List.disjoint_nil_right, hnd', not_false_eq_true,
        and_self]
    · simp only [Shape, rootAddr_node, rootAddr_leaf, ctxParent_L, ctxParent_R, ctxParent_nil, right_rotate_nil]
      refine ⟨ex, hA.frame (frame_of_disjoint hfr ?_), ey, trivial, hC.frame (frame_of_disjoint hfr ?_)⟩
      all_goals simp only [List.disjoint_cons_right, List.disjoint_nil_right, hnd', not_false_eq_true,
        and_self]
    · simpa only [right_rotate_nil, addrs_node, List.append_assoc, List.cons_append] using hnd
    · simpa only [right_rotate_nil, right_rotate_brk, addrs_node, List.append_assoc, List.cons_append]
        using hb
    · rw [right_rotate_nil, enil]; exact hc
    · rw [right_rotate_nil, enil]; exact hl
    · rw [right_rotate_nil, enil]; exact hr
  case mk.leaf.cons.R =>
    simp only [addrs_node, addrs_leaf, ctxAddrs_nil, ctxAddrs_L, ctxAddrs_R, List.nodup_cons,
      List.nodup_append, List.mem_append, not_mem_cons_both, not_or, List.disjoint_cons_left,
      List.disjoint_cons_right, List.disjoint_append_left, List.disjoint_append_right,
      List.append_nil, List.nil_append, List.not_mem_nil, not_false_eq_true, true_and, and_true,
      List.nodup_nil, List.disjoint_nil_left, List.disjoint_nil_right] at hnd'
    simp only [Shape, CtxShape, rootAddr_node, rootAddr_leaf, ctxParent_nil, ctxParent_L,
      ctxParent_R] at hs hp
    obtain ⟨hy, ⟨hx, hA, -⟩, hC⟩ := hs
    obtain ⟨hp0, hS, hrest⟩ := hp
    have hps : y ≠ rootAddr t.nil S :=
      ne_rootAddr (by simp only [hnd', not_false_eq_true]) (by simp only [hnd', not_false_eq_true])
    have E : right_rotate t y =
        set_parent (set_right (set_right (set_parent (set_left t y t.nil) x p) p x) x y) y x := by
      simp only [right_rotate, hx, hy, hp0, set_right_mem, set_left_mem, set_parent_mem, set_root_mem, set_right_nil, set_left_nil,
        set_parent_nil, upd_same, upd_ne, hnd', ne_eq, not_false_eq_true, not_true_eq_false, if_true, if_false, hps]
    have ex : (right_rotate t y).mem x = ⟨cx, kx, p, rootAddr t.nil A, y⟩ := by
      simp only [E, hx, hy, hp0, set_right_mem, set_left_mem, set_parent_mem, set_root_mem, upd_same, upd_ne, hnd', ne_eq,
        not_false_eq_true]
    have ey : (right_rotate t y).mem y = ⟨cy, ky, x, t.nil, rootAddr t.nil C⟩ := by
      simp only [E, hx, hy, hp0, set_right_mem, set_left_mem, set_parent_mem, set_root_mem, upd_same, upd_ne, hnd', ne_eq,
        not_false_eq_true]
    have ep : (right_rotate t y).mem p = ⟨cp, kp, ctxParent t.nil rest, rootAddr t.nil S, x⟩ := by
      simp only [E, hx, hy, hp0, set_right_mem, set_left_mem, set_parent_mem, set_root_mem, upd_same, upd_ne, hnd', ne_eq,
        not_false_eq_true]
    have er : (right_rotate t y).root = t.root := by
      simp only [E, set_right_root, set_left_root, set_parent_root, set_root_root]
    have hfr : ∀ q, q ∉ [x, y, p] → (right_rotate t y).mem q = t.mem q := by
      intro q hq
      simp only [not_mem_cons_both, List.not_mem_nil, not_false_eq_true, and_true] at hq
      simp only [E, set_right_mem, set_left_mem, set_parent_mem, set_root_mem, upd_ne, hq, ne_eq, not_false_eq_true]
    have enil : (right_rotate t y).mem t.nil = t.mem t.nil :=
      hfr t.nil (by simp only [not_mem_cons_both, List.not_mem_nil, hnd', not_false_eq_true, and_self])
    refine ⟨⟨?_, ?_, ?_, ?_, ?_, ?_, ?_⟩, enil⟩
    · simp only [CtxShape, rootAddr_node, er, right_rotate_nil]
      refine ⟨ep, hS.frame (frame_of_disjoint hfr ?_), hrest.frame_ctx (frame_of_disjoint hfr ?_)⟩
      all_goals simp only [List.disjoint_cons_right, List.disjoint_nil_right, hnd', not_false_eq_true,
        and_self]
    · simp only [Shape, rootAddr_node, rootAddr_leaf, ctxParent_L, ctxParent_R, ctxParent_nil, right_rotate_nil]
      refine ⟨ex, hA.frame (frame_of_disjoint hfr ?_), ey, trivial, hC.frame (frame_of_disjoint hfr ?_)⟩
      all_goals simp only [List.disjoint_cons_right, List.disjoint_nil_right, hnd', not_false_eq_true,
        and_self]
    · simpa only [right_rotate_nil, addrs_node, List.append_assoc, List.cons_append] using hnd
    · simpa only [right_rotate_nil, right_rotate_brk, addrs_node, List.append_assoc, List.cons_append]
        using hb
    · rw [right_rotate_nil, enil]; exact hc
    · rw [right_rotate_nil, enil]; exact hl
    · rw [right_rotate_nil, enil]; exact hr
  case mk.node.nil =>
    simp only [addrs_node, addrs_leaf, ctxAddrs_nil, ctxAddrs_L, ctxAddrs_R, List.nodup_cons,
      List.nodup_append, List.mem_append, not_mem_cons_both, not_or, List.disjoint_cons_left,
      List.disjoint_cons_right, List.disjoint_append_left, List.disjoint_append_right,
      List.append_nil, List.nil_append, List.not_mem_nil, not_false_eq_true, true_and, and_true,
      List.nodup_nil, List.disjoint_nil_left, List.disjoint_nil_right] at hnd'
    simp only [Shape, CtxShape, rootAddr_node, rootAddr_leaf, ctxParent_nil, ctxParent_L,
      ctxParent_R] at hs hp
    obtain ⟨hy, ⟨hx, hA, hb0, hBL, hBR⟩, hC⟩ := hs
    have E : right_rotate t y =
        set_parent (set_right (set_root (set_parent (set_parent (set_left t y b) b y) x t.nil) x) x y) y x := by
      simp only [right_rotate, hx, hy, hb0, set_right_mem, set_left_mem, set_parent_mem, set_root_mem, set_right_nil, set_left_nil,
        set_parent_nil, upd_same, upd_ne, hnd', ne_eq, not_false_eq_true, not_true_eq_false, if_true, if_false]
    have ex : (right_rotate t y).mem x = ⟨cx, kx, t.nil, rootAddr t.nil A, y⟩ := by
      simp only [E, hx, hy, hb0, set_right_mem, set_left_mem, set_parent_mem, set_root_mem, upd_same, upd_ne, hnd', ne_eq,
        not_false_eq_true]
    have ey : (right_rotate t y).mem y = ⟨cy, ky, x, b, rootAddr t.nil C⟩ := by
      simp only [E, hx, hy, hb0, set_right_mem, set_left_mem, set_parent_mem, set_root_mem, upd_same, upd_ne, hnd', ne_eq,
        not_false_eq_true]
    have eb : (right_rotate t y).mem b = ⟨cb, kb, y, rootAddr t.nil BL, rootAddr t.nil BR⟩ := by
      simp only [E, hx, hy, hb0, set_right_mem, set_left_mem, set_parent_mem, set_root_mem, upd_same, upd_ne, hnd', ne_eq,
        not_false_eq_true]
    have er : (right_rotate t y).root = x := by
      simp only [E, set_right_root, set_left_root, set_parent_root, set_root_root]
    have hfr : ∀ q, q ∉ [x, y, b] → (right_rotate t y).mem q = t.mem q := by
      intro q hq
      simp only [not_mem_cons_both, List.not_mem_nil, not_false_eq_true, and_true] at hq
      simp only [E, set_right_mem, set_left_mem, set_parent_mem, set_root_mem, upd_ne, hq, ne_eq, not_false_eq_true]
    have enil : (right_rotate t y).mem t.nil = t.mem t.nil :=
      hfr t.nil (by simp only [not_mem_cons_both, List.not_mem_nil, hnd', not_false_eq_true, and_self])
    refine ⟨⟨?_, ?_, ?_, ?_, ?_, ?_, ?_⟩, enil⟩
    · simp only [CtxShape, rootAddr_node, er]
    · simp only [Shape, rootAddr_node, rootAddr_leaf, ctxParent_L, ctxParent_R, ctxParent_nil, right_rotate_nil]
      refine ⟨ex, hA.frame (frame_of_disjoint hfr ?_), ey, ⟨eb, hBL.frame (frame_of_disjoint hfr ?_), hBR.frame (frame_of_disjoint hfr ?_)⟩, hC.frame (frame_of_disjoint hfr ?_)⟩
      all_goals simp only [List.disjoint_cons_right, List.disjoint_nil_right, hnd', not_false_eq_true,
        and_self]
    · simpa only [right_rotate_nil, addrs_node, List.append_assoc, List.cons_append] using hnd
    · simpa only [right_rotate_nil, right_rotate_brk, addrs_node, List.append_assoc, List.cons_append]
        using hb
    · rw [right_rotate_nil, enil]; exact hc
    · rw [right_rotate_nil, enil]; exact hl
    · rw [right_rotate_nil, enil]; exact hr
  case mk.node.cons.L =>
    simp only [addrs_node, addrs_leaf, ctxAddrs_nil, ctxAddrs_L, ctxAddrs_R, List.nodup_cons,
      List.nodup_append, List.mem_append, not_mem_cons_both, not_or, List.disjoint_cons_left,
      List.disjoint_cons_right, List.disjoint_append_left, List.disjoint_append_right,
      List.append_nil, List.nil_append, List.not_mem_nil, not_false_eq_true, true_and, and_true,
      List.nodup_nil, List.disjoint_nil_left, List.disjoint_nil_right] at hnd'
    simp only [Shape, CtxShape, rootAddr_node, rootAddr_leaf, ctxParent_nil, ctxParent_L,
      ctxParent_R] at hs hp
    obtain ⟨hy, ⟨hx, hA, hb0, hBL, hBR⟩, hC⟩ := hs
    obtain ⟨hp0, hS, hrest⟩ := hp
    have E : right_rotate t y =
        set_parent (set_right (set_left (set_parent (set_parent (set_left t y b) b y) x p) p x) x y) y x := by
      simp only [right_rotate, hx, hy, hb0, hp0, set_right_mem, set_left_mem, set_parent_mem, set_root_mem, set_right_nil, set_left_nil,
        set_parent_nil, upd_same, upd_ne, hnd', ne_eq, not_false_eq_true, not_true_eq_false, if_true, if_false]
    have ex : (right_rotate t y).mem x = ⟨cx, kx, p, rootAddr t.nil A, y⟩ := by
      simp only [E, hx, hy, hb0, hp0, set_right_mem, set_left_mem, set_parent_mem, set_root_mem, upd_same, upd_ne, hnd', ne_eq,
        not_false_eq_true]
    have ey : (right_rotate t y).mem y = ⟨cy, ky, x, b, rootAddr t.nil C⟩ := by
      simp only [E, hx, hy, hb0, hp0, set_right_mem, set_left_mem, set_parent_mem, set_root_mem, upd_same, upd_ne, hnd', ne_eq,
        not_false_eq_true]
    have eb : (right_rotate t y).mem b = ⟨cb, kb, y, rootAddr t.nil BL, rootAddr t.nil BR⟩ := by
      simp only [E, hx, hy, hb0, hp0, set_right_mem, set_left_mem, set_parent_mem, set_root_mem, upd_same, upd_ne, hnd', ne_eq,
        not_false_eq_true]
    have ep : (right_rotate t y).mem p = ⟨cp, kp, ctxParent t.nil rest, x, rootAddr t.nil S⟩ := by
      simp only [E, hx, hy, hb0, hp0, set_right_mem, set_left_mem, set_parent_mem, set_root_mem, upd_same, upd_ne, hnd', ne_eq,
        not_false_eq_true]
    have er : (right_rotate t y).root = t.root := by
      simp only [E, set_right_root, set_left_root, set_parent_root, set_root_root]
    have hfr : ∀ q, q ∉ [x, y, b, p] → (right_rotate t y).mem q = t.mem q := by
      intro q hq
      simp only [not_mem_cons_both, List.not_mem_nil, not_false_eq_true, and_true] at hq
      simp only [E, set_right_mem, set_left_mem, set_parent_mem, set_root_mem, upd_ne, hq, ne_eq, not_false_eq_true]
    have enil : (right_rotate t y).mem t.nil = t.mem t.nil :=
      hfr t.nil (by simp only [not_mem_cons_both, List.not_mem_nil, hnd', not_false_eq_true, and_self])
    refine ⟨⟨?_, ?_, ?_, ?_, ?_, ?_, ?_⟩, enil⟩
    · simp only [CtxShape, rootAddr_node, er, right_rotate_nil]
      refine ⟨ep, hS.frame (frame_of_disjoint hfr ?_), hrest.frame_ctx (frame_of_disjoint hfr ?_)⟩
      all_goals simp only [List.disjoint_cons_right, List.disjoint_nil_right, hnd', not_false_eq_true,
        and_self]
    · simp only [Shape, rootAddr_node, rootAddr_leaf, ctxParent_L, ctxParent_R, ctxParent_nil, right_rotate_nil]
      refine ⟨ex, hA.frame (frame_of_disjoint hfr ?_), ey, ⟨eb, hBL.frame (frame_of_disjoint hfr ?_), hBR.frame (frame_of_disjoint hfr ?_)⟩, hC.frame (frame_of_disjoint hfr ?_)⟩
      all_goals simp only [List.disjoint_cons_right, List.disjoint_nil_right, hnd', not_false_eq_true,
        and_self]
    · simpa only [right_rotate_nil, addrs_node, List.append_assoc, List.cons_append] using hnd
    · simpa only [right_rotate_nil, right_rotate_brk, addrs_node, List.append_assoc, List.cons_append]
        using hb
    · rw [right_rotate_nil, enil]; exact hc
    · rw [right_rotate_nil, enil]; exact hl
    · rw [right_rotate_nil, enil]; exact hr
  case mk.node.cons.R =>
    simp only [addrs_node, addrs_leaf, ctxAddrs_nil, ctxAddrs_L, ctxAddrs_R, List.nodup_cons,
      List.nodup_append, List.mem_append, not_mem_cons_both, not_or, List.disjoint_cons_left,
      List.disjoint_cons_right, List.disjoint_append_left, List.disjoint_append_right,
      List.append_nil, List.nil_append, List.not_mem_nil, not_false_eq_true, true_and, and_true,
      List.nodup_nil, List.disjoint_nil_left, List.disjoint_nil_right] at hnd'
    simp only [Shape, CtxShape, rootAddr_node, rootAddr_leaf, ctxParent_nil, ctxParent_L,
      ctxParent_R] at hs hp
    obtain ⟨hy, ⟨hx, hA, hb0, hBL, hBR⟩, hC⟩ := hs
    obtain ⟨hp0, hS, hrest⟩ := hp
    have hps : y ≠ rootAddr t.nil S :=
      ne_rootAddr (by simp only [hnd', not_false_eq_true]) (by simp only [hnd', not_false_eq_true])
    have E : right_rotate t y =
        set_parent (set_right (set_right (set_parent (set_parent (set_left t y b) b y) x p) p x) x y) y x := by
      simp only [right_rotate, hx, hy, hb0, hp0, set_right_mem, set_left_mem, set_parent_mem, set_root_mem, set_right_nil, set_left_nil,
        set_parent_nil, upd_same, upd_ne, hnd', ne_eq, not_false_eq_true, not_true_eq_false, if_true, if_false, hps]
    have ex : (right_rotate t y).mem x = ⟨cx, kx, p, rootAddr t.nil A, y⟩ := by
      simp only [E, hx, hy, hb0, hp0, set_right_mem, set_left_mem, set_parent_mem, set_root_mem, upd_same, upd_ne, hnd', ne_eq,
        not_false_eq_true]
    have ey : (right_rotate t y).mem y = ⟨cy, ky, x, b, rootAddr t.nil C⟩ := by
      simp only [E, hx, hy, hb0, hp0, set_right_mem, set_left_mem, set_parent_mem, set_root_mem, upd_same, upd_ne, hnd', ne_eq,
        not_false_eq_true]
    have eb : (right_rotate t y).mem b = ⟨cb, kb, y, rootAddr t.nil BL, rootAddr t.nil BR⟩ := by
      simp only [E, hx, hy, hb0, hp0, set_right_mem, set_left_mem, set_parent_mem, set_root_mem, upd_same, upd_ne, hnd', ne_eq,
        not_false_eq_true]
    have ep : (right_rotate t y).mem p = ⟨cp, kp, ctxParent t.nil rest, rootAddr t.nil S, x⟩ := by
      simp only [E, hx, hy, hb0, hp0, set_right_mem, set_left_mem, set_parent_mem, set_root_mem, upd_same, upd_ne, hnd', ne_eq,
        not_false_eq_true]
    have er : (right_rotate t y).root = t.root := by
      simp only [E, set_right_root, set_left_root, set_parent_root, set_root_root]
    have hfr : ∀ q, q ∉ [x, y, b, p] → (right_rotate t y).mem q = t.mem q := by
      intro q hq
      simp only [not_mem_cons_both, List.not_mem_nil, not_false_eq_true, and_true] at hq
      simp only [E, set_right_mem, set_left_mem, set_parent_mem, set_root_mem, upd_ne, hq, ne_eq, not_false_eq_true]
    have enil : (right_rotate t y).mem t.nil = t.mem t.nil :=
      hfr t.nil (by simp only [not_mem_cons_both, List.not_mem_nil, hnd', not_false_eq_true, and_self])
    refine ⟨⟨?_, ?_, ?_, ?_, ?_, ?_, ?_⟩, enil⟩
    · simp only [CtxShape, rootAddr_node, er, right_rotate_nil]
      refine ⟨ep, hS.frame (frame_of_disjoint hfr ?_), hrest.frame_ctx (frame_of_disjoint hfr ?_)⟩
      all_goals simp only [List.disjoint_cons_right, List.disjoint_nil_right, hnd', not_false_eq_true,
        and_self]
    · simp only [Shape, rootAddr_node, rootAddr_leaf, ctxParent_L, ctxParent_R, ctxParent_nil, right_rotate_nil]
      refine ⟨ex, hA.frame (frame_of_disjoint hfr ?_), ey, ⟨eb, hBL.frame (frame_of_disjoint hfr ?_), hBR.frame (frame_of_disjoint hfr ?_)⟩, hC.frame (frame_of_disjoint hfr ?_)⟩
      all_goals simp only [List.disjoint_cons_right, List.disjoint_nil_right, hnd', not_false_eq_true,
        and_self]
    · simpa only [right_rotate_nil, addrs_node, List.append_assoc, List.cons_append] using hnd
    · simpa only [right_rotate_nil, right_rotate_brk, addrs_node, List.append_assoc, List.cons_append]
        using hb
    · rw [right_rotate_nil, enil]; exact hc
    · rw [right_rotate_nil, enil]; exact hl
    · rw [right_rotate_nil, enil]; exact hr

/-- Reading the record at the position of a zipper. -/
theorem RepZ.read {t : rbtree} {ctx : Ctx} {a : Ptr} {c : color_t} {k : Int} {l r : Tree}
    (h : RepZ t ctx (.node a c k l r)) :
    t.mem a = ⟨c, k, ctxParent t.nil ctx, rootAddr t.nil l, rootAddr t.nil r⟩ :=
  h.sub.1

theorem RepZ.nil_ne {t : rbtree} {ctx : Ctx} {a : Ptr} {c : color_t} {k : Int} {l r : Tree}
    (h : RepZ t ctx (.node a c k l r)) : a ≠ t.nil := by
  have := h.nodup
  simp only [addrs_node, List.nodup_cons, List.mem_cons, List.mem_append, not_or] at this
  exact fun e => this.1.2.1.2.1 e.symm

/-- Recolouring the record at the position of a zipper. -/
theorem RepZ.recolor {t : rbtree} {ctx : Ctx} {a : Ptr} {c : color_t} {k : Int} {l r : Tree}
    (h : RepZ t ctx (.node a c k l r)) (c' : color_t) :
    RepZ (set_color t a c') ctx (.node a c' k l r)
      ∧ (set_color t a c').mem t.nil = t.mem t.nil := by
  obtain ⟨hp, hs, hnd, hb, hc, hl, hr⟩ := h
  have hnd' := hnd
  simp only [addrs_node, List.nodup_cons, List.nodup_append, List.mem_append, not_mem_cons_both,
    not_or, List.disjoint_cons_left, List.disjoint_cons_right, List.disjoint_append_left,
    List.disjoint_append_right] at hnd'
  obtain ⟨hs1, hs2, hs3⟩ := hs
  have hfr : ∀ q, q ∉ [a] → (set_color t a c').mem q = t.mem q := by
    intro q hq
    simp only [not_mem_cons_both, List.not_mem_nil, not_false_eq_true, and_true] at hq
    simp only [set_color_mem, upd_ne, hq, ne_eq, not_false_eq_true]
  have enil : (set_color t a c').mem t.nil = t.mem t.nil :=
    hfr t.nil (by simp only [not_mem_cons_both, List.not_mem_nil, hnd', not_false_eq_true,
      and_self])
  refine ⟨⟨?_, ⟨?_, ?_, ?_⟩, hnd, hb, ?_, ?_, ?_⟩, enil⟩
  · exact hp.frame_ctx (frame_of_disjoint hfr (by
      simp only [List.disjoint_cons_right, List.disjoint_nil_right, hnd', not_false_eq_true,
        and_self]))
  · simp only [set_color_mem, upd_same, hs1, set_color_nil]
  · exact hs2.frame (frame_of_disjoint hfr (by
      simp only [List.disjoint_cons_right, List.disjoint_nil_right, hnd', not_false_eq_true,
        and_self]))
  · exact hs3.frame (frame_of_disjoint hfr (by
      simp only [List.disjoint_cons_right, List.disjoint_nil_right, hnd', not_false_eq_true,
        and_self]))
  · rw [set_color_nil, enil]; exact hc
  · rw [set_color_nil, enil]; exact hl
  · rw [set_color_nil, enil]; exact hr

/-- Writing BLACK into the sentinel's colour changes nothing. -/
theorem set_color_nil_black {t : rbtree} (h : (t.mem t.nil).color = RBTREE_BLACK) :
    set_color t t.nil RBTREE_BLACK = t := by
  have : upd t.mem t.nil { t.mem t.nil with color := RBTREE_BLACK } = t.mem := by
    funext q
    by_cases hq : q = t.nil
    · subst hq
      rw [upd_same, ← h]
    · rw [upd_ne hq]
  simp only [set_color, this]

theorem rep_iff_repZ (t : rbtree) (T : Tree) : Rep t T ↔ RepZ t [] T :=
  rep_plug_iff t [] T

/-- The last statement of both fix-up procedures when it hits the root. -/
theorem Rep.blacken_root {t : rbtree} {T : Tree} (h : Rep t T) :
    Rep (set_color t t.root RBTREE_BLACK) (blacken T)
      ∧ (set_color t t.root RBTREE_BLACK).mem t.nil = t.mem t.nil := by
  cases T with
  | leaf =>
    have hr : t.root = t.nil := h.root
    rw [hr, set_color_nil_black h.nil_color]
    exact ⟨h, rfl⟩
  | node a c k l r =>
    have hr : t.root = a := h.root
    rw [hr]
    have := ((rep_iff_repZ _ _).1 h).recolor RBTREE_BLACK
    exact ⟨(rep_iff_repZ _ _).2 this.1, this.2⟩

theorem color_cases (c : color_t) : c = RBTREE_RED ∨ c = RBTREE_BLACK := by
  cases c <;> simp

@[simp] theorem red_ne_black : RBTREE_RED ≠ RBTREE_BLACK := by decide

@[simp] theorem black_ne_red : RBTREE_BLACK ≠ RBTREE_RED := by decide

theorem not_red_iff (c : color_t) : ¬ c = RBTREE_RED ↔ c = RBTREE_BLACK := by
  cases c <;> simp

theorem not_black_iff (c : color_t) : ¬ c = RBTREE_BLACK ↔ c = RBTREE_RED := by
  cases c <;> simp

@[simp] theorem rootColor_leaf : rootColor .leaf = RBTREE_BLACK := rfl

@[simp] theorem rootColor_node (a : Ptr) (c : color_t) (k : Int) (l r : Tree) :
    rootColor (.node a c k l r) = c := rfl

@[simp] theorem ctxColor_nil : ctxColor [] = RBTREE_BLACK := rfl

@[simp] theorem ctxColor_L (a : Ptr) (c : color_t) (k : Int) (r : Tree) (rest : Ctx) :
    ctxColor (.L a c k r :: rest) = c := rfl

@[simp] theorem ctxColor_R (a : Ptr) (c : color_t) (k : Int) (l : Tree) (rest : Ctx) :
    ctxColor (.R a c k l :: rest) = c := rfl

@[simp] theorem Frame.color_L (a : Ptr) (c : color_t) (k : Int) (r : Tree) :
    (Frame.L a c k r).color = c := rfl

@[simp] theorem Frame.color_R (a : Ptr) (c : color_t) (k : Int) (l : Tree) :
    (Frame.R a c k l).color = c := rfl

@[simp] theorem BH_leaf (n : Nat) : BH .leaf n ↔ n = 0 := by
  simp [BH]

@[simp] theorem BH_red (a : Ptr) (k : Int) (l r : Tree) (n : Nat) :
    BH (.node a RBTREE_RED k l r) n ↔ BH l n ∧ BH r n := by
  simp [BH]

@[simp] theorem BH_black_succ (a : Ptr) (k : Int) (l r : Tree) (n : Nat) :
    BH (.node a RBTREE_BLACK k l r) (n + 1) ↔ BH l n ∧ BH r n := by
  simp [BH]

@[simp] theorem BH_black_zero (a : Ptr) (k : Int) (l r : Tree) :
    ¬ BH (.node a RBTREE_BLACK k l r) 0 := by
  simp [BH]

theorem BH_black (a : Ptr) (k : Int) (l r : Tree) (n : Nat) :
    BH (.node a RBTREE_BLACK k l r) n ↔ ∃ m, n = m + 1 ∧ BH l m ∧ BH r m := by
  cases n with
  | zero => simp
  | succ m => simp

theorem BH_unique {T : Tree} {n m : Nat} (h1 : BH T n) (h2 : BH T m) : n = m := by
  induction T generalizing n m with
  | leaf => simp only [BH_leaf] at h1 h2; omega
  | node a c k l r ihl _ =>
    cases c with
    | RBTREE_RED =>
      simp only [BH_red] at h1 h2
      exact ihl h1.1 h2.1
    | RBTREE_BLACK =>
      rw [BH_black] at h1 h2
      obtain ⟨n', rfl, h1, _⟩ := h1
      obtain ⟨m', rfl, h2, _⟩ := h2
      rw [ihl h1 h2]

@[simp] theorem NoRedRed_leaf : NoRedRed .leaf := trivial

@[simp] theorem NoRedRed_node (a : Ptr) (c : color_t) (k : Int) (l r : Tree) :
    NoRedRed (.node a c k l r) ↔
      (c = RBTREE_RED → rootColor l = RBTREE_BLACK ∧ rootColor r = RBTREE_BLACK)
        ∧ NoRedRed l ∧ NoRedRed r := Iff.rfl

@[simp] theorem CtxNoRedRed_nil : CtxNoRedRed [] := trivial

@[simp] theorem CtxNoRedRed_L (a : Ptr) (c : color_t) (k : Int) (r : Tree) (rest : Ctx) :
    CtxNoRedRed (.L a c k r :: rest) ↔
      NoRedRed r ∧ (c = RBTREE_RED → rootColor r = RBTREE_BLACK ∧ ctxColor rest = RBTREE_BLACK)
        ∧ CtxNoRedRed rest := Iff.rfl

@[simp] theorem CtxNoRedRed_R (a : Ptr) (c : color_t) (k : Int) (l : Tree) (rest : Ctx) :
    CtxNoRedRed (.R a c k l :: rest) ↔
      NoRedRed l ∧ (c = RBTREE_RED → rootColor l = RBTREE_BLACK ∧ ctxColor rest = RBTREE_BLACK)
        ∧ CtxNoRedRed rest := Iff.rfl

@[simp] theorem CtxBH_nil (n : Nat) : CtxBH [] n := trivial

@[simp] theorem CtxBH_L (a : Ptr) (c : color_t) (k : Int) (r : Tree) (rest : Ctx) (n : Nat) :
    CtxBH (.L a c k r :: rest) n ↔
      BH r n ∧ CtxBH rest (if c = RBTREE_BLACK then n + 1 else n) := Iff.rfl

@[simp] theorem CtxBH_R (a : Ptr) (c : color_t) (k : Int) (l : Tree) (rest : Ctx) (n : Nat) :
    CtxBH (.R a c k l :: rest) n ↔
      BH l n ∧ CtxBH rest (if c = RBTREE_BLACK then n + 1 else n) := Iff.rfl

@[simp] theorem ctxRootColor_nil : ctxRootColor [] = RBTREE_BLACK := rfl

@[simp] theorem ctxRootColor_single (f : Frame) : ctxRootColor [f] = f.color := rfl

@[simp] theorem ctxRootColor_cons2 (f g : Frame) (rest : Ctx) :
    ctxRootColor (f :: g :: rest) = ctxRootColor (g :: rest) := rfl

theorem ctxRootColor_tail {f : Frame} {rest : Ctx} (h : ctxRootColor (f :: rest) = RBTREE_BLACK) :
    ctxRootColor rest = RBTREE_BLACK := by
  cases rest with
  | nil => rfl
  | cons g rest => exact h

@[simp] theorem plug_nil (s : Tree) : plug [] s = s := rfl

@[simp] theorem plug_L (a : Ptr) (c : color_t) (k : Int) (r : Tree) (rest : Ctx) (s : Tree) :
    plug (.L a c k r :: rest) s = plug rest (.node a c k s r) := rfl

@[simp] theorem plug_R (a : Ptr) (c : color_t) (k : Int) (l : Tree) (rest : Ctx) (s : Tree) :
    plug (.R a c k l :: rest) s = plug rest (.node a c k l s) := rfl

theorem noRedRed_plug (ctx : Ctx) (s : Tree) :
    NoRedRed (plug ctx s) ↔
      NoRedRed s ∧ CtxNoRedRed ctx ∧ (rootColor s = RBTREE_RED → ctxColor ctx = RBTREE_BLACK) := by
  induction ctx generalizing s with
  | nil => simp
  | cons f rest ih =>
    cases f with
    | L a c k r =>
      simp only [plug_L, ih, NoRedRed_node, CtxNoRedRed_L, rootColor_node, ctxColor_L]
      rcases color_cases c with rfl | rfl <;> rcases color_cases (rootColor s) with h | h <;>
        simp [h] <;> tauto
    | R a c k l =>
      simp only [plug_R, ih, NoRedRed_node, CtxNoRedRed_R, rootColor_node, ctxColor_R]
      rcases color_cases c with rfl | rfl <;> rcases color_cases (rootColor s) with h | h <;>
        simp [h] <;> tauto

theorem bh_plug (ctx : Ctx) (s : Tree) :
    (∃ N, BH (plug ctx s) N) ↔ ∃ n, BH s n ∧ CtxBH ctx n := by
  induction ctx generalizing s with
  | nil => simp
  | cons f rest ih =>
    cases f with
    | L a c k r =>
      simp only [plug_L, ih, CtxBH_L]
      rcases color_cases c with rfl | rfl
      · simp only [BH_red, red_ne_black, if_false]
        constructor
        · rintro ⟨n, ⟨h1, h2⟩, h3⟩; exact ⟨n, h1, h2, h3⟩
        · rintro ⟨n, h1, h2, h3⟩; exact ⟨n, ⟨h1, h2⟩, h3⟩
      · simp only [BH_black, if_true]
        constructor
        · rintro ⟨n, ⟨m, rfl, h1, h2⟩, h3⟩; exact ⟨m, h1, h2, h3⟩
        · rintro ⟨n, h1, h2, h3⟩; exact ⟨n + 1, ⟨n, rfl, h1, h2⟩, h3⟩
    | R a c k l =>
      simp only [plug_R, ih, CtxBH_R]
      rcases color_cases c with rfl | rfl
      · simp only [BH_red, red_ne_black, if_false]
        constructor
        · rintro ⟨n, ⟨h1, h2⟩, h3⟩; exact ⟨n, h2, h1, h3⟩
        · rintro ⟨n, h1, h2, h3⟩; exact ⟨n, ⟨h2, h1⟩, h3⟩
      · simp only [BH_black, if_true]
        constructor
        · rintro ⟨n, ⟨m, rfl, h1, h2⟩, h3⟩; exact ⟨m, h2, h1, h3⟩
        · rintro ⟨n, h1, h2, h3⟩; exact ⟨n + 1, ⟨n, rfl, h2, h1⟩, h3⟩

theorem rootColor_plug_cons (f : Frame) (rest : Ctx) (s : Tree) :
    rootColor (plug (f :: rest) s) = ctxRootColor (f :: rest) := by
  induction rest generalizing f s with
  | nil => cases f <;> rfl
  | cons g rest ih =>
    cases f with
    | L a c k r => simp only [plug_L, ctxRootColor_cons2]; exact ih g _
    | R a c k l => simp only [plug_R, ctxRootColor_cons2]; exact ih g _

@[simp] theorem blacken_leaf : blacken .leaf = .leaf := rfl

@[simp] theorem blacken_node (a : Ptr) (c : color_t) (k : Int) (l r : Tree) :
    blacken (.node a c k l r) = .node a RBTREE_BLACK k l r := rfl

@[simp] theorem nodes_blacken (T : Tree) : nodes (blacken T) = nodes T := by
  cases T <;> rfl

theorem blacken_of_black {T : Tree} (h : rootColor T = RBTREE_BLACK) : blacken T = T := by
  cases T with
  | leaf => rfl
  | node a c k l r => simp only [rootColor_node] at h; subst h; rfl

theorem NoRedRed.blacken_nrr {T : Tree} (h : NoRedRed T) : NoRedRed (blacken T) := by
  cases T with
  | leaf => trivial
  | node a c k l r =>
    simp only [blacken_node, NoRedRed_node, black_ne_red, false_imp_iff, true_and]
    exact ⟨h.2.1, h.2.2⟩

theorem BH.blacken_bh {T : Tree} (h : ∃ n, BH T n) : ∃ n, BH (blacken T) n := by
  cases T with
  | leaf => exact h
  | node a c k l r =>
    obtain ⟨n, hn⟩ := h
    rcases color_cases c with rfl | rfl
    · exact ⟨n + 1, by simpa using hn⟩
    · exact ⟨n, hn⟩

theorem rootColor_blacken (T : Tree) : rootColor (blacken T) = RBTREE_BLACK := by
  cases T <;> rfl

theorem RBProps.blacken {T : Tree} (h1 : NoRedRed (blacken T)) (h2 : ∃ n, BH T n) :
    RBProps (blacken T) :=
  ⟨rootColor_blacken T, h1, BH.blacken_bh h2⟩

theorem SameNil.refl (t : rbtree) : SameNil t t := ⟨rfl, rfl, rfl⟩

theorem SameNil.trans {t1 t2 t3 : rbtree} (h1 : SameNil t1 t2) (h2 : SameNil t2 t3) :
    SameNil t1 t3 := by
  refine ⟨h2.nil.trans h1.nil, h2.brk.trans h1.brk, ?_⟩
  have := h2.mem_nil
  rw [h1.nil] at this
  rw [this, h1.mem_nil]

@[simp] theorem set_color_mem_parent (t : rbtree) (p q : Ptr) (c : color_t) :
    ((set_color t p c).mem q).parent = (t.mem q).parent := by
  by_cases h : q = p
  · subst h; simp only [set_color_mem, upd_same]
  · simp only [set_color_mem, upd_ne h]

@[simp] theorem set_color_mem_left (t : rbtree) (p q : Ptr) (c : color_t) :
    ((set_color t p c).mem q).left = (t.mem q).left := by
  by_cases h : q = p
  · subst h; simp only [set_color_mem, upd_same]
  · simp only [set_color_mem, upd_ne h]

@[simp] theorem set_color_mem_right (t : rbtree) (p q : Ptr) (c : color_t) :
    ((set_color t p c).mem q).right = (t.mem q).right := by
  by_cases h : q = p
  · subst h; simp only [set_color_mem, upd_same]
  · simp only [set_color_mem, upd_ne h]

@[simp] theorem set_color_mem_key (t : rbtree) (p q : Ptr) (c : color_t) :
    ((set_color t p c).mem q).key = (t.mem q).key := by
  by_cases h : q = p
  · subst h; simp only [set_color_mem, upd_same]
  · simp only [set_color_mem, upd_ne h]

theorem RepZ.up_L {t : rbtree} {a : Ptr} {c : color_t} {k : Int} {r : Tree} {rest : Ctx}
    {s : Tree} (h : RepZ t (.L a c k r :: rest) s) : RepZ t rest (.node a c k s r) :=
  h.up

theorem RepZ.up_R {t : rbtree} {a : Ptr} {c : color_t} {k : Int} {l : Tree} {rest : Ctx}
    {s : Tree} (h : RepZ t (.R a c k l :: rest) s) : RepZ t rest (.node a c k l s) :=
  h.up

theorem RepZ.down_L {t : rbtree} {a : Ptr} {c : color_t} {k : Int} {r : Tree} {rest : Ctx}
    {s : Tree} (h : RepZ t rest (.node a c k s r)) : RepZ t (.L a c k r :: rest) s :=
  RepZ.down (f := .L a c k r) h

theorem RepZ.down_R {t : rbtree} {a : Ptr} {c : color_t} {k : Int} {l : Tree} {rest : Ctx}
    {s : Tree} (h : RepZ t rest (.node a c k l s)) : RepZ t (.R a c k l :: rest) s :=
  RepZ.down (f := .R a c k l) h

theorem RepZ.toRep {t : rbtree} {ctx : Ctx} {s : Tree} (h : RepZ t ctx s) :
    Rep t (plug ctx s) :=
  (rep_plug_iff t ctx s).2 h

theorem Rep.toRepZ {t : rbtree} {ctx : Ctx} {s : Tree} (h : Rep t (plug ctx s)) :
    RepZ t ctx s :=
  (rep_plug_iff t ctx s).1 h

/-- The colour stored at the pointer that stands for a subtree. -/
theorem RepZ.root_color {t : rbtree} {ctx : Ctx} {s : Tree} (h : RepZ t ctx s) :
    (t.mem (rootAddr t.nil s)).color = rootColor s := by
  cases s with
  | leaf => exact h.nil_color
  | node a c k l r => rw [rootAddr_node, h.read]; rfl

/-- The colour stored at the parent pointer of a position. -/
theorem RepZ.parent_color {t : rbtree} {ctx : Ctx} {s : Tree} (h : RepZ t ctx s) :
    (t.mem (ctxParent t.nil ctx)).color = ctxColor ctx := by
  cases ctx with
  | nil => exact h.nil_color
  | cons f rest =>
    cases f with
    | L a c k r => rw [ctxParent_L, h.up_L.read]; rfl
    | R a c k l => rw [ctxParent_R, h.up_R.read]; rfl

/-- A record is not the root of its sibling subtree. -/
theorem RepZ.ne_sibling_L {t : rbtree} {a z : Ptr} {c cz : color_t} {k kz : Int}
    {b l r : Tree} {rest : Ctx} (h : RepZ t (.L a c k b :: rest) (.node z cz kz l r)) :
    z ≠ rootAddr t.nil b := by
  have hnd := h.nodup
  simp only [addrs_node, ctxAddrs_L, List.nodup_cons, List.nodup_append, List.mem_append,
    not_mem_cons_both, not_or, List.disjoint_cons_left, List.disjoint_cons_right,
    List.disjoint_append_left, List.disjoint_append_right] at hnd
  exact ne_rootAddr (by simp only [hnd, not_false_eq_true]) (by simp only [hnd, not_false_eq_true])

theorem RepZ.ne_sibling_R {t : rbtree} {a z : Ptr} {c cz : color_t} {k kz : Int}
    {b l r : Tree} {rest : Ctx} (h : RepZ t (.R a c k b :: rest) (.node z cz kz l r)) :
    z ≠ rootAddr t.nil b := by
  have hnd := h.nodup
  simp only [addrs_node, ctxAddrs_R, List.nodup_cons, List.nodup_append, List.mem_append,
    not_mem_cons_both, not_or, List.disjoint_cons_left, List.disjoint_cons_right,
    List.disjoint_append_left, List.disjoint_append_right] at hnd
  exact ne_rootAddr (by simp only [hnd, not_false_eq_true]) (by simp only [hnd, not_false_eq_true])

theorem RepZ.recolor_same {t : rbtree} {ctx : Ctx} {a : Ptr} {c : color_t} {k : Int}
    {l r : Tree} (h : RepZ t ctx (.node a c k l r)) (c' : color_t) :
    SameNil t (set_color t a c') :=
  ⟨rfl, rfl, (h.recolor c').2⟩

theorem RepZ.rot_left_same {t : rbtree} {ctx : Ctx} {x y : Ptr} {cx cy : color_t}
    {kx ky : Int} {A B C : Tree} (h : RepZ t ctx (.node x cx kx A (.node y cy ky B C))) :
    SameNil t (left_rotate t x) :=
  ⟨left_rotate_nil t x, left_rotate_brk t x, h.rot_left.2⟩

theorem RepZ.rot_right_same {t : rbtree} {ctx : Ctx} {x y : Ptr} {cx cy : color_t}
    {kx ky : Int} {A B C : Tree} (h : RepZ t ctx (.node y cy ky (.node x cx kx A B) C)) :
    SameNil t (right_rotate t y) :=
  ⟨right_rotate_nil t y, right_rotate_brk t y, h.rot_right.2⟩

theorem Rep.blacken_root_same {t : rbtree} {T : Tree} (h : Rep t T) :
    SameNil t (set_color t t.root RBTREE_BLACK) :=
  ⟨rfl, rfl, h.blacken_root.2⟩

/-- Leaving the loop of `rbtree_insert_fixup`: the parent is BLACK. -/
theorem insert_fixup_exit {t : rbtree} {ctx : Ctx} {z : Ptr} {c : color_t} {k : Int}
    {l r : Tree} (fuel : Nat) (h : RepZ t ctx (.node z c k l r))
    (hc : ctxColor ctx = RBTREE_BLACK)
    (h1 : NoRedRed (plug ctx (.node z c k l r)))
    (h2 : ∃ n, BH (plug ctx (.node z c k l r)) n) :
    ∃ t', rbtree_insert_fixup (fuel + 1) t z = some t'
      ∧ FixResult t (plug ctx (.node z c k l r)) t' (blacken (plug ctx (.node z c k l r))) := by
  have hpc := h.parent_color
  have hz := h.read
  refine ⟨set_color t t.root RBTREE_BLACK, ?_, ?_⟩
  · rw [rbtree_insert_fixup]
    simp only [hz, hpc, hc, black_ne_red, if_false]
  · exact ⟨h.toRep.blacken_root.1, RBProps.blacken h1.blacken_nrr h2, nodes_blacken _,
      h.toRep.blacken_root_same⟩

theorem rootColor_red {u : Tree} (h : rootColor u = RBTREE_RED) :
    ∃ y ky ul ur, u = .node y RBTREE_RED ky ul ur := by
  cases u with
  | leaf => simp at h
  | node y c ky ul ur => simp only [rootColor_node] at h; subst h; exact ⟨y, ky, ul, ur, rfl⟩

theorem insert_fixup_spec : ∀ (n : Nat) (ctx : Ctx) (t : rbtree) (z : Ptr) (k : Int)
    (l r : Tree) (fuel : Nat), ctx.length ≤ n → n + 2 ≤ fuel →
    RepZ t ctx (.node z RBTREE_RED k l r) → InsInv ctx (.node z RBTREE_RED k l r) →
    ∃ t' T', rbtree_insert_fixup fuel t z = some t'
      ∧ FixResult t (plug ctx (.node z RBTREE_RED k l r)) t' T' := by
  intro n
  induction n using Nat.strong_induction_on with
  | _ n ih =>
  intro ctx t z k l r fuel hlen hfuel h inv
  obtain ⟨fuel, rfl⟩ : ∃ f, fuel = f + 1 := ⟨fuel - 1, by omega⟩
  obtain ⟨isub, ipath, ⟨bn, ibh1, ibh2⟩, iroot⟩ := inv
  rcases color_cases (ctxColor ctx) with hred | hblack
  swap
  · -- the parent is BLACK (or `z` is the root)
    have h1 : NoRedRed (plug ctx (.node z RBTREE_RED k l r)) :=
      (noRedRed_plug _ _).2 ⟨isub, ipath, fun _ => hblack⟩
    have h2 : ∃ n, BH (plug ctx (.node z RBTREE_RED k l r)) n :=
      (bh_plug _ _).2 ⟨bn, ibh1, ibh2⟩
    obtain ⟨t', e, res⟩ := insert_fixup_exit fuel h hblack h1 h2
    exact ⟨t', _, e, res⟩
  -- the parent is RED
  rcases ctx with _ | ⟨f, _ | ⟨g, rest⟩⟩
  · simp at hred
  · cases f <;> simp_all
  obtain ⟨fuel, rfl⟩ : ∃ f, fuel = f + 1 := ⟨fuel - 1, by simp at hlen; omega⟩
  rcases g with ⟨g, cg, kg, u⟩ | ⟨g, cg, kg, u⟩
  · -- the parent is a left child
    rcases color_cases (rootColor u) with hu | hu
    · -- RED uncle: recolour and move up two levels
      obtain ⟨y, ky, ul, ur, rfl⟩ := rootColor_red hu
      rcases f with ⟨p, cp, kp, b⟩ | ⟨p, cp, kp, b⟩
      · simp only [ctxColor_L] at hred
        subst hred
        have hz := h.read
        have hp := h.up_L.read
        have hg := h.up_L.up_L.read
        have hy := h.up_L.up_L.down_R.read
        have r1 := (h.up_L.recolor RBTREE_BLACK).1
        have r2 := (r1.up_L.down_R.recolor RBTREE_BLACK).1
        have r3 := (r2.up_R.recolor RBTREE_RED).1
        have s1 := h.up_L.recolor_same RBTREE_BLACK
        have s2 := r1.up_L.down_R.recolor_same RBTREE_BLACK
        have s3 := r2.up_R.recolor_same RBTREE_RED
        simp only [CtxNoRedRed_L, CtxNoRedRed_R, NoRedRed_node, rootColor_node, ctxColor_L,
          ctxColor_R, true_imp_iff, BH_red, CtxBH_L, CtxBH_R, red_ne_black, if_false]
          at isub ipath ibh1 ibh2
        have hcg : cg = RBTREE_BLACK := ipath.2.1.2
        subst hcg
        simp only [if_true] at ibh2
        obtain ⟨t', T', e, res⟩ := ih (rest.length) (by simp at hlen; omega) rest _ g kg
          (.node p RBTREE_BLACK kp (.node z RBTREE_RED k l r) b) (.node y RBTREE_BLACK ky ul ur)
          (fuel + 1) (le_refl _) (by simp at hlen; omega) r3
          ⟨by simp; tauto, by tauto, ⟨bn + 1, by simp; tauto, by tauto⟩,
            ctxRootColor_tail (ctxRootColor_tail iroot)⟩
        refine ⟨t', T', ?_, ?_⟩
        · rw [rbtree_insert_fixup]
          simp only [hz, hp, hg, hy, rootAddr_node, if_true, set_color_mem_parent, ctxParent_L,
            ctxParent_R]
          exact e
        · refine ⟨res.rep, res.rb, ?_, (s1.trans (s2.trans s3)).trans res.same⟩
          rw [res.nodes]
          simp only [plug_L, plug_R, nodes_plug, nodes, List.append_assoc, List.cons_append,
            List.nil_append]
      · simp only [ctxColor_R] at hred
        subst hred
        have hz := h.read
        have hp := h.up_R.read
        have hg := h.up_R.up_L.read
        have hy := h.up_R.up_L.down_R.read
        have r1 := (h.up_R.recolor RBTREE_BLACK).1
        have r2 := (r1.up_L.down_R.recolor RBTREE_BLACK).1
        have r3 := (r2.up_R.recolor RBTREE_RED).1
        have s1 := h.up_R.recolor_same RBTREE_BLACK
        have s2 := r1.up_L.down_R.recolor_same RBTREE_BLACK
        have s3 := r2.up_R.recolor_same RBTREE_RED
        simp only [CtxNoRedRed_L, CtxNoRedRed_R, NoRedRed_node, rootColor_node, ctxColor_L,
          ctxColor_R, true_imp_iff, BH_red, CtxBH_L, CtxBH_R, red_ne_black, if_false]
          at isub ipath ibh1 ibh2
        have hcg : cg = RBTREE_BLACK := ipath.2.1.2
        subst hcg
        simp only [if_true] at ibh2
        obtain ⟨t', T', e, res⟩ := ih (rest.length) (by simp at hlen; omega) rest _ g kg
          (.node p RBTREE_BLACK kp b (.node z RBTREE_RED k l r)) (.node y RBTREE_BLACK ky ul ur)
          (fuel + 1) (le_refl _) (by simp at hlen; omega) r3
          ⟨by simp; tauto, by tauto, ⟨bn + 1, by simp; tauto, by tauto⟩,
            ctxRootColor_tail (ctxRootColor_tail iroot)⟩
        refine ⟨t', T', ?_, ?_⟩
        · rw [rbtree_insert_fixup]
          simp only [hz, hp, hg, hy, rootAddr_node, if_true, set_color_mem_parent, ctxParent_L,
            ctxParent_R]
          exact e
        · refine ⟨res.rep, res.rb, ?_, (s1.trans (s2.trans s3)).trans res.same⟩
          rw [res.nodes]
          simp only [plug_L, plug_R, nodes_plug, nodes, List.append_assoc, List.cons_append,
            List.nil_append]
    · -- BLACK uncle: one or two rotations
      rcases f with ⟨p, cp, kp, b⟩ | ⟨p, cp, kp, b⟩
      · simp only [ctxColor_L] at hred
        subst hred
        have hz := h.read
        have hp := h.up_L.read
        have hg := h.up_L.up_L.read
        have hy := h.up_L.up_L.down_R.root_color
        rw [hu] at hy
        have hyc : ¬ (t.mem (rootAddr t.nil u)).color = RBTREE_RED := by rw [hy]; exact black_ne_red
        simp only [CtxNoRedRed_L, CtxNoRedRed_R, NoRedRed_node, rootColor_node, ctxColor_L,
          ctxColor_R, true_imp_iff, BH_red, CtxBH_L, CtxBH_R, red_ne_black, if_false]
          at isub ipath ibh1 ibh2
        have hcg : cg = RBTREE_BLACK := ipath.2.1.2
        subst hcg
        simp only [if_true] at ibh2
        have hzs := h.ne_sibling_L
        have r2 := (h.up_L.recolor RBTREE_BLACK).1
        have s2 := h.up_L.recolor_same RBTREE_BLACK
        have r3 := (r2.up_L.recolor RBTREE_RED).1
        have s3 := r2.up_L.recolor_same RBTREE_RED
        have r4 := r3.rot_right.1
        have s4 := r3.rot_right_same
        obtain ⟨t', e, res⟩ := insert_fixup_exit fuel r4.down_L rfl
          ((noRedRed_plug _ _).2 (by simp; tauto)) ((bh_plug _ _).2 ⟨bn, by simp; tauto⟩)
        refine ⟨t', _, ?_, res.rep, res.rb, ?_, ?_⟩
        · rw [rbtree_insert_fixup]
          simp only [hz, hp, hg, hyc, hzs, rootAddr_node, if_true, if_false,
            set_color_mem_parent, ctxParent_L, ctxParent_R]
          exact e
        · rw [res.nodes]
          simp only [plug_L, plug_R, nodes_plug, nodes, List.append_assoc, List.cons_append,
            List.nil_append]
        · exact (s2.trans (s3.trans s4)).trans res.same
      · simp only [ctxColor_R] at hred
        subst hred
        have hz := h.read
        have hp := h.up_R.read
        have hg := h.up_R.up_L.read
        have hy := h.up_R.up_L.down_R.root_color
        rw [hu] at hy
        have hyc : ¬ (t.mem (rootAddr t.nil u)).color = RBTREE_RED := by rw [hy]; exact black_ne_red
        simp only [CtxNoRedRed_L, CtxNoRedRed_R, NoRedRed_node, rootColor_node, ctxColor_L,
          ctxColor_R, true_imp_iff, BH_red, CtxBH_L, CtxBH_R, red_ne_black, if_false]
          at isub ipath ibh1 ibh2
        have hcg : cg = RBTREE_BLACK := ipath.2.1.2
        subst hcg
        simp only [if_true] at ibh2
        have r1 := h.up_R.rot_left.1
        have s1 := h.up_R.rot_left_same
        have hp1 := r1.down_L.read
        have hz1 := r1.read
        have r2 := (r1.recolor RBTREE_BLACK).1
        have s2 := r1.recolor_same RBTREE_BLACK
        have r3 := (r2.up_L.recolor RBTREE_RED).1
        have s3 := r2.up_L.recolor_same RBTREE_RED
        have r4 := r3.rot_right.1
        have s4 := r3.rot_right_same
        obtain ⟨t', e, res⟩ := insert_fixup_exit fuel r4.down_L rfl
          ((noRedRed_plug _ _).2 (by simp; tauto)) ((bh_plug _ _).2 ⟨bn, by simp; tauto⟩)
        refine ⟨t', _, ?_, res.rep, res.rb, ?_, ?_⟩
        · rw [rbtree_insert_fixup]
          simp only [hz, hp, hg, hyc, hp1, hz1, rootAddr_node, if_true, if_false,
            set_color_mem_parent, ctxParent_L, ctxParent_R]
          exact e
        · rw [res.nodes]
          simp only [plug_L, plug_R, nodes_plug, nodes, List.append_assoc, List.cons_append,
            List.nil_append]
        · exact (s1.trans (s2.trans (s3.trans s4))).trans res.same
  · -- the parent is a right child
    rcases color_cases (rootColor u) with hu | hu
    · -- RED uncle: recolour and move up two levels
      obtain ⟨y, ky, ul, ur, rfl⟩ := rootColor_red hu
      rcases f with ⟨p, cp, kp, b⟩ | ⟨p, cp, kp, b⟩
      · simp only [ctxColor_L] at hred
        subst hred
        have hz := h.read
        have hp := h.up_L.read
        have hg := h.up_L.up_R.read
        have hy := h.up_L.up_R.down_L.read
        have hne : p ≠ y := by simpa only [rootAddr_node] using h.up_L.ne_sibling_R
        have r1 := (h.up_L.recolor RBTREE_BLACK).1
        have r2 := (r1.up_R.down_L.recolor RBTREE_BLACK).1
        have r3 := (r2.up_L.recolor RBTREE_RED).1
        have s1 := h.up_L.recolor_same RBTREE_BLACK
        have s2 := r1.up_R.down_L.recolor_same RBTREE_BLACK
        have s3 := r2.up_L.recolor_same RBTREE_RED
        simp only [CtxNoRedRed_L, CtxNoRedRed_R, NoRedRed_node, rootColor_node, ctxColor_L,
          ctxColor_R, true_imp_iff, BH_red, CtxBH_L, CtxBH_R, red_ne_black, if_false]
          at isub ipath ibh1 ibh2
        have hcg : cg = RBTREE_BLACK := ipath.2.1.2
        subst hcg
        simp only [if_true] at ibh2
        obtain ⟨t', T', e, res⟩ := ih (rest.length) (by simp at hlen; omega) rest _ g kg
          (.node y RBTREE_BLACK ky ul ur) (.node p RBTREE_BLACK kp (.node z RBTREE_RED k l r) b)
          (fuel + 1) (le_refl _) (by simp at hlen; omega) r3
          ⟨by simp; tauto, by tauto, ⟨bn + 1, by simp; tauto, by tauto⟩,
            ctxRootColor_tail (ctxRootColor_tail iroot)⟩
        refine ⟨t', T', ?_, ?_⟩
        · rw [rbtree_insert_fixup]
          simp only [hz, hp, hg, hy, rootAddr_node, if_true, set_color_mem_parent, ctxParent_L,
            ctxParent_R, hne, if_false]
          exact e
        · refine ⟨res.rep, res.rb, ?_, (s1.trans (s2.trans s3)).trans res.same⟩
          rw [res.nodes]
          simp only [plug_L, plug_R, nodes_plug, nodes, List.append_assoc, List.cons_append,
            List.nil_append]
      · simp only [ctxColor_R] at hred
        subst hred
        have hz := h.read
        have hp := h.up_R.read
        have hg := h.up_R.up_R.read
        have hy := h.up_R.up_R.down_L.read
        have hne : p ≠ y := by simpa only [rootAddr_node] using h.up_R.ne_sibling_R
        have r1 := (h.up_R.recolor RBTREE_BLACK).1
        have r2 := (r1.up_R.down_L.recolor RBTREE_BLACK).1
        have r3 := (r2.up_L.recolor RBTREE_RED).1
        have s1 := h.up_R.recolor_same RBTREE_BLACK
        have s2 := r1.up_R.down_L.recolor_same RBTREE_BLACK
        have s3 := r2.up_L.recolor_same RBTREE_RED
        simp only [CtxNoRedRed_L, CtxNoRedRed_R, NoRedRed_node, rootColor_node, ctxColor_L,
          ctxColor_R, true_imp_iff, BH_red, CtxBH_L, CtxBH_R, red_ne_black, if_false]
          at isub ipath ibh1 ibh2
        have hcg : cg = RBTREE_BLACK := ipath.2.1.2
        subst hcg
        simp only [if_true] at ibh2
        obtain ⟨t', T', e, res⟩ := ih (rest.length) (by simp at hlen; omega) rest _ g kg
          (.node y RBTREE_BLACK ky ul ur) (.node p RBTREE_BLACK kp b (.node z RBTREE_RED k l r))
          (fuel + 1) (le_refl _) (by simp at hlen; omega) r3
          ⟨by simp; tauto, by tauto, ⟨bn + 1, by simp; tauto, by tauto⟩,
            ctxRootColor_tail (ctxRootColor_tail iroot)⟩
        refine ⟨t', T', ?_, ?_⟩
        · rw [rbtree_insert_fixup]
          simp only [hz, hp, hg, hy, rootAddr_node, if_true, set_color_mem_parent, ctxParent_L,
            ctxParent_R, hne, if_false]
          exact e
        · refine ⟨res.rep, res.rb, ?_, (s1.trans (s2.trans s3)).trans res.same⟩
          rw [res.nodes]
          simp only [plug_L, plug_R, nodes_plug, nodes, List.append_assoc, List.cons_append,
            List.nil_append]
    · -- BLACK uncle: one or two rotations
      rcases f with ⟨p, cp, kp, b⟩ | ⟨p, cp, kp, b⟩
      · simp only [ctxColor_L] at hred
        subst hred
        have hz := h.read
        have hp := h.up_L.read
        have hg := h.up_L.up_R.read
        have hy := h.up_L.up_R.down_L.root_color
        rw [hu] at hy
        have hyc : ¬ (t.mem (rootAddr t.nil u)).color = RBTREE_RED := by rw [hy]; exact black_ne_red
        have hne := h.up_L.ne_sibling_R
        simp only [CtxNoRedRed_L, CtxNoRedRed_R, NoRedRed_node, rootColor_node, ctxColor_L,
          ctxColor_R, true_imp_iff, BH_red, CtxBH_L, CtxBH_R, red_ne_black, if_false]
          at isub ipath ibh1 ibh2
        have hcg : cg = RBTREE_BLACK := ipath.2.1.2
        subst hcg
        simp only [if_true] at ibh2
        have r1 := h.up_L.rot_right.1
        have s1 := h.up_L.rot_right_same
        have hp1 := r1.down_R.read
        have hz1 := r1.read
        have r2 := (r1.recolor RBTREE_BLACK).1
        have s2 := r1.recolor_same RBTREE_BLACK
        have r3 := (r2.up_R.recolor RBTREE_RED).1
        have s3 := r2.up_R.recolor_same RBTREE_RED
        have r4 := r3.rot_left.1
        have s4 := r3.rot_left_same
        obtain ⟨t', e, res⟩ := insert_fixup_exit fuel r4.down_R rfl
          ((noRedRed_plug _ _).2 (by simp; tauto)) ((bh_plug _ _).2 ⟨bn, by simp; tauto⟩)
        refine ⟨t', _, ?_, res.rep, res.rb, ?_, ?_⟩
        · rw [rbtree_insert_fixup]
          simp only [hz, hp, hg, hyc, hp1, hz1, rootAddr_node, if_true, if_false,
            set_color_mem_parent, ctxParent_L, ctxParent_R, hne]
          exact e
        · rw [res.nodes]
          simp only [plug_L, plug_R, nodes_plug, nodes, List.append_assoc, List.cons_append,
            List.nil_append]
        · exact (s1.trans (s2.trans (s3.trans s4))).trans res.same
      · simp only [ctxColor_R] at hred
        subst hred
        have hz := h.read
        have hp := h.up_R.read
        have hg := h.up_R.up_R.read
        have hy := h.up_R.up_R.down_L.root_color
        rw [hu] at hy
        have hyc : ¬ (t.mem (rootAddr t.nil u)).color = RBTREE_RED := by rw [hy]; exact black_ne_red
        have hne := h.up_R.ne_sibling_R
        simp only [CtxNoRedRed_L, CtxNoRedRed_R, NoRedRed_node, rootColor_node, ctxColor_L,
          ctxColor_R, true_imp_iff, BH_red, CtxBH_L, CtxBH_R, red_ne_black, if_false]
          at isub ipath ibh1 ibh2
        have hcg : cg = RBTREE_BLACK := ipath.2.1.2
        subst hcg
        simp only [if_true] at ibh2
        have hzs := h.ne_sibling_R
        have r2 := (h.up_R.recolor RBTREE_BLACK).1
        have s2 := h.up_R.recolor_same RBTREE_BLACK
        have r3 := (r2.up_R.recolor RBTREE_RED).1
        have s3 := r2.up_R.recolor_same RBTREE_RED
        have r4 := r3.rot_left.1
        have s4 := r3.rot_left_same
        obtain ⟨t', e, res⟩ := insert_fixup_exit fuel r4.down_R rfl
          ((noRedRed_plug _ _).2 (by simp; tauto)) ((bh_plug _ _).2 ⟨bn, by simp; tauto⟩)
        refine ⟨t', _, ?_, res.rep, res.rb, ?_, ?_⟩
        · rw [rbtree_insert_fixup]
          simp only [hz, hp, hg, hyc, hzs, rootAddr_node, if_true, if_false,
            set_color_mem_parent, ctxParent_L, ctxParent_R, hne]
          exact e
        · rw [res.nodes]
          simp only [plug_L, plug_R, nodes_plug, nodes, List.append_assoc, List.cons_append,
            List.nil_append]
        · exact (s2.trans (s3.trans s4)).trans res.same

theorem plug_insCtx (key : Int) (s : Tree) (ctx : Ctx) :
    plug (insCtx key s ctx) .leaf = plug ctx s := by
  induction s generalizing ctx with
  | leaf => rfl
  | node a c k l r ihl ihr =>
    unfold insCtx
    split_ifs
    · rw [ihl]; rfl
    · rw [ihr]; rfl

theorem length_insCtx (key : Int) (s : Tree) (ctx : Ctx) :
    (insCtx key s ctx).length ≤ ctx.length + height s := by
  induction s generalizing ctx with
  | leaf => simp [insCtx]
  | node a c k l r ihl ihr =>
    unfold insCtx
    split_ifs
    · have := ihl (.L a c k r :: ctx); simp only [List.length_cons, height] at this ⊢; omega
    · have := ihr (.R a c k l :: ctx); simp only [List.length_cons, height] at this ⊢; omega

theorem insDir_insCtx (key : Int) (s : Tree) (ctx : Ctx) (h : InsDir key ctx) :
    InsDir key (insCtx key s ctx) := by
  induction s generalizing ctx with
  | leaf => exact h
  | node a c k l r ihl ihr =>
    unfold insCtx
    split_ifs with hk
    · exact ihl _ hk
    · exact ihr _ hk

/-- The descent loop of `rbtree_insert` ends at the parent of the link `insCtx` leads to. -/
theorem insert_descend_spec {t : rbtree} {z : Ptr} {key : Int} (hz : (t.mem z).key = key) :
    ∀ (s : Tree) (ctx : Ctx) (fuel : Nat), RepZ t ctx s → height s < fuel →
      insert_descend fuel t z (ctxParent t.nil ctx) (rootAddr t.nil s)
        = some (ctxParent t.nil (insCtx key s ctx)) := by
  intro s
  induction s with
  | leaf =>
    intro ctx fuel _ hf
    obtain ⟨fuel, rfl⟩ : ∃ f, fuel = f + 1 := ⟨fuel - 1, by omega⟩
    simp only [insert_descend, rootAddr_leaf, ne_eq, not_true_eq_false, if_false, insCtx]
  | node a c k l r ihl ihr =>
    intro ctx fuel h hf
    obtain ⟨fuel, rfl⟩ : ∃ f, fuel = f + 1 := ⟨fuel - 1, by omega⟩
    simp only [height] at hf
    have ha := h.read
    have hne := h.nil_ne
    rw [insert_descend]
    simp only [rootAddr_node, ne_eq, hne, not_false_eq_true, if_true, hz, ha]
    unfold insCtx
    split_ifs with hk
    · have := ihl (.L a c k r :: ctx) fuel h.down_L (by omega)
      simpa only [ctxParent_L] using this
    · have := ihr (.R a c k l :: ctx) fuel h.down_R (by omega)
      simpa only [ctxParent_R] using this

/-- A state that agrees with `t` on the tree and on the sentinel holds the same tree. -/
theorem Rep.frame_rep {t t' : rbtree} {T : Tree} (h : Rep t T) (hroot : t'.root = t.root)
    (hnil : t'.nil = t.nil) (hbrk : t.brk ≤ t'.brk)
    (hm : ∀ q ∈ t.nil :: addrs T, t'.mem q = t.mem q) : Rep t' T := by
  have hn : t'.mem t.nil = t.mem t.nil := hm _ (by simp)
  refine ⟨?_, ?_, ?_, ?_, ?_, ?_, ?_⟩
  · rw [hroot, hnil]; exact h.root
  · rw [hnil]; exact h.shape.frame (fun q hq => hm q (by simp [hq]))
  · rw [hnil]; exact h.nodup
  · rw [hnil]; intro a ha; exact lt_of_lt_of_le (h.bound a ha) hbrk
  · rw [hnil, hn]; exact h.nil_color
  · rw [hnil, hn]; exact h.nil_left
  · rw [hnil, hn]; exact h.nil_right

@[simp] theorem attach_nil (t : rbtree) (z y : Ptr) : (attach t z y).nil = t.nil := by
  unfold attach; simp only []; split_ifs <;> rfl

@[simp] theorem attach_brk (t : rbtree) (z y : Ptr) : (attach t z y).brk = t.brk := by
  unfold attach; simp only []; split_ifs <;> rfl

theorem RepZ.attach {t : rbtree} {ctx : Ctx} {z : Ptr} {key : Int} {junk : Ptr}
    (h : RepZ t ctx .leaf) (hz : t.mem z = ⟨RBTREE_RED, key, junk, t.nil, t.nil⟩)
    (hfresh : (z :: t.nil :: NULL :: ctxAddrs ctx).Nodup) (hlt : z < t.brk)
    (hdir : InsDir key ctx) :
    RepZ (attach t z (ctxParent t.nil ctx)) ctx (.node z RBTREE_RED key .leaf .leaf)
      ∧ (attach t z (ctxParent t.nil ctx)).mem t.nil = t.mem t.nil := by
  obtain ⟨hp, -, -, hb, hc, hl, hr⟩ := h
  have hnd' := hfresh
  rcases ctx with _ | ⟨(⟨p, cp, kp, S⟩ | ⟨p, cp, kp, S⟩), rest⟩
  · simp only [ctxAddrs_nil, List.nodup_cons, not_mem_cons_both, List.not_mem_nil,
      not_false_eq_true, and_true, List.nodup_nil] at hnd'
    simp only [ctxParent_nil]
    have E : RB.attach t z t.nil = set_root (set_parent t z t.nil) z := by
      simp only [RB.attach, set_parent_nil, if_true]
    have ez : (RB.attach t z t.nil).mem z = ⟨RBTREE_RED, key, t.nil, t.nil, t.nil⟩ := by
      simp only [E, set_root_mem, set_parent_mem, upd_same, hz]
    have enil : (RB.attach t z t.nil).mem t.nil = t.mem t.nil := by
      simp only [E, set_root_mem, set_parent_mem, upd_ne, hnd', ne_eq, not_false_eq_true]
    refine ⟨⟨?_, ?_, ?_, ?_, ?_, ?_, ?_⟩, enil⟩
    · simp only [CtxShape, attach_nil, rootAddr_node, E, set_root_root]
    · simp only [Shape, attach_nil, rootAddr_leaf, ctxParent_nil, ez, and_self]
    · simp only [attach_nil, addrs_node, addrs_leaf, ctxAddrs_nil, List.append_nil,
        List.nil_append, List.nodup_cons, not_mem_cons_both, List.not_mem_nil,
        not_false_eq_true, and_true, List.nodup_nil, hnd', and_self]
    · intro a ha
      simp only [attach_nil, addrs_node, addrs_leaf, ctxAddrs_nil, List.append_nil,
        List.nil_append, List.mem_cons, List.not_mem_nil, or_false] at ha
      rw [attach_brk]
      rcases ha with rfl | rfl
      · exact hb _ (by simp)
      · exact hlt
    · rw [attach_nil, enil]; exact hc
    · rw [attach_nil, enil]; exact hl
    · rw [attach_nil, enil]; exact hr
  · simp only [ctxAddrs_L, List.nodup_cons, List.nodup_append, List.mem_append,
      not_mem_cons_both, not_or, List.disjoint_cons_left, List.disjoint_cons_right,
      List.disjoint_append_left, List.disjoint_append_right, List.not_mem_nil,
      not_false_eq_true, and_true, true_and, List.nodup_nil] at hnd'
    simp only [CtxShape, rootAddr_leaf] at hp
    obtain ⟨hp0, hS, hrest⟩ := hp
    have hk : key < kp := hdir
    simp only [ctxParent_L]
    have E : RB.attach t z p = set_left (set_parent t z p) p z := by
      simp only [RB.attach, set_parent_nil, set_parent_mem, upd_same, upd_ne, hnd',
        ne_eq, not_false_eq_true, if_false, hz, hp0, hk, if_true]
    have ez : (RB.attach t z p).mem z = ⟨RBTREE_RED, key, p, t.nil, t.nil⟩ := by
      simp only [E, set_left_mem, set_parent_mem, upd_same, upd_ne, hnd', ne_eq,
        not_false_eq_true, hz]
    have ep : (RB.attach t z p).mem p = ⟨cp, kp, ctxParent t.nil rest, z, rootAddr t.nil S⟩ := by
      simp only [E, set_left_mem, set_parent_mem, upd_same, upd_ne, hnd', ne_eq,
        not_false_eq_true, hp0]
    have er : (RB.attach t z p).root = t.root := by
      simp only [E, set_left_root, set_parent_root]
    have hfr : ∀ q, q ∉ [z, p] → (RB.attach t z p).mem q = t.mem q := by
      intro q hq
      simp only [not_mem_cons_both, List.not_mem_nil, not_false_eq_true, and_true] at hq
      simp only [E, set_left_mem, set_parent_mem, upd_ne, hq, ne_eq, not_false_eq_true]
    have enil : (RB.attach t z p).mem t.nil = t.mem t.nil :=
      hfr t.nil (by simp only [not_mem_cons_both, List.not_mem_nil, hnd', not_false_eq_true,
        and_self])
    refine ⟨⟨?_, ?_, ?_, ?_, ?_, ?_, ?_⟩, enil⟩
    · simp only [CtxShape, attach_nil, rootAddr_node, er]
      refine ⟨ep, hS.frame (frame_of_disjoint hfr ?_), hrest.frame_ctx (frame_of_disjoint hfr ?_)⟩
      all_goals simp only [List.disjoint_cons_right, List.disjoint_nil_right, hnd',
        not_false_eq_true, and_self]
    · simp only [Shape, attach_nil, rootAddr_leaf, ctxParent_L, ez, and_self]
    · simp only [attach_nil, addrs_node, addrs_leaf, ctxAddrs_L, List.append_nil,
        List.nil_append, List.nodup_cons, List.nodup_append, List.mem_append,
        not_mem_cons_both, not_or, List.disjoint_cons_left, List.disjoint_cons_right,
        List.disjoint_append_left, List.disjoint_append_right, List.not_mem_nil,
        not_false_eq_true, and_true, List.nodup_nil, hnd', and_self, List.cons_append,
        List.mem_cons]
    · intro a ha
      simp only [attach_nil, addrs_node, addrs_leaf, List.append_nil,
        List.nil_append, List.mem_cons, List.cons_append] at ha
      rw [attach_brk]
      rcases ha with rfl | rfl | ha
      · exact hb _ (by simp)
      · exact hlt
      · exact hb _ (by simp only [addrs_leaf, List.nil_append, List.mem_cons]; exact Or.inr ha)
    · rw [attach_nil, enil]; exact hc
    · rw [attach_nil, enil]; exact hl
    · rw [attach_nil, enil]; exact hr
  · simp only [ctxAddrs_R, List.nodup_cons, List.nodup_append, List.mem_append,
      not_mem_cons_both, not_or, List.disjoint_cons_left, List.disjoint_cons_right,
      List.disjoint_append_left, List.disjoint_append_right, List.not_mem_nil,
      not_false_eq_true, and_true, true_and, List.nodup_nil] at hnd'
    simp only [CtxShape, rootAddr_leaf] at hp
    obtain ⟨hp0, hS, hrest⟩ := hp
    have hk : ¬ key < kp := hdir
    simp only [ctxParent_R]
    have E : RB.attach t z p = set_right (set_parent t z p) p z := by
      simp only [RB.attach, set_parent_nil, set_parent_mem, upd_same, upd_ne, hnd',
        ne_eq, not_false_eq_true, if_false, hz, hp0, hk, if_true]
    have ez : (RB.attach t z p).mem z = ⟨RBTREE_RED, key, p, t.nil, t.nil⟩ := by
      simp only [E, set_right_mem, set_parent_mem, upd_same, upd_ne, hnd', ne_eq,
        not_false_eq_true, hz]
    have ep : (RB.attach t z p).mem p = ⟨cp, kp, ctxParent t.nil rest, rootAddr t.nil S, z⟩ := by
      simp only [E, set_right_mem, set_parent_mem, upd_same, upd_ne, hnd', ne_eq,
        not_false_eq_true, hp0]
    have er : (RB.attach t z p).root = t.root := by
      simp only [E, set_right_root, set_parent_root]
    have hfr : ∀ q, q ∉ [z, p] → (RB.attach t z p).mem q = t.mem q := by
      intro q hq
      simp only [not_mem_cons_both, List.not_mem_nil, not_false_eq_true, and_true] at hq
      simp only [E, set_right_mem, set_parent_mem, upd_ne, hq, ne_eq, not_false_eq_true]
    have enil : (RB.attach t z p).mem t.nil = t.mem t.nil :=
      hfr t.nil (by simp only [not_mem_cons_both, List.not_mem_nil, hnd', not_false_eq_true,
        and_self])
    refine ⟨⟨?_, ?_, ?_, ?_, ?_, ?_, ?_⟩, enil⟩
    · simp only [CtxShape, attach_nil, rootAddr_node, er]
      refine ⟨ep, hS.frame (frame_of_disjoint hfr ?_), hrest.frame_ctx (frame_of_disjoint hfr ?_)⟩
      all_goals simp only [List.disjoint_cons_right, List.disjoint_nil_right, hnd',
        not_false_eq_true, and_self]
    · simp only [Shape, attach_nil, rootAddr_leaf, ctxParent_R, ez, and_self]
    · simp only [attach_nil, addrs_node, addrs_leaf, ctxAddrs_R, List.append_nil,
        List.nil_append, List.nodup_cons, List.nodup_append, List.mem_append,
        not_mem_cons_both, not_or, List.disjoint_cons_left, List.disjoint_cons_right,
        List.disjoint_append_left, List.disjoint_append_right, List.not_mem_nil,
        not_false_eq_true, and_true, List.nodup_nil, hnd', and_self, List.cons_append,
        List.mem_cons]
    · intro a ha
      simp only [attach_nil, addrs_node, addrs_leaf, List.append_nil,
        List.nil_append, List.mem_cons, List.cons_append] at ha
      rw [attach_brk]
      rcases ha with rfl | rfl | ha
      · exact hb _ (by simp)
      · exact hlt
      · exact hb _ (by simp only [addrs_leaf, List.nil_append, List.mem_cons]; exact Or.inr ha)
    · rw [attach_nil, enil]; exact hc
    · rw [attach_nil, enil]; exact hl
    · rw [attach_nil, enil]; exact hr

theorem alloc_node_mem_new (t : rbtree) (key : Int) :
    (alloc_node t key).mem t.brk = ⟨RBTREE_RED, key, (t.mem t.brk).parent, t.nil, t.nil⟩ := by
  simp only [alloc_node, malloc, set_color_mem, set_left_mem, set_right_mem, set_key_mem,
    upd_same, set_right_nil, set_key_nil]

theorem alloc_node_mem_old (t : rbtree) (key : Int) {q : Ptr} (hq : q ≠ t.brk) :
    (alloc_node t key).mem q = t.mem q := by
  simp only [alloc_node, malloc, set_color_mem, set_left_mem, set_right_mem, set_key_mem,
    upd_ne hq]

@[simp] theorem alloc_node_nil (t : rbtree) (key : Int) : (alloc_node t key).nil = t.nil := rfl

@[simp] theorem alloc_node_root (t : rbtree) (key : Int) : (alloc_node t key).root = t.root := rfl

@[simp] theorem alloc_node_brk (t : rbtree) (key : Int) :
    (alloc_node t key).brk = t.brk + 1 := rfl

theorem rbtree_insert_eq (fuel : Nat) (t : rbtree) (key : Int) :
    rbtree_insert fuel t key =
      match insert_descend fuel (alloc_node t key) t.brk t.nil t.root with
      | none => none
      | some y =>
        match rbtree_insert_fixup fuel (attach (alloc_node t key) t.brk y) t.brk with
        | none => none
        | some t' => some (t', t.brk) := rfl

theorem Rep.alloc_node {t : rbtree} {T : Tree} (h : Rep t T) (key : Int) :
    Rep (alloc_node t key) T := by
  refine h.frame_rep rfl rfl (Nat.le_succ _) ?_
  intro q hq
  exact alloc_node_mem_old t key (Nat.ne_of_lt (h.bound q hq))

theorem Rep.fresh {t : rbtree} {T : Tree} (h : Rep t T) :
    (t.brk :: t.nil :: NULL :: addrs T).Nodup := by
  refine List.nodup_cons.2 ⟨?_, h.nodup⟩
  intro hm
  simp only [List.mem_cons] at hm
  rcases hm with e | e | e
  · exact absurd (h.bound t.nil (by simp)) (by rw [← e]; exact lt_irrefl _)
  · have := h.bound t.nil (by simp)
    rw [e] at this
    exact absurd this (by simp [NULL])
  · exact absurd (h.bound t.brk (by simp [e])) (lt_irrefl _)

/-- The state `rbtree_insert` hands to `rbtree_insert_fixup`: the descent ends at the parent
of the insertion position, and the new RED record hangs there, in a tree that is red-black
but for the colour of that parent. -/
theorem insert_handoff (fuel : Nat) (t : rbtree) (T : Tree) (key : Int)
    (hrep : Rep t T) (hrb : RBProps T) (hf : height T + 2 ≤ fuel) :
    insert_descend fuel (alloc_node t key) t.brk t.nil t.root
        = some (ctxParent t.nil (insCtx key T []))
      ∧ RepZ (attach (alloc_node t key) t.brk (ctxParent t.nil (insCtx key T [])))
          (insCtx key T []) (.node t.brk RBTREE_RED key .leaf .leaf)
      ∧ (attach (alloc_node t key) t.brk (ctxParent t.nil (insCtx key T []))).mem t.nil
          = (alloc_node t key).mem t.nil
      ∧ InsInv (insCtx key T []) (.node t.brk RBTREE_RED key .leaf .leaf)
      ∧ (insCtx key T []).length ≤ height T := by
  have h0 : Rep (alloc_node t key) (plug (insCtx key T []) .leaf) := by
    rw [plug_insCtx]; exact hrep.alloc_node key
  have hz0 : RepZ (alloc_node t key) [] T := (rep_iff_repZ _ _).1 (hrep.alloc_node key)
  have hdesc := @insert_descend_spec (alloc_node t key) t.brk key
    (by rw [alloc_node_mem_new]) T [] fuel hz0 (by omega)
  simp only [ctxParent_nil, alloc_node_nil] at hdesc
  have hroot : t.root = rootAddr t.nil T := hrep.root
  rw [← hroot] at hdesc
  have hz1 : RepZ (alloc_node t key) (insCtx key T []) .leaf := h0.toRepZ
  have hfresh : (t.brk :: t.nil :: NULL :: ctxAddrs (insCtx key T [])).Nodup := by
    have hp := addrs_plug_perm (insCtx key T []) .leaf
    rw [plug_insCtx] at hp
    simp only [plug_nil, addrs_leaf, List.nil_append] at hp
    exact (List.Perm.nodup_iff (((hp.cons _).cons _).cons _)).1 hrep.fresh
  have hlt : t.brk < (alloc_node t key).brk := Nat.lt_succ_self _
  obtain ⟨hatt, hattnil⟩ := hz1.attach (alloc_node_mem_new t key) hfresh hlt
    (insDir_insCtx key T [] trivial)
  simp only [alloc_node_nil] at hatt hattnil
  -- the loop invariant holds for the new record
  have hT : plug (insCtx key T []) .leaf = T := plug_insCtx key T []
  have inv : InsInv (insCtx key T []) (.node t.brk RBTREE_RED key .leaf .leaf) := by
    have h1 := hrb.no_red_red
    have h2 := hrb.black_height
    have h3 := hrb.root_black
    rw [← hT] at h1 h2 h3
    rw [noRedRed_plug] at h1
    rw [bh_plug] at h2
    obtain ⟨n, hn1, hn2⟩ := h2
    simp only [BH_leaf] at hn1
    subst hn1
    refine ⟨by simp, h1.2.1, ⟨0, by simp, hn2⟩, ?_⟩
    cases hctx : insCtx key T [] with
    | nil => rfl
    | cons f rest => rw [hctx, rootColor_plug_cons] at h3; exact h3
  have hlen := length_insCtx key T []
  simp only [List.length_nil, Nat.zero_add] at hlen
  exact ⟨hdesc, hatt, hattnil, inv, hlen⟩

/-- What one call of `rbtree_insert` on a red-black tree does, with the sentinel's record
left as it was. -/
theorem rbtree_insert_full (fuel : Nat) (t : rbtree) (T : Tree) (key : Int)
    (hrep : Rep t T) (hrb : RBProps T) (hf : height T + 2 ≤ fuel) :
    ∃ t' T', rbtree_insert fuel t key = some (t', t.brk)
      ∧ Rep t' T' ∧ RBProps T' ∧ nodes T' = nodes (insTree key t.brk T)
      ∧ t'.nil = t.nil ∧ t'.brk = t.brk + 1 ∧ t'.mem t.nil = t.mem t.nil := by
  obtain ⟨hdesc, hatt, hattnil, inv, hlen⟩ := insert_handoff fuel t T key hrep hrb hf
  obtain ⟨t', T', e, res⟩ := insert_fixup_spec (height T) (insCtx key T []) _ t.brk key
    .leaf .leaf fuel hlen hf hatt inv
  refine ⟨t', T', ?_, res.rep, res.rb, res.nodes, ?_, ?_, ?_⟩
  · rw [rbtree_insert_eq, hdesc]
    simp only [e]
  · rw [res.same.nil, attach_nil, alloc_node_nil]
  · rw [res.same.brk, attach_brk, alloc_node_brk]
  · have hm := res.same.mem_nil
    simp only [attach_nil, alloc_node_nil] at hm
    rw [hm, hattnil]
    exact alloc_node_mem_old t key (Nat.ne_of_lt (hrep.bound t.nil (by simp)))

/-- What one call of `rbtree_insert` on a red-black tree does. -/
theorem rbtree_insert_spec (fuel : Nat) (t : rbtree) (T : Tree) (key : Int)
    (hrep : Rep t T) (hrb : RBProps T) (hf : height T + 2 ≤ fuel) :
    ∃ t' T', rbtree_insert fuel t key = some (t', t.brk)
      ∧ Rep t' T' ∧ RBProps T' ∧ nodes T' = nodes (insTree key t.brk T)
      ∧ t'.nil = t.nil ∧ t'.brk = t.brk + 1 := by
  obtain ⟨t', T', h1, h2, h3, h4, h5, h6, _⟩ := rbtree_insert_full fuel t T key hrep hrb hf
  exact ⟨t', T', h1, h2, h3, h4, h5, h6⟩

theorem CtxShape.root_mem {m : Ptr → node_t} {nil root : Ptr} {f : Frame} {rest : Ctx}
    {hole : Ptr} (h : CtxShape m nil root (f :: rest) hole) : root ∈ ctxAddrs (f :: rest) := by
  induction rest generalizing f hole with
  | nil =>
    cases f with
    | L a c k r => have := h.2.2; simp only [CtxShape] at this; simp [this]
    | R a c k l => have := h.2.2; simp only [CtxShape] at this; simp [this]
  | cons g rest ih =>
    cases f with
    | L a c k r =>
      have := ih h.2.2
      simp only [ctxAddrs_L, List.mem_cons, List.mem_append]
      exact Or.inr (Or.inr this)
    | R a c k l =>
      have := ih h.2.2
      simp only [ctxAddrs_R, List.mem_cons, List.mem_append]
      exact Or.inr (Or.inr this)

/-- A position below the root is not the root. -/
theorem RepZ.ne_root {t : rbtree} {f : Frame} {rest : Ctx} {s : Tree}
    (h : RepZ t (f :: rest) s) : rootAddr t.nil s ≠ t.root := by
  have hr := h.path.root_mem
  have hnil : t.nil ∉ NULL :: (addrs s ++ ctxAddrs (f :: rest)) := (List.nodup_cons.1 h.nodup).1
  have hdis : (addrs s).Disjoint (ctxAddrs (f :: rest)) :=
    List.disjoint_of_nodup_append (List.nodup_cons.1 (List.nodup_cons.1 h.nodup).2).2
  cases s with
  | leaf =>
    simp only [rootAddr_leaf]
    intro e
    rw [← e] at hr
    exact hnil (List.mem_cons_of_mem _ (List.mem_append_right _ hr))
  | node a c k l r =>
    simp only [rootAddr_node]
    intro e
    rw [← e] at hr
    exact hdis (by simp) hr

/-- The pointer at a position is none of the records on the path above it. -/
theorem RepZ.hole_ne {t : rbtree} {ctx : Ctx} {s : Tree} (h : RepZ t ctx s) {q : Ptr}
    (hq : q ∈ ctxAddrs ctx) : rootAddr t.nil s ≠ q := by
  have hnil : t.nil ∉ NULL :: (addrs s ++ ctxAddrs ctx) := (List.nodup_cons.1 h.nodup).1
  have hdis : (addrs s).Disjoint (ctxAddrs ctx) :=
    List.disjoint_of_nodup_append (List.nodup_cons.1 (List.nodup_cons.1 h.nodup).2).2
  cases s with
  | leaf =>
    simp only [rootAddr_leaf]
    intro e
    rw [← e] at hq
    exact hnil (List.mem_cons_of_mem _ (List.mem_append_right _ hq))
  | node a c k l r =>
    simp only [rootAddr_node]
    intro e
    rw [← e] at hq
    exact hdis (by simp) hq

/-- The parent link stored at the pointer that stands for a subtree; for the sentinel it is
whatever was written there last. -/
theorem RepZ.hole_parent {t : rbtree} {ctx : Ctx} {s : Tree} (h : RepZ t ctx s)
    (hn : s = .leaf → (t.mem t.nil).parent = ctxParent t.nil ctx) :
    (t.mem (rootAddr t.nil s)).parent = ctxParent t.nil ctx := by
  cases s with
  | leaf => exact hn rfl
  | node a c k l r => rw [rootAddr_node, h.read]

theorem ctxRootColor_swap {f g : Frame} {rest : Ctx}
    (h : ctxRootColor (f :: rest) = RBTREE_BLACK) (hg : g.color = RBTREE_BLACK) :
    ctxRootColor (g :: rest) = RBTREE_BLACK := by
  cases rest with
  | nil => exact hg
  | cons g' rest => exact h

theorem SameNil.parent {t t' : rbtree} (h : SameNil t t') :
    (t'.mem t'.nil).parent = (t.mem t.nil).parent := by
  rw [h.nil, h.mem_nil]

theorem BH_succ_node {W : Tree} {n : Nat} (h : BH W (n + 1)) :
    ∃ w cw kw wl wr, W = .node w cw kw wl wr := by
  cases W with
  | leaf => simp at h
  | node w cw kw wl wr => exact ⟨w, cw, kw, wl, wr, rfl⟩

theorem rootColor_black_node {W : Tree} {n : Nat} (h : BH W (n + 1))
    (hc : rootColor W = RBTREE_BLACK) :
    ∃ w kw wl wr, W = .node w RBTREE_BLACK kw wl wr := by
  cases W with
  | leaf => simp at h
  | node w cw kw wl wr =>
    simp only [rootColor_node] at hc
    subst hc
    exact ⟨w, kw, wl, wr, rfl⟩

/-- Leaving the loop of `rbtree_delete_fixup` at the root. -/
theorem delete_fixup_exit_root {t : rbtree} {T : Tree} (fuel : Nat) (h : Rep t T)
    (h1 : NoRedRed (blacken T)) (h2 : ∃ n, BH T n) :
    ∃ t', rbtree_delete_fixup (fuel + 1) t t.root = some t'
      ∧ DelResult t T t' (blacken T) := by
  refine ⟨set_color t t.root RBTREE_BLACK, ?_, ?_⟩
  · rw [rbtree_delete_fixup]
    simp only [ne_eq, not_true_eq_false, false_and, if_false]
  · exact ⟨h.blacken_root.1, RBProps.blacken h1 h2, nodes_blacken _, h.blacken_root_same⟩

/-- Leaving the loop of `rbtree_delete_fixup` at a RED record. -/
theorem delete_fixup_exit_red {t : rbtree} {ctx : Ctx} {x : Ptr} {k : Int} {l r : Tree}
    (fuel : Nat) (h : RepZ t ctx (.node x RBTREE_RED k l r))
    (h1 : NoRedRed (plug ctx (.node x RBTREE_BLACK k l r)))
    (h2 : ∃ n, BH (plug ctx (.node x RBTREE_BLACK k l r)) n)
    (h3 : rootColor (plug ctx (.node x RBTREE_BLACK k l r)) = RBTREE_BLACK) :
    ∃ t', rbtree_delete_fixup (fuel + 1) t x = some t'
      ∧ DelResult t (plug ctx (.node x RBTREE_RED k l r)) t'
          (plug ctx (.node x RBTREE_BLACK k l r)) := by
  refine ⟨set_color t x RBTREE_BLACK, ?_, ?_⟩
  · rw [rbtree_delete_fixup]
    simp only [h.read, red_ne_black, and_false, if_false]
  · refine ⟨(h.recolor RBTREE_BLACK).1.toRep, ⟨h3, h1, h2⟩, ?_, h.recolor_same _⟩
    simp only [nodes_plug, nodes]

set_option maxHeartbeats 1600000 in
theorem delete_fixup_spec : ∀ (n : Nat) (ctx : Ctx) (t : rbtree) (s : Tree) (fuel : Nat),
    ctx.length ≤ n → n + 2 ≤ fuel → RepZ t ctx s →
    (s = .leaf → (t.mem t.nil).parent = ctxParent t.nil ctx) → DelInv ctx s →
    ∃ t' T', rbtree_delete_fixup fuel t (rootAddr t.nil s) = some t'
      ∧ DelResult t (plug ctx s) t' T' := by
  intro n
  induction n using Nat.strong_induction_on with
  | _ n ih =>
  intro ctx t s fuel hlen hfuel h hn inv
  obtain ⟨fuel, rfl⟩ : ∃ f, fuel = f + 1 := ⟨fuel - 1, by omega⟩
  obtain ⟨isub, ipath, ⟨bn, ibh1, ibh2⟩, iroot⟩ := inv
  rcases ctx with _ | ⟨f, rest⟩
  · -- x is the root
    have hr : t.root = rootAddr t.nil s := h.path
    obtain ⟨t', e, res⟩ := delete_fixup_exit_root fuel ((rep_iff_repZ _ _).2 h) isub ⟨bn, ibh1⟩
    rw [hr] at e
    exact ⟨t', _, e, res⟩
  rcases color_cases (rootColor s) with hsr | hsb
  · -- x is RED
    obtain ⟨x, k, l, r, rfl⟩ := rootColor_red hsr
    obtain ⟨t', e, res⟩ := delete_fixup_exit_red fuel h
      ((noRedRed_plug _ _).2 ⟨isub, ipath, by simp⟩)
      ((bh_plug _ _).2 ⟨bn + 1, by simpa using ibh1, ibh2⟩)
      (by rw [rootColor_plug_cons]; exact iroot)
    exact ⟨t', _, e, res⟩
  -- x is BLACK and not the root
  rw [blacken_of_black hsb] at isub
  obtain ⟨fuel, rfl⟩ : ∃ f, fuel = f + 1 := ⟨fuel - 1, by simp at hlen; omega⟩
  have hxr := h.ne_root
  have hxc := h.root_color
  rw [hsb] at hxc
  rcases f with ⟨p, cp, kp, W⟩ | ⟨p, cp, kp, W⟩
  · -- x is a left child
    obtain ⟨w, cw, kw, wl, wr, rfl⟩ := BH_succ_node (n := bn) (by simpa using ibh2.1)
    rcases color_cases cw with rfl | rfl
    · -- RED sibling: recolour, rotate the parent, go on with the new sibling
      have hcp : cp = RBTREE_BLACK := by
        rcases color_cases cp with rfl | rfl
        · simp at ipath
        · rfl
      subst hcp
      simp only [CtxNoRedRed_L, CtxNoRedRed_R, NoRedRed_node, rootColor_node, ctxColor_L,
        ctxColor_R, true_imp_iff, BH_red, BH_black_succ, CtxBH_L, CtxBH_R, red_ne_black, black_ne_red,
        false_imp_iff, true_and, if_false, if_true] at isub ipath ibh1 ibh2
      obtain ⟨w2, k2, a2, b2, rfl⟩ := rootColor_black_node (n := bn) (by tauto) (by tauto) (W := wl)
      simp only [CtxNoRedRed_L, CtxNoRedRed_R, NoRedRed_node, rootColor_node, ctxColor_L,
        ctxColor_R, true_imp_iff, BH_red, BH_black_succ, CtxBH_L, CtxBH_R, red_ne_black, black_ne_red,
        false_imp_iff, true_and, if_false, if_true] at isub ipath ibh1 ibh2
      have hxp0 := h.hole_parent hn
      have hp0 := h.up_L.read
      have hw0 := h.up_L.down_R.read
      simp only [left_rotate_nil, right_rotate_nil, set_color_nil, rootAddr_node, ctxParent_L, ctxParent_R, rootColor_node] at hxp0 hp0 hw0
      have rA1 := (h.up_L.down_R.recolor RBTREE_BLACK).1
      have sA1 := h.up_L.down_R.recolor_same RBTREE_BLACK
      have rA2 := (rA1.up_R.recolor RBTREE_RED).1
      have sA2 := rA1.up_R.recolor_same RBTREE_RED
      have rA3 := rA2.rot_left.1
      have sA3 := rA2.rot_left_same
      have hA := rA3.down_L.down_L
      have sA := sA1.trans (sA2.trans sA3)
      rcases color_cases (rootColor b2) with hfar | hfar
      · -- RED far child
        obtain ⟨v, kv, vl, vr, rfl⟩ := rootColor_red hfar
        simp only [CtxNoRedRed_L, CtxNoRedRed_R, NoRedRed_node, rootColor_node, ctxColor_L,
          ctxColor_R, true_imp_iff, BH_red, BH_black_succ, CtxBH_L, CtxBH_R, red_ne_black, black_ne_red,
          false_imp_iff, true_and, if_false, if_true] at isub ipath ibh1 ibh2
        have hxp1 := hA.hole_parent (fun e => by rw [sA.parent]; exact hn e)
        have hp1 := hA.up_L.read
        have hw1 := hA.up_L.down_R.read
        have hwl1 := hA.up_L.down_R.down_L.root_color
        have hwr1 := hA.up_L.down_R.down_R.root_color
        simp only [left_rotate_nil, right_rotate_nil, set_color_nil, rootAddr_node, ctxParent_L, ctxParent_R, rootColor_node] at hxp1 hp1 hw1 hwl1 hwr1
        have hv := hA.up_L.down_R.down_R.read
        have r1 := (hA.up_L.down_R.recolor RBTREE_RED).1
        have s1 := hA.up_L.down_R.recolor_same RBTREE_RED
        have r2 := (r1.up_R.recolor RBTREE_BLACK).1
        have s2 := r1.up_R.recolor_same RBTREE_BLACK
        have r3 := (r2.down_R.down_R.recolor RBTREE_BLACK).1
        have s3 := r2.down_R.down_R.recolor_same RBTREE_BLACK
        have r4 := r3.up_R.up_R.rot_left.1
        have s4 := r3.up_R.up_R.rot_left_same
        obtain ⟨t', e, res⟩ := delete_fixup_exit_root fuel r4.toRep
          (NoRedRed.blacken_nrr ((noRedRed_plug _ _).2 (by simp; tauto)))
          ((bh_plug _ _).2 ⟨bn + 1, by simp; tauto⟩)
        refine ⟨t', _, ?_, res.rep, res.rb, ?_, ?_⟩
        · rw [rbtree_delete_fixup]
          simp only [hxr, hxc, hxp0, hp0, hw0, hxp1, hp1, hw1, hwl1, hwr1, hv,
                    rootAddr_node, ctxParent_L, ctxParent_R, ne_eq, not_false_eq_true, not_true_eq_false, true_and, and_true,
                    and_false, false_and, and_self, if_true, if_false, red_ne_black, black_ne_red, set_color_mem_parent,
                    set_color_mem_left, set_color_mem_right, left_rotate_nil, right_rotate_nil, set_color_nil]
          exact e
        · rw [res.nodes]
          simp only [plug_L, plug_R, nodes_plug, nodes, List.append_assoc, List.cons_append,
                    List.nil_append]
        · exact sA.trans (s1.trans (s2.trans (s3.trans (s4.trans (res.same)))))
      · rcases color_cases (rootColor a2) with hnear | hnear
        · -- BLACK far child, RED near child
          obtain ⟨u, ku, ul, ur, rfl⟩ := rootColor_red hnear
          simp only [CtxNoRedRed_L, CtxNoRedRed_R, NoRedRed_node, rootColor_node, ctxColor_L,
            ctxColor_R, true_imp_iff, BH_red, BH_black_succ, CtxBH_L, CtxBH_R, red_ne_black, black_ne_red,
            false_imp_iff, true_and, if_false, if_true] at isub ipath ibh1 ibh2
          have hxp1 := hA.hole_parent (fun e => by rw [sA.parent]; exact hn e)
          have hp1 := hA.up_L.read
          have hw1 := hA.up_L.down_R.read
          have hwl1 := hA.up_L.down_R.down_L.root_color
          have hwr1 := hA.up_L.down_R.down_R.root_color
          simp only [left_rotate_nil, right_rotate_nil, set_color_nil, rootAddr_node, ctxParent_L, ctxParent_R, rootColor_node] at hxp1 hp1 hw1 hwl1 hwr1
          rw [hfar] at hwr1
          have hu := hA.up_L.down_R.down_L.read
          have r1 := (hA.up_L.down_R.down_L.recolor RBTREE_BLACK).1
          have s1 := hA.up_L.down_R.down_L.recolor_same RBTREE_BLACK
          have r2 := (r1.up_L.recolor RBTREE_RED).1
          have s2 := r1.up_L.recolor_same RBTREE_RED
          have r3 := r2.rot_right.1
          have s3 := r2.rot_right_same
          have hxp3 := r3.up_R.down_L.hole_parent (fun e => by rw [(sA.trans (s1.trans (s2.trans (s3)))).parent]; exact hn e)
          have hp3 := r3.up_R.read
          have hu3 := r3.read
          simp only [left_rotate_nil, right_rotate_nil, set_color_nil, rootAddr_node, ctxParent_L, ctxParent_R, rootColor_node] at hxp3 hp3 hu3
          have r4 := (r3.recolor RBTREE_RED).1
          have s4 := r3.recolor_same RBTREE_RED
          have r5 := (r4.up_R.recolor RBTREE_BLACK).1
          have s5 := r4.up_R.recolor_same RBTREE_BLACK
          have r6 := (r5.down_R.down_R.recolor RBTREE_BLACK).1
          have s6 := r5.down_R.down_R.recolor_same RBTREE_BLACK
          have r7 := r6.up_R.up_R.rot_left.1
          have s7 := r6.up_R.up_R.rot_left_same
          obtain ⟨t', e, res⟩ := delete_fixup_exit_root fuel r7.toRep
            (NoRedRed.blacken_nrr ((noRedRed_plug _ _).2 (by simp; tauto)))
            ((bh_plug _ _).2 ⟨bn + 1, by simp; tauto⟩)
          refine ⟨t', _, ?_, res.rep, res.rb, ?_, ?_⟩
          · rw [rbtree_delete_fixup]
            simp only [hxr, hxc, hxp0, hp0, hw0, hxp1, hp1, hw1, hwl1, hwr1, hu, hxp3, hp3, hu3,
                      rootAddr_node, ctxParent_L, ctxParent_R, ne_eq, not_false_eq_true, not_true_eq_false, true_and, and_true,
                      and_false, false_and, and_self, if_true, if_false, red_ne_black, black_ne_red, set_color_mem_parent,
                      set_color_mem_left, set_color_mem_right, left_rotate_nil, right_rotate_nil, set_color_nil]
            exact e
          · rw [res.nodes]
            simp only [plug_L, plug_R, nodes_plug, nodes, List.append_assoc, List.cons_append,
                      List.nil_append]
          · exact sA.trans (s1.trans (s2.trans (s3.trans (s4.trans (s5.trans (s6.trans (s7.trans (res.same))))))))
        · -- both children of the sibling are BLACK
          have hxp1 := hA.hole_parent (fun e => by rw [sA.parent]; exact hn e)
          have hp1 := hA.up_L.read
          have hw1 := hA.up_L.down_R.read
          have hwl1 := hA.up_L.down_R.down_L.root_color
          have hwr1 := hA.up_L.down_R.down_R.root_color
          simp only [left_rotate_nil, right_rotate_nil, set_color_nil, rootAddr_node, ctxParent_L, ctxParent_R, rootColor_node] at hxp1 hp1 hw1 hwl1 hwr1
          simp only [hnear, hfar] at hwl1 hwr1
          have r1 := (hA.up_L.down_R.recolor RBTREE_RED).1
          have s1 := hA.up_L.down_R.recolor_same RBTREE_RED
          obtain ⟨t', e, res⟩ := delete_fixup_exit_red fuel r1.up_R
            ((noRedRed_plug _ _).2 (by simp; tauto)) ((bh_plug _ _).2 ⟨bn + 1, by simp; tauto⟩)
            (by rw [rootColor_plug_cons]; exact ctxRootColor_swap iroot rfl)
          refine ⟨t', _, ?_, res.rep, res.rb, ?_, ?_⟩
          · rw [rbtree_delete_fixup]
            simp only [hxr, hxc, hxp0, hp0, hw0, hxp1, hp1, hw1, hwl1, hwr1,
                      rootAddr_node, ctxParent_L, ctxParent_R, ne_eq, not_false_eq_true, not_true_eq_false, true_and, and_true,
                      and_false, false_and, and_self, if_true, if_false, red_ne_black, black_ne_red, set_color_mem_parent,
                      set_color_mem_left, set_color_mem_right, left_rotate_nil, right_rotate_nil, set_color_nil]
            exact e
          · rw [res.nodes]
            simp only [plug_L, plug_R, nodes_plug, nodes, List.append_assoc, List.cons_append,
                      List.nil_append]
          · exact sA.trans (s1.trans (res.same))

    · -- BLACK sibling
      rcases color_cases cp with rfl | rfl
      · simp only [CtxNoRedRed_L, CtxNoRedRed_R, NoRedRed_node, rootColor_node, ctxColor_L,
          ctxColor_R, true_imp_iff, BH_red, BH_black_succ, CtxBH_L, CtxBH_R, red_ne_black, black_ne_red,
          false_imp_iff, true_and, if_false, if_true] at isub ipath ibh1 ibh2
        rcases color_cases (rootColor wr) with hfar | hfar
        · -- RED far child
          obtain ⟨v, kv, vl, vr, rfl⟩ := rootColor_red hfar
          simp only [CtxNoRedRed_L, CtxNoRedRed_R, NoRedRed_node, rootColor_node, ctxColor_L,
            ctxColor_R, true_imp_iff, BH_red, BH_black_succ, CtxBH_L, CtxBH_R, red_ne_black, black_ne_red,
            false_imp_iff, true_and, if_false, if_true] at isub ipath ibh1 ibh2
          have hxp := h.hole_parent hn
          have hp := h.up_L.read
          have hw := h.up_L.down_R.read
          have hwl := h.up_L.down_R.down_L.root_color
          have hwr := h.up_L.down_R.down_R.root_color
          simp only [left_rotate_nil, right_rotate_nil, set_color_nil, rootAddr_node, ctxParent_L, ctxParent_R, rootColor_node] at hxp hp hw hwl hwr
          have hv := h.up_L.down_R.down_R.read
          have r1 := (h.up_L.down_R.recolor RBTREE_RED).1
          have s1 := h.up_L.down_R.recolor_same RBTREE_RED
          have r2 := (r1.up_R.recolor RBTREE_BLACK).1
          have s2 := r1.up_R.recolor_same RBTREE_BLACK
          have r3 := (r2.down_R.down_R.recolor RBTREE_BLACK).1
          have s3 := r2.down_R.down_R.recolor_same RBTREE_BLACK
          have r4 := r3.up_R.up_R.rot_left.1
          have s4 := r3.up_R.up_R.rot_left_same
          obtain ⟨t', e, res⟩ := delete_fixup_exit_root fuel r4.toRep
            (NoRedRed.blacken_nrr ((noRedRed_plug _ _).2 (by simp; tauto)))
            ((bh_plug _ _).2 ⟨bn + 1, by simp; tauto⟩)
          refine ⟨t', _, ?_, res.rep, res.rb, ?_, ?_⟩
          · rw [rbtree_delete_fixup]
            simp only [hxr, hxc, hxp, hp, hw, hwl, hwr, hv,
                      rootAddr_node, ctxParent_L, ctxParent_R, ne_eq, not_false_eq_true, not_true_eq_false, true_and, and_true,
                      and_false, false_and, and_self, if_true, if_false, red_ne_black, black_ne_red, set_color_mem_parent,
                      set_color_mem_left, set_color_mem_right, left_rotate_nil, right_rotate_nil, set_color_nil]
            exact e
          · rw [res.nodes]
            simp only [plug_L, plug_R, nodes_plug, nodes, List.append_assoc, List.cons_append,
                      List.nil_append]
          · exact s1.trans (s2.trans (s3.trans (s4.trans (res.same))))
        · rcases color_cases (rootColor wl) with hnear | hnear
          · -- BLACK far child, RED near child
            obtain ⟨u, ku, ul, ur, rfl⟩ := rootColor_red hnear
            simp only [CtxNoRedRed_L, CtxNoRedRed_R, NoRedRed_node, rootColor_node, ctxColor_L,
              ctxColor_R, true_imp_iff, BH_red, BH_black_succ, CtxBH_L, CtxBH_R, red_ne_black, black_ne_red,
              false_imp_iff, true_and, if_false, if_true] at isub ipath ibh1 ibh2
            have hxp := h.hole_parent hn
            have hp := h.up_L.read
            have hw := h.up_L.down_R.read
            have hwl := h.up_L.down_R.down_L.root_color
            have hwr := h.up_L.down_R.down_R.root_color
            simp only [left_rotate_nil, right_rotate_nil, set_color_nil, rootAddr_node, ctxParent_L, ctxParent_R, rootColor_node] at hxp hp hw hwl hwr
            rw [hfar] at hwr
            have hu := h.up_L.down_R.down_L.read
            have r1 := (h.up_L.down_R.down_L.recolor RBTREE_BLACK).1
            have s1 := h.up_L.down_R.down_L.recolor_same RBTREE_BLACK
            have r2 := (r1.up_L.recolor RBTREE_RED).1
            have s2 := r1.up_L.recolor_same RBTREE_RED
            have r3 := r2.rot_right.1
            have s3 := r2.rot_right_same
            have hxp3 := r3.up_R.down_L.hole_parent (fun e => by rw [(s1.trans (s2.trans (s3))).parent]; exact hn e)
            have hp3 := r3.up_R.read
            have hu3 := r3.read
            simp only [left_rotate_nil, right_rotate_nil, set_color_nil, rootAddr_node, ctxParent_L, ctxParent_R, rootColor_node] at hxp3 hp3 hu3
            have r4 := (r3.recolor RBTREE_RED).1
            have s4 := r3.recolor_same RBTREE_RED
            have r5 := (r4.up_R.recolor RBTREE_BLACK).1
            have s5 := r4.up_R.recolor_same RBTREE_BLACK
            have r6 := (r5.down_R.down_R.recolor RBTREE_BLACK).1
            have s6 := r5.down_R.down_R.recolor_same RBTREE_BLACK
            have r7 := r6.up_R.up_R.rot_left.1
            have s7 := r6.up_R.up_R.rot_left_same
            obtain ⟨t', e, res⟩ := delete_fixup_exit_root fuel r7.toRep
              (NoRedRed.blacken_nrr ((noRedRed_plug _ _).2 (by simp; tauto)))
              ((bh_plug _ _).2 ⟨bn + 1, by simp; tauto⟩)
            refine ⟨t', _, ?_, res.rep, res.rb, ?_, ?_⟩
            · rw [rbtree_delete_fixup]
              simp only [hxr, hxc, hxp, hp, hw, hwl, hwr, hu, hxp3, hp3, hu3,
                        rootAddr_node, ctxParent_L, ctxParent_R, ne_eq, not_false_eq_true, not_true_eq_false, true_and, and_true,
                        and_false, false_and, and_self, if_true, if_false, red_ne_black, black_ne_red, set_color_mem_parent,
                        set_color_mem_left, set_color_mem_right, left_rotate_nil, right_rotate_nil, set_color_nil]
              exact e
            · rw [res.nodes]
              simp only [plug_L, plug_R, nodes_plug, nodes, List.append_assoc, List.cons_append,
                        List.nil_append]
            · exact s1.trans (s2.trans (s3.trans (s4.trans (s5.trans (s6.trans (s7.trans (res.same)))))))
          · -- both children of the sibling are BLACK
            have hxp := h.hole_parent hn
            have hp := h.up_L.read
            have hw := h.up_L.down_R.read
            have hwl := h.up_L.down_R.down_L.root_color
            have hwr := h.up_L.down_R.down_R.root_color
            simp only [left_rotate_nil, right_rotate_nil, set_color_nil, rootAddr_node, ctxParent_L, ctxParent_R, rootColor_node] at hxp hp hw hwl hwr
            simp only [hnear, hfar] at hwl hwr
            have r1 := (h.up_L.down_R.recolor RBTREE_RED).1
            have s1 := h.up_L.down_R.recolor_same RBTREE_RED
            obtain ⟨t', T', e, res⟩ := ih rest.length (by simp at hlen; omega) rest _ _
              (fuel + 1) (le_refl _) (by simp at hlen; omega) r1.up_R (fun e => by cases e)
              ⟨by simp; tauto, by tauto, ⟨bn, by simp; tauto, by tauto⟩, ctxRootColor_tail iroot⟩
            simp only [left_rotate_nil, right_rotate_nil, set_color_nil, rootAddr_node, ctxParent_L, ctxParent_R, rootColor_node] at e
            refine ⟨t', _, ?_, res.rep, res.rb, ?_, ?_⟩
            · rw [rbtree_delete_fixup]
              simp only [hxr, hxc, hxp, hp, hw, hwl, hwr,
                        rootAddr_node, ctxParent_L, ctxParent_R, ne_eq, not_false_eq_true, not_true_eq_false, true_and, and_true,
                        and_false, false_and, and_self, if_true, if_false, red_ne_black, black_ne_red, set_color_mem_parent,
                        set_color_mem_left, set_color_mem_right, left_rotate_nil, right_rotate_nil, set_color_nil]
              exact e
            · rw [res.nodes]
              simp only [plug_L, plug_R, nodes_plug, nodes, List.append_assoc, List.cons_append,
                        List.nil_append]
            · exact s1.trans (res.same)

      · simp only [CtxNoRedRed_L, CtxNoRedRed_R, NoRedRed_node, rootColor_node, ctxColor_L,
          ctxColor_R, true_imp_iff, BH_red, BH_black_succ, CtxBH_L, CtxBH_R, red_ne_black, black_ne_red,
          false_imp_iff, true_and, if_false, if_true] at isub ipath ibh1 ibh2
        rcases color_cases (rootColor wr) with hfar | hfar
        · -- RED far child
          obtain ⟨v, kv, vl, vr, rfl⟩ := rootColor_red hfar
          simp only [CtxNoRedRed_L, CtxNoRedRed_R, NoRedRed_node, rootColor_node, ctxColor_L,
            ctxColor_R, true_imp_iff, BH_red, BH_black_succ, CtxBH_L, CtxBH_R, red_ne_black, black_ne_red,
            false_imp_iff, true_and, if_false, if_true] at isub ipath ibh1 ibh2
          have hxp := h.hole_parent hn
          have hp := h.up_L.read
          have hw := h.up_L.down_R.read
          have hwl := h.up_L.down_R.down_L.root_color
          have hwr := h.up_L.down_R.down_R.root_color
          simp only [left_rotate_nil, right_rotate_nil, set_color_nil, rootAddr_node, ctxParent_L, ctxParent_R, rootColor_node] at hxp hp hw hwl hwr
          have hv := h.up_L.down_R.down_R.read
          have r1 := (h.up_L.down_R.recolor RBTREE_BLACK).1
          have s1 := h.up_L.down_R.recolor_same RBTREE_BLACK
          have r2 := (r1.up_R.recolor RBTREE_BLACK).1
          have s2 := r1.up_R.recolor_same RBTREE_BLACK
          have r3 := (r2.down_R.down_R.recolor RBTREE_BLACK).1
          have s3 := r2.down_R.down_R.recolor_same RBTREE_BLACK
          have r4 := r3.up_R.up_R.rot_left.1
          have s4 := r3.up_R.up_R.rot_left_same
          obtain ⟨t', e, res⟩ := delete_fixup_exit_root fuel r4.toRep
            (NoRedRed.blacken_nrr ((noRedRed_plug _ _).2 (by simp; tauto)))
            ((bh_plug _ _).2 ⟨bn + 1 + 1, by simp; tauto⟩)
          refine ⟨t', _, ?_, res.rep, res.rb, ?_, ?_⟩
          · rw [rbtree_delete_fixup]
            simp only [hxr, hxc, hxp, hp, hw, hwl, hwr, hv,
                      rootAddr_node, ctxParent_L, ctxParent_R, ne_eq, not_false_eq_true, not_true_eq_false, true_and, and_true,
                      and_false, false_and, and_self, if_true, if_false, red_ne_black, black_ne_red, set_color_mem_parent,
                      set_color_mem_left, set_color_mem_right, left_rotate_nil, right_rotate_nil, set_color_nil]
            exact e
          · rw [res.nodes]
            simp only [plug_L, plug_R, nodes_plug, nodes, List.append_assoc, List.cons_append,
                      List.nil_append]
          · exact s1.trans (s2.trans (s3.trans (s4.trans (res.same))))
        · rcases color_cases (rootColor wl) with hnear | hnear
          · -- BLACK far child, RED near child
            obtain ⟨u, ku, ul, ur, rfl⟩ := rootColor_red hnear
            simp only [CtxNoRedRed_L, CtxNoRedRed_R, NoRedRed_node, rootColor_node, ctxColor_L,
              ctxColor_R, true_imp_iff, BH_red, BH_black_succ, CtxBH_L, CtxBH_R, red_ne_black, black_ne_red,
              false_imp_iff, true_and, if_false, if_true] at isub ipath ibh1 ibh2
            have hxp := h.hole_parent hn
            have hp := h.up_L.read
            have hw := h.up_L.down_R.read
            have hwl := h.up_L.down_R.down_L.root_color
            have hwr := h.up_L.down_R.down_R.root_color
            simp only [left_rotate_nil, right_rotate_nil, set_color_nil, rootAddr_node, ctxParent_L, ctxParent_R, rootColor_node] at hxp hp hw hwl hwr
            rw [hfar] at hwr
            have hu := h.up_L.down_R.down_L.read
            have r1 := (h.up_L.down_R.down_L.recolor RBTREE_BLACK).1
            have s1 := h.up_L.down_R.down_L.recolor_same RBTREE_BLACK
            have r2 := (r1.up_L.recolor RBTREE_RED).1
            have s2 := r1.up_L.recolor_same RBTREE_RED
            have r3 := r2.rot_right.1
            have s3 := r2.rot_right_same
            have hxp3 := r3.up_R.down_L.hole_parent (fun e => by rw [(s1.trans (s2.trans (s3))).parent]; exact hn e)
            have hp3 := r3.up_R.read
            have hu3 := r3.read
            simp only [left_rotate_nil, right_rotate_nil, set_color_nil, rootAddr_node, ctxParent_L, ctxParent_R, rootColor_node] at hxp3 hp3 hu3
            have r4 := (r3.recolor RBTREE_BLACK).1
            have s4 := r3.recolor_same RBTREE_BLACK
            have r5 := (r4.up_R.recolor RBTREE_BLACK).1
            have s5 := r4.up_R.recolor_same RBTREE_BLACK
            have r6 := (r5.down_R.down_R.recolor RBTREE_BLACK).1
            have s6 := r5.down_R.down_R.recolor_same RBTREE_BLACK
            have r7 := r6.up_R.up_R.rot_left.1
            have s7 := r6.up_R.up_R.rot_left_same
            obtain ⟨t', e, res⟩ := delete_fixup_exit_root fuel r7.toRep
              (NoRedRed.blacken_nrr ((noRedRed_plug _ _).2 (by simp; tauto)))
              ((bh_plug _ _).2 ⟨bn + 1 + 1, by simp; tauto⟩)
            refine ⟨t', _, ?_, res.rep, res.rb, ?_, ?_⟩
            · rw [rbtree_delete_fixup]
              simp only [hxr, hxc, hxp, hp, hw, hwl, hwr, hu, hxp3, hp3, hu3,
                        rootAddr_node, ctxParent_L, ctxParent_R, ne_eq, not_false_eq_true, not_true_eq_false, true_and, and_true,
                        and_false, false_and, and_self, if_true, if_false, red_ne_black, black_ne_red, set_color_mem_parent,
                        set_color_mem_left, set_color_mem_right, left_rotate_nil, right_rotate_nil, set_color_nil]
              exact e
            · rw [res.nodes]
              simp only [plug_L, plug_R, nodes_plug, nodes, List.append_assoc, List.cons_append,
                        List.nil_append]
            · exact s1.trans (s2.trans (s3.trans (s4.trans (s5.trans (s6.trans (s7.trans (res.same)))))))
          · -- both children of the sibling are BLACK
            have hxp := h.hole_parent hn
            have hp := h.up_L.read
            have hw := h.up_L.down_R.read
            have hwl := h.up_L.down_R.down_L.root_color
            have hwr := h.up_L.down_R.down_R.root_color
            simp only [left_rotate_nil, right_rotate_nil, set_color_nil, rootAddr_node, ctxParent_L, ctxParent_R, rootColor_node] at hxp hp hw hwl hwr
            simp only [hnear, hfar] at hwl hwr
            have r1 := (h.up_L.down_R.recolor RBTREE_RED).1
            have s1 := h.up_L.down_R.recolor_same RBTREE_RED
            obtain ⟨t', T', e, res⟩ := ih rest.length (by simp at hlen; omega) rest _ _
              (fuel + 1) (le_refl _) (by simp at hlen; omega) r1.up_R (fun e => by cases e)
              ⟨by simp; tauto, by tauto, ⟨bn + 1, by simp; tauto, by tauto⟩, ctxRootColor_tail iroot⟩
            simp only [left_rotate_nil, right_rotate_nil, set_color_nil, rootAddr_node, ctxParent_L, ctxParent_R, rootColor_node] at e
            refine ⟨t', _, ?_, res.rep, res.rb, ?_, ?_⟩
            · rw [rbtree_delete_fixup]
              simp only [hxr, hxc, hxp, hp, hw, hwl, hwr,
                        rootAddr_node, ctxParent_L, ctxParent_R, ne_eq, not_false_eq_true, not_true_eq_false, true_and, and_true,
                        and_false, false_and, and_self, if_true, if_false, red_ne_black, black_ne_red, set_color_mem_parent,
                        set_color_mem_left, set_color_mem_right, left_rotate_nil, right_rotate_nil, set_color_nil]
              exact e
            · rw [res.nodes]
              simp only [plug_L, plug_R, nodes_plug, nodes, List.append_assoc, List.cons_append,
                        List.nil_append]
            · exact s1.trans (res.same)


  · -- x is a right child
    obtain ⟨w, cw, kw, wl, wr, rfl⟩ := BH_succ_node (n := bn) (by simpa using ibh2.1)
    have hxw : rootAddr t.nil s ≠ w := h.hole_ne (by simp)
    rcases color_cases cw with rfl | rfl
    · -- RED sibling: recolour, rotate the parent, go on with the new sibling
      have hcp : cp = RBTREE_BLACK := by
        rcases color_cases cp with rfl | rfl
        · simp at ipath
        · rfl
      subst hcp
      simp only [CtxNoRedRed_L, CtxNoRedRed_R, NoRedRed_node, rootColor_node, ctxColor_L,
        ctxColor_R, true_imp_iff, BH_red, BH_black_succ, CtxBH_L, CtxBH_R, red_ne_black, black_ne_red,
        false_imp_iff, true_and, if_false, if_true] at isub ipath ibh1 ibh2
      obtain ⟨w2, k2, a2, b2, rfl⟩ := rootColor_black_node (n := bn) (by tauto) (by tauto) (W := wr)
      simp only [CtxNoRedRed_L, CtxNoRedRed_R, NoRedRed_node, rootColor_node, ctxColor_L,
        ctxColor_R, true_imp_iff, BH_red, BH_black_succ, CtxBH_L, CtxBH_R, red_ne_black, black_ne_red,
        false_imp_iff, true_and, if_false, if_true] at isub ipath ibh1 ibh2
      have hxp0 := h.hole_parent hn
      have hp0 := h.up_R.read
      have hw0 := h.up_R.down_L.read
      simp only [left_rotate_nil, right_rotate_nil, set_color_nil, rootAddr_node, ctxParent_L, ctxParent_R, rootColor_node] at hxp0 hp0 hw0
      have rA1 := (h.up_R.down_L.recolor RBTREE_BLACK).1
      have sA1 := h.up_R.down_L.recolor_same RBTREE_BLACK
      have rA2 := (rA1.up_L.recolor RBTREE_RED).1
      have sA2 := rA1.up_L.recolor_same RBTREE_RED
      have rA3 := rA2.rot_right.1
      have sA3 := rA2.rot_right_same
      have hA := rA3.down_R.down_R
      have sA := sA1.trans (sA2.trans sA3)
      rcases color_cases (rootColor a2) with hfar | hfar
      · -- RED far child
        obtain ⟨v, kv, vl, vr, rfl⟩ := rootColor_red hfar
        simp only [CtxNoRedRed_L, CtxNoRedRed_R, NoRedRed_node, rootColor_node, ctxColor_L,
          ctxColor_R, true_imp_iff, BH_red, BH_black_succ, CtxBH_L, CtxBH_R, red_ne_black, black_ne_red,
          false_imp_iff, true_and, if_false, if_true] at isub ipath ibh1 ibh2
        have hxp1 := hA.hole_parent (fun e => by rw [sA.parent]; exact hn e)
        have hp1 := hA.up_R.read
        have hw1 := hA.up_R.down_L.read
        have hwl1 := hA.up_R.down_L.down_L.root_color
        have hwr1 := hA.up_R.down_L.down_R.root_color
        simp only [left_rotate_nil, right_rotate_nil, set_color_nil, rootAddr_node, ctxParent_L, ctxParent_R, rootColor_node] at hxp1 hp1 hw1 hwl1 hwr1
        have hv := hA.up_R.down_L.down_L.read
        have r1 := (hA.up_R.down_L.recolor RBTREE_RED).1
        have s1 := hA.up_R.down_L.recolor_same RBTREE_RED
        have r2 := (r1.up_L.recolor RBTREE_BLACK).1
        have s2 := r1.up_L.recolor_same RBTREE_BLACK
        have r3 := (r2.down_L.down_L.recolor RBTREE_BLACK).1
        have s3 := r2.down_L.down_L.recolor_same RBTREE_BLACK
        have r4 := r3.up_L.up_L.rot_right.1
        have s4 := r3.up_L.up_L.rot_right_same
        obtain ⟨t', e, res⟩ := delete_fixup_exit_root fuel r4.toRep
          (NoRedRed.blacken_nrr ((noRedRed_plug _ _).2 (by simp; tauto)))
          ((bh_plug _ _).2 ⟨bn + 1, by simp; tauto⟩)
        refine ⟨t', _, ?_, res.rep, res.rb, ?_, ?_⟩
        · rw [rbtree_delete_fixup]
          simp only [hxr, hxc, hxw, hxp0, hp0, hw0, hxp1, hp1, hw1, hwl1, hwr1, hv,
                    rootAddr_node, ctxParent_L, ctxParent_R, ne_eq, not_false_eq_true, not_true_eq_false, true_and, and_true,
                    and_false, false_and, and_self, if_true, if_false, red_ne_black, black_ne_red, set_color_mem_parent,
                    set_color_mem_left, set_color_mem_right, left_rotate_nil, right_rotate_nil, set_color_nil]
          exact e
        · rw [res.nodes]
          simp only [plug_L, plug_R, nodes_plug, nodes, List.append_assoc, List.cons_append,
                    List.nil_append]
        · exact sA.trans (s1.trans (s2.trans (s3.trans (s4.trans (res.same)))))
      · rcases color_cases (rootColor b2) with hnear | hnear
        · -- BLACK far child, RED near child
          obtain ⟨u, ku, ul, ur, rfl⟩ := rootColor_red hnear
          simp only [CtxNoRedRed_L, CtxNoRedRed_R, NoRedRed_node, rootColor_node, ctxColor_L,
            ctxColor_R, true_imp_iff, BH_red, BH_black_succ, CtxBH_L, CtxBH_R, red_ne_black, black_ne_red,
            false_imp_iff, true_and, if_false, if_true] at isub ipath ibh1 ibh2
          have hxp1 := hA.hole_parent (fun e => by rw [sA.parent]; exact hn e)
          have hp1 := hA.up_R.read
          have hw1 := hA.up_R.down_L.read
          have hwl1 := hA.up_R.down_L.down_L.root_color
          have hwr1 := hA.up_R.down_L.down_R.root_color
          simp only [left_rotate_nil, right_rotate_nil, set_color_nil, rootAddr_node, ctxParent_L, ctxParent_R, rootColor_node] at hxp1 hp1 hw1 hwl1 hwr1
          rw [hfar] at hwl1
          have hu := hA.up_R.down_L.down_R.read
          have r1 := (hA.up_R.down_L.down_R.recolor RBTREE_BLACK).1
          have s1 := hA.up_R.down_L.down_R.recolor_same RBTREE_BLACK
          have r2 := (r1.up_R.recolor RBTREE_RED).1
          have s2 := r1.up_R.recolor_same RBTREE_RED
          have r3 := r2.rot_left.1
          have s3 := r2.rot_left_same
          have hxp3 := r3.up_L.down_R.hole_parent (fun e => by rw [(sA.trans (s1.trans (s2.trans (s3)))).parent]; exact hn e)
          have hp3 := r3.up_L.read
          have hu3 := r3.read
          simp only [left_rotate_nil, right_rotate_nil, set_color_nil, rootAddr_node, ctxParent_L, ctxParent_R, rootColor_node] at hxp3 hp3 hu3
          have r4 := (r3.recolor RBTREE_RED).1
          have s4 := r3.recolor_same RBTREE_RED
          have r5 := (r4.up_L.recolor RBTREE_BLACK).1
          have s5 := r4.up_L.recolor_same RBTREE_BLACK
          have r6 := (r5.down_L.down_L.recolor RBTREE_BLACK).1
          have s6 := r5.down_L.down_L.recolor_same RBTREE_BLACK
          have r7 := r6.up_L.up_L.rot_right.1
          have s7 := r6.up_L.up_L.rot_right_same
          obtain ⟨t', e, res⟩ := delete_fixup_exit_root fuel r7.toRep
            (NoRedRed.blacken_nrr ((noRedRed_plug _ _).2 (by simp; tauto)))
            ((bh_plug _ _).2 ⟨bn + 1, by simp; tauto⟩)
          refine ⟨t', _, ?_, res.rep, res.rb, ?_, ?_⟩
          · rw [rbtree_delete_fixup]
            simp only [hxr, hxc, hxw, hxp0, hp0, hw0, hxp1, hp1, hw1, hwl1, hwr1, hu, hxp3, hp3, hu3,
                      rootAddr_node, ctxParent_L, ctxParent_R, ne_eq, not_false_eq_true, not_true_eq_false, true_and, and_true,
                      and_false, false_and, and_self, if_true, if_false, red_ne_black, black_ne_red, set_color_mem_parent,
                      set_color_mem_left, set_color_mem_right, left_rotate_nil, right_rotate_nil, set_color_nil]
            exact e
          · rw [res.nodes]
            simp only [plug_L, plug_R, nodes_plug, nodes, List.append_assoc, List.cons_append,
                      List.nil_append]
          · exact sA.trans (s1.trans (s2.trans (s3.trans (s4.trans (s5.trans (s6.trans (s7.trans (res.same))))))))
        · -- both children of the sibling are BLACK
          have hxp1 := hA.hole_parent (fun e => by rw [sA.parent]; exact hn e)
          have hp1 := hA.up_R.read
          have hw1 := hA.up_R.down_L.read
          have hwl1 := hA.up_R.down_L.down_L.root_color
          have hwr1 := hA.up_R.down_L.down_R.root_color
          simp only [left_rotate_nil, right_rotate_nil, set_color_nil, rootAddr_node, ctxParent_L, ctxParent_R, rootColor_node] at hxp1 hp1 hw1 hwl1 hwr1
          simp only [hnear, hfar] at hwl1 hwr1
          have r1 := (hA.up_R.down_L.recolor RBTREE_RED).1
          have s1 := hA.up_R.down_L.recolor_same RBTREE_RED
          obtain ⟨t', e, res⟩ := delete_fixup_exit_red fuel r1.up_L
            ((noRedRed_plug _ _).2 (by simp; tauto)) ((bh_plug _ _).2 ⟨bn + 1, by simp; tauto⟩)
            (by rw [rootColor_plug_cons]; exact ctxRootColor_swap iroot rfl)
          refine ⟨t', _, ?_, res.rep, res.rb, ?_, ?_⟩
          · rw [rbtree_delete_fixup]
            simp only [hxr, hxc, hxw, hxp0, hp0, hw0, hxp1, hp1, hw1, hwl1, hwr1,
                      rootAddr_node, ctxParent_L, ctxParent_R, ne_eq, not_false_eq_true, not_true_eq_false, true_and, and_true,
                      and_false, false_and, and_self, if_true, if_false, red_ne_black, black_ne_red, set_color_mem_parent,
                      set_color_mem_left, set_color_mem_right, left_rotate_nil, right_rotate_nil, set_color_nil]
            exact e
          · rw [res.nodes]
            simp only [plug_L, plug_R, nodes_plug, nodes, List.append_assoc, List.cons_append,
                      List.nil_append]
          · exact sA.trans (s1.trans (res.same))

    · -- BLACK sibling
      rcases color_cases cp with rfl | rfl
      · simp only [CtxNoRedRed_L, CtxNoRedRed_R, NoRedRed_node, rootColor_node, ctxColor_L,
          ctxColor_R, true_imp_iff, BH_red, BH_black_succ, CtxBH_L, CtxBH_R, red_ne_black, black_ne_red,
          false_imp_iff, true_and, if_false, if_true] at isub ipath ibh1 ibh2
        rcases color_cases (rootColor wl) with hfar | hfar
        · -- RED far child
          obtain ⟨v, kv, vl, vr, rfl⟩ := rootColor_red hfar
          simp only [CtxNoRedRed_L, CtxNoRedRed_R, NoRedRed_node, rootColor_node, ctxColor_L,
            ctxColor_R, true_imp_iff, BH_red, BH_black_succ, CtxBH_L, CtxBH_R, red_ne_black, black_ne_red,
            false_imp_iff, true_and, if_false, if_true] at isub ipath ibh1 ibh2
          have hxp := h.hole_parent hn
          have hp := h.up_R.read
          have hw := h.up_R.down_L.read
          have hwl := h.up_R.down_L.down_L.root_color
          have hwr := h.up_R.down_L.down_R.root_color
          simp only [left_rotate_nil, right_rotate_nil, set_color_nil, rootAddr_node, ctxParent_L, ctxParent_R, rootColor_node] at hxp hp hw hwl hwr
          have hv := h.up_R.down_L.down_L.read
          have r1 := (h.up_R.down_L.recolor RBTREE_RED).1
          have s1 := h.up_R.down_L.recolor_same RBTREE_RED
          have r2 := (r1.up_L.recolor RBTREE_BLACK).1
          have s2 := r1.up_L.recolor_same RBTREE_BLACK
          have r3 := (r2.down_L.down_L.recolor RBTREE_BLACK).1
          have s3 := r2.down_L.down_L.recolor_same RBTREE_BLACK
          have r4 := r3.up_L.up_L.rot_right.1
          have s4 := r3.up_L.up_L.rot_right_same
          obtain ⟨t', e, res⟩ := delete_fixup_exit_root fuel r4.toRep
            (NoRedRed.blacken_nrr ((noRedRed_plug _ _).2 (by simp; tauto)))
            ((bh_plug _ _).2 ⟨bn + 1, by simp; tauto⟩)
          refine ⟨t', _, ?_, res.rep, res.rb, ?_, ?_⟩
          · rw [rbtree_delete_fixup]
            simp only [hxr, hxc, hxw, hxp, hp, hw, hwl, hwr, hv,
                      rootAddr_node, ctxParent_L, ctxParent_R, ne_eq, not_false_eq_true, not_true_eq_false, true_and, and_true,
                      and_false, false_and, and_self, if_true, if_false, red_ne_black, black_ne_red, set_color_mem_parent,
                      set_color_mem_left, set_color_mem_right, left_rotate_nil, right_rotate_nil, set_color_nil]
            exact e
          · rw [res.nodes]
            simp only [plug_L, plug_R, nodes_plug, nodes, List.append_assoc, List.cons_append,
                      List.nil_append]
          · exact s1.trans (s2.trans (s3.trans (s4.trans (res.same))))
        · rcases color_cases (rootColor wr) with hnear | hnear
          · -- BLACK far child, RED near child
            obtain ⟨u, ku, ul, ur, rfl⟩ := rootColor_red hnear
            simp only [CtxNoRedRed_L, CtxNoRedRed_R, NoRedRed_node, rootColor_node, ctxColor_L,
              ctxColor_R, true_imp_iff, BH_red, BH_black_succ, CtxBH_L, CtxBH_R, red_ne_black, black_ne_red,
              false_imp_iff, true_and, if_false, if_true] at isub ipath ibh1 ibh2
            have hxp := h.hole_parent hn
            have hp := h.up_R.read
            have hw := h.up_R.down_L.read
            have hwl := h.up_R.down_L.down_L.root_color
            have hwr := h.up_R.down_L.down_R.root_color
            simp only [left_rotate_nil, right_rotate_nil, set_color_nil, rootAddr_node, ctxParent_L, ctxParent_R, rootColor_node] at hxp hp hw hwl hwr
            rw [hfar] at hwl
            have hu := h.up_R.down_L.down_R.read
            have r1 := (h.up_R.down_L.down_R.recolor RBTREE_BLACK).1
            have s1 := h.up_R.down_L.down_R.recolor_same RBTREE_BLACK
            have r2 := (r1.up_R.recolor RBTREE_RED).1
            have s2 := r1.up_R.recolor_same RBTREE_RED
            have r3 := r2.rot_left.1
            have s3 := r2.rot_left_same
            have hxp3 := r3.up_L.down_R.hole_parent (fun e => by rw [(s1.trans (s2.trans (s3))).parent]; exact hn e)
            have hp3 := r3.up_L.read
            have hu3 := r3.read
            simp only [left_rotate_nil, right_rotate_nil, set_color_nil, rootAddr_node, ctxParent_L, ctxParent_R, rootColor_node] at hxp3 hp3 hu3
            have r4 := (r3.recolor RBTREE_RED).1
            have s4 := r3.recolor_same RBTREE_RED
            have r5 := (r4.up_L.recolor RBTREE_BLACK).1
            have s5 := r4.up_L.recolor_same RBTREE_BLACK
            have r6 := (r5.down_L.down_L.recolor RBTREE_BLACK).1
            have s6 := r5.down_L.down_L.recolor_same RBTREE_BLACK
            have r7 := r6.up_L.up_L.rot_right.1
            have s7 := r6.up_L.up_L.rot_right_same
            obtain ⟨t', e, res⟩ := delete_fixup_exit_root fuel r7.toRep
              (NoRedRed.blacken_nrr ((noRedRed_plug _ _).2 (by simp; tauto)))
              ((bh_plug _ _).2 ⟨bn + 1, by simp; tauto⟩)
            refine ⟨t', _, ?_, res.rep, res.rb, ?_, ?_⟩
            · rw [rbtree_delete_fixup]
              simp only [hxr, hxc, hxw, hxp, hp, hw, hwl, hwr, hu, hxp3, hp3, hu3,
                        rootAddr_node, ctxParent_L, ctxParent_R, ne_eq, not_false_eq_true, not_true_eq_false, true_and, and_true,
                        and_false, false_and, and_self, if_true, if_false, red_ne_black, black_ne_red, set_color_mem_parent,
                        set_color_mem_left, set_color_mem_right, left_rotate_nil, right_rotate_nil, set_color_nil]
              exact e
            · rw [res.nodes]
              simp only [plug_L, plug_R, nodes_plug, nodes, List.append_assoc, List.cons_append,
                        List.nil_append]
            · exact s1.trans (s2.trans (s3.trans (s4.trans (s5.trans (s6.trans (s7.trans (res.same)))))))
          · -- both children of the sibling are BLACK
            have hxp := h.hole_parent hn
            have hp := h.up_R.read
            have hw := h.up_R.down_L.read
            have hwl := h.up_R.down_L.down_L.root_color
            have hwr := h.up_R.down_L.down_R.root_color
            simp only [left_rotate_nil, right_rotate_nil, set_color_nil, rootAddr_node, ctxParent_L, ctxParent_R, rootColor_node] at hxp hp hw hwl hwr
            simp only [hnear, hfar] at hwl hwr
            have r1 := (h.up_R.down_L.recolor RBTREE_RED).1
            have s1 := h.up_R.down_L.recolor_same RBTREE_RED
            obtain ⟨t', T', e, res⟩ := ih rest.length (by simp at hlen; omega) rest _ _
              (fuel + 1) (le_refl _) (by simp at hlen; omega) r1.up_L (fun e => by cases e)
              ⟨by simp; tauto, by tauto, ⟨bn, by simp; tauto, by tauto⟩, ctxRootColor_tail iroot⟩
            simp only [left_rotate_nil, right_rotate_nil, set_color_nil, rootAddr_node, ctxParent_L, ctxParent_R, rootColor_node] at e
            refine ⟨t', _, ?_, res.rep, res.rb, ?_, ?_⟩
            · rw [rbtree_delete_fixup]
              simp only [hxr, hxc, hxw, hxp, hp, hw, hwl, hwr,
                        rootAddr_node, ctxParent_L, ctxParent_R, ne_eq, not_false_eq_true, not_true_eq_false, true_and, and_true,
                        and_false, false_and, and_self, if_true, if_false, red_ne_black, black_ne_red, set_color_mem_parent,
                        set_color_mem_left, set_color_mem_right, left_rotate_nil, right_rotate_nil, set_color_nil]
              exact e
            · rw [res.nodes]
              simp only [plug_L, plug_R, nodes_plug, nodes, List.append_assoc, List.cons_append,
                        List.nil_append]
            · exact s1.trans (res.same)

      · simp only [CtxNoRedRed_L, CtxNoRedRed_R, NoRedRed_node, rootColor_node, ctxColor_L,
          ctxColor_R, true_imp_iff, BH_red, BH_black_succ, CtxBH_L, CtxBH_R, red_ne_black, black_ne_red,
          false_imp_iff, true_and, if_false, if_true] at isub ipath ibh1 ibh2
        rcases color_cases (rootColor wl) with hfar | hfar
        · -- RED far child
          obtain ⟨v, kv, vl, vr, rfl⟩ := rootColor_red hfar
          simp only [CtxNoRedRed_L, CtxNoRedRed_R, NoRedRed_node, rootColor_node, ctxColor_L,
            ctxColor_R, true_imp_iff, BH_red, BH_black_succ, CtxBH_L, CtxBH_R, red_ne_black, black_ne_red,
            false_imp_iff, true_and, if_false, if_true] at isub ipath ibh1 ibh2
          have hxp := h.hole_parent hn
          have hp := h.up_R.read
          have hw := h.up_R.down_L.read
          have hwl := h.up_R.down_L.down_L.root_color
          have hwr := h.up_R.down_L.down_R.root_color
          simp only [left_rotate_nil, right_rotate_nil, set_color_nil, rootAddr_node, ctxParent_L, ctxParent_R, rootColor_node] at hxp hp hw hwl hwr
          have hv := h.up_R.down_L.down_L.read
          have r1 := (h.up_R.down_L.recolor RBTREE_BLACK).1
          have s1 := h.up_R.down_L.recolor_same RBTREE_BLACK
          have r2 := (r1.up_L.recolor RBTREE_BLACK).1
          have s2 := r1.up_L.recolor_same RBTREE_BLACK
          have r3 := (r2.down_L.down_L.recolor RBTREE_BLACK).1
          have s3 := r2.down_L.down_L.recolor_same RBTREE_BLACK
          have r4 := r3.up_L.up_L.rot_right.1
          have s4 := r3.up_L.up_L.rot_right_same
          obtain ⟨t', e, res⟩ := delete_fixup_exit_root fuel r4.toRep
            (NoRedRed.blacken_nrr ((noRedRed_plug _ _).2 (by simp; tauto)))
            ((bh_plug _ _).2 ⟨bn + 1 + 1, by simp; tauto⟩)
          refine ⟨t', _, ?_, res.rep, res.rb, ?_, ?_⟩
          · rw [rbtree_delete_fixup]
            simp only [hxr, hxc, hxw, hxp, hp, hw, hwl, hwr, hv,
                      rootAddr_node, ctxParent_L, ctxParent_R, ne_eq, not_false_eq_true, not_true_eq_false, true_and, and_true,
                      and_false, false_and, and_self, if_true, if_false, red_ne_black, black_ne_red, set_color_mem_parent,
                      set_color_mem_left, set_color_mem_right, left_rotate_nil, right_rotate_nil, set_color_nil]
            exact e
          · rw [res.nodes]
            simp only [plug_L, plug_R, nodes_plug, nodes, List.append_assoc, List.cons_append,
                      List.nil_append]
          · exact s1.trans (s2.trans (s3.trans (s4.trans (res.same))))
        · rcases color_cases (rootColor wr) with hnear | hnear
          · -- BLACK far child, RED near child
            obtain ⟨u, ku, ul, ur, rfl⟩ := rootColor_red hnear
            simp only [CtxNoRedRed_L, CtxNoRedRed_R, NoRedRed_node, rootColor_node, ctxColor_L,
              ctxColor_R, true_imp_iff, BH_red, BH_black_succ, CtxBH_L, CtxBH_R, red_ne_black, black_ne_red,
              false_imp_iff, true_and, if_false, if_true] at isub ipath ibh1 ibh2
            have hxp := h.hole_parent hn
            have hp := h.up_R.read
            have hw := h.up_R.down_L.read
            have hwl := h.up_R.down_L.down_L.root_color
            have hwr := h.up_R.down_L.down_R.root_color
            simp only [left_rotate_nil, right_rotate_nil, set_color_nil, rootAddr_node, ctxParent_L, ctxParent_R, rootColor_node] at hxp hp hw hwl hwr
            rw [hfar] at hwl
            have hu := h.up_R.down_L.down_R.read
            have r1 := (h.up_R.down_L.down_R.recolor RBTREE_BLACK).1
            have s1 := h.up_R.down_L.down_R.recolor_same RBTREE_BLACK
            have r2 := (r1.up_R.recolor RBTREE_RED).1
            have s2 := r1.up_R.recolor_same RBTREE_RED
            have r3 := r2.rot_left.1
            have s3 := r2.rot_left_same
            have hxp3 := r3.up_L.down_R.hole_parent (fun e => by rw [(s1.trans (s2.trans (s3))).parent]; exact hn e)
            have hp3 := r3.up_L.read
            have hu3 := r3.read
            simp only [left_rotate_nil, right_rotate_nil, set_color_nil, rootAddr_node, ctxParent_L, ctxParent_R, rootColor_node] at hxp3 hp3 hu3
            have r4 := (r3.recolor RBTREE_BLACK).1
            have s4 := r3.recolor_same RBTREE_BLACK
            have r5 := (r4.up_L.recolor RBTREE_BLACK).1
            have s5 := r4.up_L.recolor_same RBTREE_BLACK
            have r6 := (r5.down_L.down_L.recolor RBTREE_BLACK).1
            have s6 := r5.down_L.down_L.recolor_same RBTREE_BLACK
            have r7 := r6.up_L.up_L.rot_right.1
            have s7 := r6.up_L.up_L.rot_right_same
            obtain ⟨t', e, res⟩ := delete_fixup_exit_root fuel r7.toRep
              (NoRedRed.blacken_nrr ((noRedRed_plug _ _).2 (by simp; tauto)))
              ((bh_plug _ _).2 ⟨bn + 1 + 1, by simp; tauto⟩)
            refine ⟨t', _, ?_, res.rep, res.rb, ?_, ?_⟩
            · rw [rbtree_delete_fixup]
              simp only [hxr, hxc, hxw, hxp, hp, hw, hwl, hwr, hu, hxp3, hp3, hu3,
                        rootAddr_node, ctxParent_L, ctxParent_R, ne_eq, not_false_eq_true, not_true_eq_false, true_and, and_true,
                        and_false, false_and, and_self, if_true, if_false, red_ne_black, black_ne_red, set_color_mem_parent,
                        set_color_mem_left, set_color_mem_right, left_rotate_nil, right_rotate_nil, set_color_nil]
              exact e
            · rw [res.nodes]
              simp only [plug_L, plug_R, nodes_plug, nodes, List.append_assoc, List.cons_append,
                        List.nil_append]
            · exact s1.trans (s2.trans (s3.trans (s4.trans (s5.trans (s6.trans (s7.trans (res.same)))))))
          · -- both children of the sibling are BLACK
            have hxp := h.hole_parent hn
            have hp := h.up_R.read
            have hw := h.up_R.down_L.read
            have hwl := h.up_R.down_L.down_L.root_color
            have hwr := h.up_R.down_L.down_R.root_color
            simp only [left_rotate_nil, right_rotate_nil, set_color_nil, rootAddr_node, ctxParent_L, ctxParent_R, rootColor_node] at hxp hp hw hwl hwr
            simp only [hnear, hfar] at hwl hwr
            have r1 := (h.up_R.down_L.recolor RBTREE_RED).1
            have s1 := h.up_R.down_L.recolor_same RBTREE_RED
            obtain ⟨t', T', e, res⟩ := ih rest.length (by simp at hlen; omega) rest _ _
              (fuel + 1) (le_refl _) (by simp at hlen; omega) r1.up_L (fun e => by cases e)
              ⟨by simp; tauto, by tauto, ⟨bn + 1, by simp; tauto, by tauto⟩, ctxRootColor_tail iroot⟩
            simp only [left_rotate_nil, right_rotate_nil, set_color_nil, rootAddr_node, ctxParent_L, ctxParent_R, rootColor_node] at e
            refine ⟨t', _, ?_, res.rep, res.rb, ?_, ?_⟩
            · rw [rbtree_delete_fixup]
              simp only [hxr, hxc, hxw, hxp, hp, hw, hwl, hwr,
                        rootAddr_node, ctxParent_L, ctxParent_R, ne_eq, not_false_eq_true, not_true_eq_false, true_and, and_true,
                        and_false, false_and, and_self, if_true, if_false, red_ne_black, black_ne_red, set_color_mem_parent,
                        set_color_mem_left, set_color_mem_right, left_rotate_nil, right_rotate_nil, set_color_nil]
              exact e
            · rw [res.nodes]
              simp only [plug_L, plug_R, nodes_plug, nodes, List.append_assoc, List.cons_append,
                        List.nil_append]
            · exact s1.trans (res.same)

@[simp] theorem rbtree_transplant_nil (t : rbtree) (u v : Ptr) :
    (rbtree_transplant t u v).nil = t.nil := by
  unfold rbtree_transplant; simp only []; split_ifs <;> rfl

@[simp] theorem rbtree_transplant_brk (t : rbtree) (u v : Ptr) :
    (rbtree_transplant t u v).brk = t.brk := by
  unfold rbtree_transplant; simp only []; split_ifs <;> rfl

@[simp] theorem splice_near_nil (t : rbtree) (z y : Ptr) : (splice_near t z y).nil = t.nil := by
  simp only [splice_near, set_color_nil, set_parent_nil, set_left_nil, rbtree_transplant_nil]

@[simp] theorem splice_near_brk (t : rbtree) (z y : Ptr) : (splice_near t z y).brk = t.brk := by
  simp only [splice_near, set_color_brk, set_parent_brk, set_left_brk, rbtree_transplant_brk]

@[simp] theorem splice_far_nil (t : rbtree) (z y : Ptr) : (splice_far t z y).nil = t.nil := by
  simp only [splice_far, set_color_nil, set_parent_nil, set_left_nil, set_right_nil,
    rbtree_transplant_nil]

@[simp] theorem splice_far_brk (t : rbtree) (z y : Ptr) : (splice_far t z y).brk = t.brk := by
  simp only [splice_far, set_color_brk, set_parent_brk, set_left_brk, set_right_brk,
    rbtree_transplant_brk]

/-- `rbtree_transplant t z v` with `v` the right child link of the record `z` at a position:
the child subtree takes the place of `z`, and `v` (the sentinel included) gets the parent
link of `z`. -/
theorem RepZ.transplant_right {t : rbtree} {ctx : Ctx} {z : Ptr} {c : color_t} {k : Int}
    {l r : Tree} (h : RepZ t ctx (.node z c k l r)) :
    RepZ (rbtree_transplant t z (rootAddr t.nil r)) ctx r
      ∧ ((rbtree_transplant t z (rootAddr t.nil r)).mem (rootAddr t.nil r)).parent
          = ctxParent t.nil ctx
      ∧ ∀ q, q ≠ ctxParent t.nil ctx → q ≠ rootAddr t.nil r →
          (rbtree_transplant t z (rootAddr t.nil r)).mem q = t.mem q := by
  obtain ⟨hp, hs, hnd, hb, hc, hl, hr⟩ := h
  have hnd' := hnd
  have en : ∀ v, (rbtree_transplant t z v).nil = t.nil := rbtree_transplant_nil t z
  have eb : ∀ v, (rbtree_transplant t z v).brk = t.brk := rbtree_transplant_brk t z
  have hsub : ∀ q, q ∈ t.nil :: (addrs r ++ ctxAddrs ctx) →
      q ∈ t.nil :: (addrs (.node z c k l r) ++ ctxAddrs ctx) := by
    intro q hq
    simp only [addrs_node, List.mem_cons, List.mem_append] at hq ⊢
    tauto
  rcases r with _ | ⟨b, cb, kb, BL, BR⟩ <;>
    rcases ctx with _ | ⟨(⟨p, cp, kp, S⟩ | ⟨p, cp, kp, S⟩), rest⟩
  case mk.leaf.nil =>
    simp only [addrs_node, addrs_leaf, ctxAddrs_nil, ctxAddrs_L, ctxAddrs_R, List.nodup_cons,
      List.nodup_append, List.mem_append, not_mem_cons_both, not_or, List.disjoint_cons_left,
      List.disjoint_cons_right, List.disjoint_append_left, List.disjoint_append_right,
      List.append_nil, List.nil_append, List.not_mem_nil, not_false_eq_true, true_and, and_true,
      List.nodup_nil, List.disjoint_nil_left, List.disjoint_nil_right, List.cons_append,
      List.append_assoc] at hnd'
    simp only [Shape, CtxShape, rootAddr_node, rootAddr_leaf, ctxParent_nil, ctxParent_L,
      ctxParent_R] at hs hp
    obtain ⟨hz, hL, hR⟩ := hs
    simp only [rootAddr_leaf, rootAddr_node, ctxParent_nil, ctxParent_L, ctxParent_R]
    have E : rbtree_transplant t z t.nil = set_parent (set_root (t) t.nil) t.nil t.nil := by
      simp only [rbtree_transplant, hz, set_right_mem, set_left_mem, set_parent_mem, set_root_mem, set_color_mem, set_right_nil, set_left_nil, set_parent_nil, set_root_nil, set_color_nil, upd_same, upd_ne, hnd', ne_eq,
        not_false_eq_true, not_true_eq_false, if_true, if_false]
    have er : (rbtree_transplant t z t.nil).root = t.nil := by
      simp only [E, set_right_root, set_left_root, set_parent_root, set_root_root, set_color_root]
    have hfr : ∀ q, q ∉ [t.nil] → (rbtree_transplant t z t.nil).mem q = t.mem q := by
      intro q hq
      simp only [not_mem_cons_both, List.not_mem_nil, not_false_eq_true, and_true] at hq
      simp only [E, set_right_mem, set_left_mem, set_parent_mem, set_root_mem, set_color_mem, upd_ne, hq, ne_eq, not_false_eq_true]
    have enil : (rbtree_transplant t z t.nil).mem t.nil = { t.mem t.nil with parent := t.nil } := by
      simp only [E, set_right_mem, set_left_mem, set_parent_mem, set_root_mem, set_color_mem, upd_same, upd_ne, hnd', ne_eq, not_false_eq_true]
    refine ⟨⟨?_, ?_, ?_, ?_, ?_, ?_, ?_⟩, ?_, ?_⟩
    · simp only [CtxShape, rootAddr_node, rootAddr_leaf, er, en]
    · trivial
    · simp only [addrs_node, addrs_leaf, ctxAddrs_nil, ctxAddrs_L, ctxAddrs_R, List.nodup_cons,
        List.nodup_append, List.mem_append, not_mem_cons_both, not_or, List.disjoint_cons_left,
        List.disjoint_cons_right, List.disjoint_append_left, List.disjoint_append_right,
        List.append_nil, List.nil_append, List.not_mem_nil, not_false_eq_true, true_and, and_true,
        List.nodup_nil, List.disjoint_nil_left, List.disjoint_nil_right, List.cons_append,
        List.append_assoc, hnd', and_self, rbtree_transplant_nil, set_parent_nil, set_left_nil,
        set_right_nil, set_color_nil, set_root_nil]
    · intro q hq
      rw [eb]
      rw [en] at hq
      exact hb q (hsub q hq)
    · rw [en, enil]; exact hc
    · rw [en, enil]; exact hl
    · rw [en, enil]; exact hr
    · rw [enil]
    · intro q h1 h2
      apply hfr
      simp only [List.mem_cons, List.not_mem_nil, or_false, not_or]
      exact h2
  case mk.leaf.cons.L =>
    simp only [addrs_node, addrs_leaf, ctxAddrs_nil, ctxAddrs_L, ctxAddrs_R, List.nodup_cons,
      List.nodup_append, List.mem_append, not_mem_cons_both, not_or, List.disjoint_cons_left,
      List.disjoint_cons_right, List.disjoint_append_left, List.disjoint_append_right,
      List.append_nil, List.nil_append, List.not_mem_nil, not_false_eq_true, true_and, and_true,
      List.nodup_nil, List.disjoint_nil_left, List.disjoint_nil_right, List.cons_append,
      List.append_assoc] at hnd'
    simp only [Shape, CtxShape, rootAddr_node, rootAddr_leaf, ctxParent_nil, ctxParent_L,
      ctxParent_R] at hs hp
    obtain ⟨hz, hL, hR⟩ := hs
    obtain ⟨hp0, hS, hrest⟩ := hp
    simp only [rootAddr_leaf, rootAddr_node, ctxParent_nil, ctxParent_L, ctxParent_R]
    have E : rbtree_transplant t z t.nil = set_parent (set_left (t) p t.nil) t.nil p := by
      simp only [rbtree_transplant, hz, hp0, set_right_mem, set_left_mem, set_parent_mem, set_root_mem, set_color_mem, set_right_nil, set_left_nil, set_parent_nil, set_root_nil, set_color_nil, upd_same, upd_ne, hnd', ne_eq,
        not_false_eq_true, not_true_eq_false, if_true, if_false]
    have ep : (rbtree_transplant t z t.nil).mem p = ⟨cp, kp, ctxParent t.nil rest, t.nil, rootAddr t.nil S⟩ := by
      simp only [E, hz, hp0, set_right_mem, set_left_mem, set_parent_mem, set_root_mem, set_color_mem, upd_same, upd_ne, hnd', ne_eq, not_false_eq_true]
    have er : (rbtree_transplant t z t.nil).root = t.root := by
      simp only [E, set_right_root, set_left_root, set_parent_root, set_root_root, set_color_root]
    have hfr : ∀ q, q ∉ [t.nil, p] → (rbtree_transplant t z t.nil).mem q = t.mem q := by
      intro q hq
      simp only [not_mem_cons_both, List.not_mem_nil, not_false_eq_true, and_true] at hq
      simp only [E, set_right_mem, set_left_mem, set_parent_mem, set_root_mem, set_color_mem, upd_ne, hq, ne_eq, not_false_eq_true]
    have enil : (rbtree_transplant t z t.nil).mem t.nil = { t.mem t.nil with parent := p } := by
      simp only [E, set_right_mem, set_left_mem, set_parent_mem, set_root_mem, set_color_mem, upd_same, upd_ne, hnd', ne_eq, not_false_eq_true]
    refine ⟨⟨?_, ?_, ?_, ?_, ?_, ?_, ?_⟩, ?_, ?_⟩
    · simp only [CtxShape, rootAddr_node, rootAddr_leaf, er, en]
      refine ⟨ep, hS.frame (frame_of_disjoint hfr ?_), hrest.frame_ctx (frame_of_disjoint hfr ?_)⟩
      all_goals simp only [List.disjoint_cons_right, List.disjoint_nil_right, hnd', not_false_eq_true,
        and_self]
    · trivial
    · simp only [addrs_node, addrs_leaf, ctxAddrs_nil, ctxAddrs_L, ctxAddrs_R, List.nodup_cons,
        List.nodup_append, List.mem_append, not_mem_cons_both, not_or, List.disjoint_cons_left,
        List.disjoint_cons_right, List.disjoint_append_left, List.disjoint_append_right,
        List.append_nil, List.nil_append, List.not_mem_nil, not_false_eq_true, true_and, and_true,
        List.nodup_nil, List.disjoint_nil_left, List.disjoint_nil_right, List.cons_append,
        List.append_assoc, hnd', and_self, rbtree_transplant_nil, set_parent_nil, set_left_nil,
        set_right_nil, set_color_nil, set_root_nil]
    · intro q hq
      rw [eb]
      rw [en] at hq
      exact hb q (hsub q hq)
    · rw [en, enil]; exact hc
    · rw [en, enil]; exact hl
    · rw [en, enil]; exact hr
    · rw [enil]
    · intro q h1 h2
      apply hfr
      simp only [List.mem_cons, List.not_mem_nil, or_false, not_or]
      exact ⟨h2, h1⟩
  case mk.leaf.cons.R =>
    simp only [addrs_node, addrs_leaf, ctxAddrs_nil, ctxAddrs_L, ctxAddrs_R, List.nodup_cons,
      List.nodup_append, List.mem_append, not_mem_cons_both, not_or, List.disjoint_cons_left,
      List.disjoint_cons_right, List.disjoint_append_left, List.disjoint_append_right,
      List.append_nil, List.nil_append, List.not_mem_nil, not_false_eq_true, true_and, and_true,
      List.nodup_nil, List.disjoint_nil_left, List.disjoint_nil_right, List.cons_append,
      List.append_assoc] at hnd'
    simp only [Shape, CtxShape, rootAddr_node, rootAddr_leaf, ctxParent_nil, ctxParent_L,
      ctxParent_R] at hs hp
    obtain ⟨hz, hL, hR⟩ := hs
    obtain ⟨hp0, hS, hrest⟩ := hp
    have hps : z ≠ rootAddr t.nil S :=
      ne_rootAddr (by simp only [hnd', not_false_eq_true]) (by simp only [hnd', not_false_eq_true])
    simp only [rootAddr_leaf, rootAddr_node, ctxParent_nil, ctxParent_L, ctxParent_R]
    have E : rbtree_transplant t z t.nil = set_parent (set_right (t) p t.nil) t.nil p := by
      simp only [rbtree_transplant, hz, hp0, set_right_mem, set_left_mem, set_parent_mem, set_root_mem, set_color_mem, set_right_nil, set_left_nil, set_parent_nil, set_root_nil, set_color_nil, upd_same, upd_ne, hnd', ne_eq,
        not_false_eq_true, not_true_eq_false, if_true, if_false, hps]
    have ep : (rbtree_transplant t z t.nil).mem p = ⟨cp, kp, ctxParent t.nil rest, rootAddr t.nil S, t.nil⟩ := by
      simp only [E, hz, hp0, set_right_mem, set_left_mem, set_parent_mem, set_root_mem, set_color_mem, upd_same, upd_ne, hnd', ne_eq, not_false_eq_true]
    have er : (rbtree_transplant t z t.nil).root = t.root := by
      simp only [E, set_right_root, set_left_root, set_parent_root, set_root_root, set_color_root]
    have hfr : ∀ q, q ∉ [t.nil, p] → (rbtree_transplant t z t.nil).mem q = t.mem q := by
      intro q hq
      simp only [not_mem_cons_both, List.not_mem_nil, not_false_eq_true, and_true] at hq
      simp only [E, set_right_mem, set_left_mem, set_parent_mem, set_root_mem, set_color_mem, upd_ne, hq, ne_eq, not_false_eq_true]
    have enil : (rbtree_transplant t z t.nil).mem t.nil = { t.mem t.nil with parent := p } := by
      simp only [E, set_right_mem, set_left_mem, set_parent_mem, set_root_mem, set_color_mem, upd_same, upd_ne, hnd', ne_eq, not_false_eq_true]
    refine ⟨⟨?_, ?_, ?_, ?_, ?_, ?_, ?_⟩, ?_, ?_⟩
    · simp only [CtxShape, rootAddr_node, rootAddr_leaf, er, en]
      refine ⟨ep, hS.frame (frame_of_disjoint hfr ?_), hrest.frame_ctx (frame_of_disjoint hfr ?_)⟩
      all_goals simp only [List.disjoint_cons_right, List.disjoint_nil_right, hnd', not_false_eq_true,
        and_self]
    · trivial
    · simp only [addrs_node, addrs_leaf, ctxAddrs_nil, ctxAddrs_L, ctxAddrs_R, List.nodup_cons,
        List.nodup_append, List.mem_append, not_mem_cons_both, not_or, List.disjoint_cons_left,
        List.disjoint_cons_right, List.disjoint_append_left, List.disjoint_append_right,
        List.append_nil, List.nil_append, List.not_mem_nil, not_false_eq_true, true_and, and_true,
        List.nodup_nil, List.disjoint_nil_left, List.disjoint_nil_right, List.cons_append,
        List.append_assoc, hnd', and_self, rbtree_transplant_nil, set_parent_nil, set_left_nil,
        set_right_nil, set_color_nil, set_root_nil]
    · intro q hq
      rw [eb]
      rw [en] at hq
      exact hb q (hsub q hq)
    · rw [en, enil]; exact hc
    · rw [en, enil]; exact hl
    · rw [en, enil]; exact hr
    · rw [enil]
    · intro q h1 h2
      apply hfr
      simp only [List.mem_cons, List.not_mem_nil, or_false, not_or]
      exact ⟨h2, h1⟩
  case mk.node.nil =>
    simp only [addrs_node, addrs_leaf, ctxAddrs_nil, ctxAddrs_L, ctxAddrs_R, List.nodup_cons,
      List.nodup_append, List.mem_append, not_mem_cons_both, not_or, List.disjoint_cons_left,
      List.disjoint_cons_right, List.disjoint_append_left, List.disjoint_append_right,
      List.append_nil, List.nil_append, List.not_mem_nil, not_false_eq_true, true_and, and_true,
      List.nodup_nil, List.disjoint_nil_left, List.disjoint_nil_right, List.cons_append,
      List.append_assoc] at hnd'
    simp only [Shape, CtxShape, rootAddr_node, rootAddr_leaf, ctxParent_nil, ctxParent_L,
      ctxParent_R] at hs hp
    obtain ⟨hz, hL, hR⟩ := hs
    obtain ⟨hb0, hBL, hBR⟩ := hR
    simp only [rootAddr_leaf, rootAddr_node, ctxParent_nil, ctxParent_L, ctxParent_R]
    have E : rbtree_transplant t z b = set_parent (set_root (t) b) b t.nil := by
      simp only [rbtree_transplant, hz, hb0, set_right_mem, set_left_mem, set_parent_mem, set_root_mem, set_color_mem, set_right_nil, set_left_nil, set_parent_nil, set_root_nil, set_color_nil, upd_same, upd_ne, hnd', ne_eq,
        not_false_eq_true, not_true_eq_false, if_true, if_false]
    have ev : (rbtree_transplant t z b).mem b = ⟨cb, kb, t.nil, rootAddr t.nil BL, rootAddr t.nil BR⟩ := by
      simp only [E, hz, hb0, set_right_mem, set_left_mem, set_parent_mem, set_root_mem, set_color_mem, upd_same, upd_ne, hnd', ne_eq, not_false_eq_true]
    have er : (rbtree_transplant t z b).root = b := by
      simp only [E, set_right_root, set_left_root, set_parent_root, set_root_root, set_color_root]
    have hfr : ∀ q, q ∉ [b] → (rbtree_transplant t z b).mem q = t.mem q := by
      intro q hq
      simp only [not_mem_cons_both, List.not_mem_nil, not_false_eq_true, and_true] at hq
      simp only [E, set_right_mem, set_left_mem, set_parent_mem, set_root_mem, set_color_mem, upd_ne, hq, ne_eq, not_false_eq_true]
    have enil : (rbtree_transplant t z b).mem t.nil = t.mem t.nil :=
      hfr t.nil (by simp only [not_mem_cons_both, List.not_mem_nil, hnd', not_false_eq_true, and_self])
    refine ⟨⟨?_, ?_, ?_, ?_, ?_, ?_, ?_⟩, ?_, ?_⟩
    · simp only [CtxShape, rootAddr_node, rootAddr_leaf, er, en]
    · simp only [Shape, en, rootAddr_node, rootAddr_leaf, ctxParent_L, ctxParent_R, ctxParent_nil]
      refine ⟨ev, hBL.frame (frame_of_disjoint hfr ?_), hBR.frame (frame_of_disjoint hfr ?_)⟩
      all_goals simp only [List.disjoint_cons_right, List.disjoint_nil_right, hnd', not_false_eq_true,
        and_self]
    · simp only [addrs_node, addrs_leaf, ctxAddrs_nil, ctxAddrs_L, ctxAddrs_R, List.nodup_cons,
        List.nodup_append, List.mem_append, not_mem_cons_both, not_or, List.disjoint_cons_left,
        List.disjoint_cons_right, List.disjoint_append_left, List.disjoint_append_right,
        List.append_nil, List.nil_append, List.not_mem_nil, not_false_eq_true, true_and, and_true,
        List.nodup_nil, List.disjoint_nil_left, List.disjoint_nil_right, List.cons_append,
        List.append_assoc, hnd', and_self, rbtree_transplant_nil, set_parent_nil, set_left_nil,
        set_right_nil, set_color_nil, set_root_nil]
    · intro q hq
      rw [eb]
      rw [en] at hq
      exact hb q (hsub q hq)
    · rw [en, enil]; exact hc
    · rw [en, enil]; exact hl
    · rw [en, enil]; exact hr
    · rw [ev]
    · intro q h1 h2
      apply hfr
      simp only [List.mem_cons, List.not_mem_nil, or_false, not_or]
      exact h2
  case mk.node.cons.L =>
    simp only [addrs_node, addrs_leaf, ctxAddrs_nil, ctxAddrs_L, ctxAddrs_R, List.nodup_cons,
      List.nodup_append, List.mem_append, not_mem_cons_both, not_or, List.disjoint_cons_left,
      List.disjoint_cons_right, List.disjoint_append_left, List.disjoint_append_right,
      List.append_nil, List.nil_append, List.not_mem_nil, not_false_eq_true, true_and, and_true,
      List.nodup_nil, List.disjoint_nil_left, List.disjoint_nil_right, List.cons_append,
      List.append_assoc] at hnd'
    simp only [Shape, CtxShape, rootAddr_node, rootAddr_leaf, ctxParent_nil, ctxParent_L,
      ctxParent_R] at hs hp
    obtain ⟨hz, hL, hR⟩ := hs
    obtain ⟨hb0, hBL, hBR⟩ := hR
    obtain ⟨hp0, hS, hrest⟩ := hp
    simp only [rootAddr_leaf, rootAddr_node, ctxParent_nil, ctxParent_L, ctxParent_R]
    have E : rbtree_transplant t z b = set_parent (set_left (t) p b) b p := by
      simp only [rbtree_transplant, hz, hb0, hp0, set_right_mem, set_left_mem, set_parent_mem, set_root_mem, set_color_mem, set_right_nil, set_left_nil, set_parent_nil, set_root_nil, set_color_nil, upd_same, upd_ne, hnd', ne_eq,
        not_false_eq_true, not_true_eq_false, if_true, if_false]
    have ev : (rbtree_transplant t z b).mem b = ⟨cb, kb, p, rootAddr t.nil BL, rootAddr t.nil BR⟩ := by
      simp only [E, hz, hb0, hp0, set_right_mem, set_left_mem, set_parent_mem, set_root_mem, set_color_mem, upd_same, upd_ne, hnd', ne_eq, not_false_eq_true]
    have ep : (rbtree_transplant t z b).mem p = ⟨cp, kp, ctxParent t.nil rest, b, rootAddr t.nil S⟩ := by
      simp only [E, hz, hb0, hp0, set_right_mem, set_left_mem, set_parent_mem, set_root_mem, set_color_mem, upd_same, upd_ne, hnd', ne_eq, not_false_eq_true]
    have er : (rbtree_transplant t z b).root = t.root := by
      simp only [E, set_right_root, set_left_root, set_parent_root, set_root_root, set_color_root]
    have hfr : ∀ q, q ∉ [b, p] → (rbtree_transplant t z b).mem q = t.mem q := by
      intro q hq
      simp only [not_mem_cons_both, List.not_mem_nil, not_false_eq_true, and_true] at hq
      simp only [E, set_right_mem, set_left_mem, set_parent_mem, set_root_mem, set_color_mem, upd_ne, hq, ne_eq, not_false_eq_true]
    have enil : (rbtree_transplant t z b).mem t.nil = t.mem t.nil :=
      hfr t.nil (by simp only [not_mem_cons_both, List.not_mem_nil, hnd', not_false_eq_true, and_self])
    refine ⟨⟨?_, ?_, ?_, ?_, ?_, ?_, ?_⟩, ?_, ?_⟩
    · simp only [CtxShape, rootAddr_node, rootAddr_leaf, er, en]
      refine ⟨ep, hS.frame (frame_of_disjoint hfr ?_), hrest.frame_ctx (frame_of_disjoint hfr ?_)⟩
      all_goals simp only [List.disjoint_cons_right, List.disjoint_nil_right, hnd', not_false_eq_true,
        and_self]
    · simp only [Shape, en, rootAddr_node, rootAddr_leaf, ctxParent_L, ctxParent_R, ctxParent_nil]
      refine ⟨ev, hBL.frame (frame_of_disjoint hfr ?_), hBR.frame (frame_of_disjoint hfr ?_)⟩
      all_goals simp only [List.disjoint_cons_right, List.disjoint_nil_right, hnd', not_false_eq_true,
        and_self]
    · simp only [addrs_node, addrs_leaf, ctxAddrs_nil, ctxAddrs_L, ctxAddrs_R, List.nodup_cons,
        List.nodup_append, List.mem_append, not_mem_cons_both, not_or, List.disjoint_cons_left,
        List.disjoint_cons_right, List.disjoint_append_left, List.disjoint_append_right,
        List.append_nil, List.nil_append, List.not_mem_nil, not_false_eq_true, true_and, and_true,
        List.nodup_nil, List.disjoint_nil_left, List.disjoint_nil_right, List.cons_append,
        List.append_assoc, hnd', and_self, rbtree_transplant_nil, set_parent_nil, set_left_nil,
        set_right_nil, set_color_nil, set_root_nil]
    · intro q hq
      rw [eb]
      rw [en] at hq
      exact hb q (hsub q hq)
    · rw [en, enil]; exact hc
    · rw [en, enil]; exact hl
    · rw [en, enil]; exact hr
    · rw [ev]
    · intro q h1 h2
      apply hfr
      simp only [List.mem_cons, List.not_mem_nil, or_false, not_or]
      exact ⟨h2, h1⟩
  case mk.node.cons.R =>
    simp only [addrs_node, addrs_leaf, ctxAddrs_nil, ctxAddrs_L, ctxAddrs_R, List.nodup_cons,
      List.nodup_append, List.mem_append, not_mem_cons_both, not_or, List.disjoint_cons_left,
      List.disjoint_cons_right, List.disjoint_append_left, List.disjoint_append_right,
      List.append_nil, List.nil_append, List.not_mem_nil, not_false_eq_true, true_and, and_true,
      List.nodup_nil, List.disjoint_nil_left, List.disjoint_nil_right, List.cons_append,
      List.append_assoc] at hnd'
    simp only [Shape, CtxShape, rootAddr_node, rootAddr_leaf, ctxParent_nil, ctxParent_L,
      ctxParent_R] at hs hp
    obtain ⟨hz, hL, hR⟩ := hs
    obtain ⟨hb0, hBL, hBR⟩ := hR
    obtain ⟨hp0, hS, hrest⟩ := hp
    have hps : z ≠ rootAddr t.nil S :=
      ne_rootAddr (by simp only [hnd', not_false_eq_true]) (by simp only [hnd', not_false_eq_true])
    simp only [rootAddr_leaf, rootAddr_node, ctxParent_nil, ctxParent_L, ctxParent_R]
    have E : rbtree_transplant t z b = set_parent (set_right (t) p b) b p := by
      simp only [rbtree_transplant, hz, hb0, hp0, set_right_mem, set_left_mem, set_parent_mem, set_root_mem, set_color_mem, set_right_nil, set_left_nil, set_parent_nil, set_root_nil, set_color_nil, upd_same, upd_ne, hnd', ne_eq,
        not_false_eq_true, not_true_eq_false, if_true, if_false, hps]
    have ev : (rbtree_transplant t z b).mem b = ⟨cb, kb, p, rootAddr t.nil BL, rootAddr t.nil BR⟩ := by
      simp only [E, hz, hb0, hp0, set_right_mem, set_left_mem, set_parent_mem, set_root_mem, set_color_mem, upd_same, upd_ne, hnd', ne_eq, not_false_eq_true]
    have ep : (rbtree_transplant t z b).mem p = ⟨cp, kp, ctxParent t.nil rest, rootAddr t.nil S, b⟩ := by
      simp only [E, hz, hb0, hp0, set_right_mem, set_left_mem, set_parent_mem, set_root_mem, set_color_mem, upd_same, upd_ne, hnd', ne_eq, not_false_eq_true]
    have er : (rbtree_transplant t z b).root = t.root := by
      simp only [E, set_right_root, set_left_root, set_parent_root, set_root_root, set_color_root]
    have hfr : ∀ q, q ∉ [b, p] → (rbtree_transplant t z b).mem q = t.mem q := by
      intro q hq
      simp only [not_mem_cons_both, List.not_mem_nil, not_false_eq_true, and_true] at hq
      simp only [E, set_right_mem, set_left_mem, set_parent_mem, set_root_mem, set_color_mem, upd_ne, hq, ne_eq, not_false_eq_true]
    have enil : (rbtree_transplant t z b).mem t.nil = t.mem t.nil :=
      hfr t.nil (by simp only [not_mem_cons_both, List.not_mem_nil, hnd', not_false_eq_true, and_self])
    refine ⟨⟨?_, ?_, ?_, ?_, ?_, ?_, ?_⟩, ?_, ?_⟩
    · simp only [CtxShape, rootAddr_node, rootAddr_leaf, er, en]
      refine ⟨ep, hS.frame (frame_of_disjoint hfr ?_), hrest.frame_ctx (frame_of_disjoint hfr ?_)⟩
      all_goals simp only [List.disjoint_cons_right, List.disjoint_nil_right, hnd', not_false_eq_true,
        and_self]
    · simp only [Shape, en, rootAddr_node, rootAddr_leaf, ctxParent_L, ctxParent_R, ctxParent_nil]
      refine ⟨ev, hBL.frame (frame_of_disjoint hfr ?_), hBR.frame (frame_of_disjoint hfr ?_)⟩
      all_goals simp only [List.disjoint_cons_right, List.disjoint_nil_right, hnd', not_false_eq_true,
        and_self]
    · simp only [addrs_node, addrs_leaf, ctxAddrs_nil, ctxAddrs_L, ctxAddrs_R, List.nodup_cons,
        List.nodup_append, List.mem_append, not_mem_cons_both, not_or, List.disjoint_cons_left,
        List.disjoint_cons_right, List.disjoint_append_left, List.disjoint_append_right,
        List.append_nil, List.nil_append, List.not_mem_nil, not_false_eq_true, true_and, and_true,
        List.nodup_nil, List.disjoint_nil_left, List.disjoint_nil_right, List.cons_append,
        List.append_assoc, hnd', and_self, rbtree_transplant_nil, set_parent_nil, set_left_nil,
        set_right_nil, set_color_nil, set_root_nil]
    · intro q hq
      rw [eb]
      rw [en] at hq
      exact hb q (hsub q hq)
    · rw [en, enil]; exact hc
    · rw [en, enil]; exact hl
    · rw [en, enil]; exact hr
    · rw [ev]
    · intro q h1 h2
      apply hfr
      simp only [List.mem_cons, List.not_mem_nil, or_false, not_or]
      exact ⟨h2, h1⟩

/-- `rbtree_transplant t z v` with `v` the left child link of the record `z` at a position:
the child subtree takes the place of `z`, and `v` (the sentinel included) gets the parent
link of `z`. -/
theorem RepZ.transplant_left {t : rbtree} {ctx : Ctx} {z : Ptr} {c : color_t} {k : Int}
    {l r : Tree} (h : RepZ t ctx (.node z c k l r)) :
    RepZ (rbtree_transplant t z (rootAddr t.nil l)) ctx l
      ∧ ((rbtree_transplant t z (rootAddr t.nil l)).mem (rootAddr t.nil l)).parent
          = ctxParent t.nil ctx
      ∧ ∀ q, q ≠ ctxParent t.nil ctx → q ≠ rootAddr t.nil l →
          (rbtree_transplant t z (rootAddr t.nil l)).mem q = t.mem q := by
  obtain ⟨hp, hs, hnd, hb, hc, hl, hr⟩ := h
  have hnd' := hnd
  have en : ∀ v, (rbtree_transplant t z v).nil = t.nil := rbtree_transplant_nil t z
  have eb : ∀ v, (rbtree_transplant t z v).brk = t.brk := rbtree_transplant_brk t z
  have hsub : ∀ q, q ∈ t.nil :: (addrs l ++ ctxAddrs ctx) →
      q ∈ t.nil :: (addrs (.node z c k l r) ++ ctxAddrs ctx) := by
    intro q hq
    simp only [addrs_node, List.mem_cons, List.mem_append] at hq ⊢
    tauto
  rcases l with _ | ⟨b, cb, kb, BL, BR⟩ <;>
    rcases ctx with _ | ⟨(⟨p, cp, kp, S⟩ | ⟨p, cp, kp, S⟩), rest⟩
  case mk.leaf.nil =>
    simp only [addrs_node, addrs_leaf, ctxAddrs_nil, ctxAddrs_L, ctxAddrs_R, List.nodup_cons,
      List.nodup_append, List.mem_append, not_mem_cons_both, not_or, List.disjoint_cons_left,
      List.disjoint_cons_right, List.disjoint_append_left, List.disjoint_append_right,
      List.append_nil, List.nil_append, List.not_mem_nil, not_false_eq_true, true_and, and_true,
      List.nodup_nil, List.disjoint_nil_left, List.disjoint_nil_right, List.cons_append,
      List.append_assoc] at hnd'
    simp only [Shape, CtxShape, rootAddr_node, rootAddr_leaf, ctxParent_nil, ctxParent_L,
      ctxParent_R] at hs hp
    obtain ⟨hz, hR, hL⟩ := hs
    simp only [rootAddr_leaf, rootAddr_node, ctxParent_nil, ctxParent_L, ctxParent_R]
    have E : rbtree_transplant t z t.nil = set_parent (set_root (t) t.nil) t.nil t.nil := by
      simp only [rbtree_transplant, hz, set_right_mem, set_left_mem, set_parent_mem, set_root_mem, set_color_mem, set_right_nil, set_left_nil, set_parent_nil, set_root_nil, set_color_nil, upd_same, upd_ne, hnd', ne_eq,
        not_false_eq_true, not_true_eq_false, if_true, if_false]
    have er : (rbtree_transplant t z t.nil).root = t.nil := by
      simp only [E, set_right_root, set_left_root, set_parent_root, set_root_root, set_color_root]
    have hfr : ∀ q, q ∉ [t.nil] → (rbtree_transplant t z t.nil).mem q = t.mem q := by
      intro q hq
      simp only [not_mem_cons_both, List.not_mem_nil, not_false_eq_true, and_true] at hq
      simp only [E, set_right_mem, set_left_mem, set_parent_mem, set_root_mem, set_color_mem, upd_ne, hq, ne_eq, not_false_eq_true]
    have enil : (rbtree_transplant t z t.nil).mem t.nil = { t.mem t.nil with parent := t.nil } := by
      simp only [E, set_right_mem, set_left_mem, set_parent_mem, set_root_mem, set_color_mem, upd_same, upd_ne, hnd', ne_eq, not_false_eq_true]
    refine ⟨⟨?_, ?_, ?_, ?_, ?_, ?_, ?_⟩, ?_, ?_⟩
    · simp only [CtxShape, rootAddr_node, rootAddr_leaf, er, en]
    · trivial
    · simp only [addrs_node, addrs_leaf, ctxAddrs_nil, ctxAddrs_L, ctxAddrs_R, List.nodup_cons,
        List.nodup_append, List.mem_append, not_mem_cons_both, not_or, List.disjoint_cons_left,
        List.disjoint_cons_right, List.disjoint_append_left, List.disjoint_append_right,
        List.append_nil, List.nil_append, List.not_mem_nil, not_false_eq_true, true_and, and_true,
        List.nodup_nil, List.disjoint_nil_left, List.disjoint_nil_right, List.cons_append,
        List.append_assoc, hnd', and_self, rbtree_transplant_nil, set_parent_nil, set_left_nil,
        set_right_nil, set_color_nil, set_root_nil]
    · intro q hq
      rw [eb]
      rw [en] at hq
      exact hb q (hsub q hq)
    · rw [en, enil]; exact hc
    · rw [en, enil]; exact hl
    · rw [en, enil]; exact hr
    · rw [enil]
    · intro q h1 h2
      apply hfr
      simp only [List.mem_cons, List.not_mem_nil, or_false, not_or]
      exact h2
  case mk.leaf.cons.L =>
    simp only [addrs_node, addrs_leaf, ctxAddrs_nil, ctxAddrs_L, ctxAddrs_R, List.nodup_cons,
      List.nodup_append, List.mem_append, not_mem_cons_both, not_or, List.disjoint_cons_left,
      List.disjoint_cons_right, List.disjoint_append_left, List.disjoint_append_right,
      List.append_nil, List.nil_append, List.not_mem_nil, not_false_eq_true, true_and, and_true,
      List.nodup_nil, List.disjoint_nil_left, List.disjoint_nil_right, List.cons_append,
      List.append_assoc] at hnd'
    simp only [Shape, CtxShape, rootAddr_node, rootAddr_leaf, ctxParent_nil, ctxParent_L,
      ctxParent_R] at hs hp
    obtain ⟨hz, hR, hL⟩ := hs
    obtain ⟨hp0, hS, hrest⟩ := hp
    simp only [rootAddr_leaf, rootAddr_node, ctxParent_nil, ctxParent_L, ctxParent_R]
    have E : rbtree_transplant t z t.nil = set_parent (set_left (t) p t.nil) t.nil p := by
      simp only [rbtree_transplant, hz, hp0, set_right_mem, set_left_mem, set_parent_mem, set_root_mem, set_color_mem, set_right_nil, set_left_nil, set_parent_nil, set_root_nil, set_color_nil, upd_same, upd_ne, hnd', ne_eq,
        not_false_eq_true, not_true_eq_false, if_true, if_false]
    have ep : (rbtree_transplant t z t.nil).mem p = ⟨cp, kp, ctxParent t.nil rest, t.nil, rootAddr t.nil S⟩ := by
      simp only [E, hz, hp0, set_right_mem, set_left_mem, set_parent_mem, set_root_mem, set_color_mem, upd_same, upd_ne, hnd', ne_eq, not_false_eq_true]
    have er : (rbtree_transplant t z t.nil).root = t.root := by
      simp only [E, set_right_root, set_left_root, set_parent_root, set_root_root, set_color_root]
    have hfr : ∀ q, q ∉ [t.nil, p] → (rbtree_transplant t z t.nil).mem q = t.mem q := by
      intro q hq
      simp only [not_mem_cons_both, List.not_mem_nil, not_false_eq_true, and_true] at hq
      simp only [E, set_right_mem, set_left_mem, set_parent_mem, set_root_mem, set_color_mem, upd_ne, hq, ne_eq, not_false_eq_true]
    have enil : (rbtree_transplant t z t.nil).mem t.nil = { t.mem t.nil with parent := p } := by
      simp only [E, set_right_mem, set_left_mem, set_parent_mem, set_root_mem, set_color_mem, upd_same, upd_ne, hnd', ne_eq, not_false_eq_true]
    refine ⟨⟨?_, ?_, ?_, ?_, ?_, ?_, ?_⟩, ?_, ?_⟩
    · simp only [CtxShape, rootAddr_node, rootAddr_leaf, er, en]
      refine ⟨ep, hS.frame (frame_of_disjoint hfr ?_), hrest.frame_ctx (frame_of_disjoint hfr ?_)⟩
      all_goals simp only [List.disjoint_cons_right, List.disjoint_nil_right, hnd', not_false_eq_true,
        and_self]
    · trivial
    · simp only [addrs_node, addrs_leaf, ctxAddrs_nil, ctxAddrs_L, ctxAddrs_R, List.nodup_cons,
        List.nodup_append, List.mem_append, not_mem_cons_both, not_or, List.disjoint_cons_left,
        List.disjoint_cons_right, List.disjoint_append_left, List.disjoint_append_right,
        List.append_nil, List.nil_append, List.not_mem_nil, not_false_eq_true, true_and, and_true,
        List.nodup_nil, List.disjoint_nil_left, List.disjoint_nil_right, List.cons_append,
        List.append_assoc, hnd', and_self, rbtree_transplant_nil, set_parent_nil, set_left_nil,
        set_right_nil, set_color_nil, set_root_nil]
    · intro q hq
      rw [eb]
      rw [en] at hq
      exact hb q (hsub q hq)
    · rw [en, enil]; exact hc
    · rw [en, enil]; exact hl
    · rw [en, enil]; exact hr
    · rw [enil]
    · intro q h1 h2
      apply hfr
      simp only [List.mem_cons, List.not_mem_nil, or_false, not_or]
      exact ⟨h2, h1⟩
  case mk.leaf.cons.R =>
    simp only [addrs_node, addrs_leaf, ctxAddrs_nil, ctxAddrs_L, ctxAddrs_R, List.nodup_cons,
      List.nodup_append, List.mem_append, not_mem_cons_both, not_or, List.disjoint_cons_left,
      List.disjoint_cons_right, List.disjoint_append_left, List.disjoint_append_right,
      List.append_nil, List.nil_append, List.not_mem_nil, not_false_eq_true, true_and, and_true,
      List.nodup_nil, List.disjoint_nil_left, List.disjoint_nil_right, List.cons_append,
      List.append_assoc] at hnd'
    simp only [Shape, CtxShape, rootAddr_node, rootAddr_leaf, ctxParent_nil, ctxParent_L,
      ctxParent_R] at hs hp
    obtain ⟨hz, hR, hL⟩ := hs
    obtain ⟨hp0, hS, hrest⟩ := hp
    have hps : z ≠ rootAddr t.nil S :=
      ne_rootAddr (by simp only [hnd', not_false_eq_true]) (by simp only [hnd', not_false_eq_true])
    simp only [rootAddr_leaf, rootAddr_node, ctxParent_nil, ctxParent_L, ctxParent_R]
    have E : rbtree_transplant t z t.nil = set_parent (set_right (t) p t.nil) t.nil p := by
      simp only [rbtree_transplant, hz, hp0, set_right_mem, set_left_mem, set_parent_mem, set_root_mem, set_color_mem, set_right_nil, set_left_nil, set_parent_nil, set_root_nil, set_color_nil, upd_same, upd_ne, hnd', ne_eq,
        not_false_eq_true, not_true_eq_false, if_true, if_false, hps]
    have ep : (rbtree_transplant t z t.nil).mem p = ⟨cp, kp, ctxParent t.nil rest, rootAddr t.nil S, t.nil⟩ := by
      simp only [E, hz, hp0, set_right_mem, set_left_mem, set_parent_mem, set_root_mem, set_color_mem, upd_same, upd_ne, hnd', ne_eq, not_false_eq_true]
    have er : (rbtree_transplant t z t.nil).root = t.root := by
      simp only [E, set_right_root, set_left_root, set_parent_root, set_root_root, set_color_root]
    have hfr : ∀ q, q ∉ [t.nil, p] → (rbtree_transplant t z t.nil).mem q = t.mem q := by
      intro q hq
      simp only [not_mem_cons_both, List.not_mem_nil, not_false_eq_true, and_true] at hq
      simp only [E, set_right_mem, set_left_mem, set_parent_mem, set_root_mem, set_color_mem, upd_ne, hq, ne_eq, not_false_eq_true]
    have enil : (rbtree_transplant t z t.nil).mem t.nil = { t.mem t.nil with parent := p } := by
      simp only [E, set_right_mem, set_left_mem, set_parent_mem, set_root_mem, set_color_mem, upd_same, upd_ne, hnd', ne_eq, not_false_eq_true]
    refine ⟨⟨?_, ?_, ?_, ?_, ?_, ?_, ?_⟩, ?_, ?_⟩
    · simp only [CtxShape, rootAddr_node, rootAddr_leaf, er, en]
      refine ⟨ep, hS.frame (frame_of_disjoint hfr ?_), hrest.frame_ctx (frame_of_disjoint hfr ?_)⟩
      all_goals simp only [List.disjoint_cons_right, List.disjoint_nil_right, hnd', not_false_eq_true,
        and_self]
    · trivial
    · simp only [addrs_node, addrs_leaf, ctxAddrs_nil, ctxAddrs_L, ctxAddrs_R, List.nodup_cons,
        List.nodup_append, List.mem_append, not_mem_cons_both, not_or, List.disjoint_cons_left,
        List.disjoint_cons_right, List.disjoint_append_left, List.disjoint_append_right,
        List.append_nil, List.nil_append, List.not_mem_nil, not_false_eq_true, true_and, and_true,
        List.nodup_nil, List.disjoint_nil_left, List.disjoint_nil_right, List.cons_append,
        List.append_assoc, hnd', and_self, rbtree_transplant_nil, set_parent_nil, set_left_nil,
        set_right_nil, set_color_nil, set_root_nil]
    · intro q hq
      rw [eb]
      rw [en] at hq
      exact hb q (hsub q hq)
    · rw [en, enil]; exact hc
    · rw [en, enil]; exact hl
    · rw [en, enil]; exact hr
    · rw [enil]
    · intro q h1 h2
      apply hfr
      simp only [List.mem_cons, List.not_mem_nil, or_false, not_or]
      exact ⟨h2, h1⟩
  case mk.node.nil =>
    simp only [addrs_node, addrs_leaf, ctxAddrs_nil, ctxAddrs_L, ctxAddrs_R, List.nodup_cons,
      List.nodup_append, List.mem_append, not_mem_cons_both, not_or, List.disjoint_cons_left,
      List.disjoint_cons_right, List.disjoint_append_left, List.disjoint_append_right,
      List.append_nil, List.nil_append, List.not_mem_nil, not_false_eq_true, true_and, and_true,
      List.nodup_nil, List.disjoint_nil_left, List.disjoint_nil_right, List.cons_append,
      List.append_assoc] at hnd'
    simp only [Shape, CtxShape, rootAddr_node, rootAddr_leaf, ctxParent_nil, ctxParent_L,
      ctxParent_R] at hs hp
    obtain ⟨hz, hR, hL⟩ := hs
    obtain ⟨hb0, hBL, hBR⟩ := hR
    simp only [rootAddr_leaf, rootAddr_node, ctxParent_nil, ctxParent_L, ctxParent_R]
    have E : rbtree_transplant t z b = set_parent (set_root (t) b) b t.nil := by
      simp only [rbtree_transplant, hz, hb0, set_right_mem, set_left_mem, set_parent_mem, set_root_mem, set_color_mem, set_right_nil, set_left_nil, set_parent_nil, set_root_nil, set_color_nil, upd_same, upd_ne, hnd', ne_eq,
        not_false_eq_true, not_true_eq_false, if_true, if_false]
    have ev : (rbtree_transplant t z b).mem b = ⟨cb, kb, t.nil, rootAddr t.nil BL, rootAddr t.nil BR⟩ := by
      simp only [E, hz, hb0, set_right_mem, set_left_mem, set_parent_mem, set_root_mem, set_color_mem, upd_same, upd_ne, hnd', ne_eq, not_false_eq_true]
    have er : (rbtree_transplant t z b).root = b := by
      simp only [E, set_right_root, set_left_root, set_parent_root, set_root_root, set_color_root]
    have hfr : ∀ q, q ∉ [b] → (rbtree_transplant t z b).mem q = t.mem q := by
      intro q hq
      simp only [not_mem_cons_both, List.not_mem_nil, not_false_eq_true, and_true] at hq
      simp only [E, set_right_mem, set_left_mem, set_parent_mem, set_root_mem, set_color_mem, upd_ne, hq, ne_eq, not_false_eq_true]
    have enil : (rbtree_transplant t z b).mem t.nil = t.mem t.nil :=
      hfr t.nil (by simp only [not_mem_cons_both, List.not_mem_nil, hnd', not_false_eq_true, and_self])
    refine ⟨⟨?_, ?_, ?_, ?_, ?_, ?_, ?_⟩, ?_, ?_⟩
    · simp only [CtxShape, rootAddr_node, rootAddr_leaf, er, en]
    · simp only [Shape, en, rootAddr_node, rootAddr_leaf, ctxParent_L, ctxParent_R, ctxParent_nil]
      refine ⟨ev, hBL.frame (frame_of_disjoint hfr ?_), hBR.frame (frame_of_disjoint hfr ?_)⟩
      all_goals simp only [List.disjoint_cons_right, List.disjoint_nil_right, hnd', not_false_eq_true,
        and_self]
    · simp only [addrs_node, addrs_leaf, ctxAddrs_nil, ctxAddrs_L, ctxAddrs_R, List.nodup_cons,
        List.nodup_append, List.mem_append, not_mem_cons_both, not_or, List.disjoint_cons_left,
        List.disjoint_cons_right, List.disjoint_append_left, List.disjoint_append_right,
        List.append_nil, List.nil_append, List.not_mem_nil, not_false_eq_true, true_and, and_true,
        List.nodup_nil, List.disjoint_nil_left, List.disjoint_nil_right, List.cons_append,
        List.append_assoc, hnd', and_self, rbtree_transplant_nil, set_parent_nil, set_left_nil,
        set_right_nil, set_color_nil, set_root_nil]
    · intro q hq
      rw [eb]
      rw [en] at hq
      exact hb q (hsub q hq)
    · rw [en, enil]; exact hc
    · rw [en, enil]; exact hl
    · rw [en, enil]; exact hr
    · rw [ev]
    · intro q h1 h2
      apply hfr
      simp only [List.mem_cons, List.not_mem_nil, or_false, not_or]
      exact h2
  case mk.node.cons.L =>
    simp only [addrs_node, addrs_leaf, ctxAddrs_nil, ctxAddrs_L, ctxAddrs_R, List.nodup_cons,
      List.nodup_append, List.mem_append, not_mem_cons_both, not_or, List.disjoint_cons_left,
      List.disjoint_cons_right, List.disjoint_append_left, List.disjoint_append_right,
      List.append_nil, List.nil_append, List.not_mem_nil, not_false_eq_true, true_and, and_true,
      List.nodup_nil, List.disjoint_nil_left, List.disjoint_nil_right, List.cons_append,
      List.append_assoc] at hnd'
    simp only [Shape, CtxShape, rootAddr_node, rootAddr_leaf, ctxParent_nil, ctxParent_L,
      ctxParent_R] at hs hp
    obtain ⟨hz, hR, hL⟩ := hs
    obtain ⟨hb0, hBL, hBR⟩ := hR
    obtain ⟨hp0, hS, hrest⟩ := hp
    simp only [rootAddr_leaf, rootAddr_node, ctxParent_nil, ctxParent_L, ctxParent_R]
    have E : rbtree_transplant t z b = set_parent (set_left (t) p b) b p := by
      simp only [rbtree_transplant, hz, hb0, hp0, set_right_mem, set_left_mem, set_parent_mem, set_root_mem, set_color_mem, set_right_nil, set_left_nil, set_parent_nil, set_root_nil, set_color_nil, upd_same, upd_ne, hnd', ne_eq,
        not_false_eq_true, not_true_eq_false, if_true, if_false]
    have ev : (rbtree_transplant t z b).mem b = ⟨cb, kb, p, rootAddr t.nil BL, rootAddr t.nil BR⟩ := by
      simp only [E, hz, hb0, hp0, set_right_mem, set_left_mem, set_parent_mem, set_root_mem, set_color_mem, upd_same, upd_ne, hnd', ne_eq, not_false_eq_true]
    have ep : (rbtree_transplant t z b).mem p = ⟨cp, kp, ctxParent t.nil rest, b, rootAddr t.nil S⟩ := by
      simp only [E, hz, hb0, hp0, set_right_mem, set_left_mem, set_parent_mem, set_root_mem, set_color_mem, upd_same, upd_ne, hnd', ne_eq, not_false_eq_true]
    have er : (rbtree_transplant t z b).root = t.root := by
      simp only [E, set_right_root, set_left_root, set_parent_root, set_root_root, set_color_root]
    have hfr : ∀ q, q ∉ [b, p] → (rbtree_transplant t z b).mem q = t.mem q := by
      intro q hq
      simp only [not_mem_cons_both, List.not_mem_nil, not_false_eq_true, and_true] at hq
      simp only [E, set_right_mem, set_left_mem, set_parent_mem, set_root_mem, set_color_mem, upd_ne, hq, ne_eq, not_false_eq_true]
    have enil : (rbtree_transplant t z b).mem t.nil = t.mem t.nil :=
      hfr t.nil (by simp only [not_mem_cons_both, List.not_mem_nil, hnd', not_false_eq_true, and_self])
    refine ⟨⟨?_, ?_, ?_, ?_, ?_, ?_, ?_⟩, ?_, ?_⟩
    · simp only [CtxShape, rootAddr_node, rootAddr_leaf, er, en]
      refine ⟨ep, hS.frame (frame_of_disjoint hfr ?_), hrest.frame_ctx (frame_of_disjoint hfr ?_)⟩
      all_goals simp only [List.disjoint_cons_right, List.disjoint_nil_right, hnd', not_false_eq_true,
        and_self]
    · simp only [Shape, en, rootAddr_node, rootAddr_leaf, ctxParent_L, ctxParent_R, ctxParent_nil]
      refine ⟨ev, hBL.frame (frame_of_disjoint hfr ?_), hBR.frame (frame_of_disjoint hfr ?_)⟩
      all_goals simp only [List.disjoint_cons_right, List.disjoint_nil_right, hnd', not_false_eq_true,
        and_self]
    · simp only [addrs_node, addrs_leaf, ctxAddrs_nil, ctxAddrs_L, ctxAddrs_R, List.nodup_cons,
        List.nodup_append, List.mem_append, not_mem_cons_both, not_or, List.disjoint_cons_left,
        List.disjoint_cons_right, List.disjoint_append_left, List.disjoint_append_right,
        List.append_nil, List.nil_append, List.not_mem_nil, not_false_eq_true, true_and, and_true,
        List.nodup_nil, List.disjoint_nil_left, List.disjoint_nil_right, List.cons_append,
        List.append_assoc, hnd', and_self, rbtree_transplant_nil, set_parent_nil, set_left_nil,
        set_right_nil, set_color_nil, set_root_nil]
    · intro q hq
      rw [eb]
      rw [en] at hq
      exact hb q (hsub q hq)
    · rw [en, enil]; exact hc
    · rw [en, enil]; exact hl
    · rw [en, enil]; exact hr
    · rw [ev]
    · intro q h1 h2
      apply hfr
      simp only [List.mem_cons, List.not_mem_nil, or_false, not_or]
      exact ⟨h2, h1⟩
  case mk.node.cons.R =>
    simp only [addrs_node, addrs_leaf, ctxAddrs_nil, ctxAddrs_L, ctxAddrs_R, List.nodup_cons,
      List.nodup_append, List.mem_append, not_mem_cons_both, not_or, List.disjoint_cons_left,
      List.disjoint_cons_right, List.disjoint_append_left, List.disjoint_append_right,
      List.append_nil, List.nil_append, List.not_mem_nil, not_false_eq_true, true_and, and_true,
      List.nodup_nil, List.disjoint_nil_left, List.disjoint_nil_right, List.cons_append,
      List.append_assoc] at hnd'
    simp only [Shape, CtxShape, rootAddr_node, rootAddr_leaf, ctxParent_nil, ctxParent_L,
      ctxParent_R] at hs hp
    obtain ⟨hz, hR, hL⟩ := hs
    obtain ⟨hb0, hBL, hBR⟩ := hR
    obtain ⟨hp0, hS, hrest⟩ := hp
    have hps : z ≠ rootAddr t.nil S :=
      ne_rootAddr (by simp only [hnd', not_false_eq_true]) (by simp only [hnd', not_false_eq_true])
    simp only [rootAddr_leaf, rootAddr_node, ctxParent_nil, ctxParent_L, ctxParent_R]
    have E : rbtree_transplant t z b = set_parent (set_right (t) p b) b p := by
      simp only [rbtree_transplant, hz, hb0, hp0, set_right_mem, set_left_mem, set_parent_mem, set_root_mem, set_color_mem, set_right_nil, set_left_nil, set_parent_nil, set_root_nil, set_color_nil, upd_same, upd_ne, hnd', ne_eq,
        not_false_eq_true, not_true_eq_false, if_true, if_false, hps]
    have ev : (rbtree_transplant t z b).mem b = ⟨cb, kb, p, rootAddr t.nil BL, rootAddr t.nil BR⟩ := by
      simp only [E, hz, hb0, hp0, set_right_mem, set_left_mem, set_parent_mem, set_root_mem, set_color_mem, upd_same, upd_ne, hnd', ne_eq, not_false_eq_true]
    have ep : (rbtree_transplant t z b).mem p = ⟨cp, kp, ctxParent t.nil rest, rootAddr t.nil S, b⟩ := by
      simp only [E, hz, hb0, hp0, set_right_mem, set_left_mem, set_parent_mem, set_root_mem, set_color_mem, upd_same, upd_ne, hnd', ne_eq, not_false_eq_true]
    have er : (rbtree_transplant t z b).root = t.root := by
      simp only [E, set_right_root, set_left_root, set_parent_root, set_root_root, set_color_root]
    have hfr : ∀ q, q ∉ [b, p] → (rbtree_transplant t z b).mem q = t.mem q := by
      intro q hq
      simp only [not_mem_cons_both, List.not_mem_nil, not_false_eq_true, and_true] at hq
      simp only [E, set_right_mem, set_left_mem, set_parent_mem, set_root_mem, set_color_mem, upd_ne, hq, ne_eq, not_false_eq_true]
    have enil : (rbtree_transplant t z b).mem t.nil = t.mem t.nil :=
      hfr t.nil (by simp only [not_mem_cons_both, List.not_mem_nil, hnd', not_false_eq_true, and_self])
    refine ⟨⟨?_, ?_, ?_, ?_, ?_, ?_, ?_⟩, ?_, ?_⟩
    · simp only [CtxShape, rootAddr_node, rootAddr_leaf, er, en]
      refine ⟨ep, hS.frame (frame_of_disjoint hfr ?_), hrest.frame_ctx (frame_of_disjoint hfr ?_)⟩
      all_goals simp only [List.disjoint_cons_right, List.disjoint_nil_right, hnd', not_false_eq_true,
        and_self]
    · simp only [Shape, en, rootAddr_node, rootAddr_leaf, ctxParent_L, ctxParent_R, ctxParent_nil]
      refine ⟨ev, hBL.frame (frame_of_disjoint hfr ?_), hBR.frame (frame_of_disjoint hfr ?_)⟩
      all_goals simp only [List.disjoint_cons_right, List.disjoint_nil_right, hnd', not_false_eq_true,
        and_self]
    · simp only [addrs_node, addrs_leaf, ctxAddrs_nil, ctxAddrs_L, ctxAddrs_R, List.nodup_cons,
        List.nodup_append, List.mem_append, not_mem_cons_both, not_or, List.disjoint_cons_left,
        List.disjoint_cons_right, List.disjoint_append_left, List.disjoint_append_right,
        List.append_nil, List.nil_append, List.not_mem_nil, not_false_eq_true, true_and, and_true,
        List.nodup_nil, List.disjoint_nil_left, List.disjoint_nil_right, List.cons_append,
        List.append_assoc, hnd', and_self, rbtree_transplant_nil, set_parent_nil, set_left_nil,
        set_right_nil, set_color_nil, set_root_nil]
    · intro q hq
      rw [eb]
      rw [en] at hq
      exact hb q (hsub q hq)
    · rw [en, enil]; exact hc
    · rw [en, enil]; exact hl
    · rw [en, enil]; exact hr
    · rw [ev]
    · intro q h1 h2
      apply hfr
      simp only [List.mem_cons, List.not_mem_nil, or_false, not_or]
      exact ⟨h2, h1⟩

/-- The splice of `rbtree_erase` when the successor `y` is the right child of `z`
(lines 292, 299-302): `y` takes the place and the colour of `z` and keeps its right subtree. -/
theorem RepZ.near_splice {t : rbtree} {ctx : Ctx} {z y a : Ptr} {c cy ca : color_t}
    {k ky ka : Int} {al ar yr : Tree}
    (h : RepZ t ctx (.node z c k (.node a ca ka al ar) (.node y cy ky .leaf yr))) :
    RepZ (splice_near t z y) ctx (.node y c ky (.node a ca ka al ar) yr)
      ∧ ((splice_near t z y).mem (rootAddr t.nil yr)).parent = y := by
  obtain ⟨hp, hs, hnd, hb, hc, hl, hr⟩ := h
  have hnd' := hnd
  have en : (splice_near t z y).nil = t.nil := splice_near_nil t z y
  have eb : (splice_near t z y).brk = t.brk := splice_near_brk t z y
  have hsub : ∀ q, q ∈ t.nil :: (addrs (.node y c ky (.node a ca ka al ar) yr) ++ ctxAddrs ctx) →
      q ∈ t.nil :: (addrs (.node z c k (.node a ca ka al ar) (.node y cy ky .leaf yr))
        ++ ctxAddrs ctx) := by
    intro q hq
    simp only [addrs_node, addrs_leaf, List.mem_cons, List.mem_append, List.nil_append] at hq ⊢
    tauto
  rcases yr with _ | ⟨b, cb, kb, BL, BR⟩ <;>
    rcases ctx with _ | ⟨(⟨p, cp, kp, S⟩ | ⟨p, cp, kp, S⟩), rest⟩
  case mk.leaf.nil =>
    simp only [addrs_node, addrs_leaf, ctxAddrs_nil, ctxAddrs_L, ctxAddrs_R, List.nodup_cons,
      List.nodup_append, List.mem_append, not_mem_cons_both, not_or, List.disjoint_cons_left,
      List.disjoint_cons_right, List.disjoint_append_left, List.disjoint_append_right,
      List.append_nil, List.nil_append, List.not_mem_nil, not_false_eq_true, true_and, and_true,
      List.nodup_nil, List.disjoint_nil_left, List.disjoint_nil_right, List.cons_append,
      List.append_assoc] at hnd'
    simp only [Shape, CtxShape, rootAddr_node, rootAddr_leaf, ctxParent_nil, ctxParent_L,
      ctxParent_R] at hs hp
    obtain ⟨hz, ⟨ha, hAL, hAR⟩, hy, -, hYR⟩ := hs
    simp only [rootAddr_leaf, rootAddr_node, ctxParent_nil, ctxParent_L, ctxParent_R]
    have E : splice_near t z y =
        set_color (set_parent (set_left (set_parent (set_root (set_parent t t.nil y) y) y t.nil) y a) a y) y c := by
      simp only [splice_near, rbtree_transplant, hz, ha, hy, set_right_mem, set_left_mem, set_parent_mem, set_root_mem, set_color_mem, set_right_nil, set_left_nil, set_parent_nil, set_root_nil, set_color_nil, upd_same, upd_ne, hnd', ne_eq,
        not_false_eq_true, not_true_eq_false, if_true, if_false]
    have ey : (splice_near t z y).mem y = ⟨c, ky, t.nil, a, t.nil⟩ := by
      simp only [E, hz, ha, hy, set_right_mem, set_left_mem, set_parent_mem, set_root_mem, set_color_mem, upd_same, upd_ne, hnd', ne_eq, not_false_eq_true]
    have ea : (splice_near t z y).mem a = ⟨ca, ka, y, rootAddr t.nil al, rootAddr t.nil ar⟩ := by
      simp only [E, hz, ha, hy, set_right_mem, set_left_mem, set_parent_mem, set_root_mem, set_color_mem, upd_same, upd_ne, hnd', ne_eq, not_false_eq_true]
    have er : (splice_near t z y).root = y := by
      simp only [E, set_right_root, set_left_root, set_parent_root, set_root_root, set_color_root]
    have hfr : ∀ q, q ∉ [y, a, t.nil] → (splice_near t z y).mem q = t.mem q := by
      intro q hq
      simp only [not_mem_cons_both, List.not_mem_nil, not_false_eq_true, and_true] at hq
      simp only [E, set_right_mem, set_left_mem, set_parent_mem, set_root_mem, set_color_mem, upd_ne, hq, ne_eq, not_false_eq_true]
    have enil : (splice_near t z y).mem t.nil = { t.mem t.nil with parent := y } := by
      simp only [E, set_right_mem, set_left_mem, set_parent_mem, set_root_mem, set_color_mem, upd_same, upd_ne, hnd', ne_eq, not_false_eq_true]
    refine ⟨⟨?_, ?_, ?_, ?_, ?_, ?_, ?_⟩, ?_⟩
    · simp only [CtxShape, rootAddr_node, rootAddr_leaf, er, en]
    · simp only [Shape, en, rootAddr_node, rootAddr_leaf, ctxParent_L, ctxParent_R, ctxParent_nil]
      refine ⟨ey, ⟨ea, hAL.frame (frame_of_disjoint hfr ?_), hAR.frame (frame_of_disjoint hfr ?_)⟩, trivial⟩
      all_goals simp only [List.disjoint_cons_right, List.disjoint_nil_right, hnd', not_false_eq_true,
        and_self]
    · simp only [addrs_node, addrs_leaf, ctxAddrs_nil, ctxAddrs_L, ctxAddrs_R, List.nodup_cons,
        List.nodup_append, List.mem_append, not_mem_cons_both, not_or, List.disjoint_cons_left,
        List.disjoint_cons_right, List.disjoint_append_left, List.disjoint_append_right,
        List.append_nil, List.nil_append, List.not_mem_nil, not_false_eq_true, true_and, and_true,
        List.nodup_nil, List.disjoint_nil_left, List.disjoint_nil_right, List.cons_append,
        List.append_assoc, hnd', and_self, en, set_parent_nil, set_left_nil,
        set_right_nil, set_color_nil, set_root_nil]
    · intro q hq
      rw [eb]
      rw [en] at hq
      exact hb q (hsub q hq)
    · rw [en, enil]; exact hc
    · rw [en, enil]; exact hl
    · rw [en, enil]; exact hr
    · rw [enil]
  case mk.leaf.cons.L =>
    simp only [addrs_node, addrs_leaf, ctxAddrs_nil, ctxAddrs_L, ctxAddrs_R, List.nodup_cons,
      List.nodup_append, List.mem_append, not_mem_cons_both, not_or, List.disjoint_cons_left,
      List.disjoint_cons_right, List.disjoint_append_left, List.disjoint_append_right,
      List.append_nil, List.nil_append, List.not_mem_nil, not_false_eq_true, true_and, and_true,
      List.nodup_nil, List.disjoint_nil_left, List.disjoint_nil_right, List.cons_append,
      List.append_assoc] at hnd'
    simp only [Shape, CtxShape, rootAddr_node, rootAddr_leaf, ctxParent_nil, ctxParent_L,
      ctxParent_R] at hs hp
    obtain ⟨hz, ⟨ha, hAL, hAR⟩, hy, -, hYR⟩ := hs
    obtain ⟨hp0, hS, hrest⟩ := hp
    simp only [rootAddr_leaf, rootAddr_node, ctxParent_nil, ctxParent_L, ctxParent_R]
    have E : splice_near t z y =
        set_color (set_parent (set_left (set_parent (set_left (set_parent t t.nil y) p y) y p) y a) a y) y c := by
      simp only [splice_near, rbtree_transplant, hz, ha, hy, hp0, set_right_mem, set_left_mem, set_parent_mem, set_root_mem, set_color_mem, set_right_nil, set_left_nil, set_parent_nil, set_root_nil, set_color_nil, upd_same, upd_ne, hnd', ne_eq,
        not_false_eq_true, not_true_eq_false, if_true, if_false]
    have ey : (splice_near t z y).mem y = ⟨c, ky, p, a, t.nil⟩ := by
      simp only [E, hz, ha, hy, hp0, set_right_mem, set_left_mem, set_parent_mem, set_root_mem, set_color_mem, upd_same, upd_ne, hnd', ne_eq, not_false_eq_true]
    have ea : (splice_near t z y).mem a = ⟨ca, ka, y, rootAddr t.nil al, rootAddr t.nil ar⟩ := by
      simp only [E, hz, ha, hy, hp0, set_right_mem, set_left_mem, set_parent_mem, set_root_mem, set_color_mem, upd_same, upd_ne, hnd', ne_eq, not_false_eq_true]
    have ep : (splice_near t z y).mem p = ⟨cp, kp, ctxParent t.nil rest, y, rootAddr t.nil S⟩ := by
      simp only [E, hz, ha, hy, hp0, set_right_mem, set_left_mem, set_parent_mem, set_root_mem, set_color_mem, upd_same, upd_ne, hnd', ne_eq, not_false_eq_true]
    have er : (splice_near t z y).root = t.root := by
      simp only [E, set_right_root, set_left_root, set_parent_root, set_root_root, set_color_root]
    have hfr : ∀ q, q ∉ [y, a, t.nil, p] → (splice_near t z y).mem q = t.mem q := by
      intro q hq
      simp only [not_mem_cons_both, List.not_mem_nil, not_false_eq_true, and_true] at hq
      simp only [E, set_right_mem, set_left_mem, set_parent_mem, set_root_mem, set_color_mem, upd_ne, hq, ne_eq, not_false_eq_true]
    have enil : (splice_near t z y).mem t.nil = { t.mem t.nil with parent := y } := by
      simp only [E, set_right_mem, set_left_mem, set_parent_mem, set_root_mem, set_color_mem, upd_same, upd_ne, hnd', ne_eq, not_false_eq_true]
    refine ⟨⟨?_, ?_, ?_, ?_, ?_, ?_, ?_⟩, ?_⟩
    · simp only [CtxShape, rootAddr_node, rootAddr_leaf, er, en]
      refine ⟨ep, hS.frame (frame_of_disjoint hfr ?_), hrest.frame_ctx (frame_of_disjoint hfr ?_)⟩
      all_goals simp only [List.disjoint_cons_right, List.disjoint_nil_right, hnd', not_false_eq_true,
        and_self]
    · simp only [Shape, en, rootAddr_node, rootAddr_leaf, ctxParent_L, ctxParent_R, ctxParent_nil]
      refine ⟨ey, ⟨ea, hAL.frame (frame_of_disjoint hfr ?_), hAR.frame (frame_of_disjoint hfr ?_)⟩, trivial⟩
      all_goals simp only [List.disjoint_cons_right, List.disjoint_nil_right, hnd', not_false_eq_true,
        and_self]
    · simp only [addrs_node, addrs_leaf, ctxAddrs_nil, ctxAddrs_L, ctxAddrs_R, List.nodup_cons,
        List.nodup_append, List.mem_append, not_mem_cons_both, not_or, List.disjoint_cons_left,
        List.disjoint_cons_right, List.disjoint_append_left, List.disjoint_append_right,
        List.append_nil, List.nil_append, List.not_mem_nil, not_false_eq_true, true_and, and_true,
        List.nodup_nil, List.disjoint_nil_left, List.disjoint_nil_right, List.cons_append,
        List.append_assoc, hnd', and_self, en, set_parent_nil, set_left_nil,
        set_right_nil, set_color_nil, set_root_nil]
    · intro q hq
      rw [eb]
      rw [en] at hq
      exact hb q (hsub q hq)
    · rw [en, enil]; exact hc
    · rw [en, enil]; exact hl
    · rw [en, enil]; exact hr
    · rw [enil]
  case mk.leaf.cons.R =>
    simp only [addrs_node, addrs_leaf, ctxAddrs_nil, ctxAddrs_L, ctxAddrs_R, List.nodup_cons,
      List.nodup_append, List.mem_append, not_mem_cons_both, not_or, List.disjoint_cons_left,
      List.disjoint_cons_right, List.disjoint_append_left, List.disjoint_append_right,
      List.append_nil, List.nil_append, List.not_mem_nil, not_false_eq_true, true_and, and_true,
      List.nodup_nil, List.disjoint_nil_left, List.disjoint_nil_right, List.cons_append,
      List.append_assoc] at hnd'
    simp only [Shape, CtxShape, rootAddr_node, rootAddr_leaf, ctxParent_nil, ctxParent_L,
      ctxParent_R] at hs hp
    obtain ⟨hz, ⟨ha, hAL, hAR⟩, hy, -, hYR⟩ := hs
    obtain ⟨hp0, hS, hrest⟩ := hp
    have hps : z ≠ rootAddr t.nil S :=
      ne_rootAddr (by simp only [hnd', not_false_eq_true]) (by simp only [hnd', not_false_eq_true])
    simp only [rootAddr_leaf, rootAddr_node, ctxParent_nil, ctxParent_L, ctxParent_R]
    have E : splice_near t z y =
        set_color (set_parent (set_left (set_parent (set_right (set_parent t t.nil y) p y) y p) y a) a y) y c := by
      simp only [splice_near, rbtree_transplant, hz, ha, hy, hp0, set_right_mem, set_left_mem, set_parent_mem, set_root_mem, set_color_mem, set_right_nil, set_left_nil, set_parent_nil, set_root_nil, set_color_nil, upd_same, upd_ne, hnd', ne_eq,
        not_false_eq_true, not_true_eq_false, if_true, if_false, hps]
    have ey : (splice_near t z y).mem y = ⟨c, ky, p, a, t.nil⟩ := by
      simp only [E, hz, ha, hy, hp0, set_right_mem, set_left_mem, set_parent_mem, set_root_mem, set_color_mem, upd_same, upd_ne, hnd', ne_eq, not_false_eq_true]
    have ea : (splice_near t z y).mem a = ⟨ca, ka, y, rootAddr t.nil al, rootAddr t.nil ar⟩ := by
      simp only [E, hz, ha, hy, hp0, set_right_mem, set_left_mem, set_parent_mem, set_root_mem, set_color_mem, upd_same, upd_ne, hnd', ne_eq, not_false_eq_true]
    have ep : (splice_near t z y).mem p = ⟨cp, kp, ctxParent t.nil rest, rootAddr t.nil S, y⟩ := by
      simp only [E, hz, ha, hy, hp0, set_right_mem, set_left_mem, set_parent_mem, set_root_mem, set_color_mem, upd_same, upd_ne, hnd', ne_eq, not_false_eq_true]
    have er : (splice_near t z y).root = t.root := by
      simp only [E, set_right_root, set_left_root, set_parent_root, set_root_root, set_color_root]
    have hfr : ∀ q, q ∉ [y, a, t.nil, p] → (splice_near t z y).mem q = t.mem q := by
      intro q hq
      simp only [not_mem_cons_both, List.not_mem_nil, not_false_eq_true, and_true] at hq
      simp only [E, set_right_mem, set_left_mem, set_parent_mem, set_root_mem, set_color_mem, upd_ne, hq, ne_eq, not_false_eq_true]
    have enil : (splice_near t z y).mem t.nil = { t.mem t.nil with parent := y } := by
      simp only [E, set_right_mem, set_left_mem, set_parent_mem, set_root_mem, set_color_mem, upd_same, upd_ne, hnd', ne_eq, not_false_eq_true]
    refine ⟨⟨?_, ?_, ?_, ?_, ?_, ?_, ?_⟩, ?_⟩
    · simp only [CtxShape, rootAddr_node, rootAddr_leaf, er, en]
      refine ⟨ep, hS.frame (frame_of_disjoint hfr ?_), hrest.frame_ctx (frame_of_disjoint hfr ?_)⟩
      all_goals simp only [List.disjoint_cons_right, List.disjoint_nil_right, hnd', not_false_eq_true,
        and_self]
    · simp only [Shape, en, rootAddr_node, rootAddr_leaf, ctxParent_L, ctxParent_R, ctxParent_nil]
      refine ⟨ey, ⟨ea, hAL.frame (frame_of_disjoint hfr ?_), hAR.frame (frame_of_disjoint hfr ?_)⟩, trivial⟩
      all_goals simp only [List.disjoint_cons_right, List.disjoint_nil_right, hnd', not_false_eq_true,
        and_self]
    · simp only [addrs_node, addrs_leaf, ctxAddrs_nil, ctxAddrs_L, ctxAddrs_R, List.nodup_cons,
        List.nodup_append, List.mem_append, not_mem_cons_both, not_or, List.disjoint_cons_left,
        List.disjoint_cons_right, List.disjoint_append_left, List.disjoint_append_right,
        List.append_nil, List.nil_append, List.not_mem_nil, not_false_eq_true, true_and, and_true,
        List.nodup_nil, List.disjoint_nil_left, List.disjoint_nil_right, List.cons_append,
        List.append_assoc, hnd', and_self, en, set_parent_nil, set_left_nil,
        set_right_nil, set_color_nil, set_root_nil]
    · intro q hq
      rw [eb]
      rw [en] at hq
      exact hb q (hsub q hq)
    · rw [en, enil]; exact hc
    · rw [en, enil]; exact hl
    · rw [en, enil]; exact hr
    · rw [enil]
  case mk.node.nil =>
    simp only [addrs_node, addrs_leaf, ctxAddrs_nil, ctxAddrs_L, ctxAddrs_R, List.nodup_cons,
      List.nodup_append, List.mem_append, not_mem_cons_both, not_or, List.disjoint_cons_left,
      List.disjoint_cons_right, List.disjoint_append_left, List.disjoint_append_right,
      List.append_nil, List.nil_append, List.not_mem_nil, not_false_eq_true, true_and, and_true,
      List.nodup_nil, List.disjoint_nil_left, List.disjoint_nil_right, List.cons_append,
      List.append_assoc] at hnd'
    simp only [Shape, CtxShape, rootAddr_node, rootAddr_leaf, ctxParent_nil, ctxParent_L,
      ctxParent_R] at hs hp
    obtain ⟨hz, ⟨ha, hAL, hAR⟩, hy, -, hYR⟩ := hs
    obtain ⟨hb0, hBL, hBR⟩ := hYR
    simp only [rootAddr_leaf, rootAddr_node, ctxParent_nil, ctxParent_L, ctxParent_R]
    have E : splice_near t z y =
        set_color (set_parent (set_left (set_parent (set_root (set_parent t b y) y) y t.nil) y a) a y) y c := by
      simp only [splice_near, rbtree_transplant, hz, ha, hy, hb0, set_right_mem, set_left_mem, set_parent_mem, set_root_mem, set_color_mem, set_right_nil, set_left_nil, set_parent_nil, set_root_nil, set_color_nil, upd_same, upd_ne, hnd', ne_eq,
        not_false_eq_true, not_true_eq_false, if_true, if_false]
    have ey : (splice_near t z y).mem y = ⟨c, ky, t.nil, a, b⟩ := by
      simp only [E, hz, ha, hy, hb0, set_right_mem, set_left_mem, set_parent_mem, set_root_mem, set_color_mem, upd_same, upd_ne, hnd', ne_eq, not_false_eq_true]
    have ea : (splice_near t z y).mem a = ⟨ca, ka, y, rootAddr t.nil al, rootAddr t.nil ar⟩ := by
      simp only [E, hz, ha, hy, hb0, set_right_mem, set_left_mem, set_parent_mem, set_root_mem, set_color_mem, upd_same, upd_ne, hnd', ne_eq, not_false_eq_true]
    have ev : (splice_near t z y).mem b = ⟨cb, kb, y, rootAddr t.nil BL, rootAddr t.nil BR⟩ := by
      simp only [E, hz, ha, hy, hb0, set_right_mem, set_left_mem, set_parent_mem, set_root_mem, set_color_mem, upd_same, upd_ne, hnd', ne_eq, not_false_eq_true]
    have er : (splice_near t z y).root = y := by
      simp only [E, set_right_root, set_left_root, set_parent_root, set_root_root, set_color_root]
    have hfr : ∀ q, q ∉ [y, a, b] → (splice_near t z y).mem q = t.mem q := by
      intro q hq
      simp only [not_mem_cons_both, List.not_mem_nil, not_false_eq_true, and_true] at hq
      simp only [E, set_right_mem, set_left_mem, set_parent_mem, set_root_mem, set_color_mem, upd_ne, hq, ne_eq, not_false_eq_true]
    have enil : (splice_near t z y).mem t.nil = t.mem t.nil :=
      hfr t.nil (by simp only [not_mem_cons_both, List.not_mem_nil, hnd', not_false_eq_true, and_self])
    refine ⟨⟨?_, ?_, ?_, ?_, ?_, ?_, ?_⟩, ?_⟩
    · simp only [CtxShape, rootAddr_node, rootAddr_leaf, er, en]
    · simp only [Shape, en, rootAddr_node, rootAddr_leaf, ctxParent_L, ctxParent_R, ctxParent_nil]
      refine ⟨ey, ⟨ea, hAL.frame (frame_of_disjoint hfr ?_), hAR.frame (frame_of_disjoint hfr ?_)⟩, ev, hBL.frame (frame_of_disjoint hfr ?_), hBR.frame (frame_of_disjoint hfr ?_)⟩
      all_goals simp only [List.disjoint_cons_right, List.disjoint_nil_right, hnd', not_false_eq_true,
        and_self]
    · simp only [addrs_node, addrs_leaf, ctxAddrs_nil, ctxAddrs_L, ctxAddrs_R, List.nodup_cons,
        List.nodup_append, List.mem_append, not_mem_cons_both, not_or, List.disjoint_cons_left,
        List.disjoint_cons_right, List.disjoint_append_left, List.disjoint_append_right,
        List.append_nil, List.nil_append, List.not_mem_nil, not_false_eq_true, true_and, and_true,
        List.nodup_nil, List.disjoint_nil_left, List.disjoint_nil_right, List.cons_append,
        List.append_assoc, hnd', and_self, en, set_parent_nil, set_left_nil,
        set_right_nil, set_color_nil, set_root_nil]
    · intro q hq
      rw [eb]
      rw [en] at hq
      exact hb q (hsub q hq)
    · rw [en, enil]; exact hc
    · rw [en, enil]; exact hl
    · rw [en, enil]; exact hr
    · rw [ev]
  case mk.node.cons.L =>
    simp only [addrs_node, addrs_leaf, ctxAddrs_nil, ctxAddrs_L, ctxAddrs_R, List.nodup_cons,
      List.nodup_append, List.mem_append, not_mem_cons_both, not_or, List.disjoint_cons_left,
      List.disjoint_cons_right, List.disjoint_append_left, List.disjoint_append_right,
      List.append_nil, List.nil_append, List.not_mem_nil, not_false_eq_true, true_and, and_true,
      List.nodup_nil, List.disjoint_nil_left, List.disjoint_nil_right, List.cons_append,
      List.append_assoc] at hnd'
    simp only [Shape, CtxShape, rootAddr_node, rootAddr_leaf, ctxParent_nil, ctxParent_L,
      ctxParent_R] at hs hp
    obtain ⟨hz, ⟨ha, hAL, hAR⟩, hy, -, hYR⟩ := hs
    obtain ⟨hb0, hBL, hBR⟩ := hYR
    obtain ⟨hp0, hS, hrest⟩ := hp
    simp only [rootAddr_leaf, rootAddr_node, ctxParent_nil, ctxParent_L, ctxParent_R]
    have E : splice_near t z y =
        set_color (set_parent (set_left (set_parent (set_left (set_parent t b y) p y) y p) y a) a y) y c := by
      simp only [splice_near, rbtree_transplant, hz, ha, hy, hb0, hp0, set_right_mem, set_left_mem, set_parent_mem, set_root_mem, set_color_mem, set_right_nil, set_left_nil, set_parent_nil, set_root_nil, set_color_nil, upd_same, upd_ne, hnd', ne_eq,
        not_false_eq_true, not_true_eq_false, if_true, if_false]
    have ey : (splice_near t z y).mem y = ⟨c, ky, p, a, b⟩ := by
      simp only [E, hz, ha, hy, hb0, hp0, set_right_mem, set_left_mem, set_parent_mem, set_root_mem, set_color_mem, upd_same, upd_ne, hnd', ne_eq, not_false_eq_true]
    have ea : (splice_near t z y).mem a = ⟨ca, ka, y, rootAddr t.nil al, rootAddr t.nil ar⟩ := by
      simp only [E, hz, ha, hy, hb0, hp0, set_right_mem, set_left_mem, set_parent_mem, set_root_mem, set_color_mem, upd_same, upd_ne, hnd', ne_eq, not_false_eq_true]
    have ev : (splice_near t z y).mem b = ⟨cb, kb, y, rootAddr t.nil BL, rootAddr t.nil BR⟩ := by
      simp only [E, hz, ha, hy, hb0, hp0, set_right_mem, set_left_mem, set_parent_mem, set_root_mem, set_color_mem, upd_same, upd_ne, hnd', ne_eq, not_false_eq_true]
    have ep : (splice_near t z y).mem p = ⟨cp, kp, ctxParent t.nil rest, y, rootAddr t.nil S⟩ := by
      simp only [E, hz, ha, hy, hb0, hp0, set_right_mem, set_left_mem, set_parent_mem, set_root_mem, set_color_mem, upd_same, upd_ne, hnd', ne_eq, not_false_eq_true]
    have er : (splice_near t z y).root = t.root := by
      simp only [E, set_right_root, set_left_root, set_parent_root, set_root_root, set_color_root]
    have hfr : ∀ q, q ∉ [y, a, b, p] → (splice_near t z y).mem q = t.mem q := by
      intro q hq
      simp only [not_mem_cons_both, List.not_mem_nil, not_false_eq_true, and_true] at hq
      simp only [E, set_right_mem, set_left_mem, set_parent_mem, set_root_mem, set_color_mem, upd_ne, hq, ne_eq, not_false_eq_true]
    have enil : (splice_near t z y).mem t.nil = t.mem t.nil :=
      hfr t.nil (by simp only [not_mem_cons_both, List.not_mem_nil, hnd', not_false_eq_true, and_self])
    refine ⟨⟨?_, ?_, ?_, ?_, ?_, ?_, ?_⟩, ?_⟩
    · simp only [CtxShape, rootAddr_node, rootAddr_leaf, er, en]
      refine ⟨ep, hS.frame (frame_of_disjoint hfr ?_), hrest.frame_ctx (frame_of_disjoint hfr ?_)⟩
      all_goals simp only [List.disjoint_cons_right, List.disjoint_nil_right, hnd', not_false_eq_true,
        and_self]
    · simp only [Shape, en, rootAddr_node, rootAddr_leaf, ctxParent_L, ctxParent_R, ctxParent_nil]
      refine ⟨ey, ⟨ea, hAL.frame (frame_of_disjoint hfr ?_), hAR.frame (frame_of_disjoint hfr ?_)⟩, ev, hBL.frame (frame_of_disjoint hfr ?_), hBR.frame (frame_of_disjoint hfr ?_)⟩
      all_goals simp only [List.disjoint_cons_right, List.disjoint_nil_right, hnd', not_false_eq_true,
        and_self]
    · simp only [addrs_node, addrs_leaf, ctxAddrs_nil, ctxAddrs_L, ctxAddrs_R, List.nodup_cons,
        List.nodup_append, List.mem_append, not_mem_cons_both, not_or, List.disjoint_cons_left,
        List.disjoint_cons_right, List.disjoint_append_left, List.disjoint_append_right,
        List.append_nil, List.nil_append, List.not_mem_nil, not_false_eq_true, true_and, and_true,
        List.nodup_nil, List.disjoint_nil_left, List.disjoint_nil_right, List.cons_append,
        List.append_assoc, hnd', and_self, en, set_parent_nil, set_left_nil,
        set_right_nil, set_color_nil, set_root_nil]
    · intro q hq
      rw [eb]
      rw [en] at hq
      exact hb q (hsub q hq)
    · rw [en, enil]; exact hc
    · rw [en, enil]; exact hl
    · rw [en, enil]; exact hr
    · rw [ev]
  case mk.node.cons.R =>
    simp only [addrs_node, addrs_leaf, ctxAddrs_nil, ctxAddrs_L, ctxAddrs_R, List.nodup_cons,
      List.nodup_append, List.mem_append, not_mem_cons_both, not_or, List.disjoint_cons_left,
      List.disjoint_cons_right, List.disjoint_append_left, List.disjoint_append_right,
      List.append_nil, List.nil_append, List.not_mem_nil, not_false_eq_true, true_and, and_true,
      List.nodup_nil, List.disjoint_nil_left, List.disjoint_nil_right, List.cons_append,
      List.append_assoc] at hnd'
    simp only [Shape, CtxShape, rootAddr_node, rootAddr_leaf, ctxParent_nil, ctxParent_L,
      ctxParent_R] at hs hp
    obtain ⟨hz, ⟨ha, hAL, hAR⟩, hy, -, hYR⟩ := hs
    obtain ⟨hb0, hBL, hBR⟩ := hYR
    obtain ⟨hp0, hS, hrest⟩ := hp
    have hps : z ≠ rootAddr t.nil S :=
      ne_rootAddr (by simp only [hnd', not_false_eq_true]) (by simp only [hnd', not_false_eq_true])
    simp only [rootAddr_leaf, rootAddr_node, ctxParent_nil, ctxParent_L, ctxParent_R]
    have E : splice_near t z y =
        set_color (set_parent (set_left (set_parent (set_right (set_parent t b y) p y) y p) y a) a y) y c := by
      simp only [splice_near, rbtree_transplant, hz, ha, hy, hb0, hp0, set_right_mem, set_left_mem, set_parent_mem, set_root_mem, set_color_mem, set_right_nil, set_left_nil, set_parent_nil, set_root_nil, set_color_nil, upd_same, upd_ne, hnd', ne_eq,
        not_false_eq_true, not_true_eq_false, if_true, if_false, hps]
    have ey : (splice_near t z y).mem y = ⟨c, ky, p, a, b⟩ := by
      simp only [E, hz, ha, hy, hb0, hp0, set_right_mem, set_left_mem, set_parent_mem, set_root_mem, set_color_mem, upd_same, upd_ne, hnd', ne_eq, not_false_eq_true]
    have ea : (splice_near t z y).mem a = ⟨ca, ka, y, rootAddr t.nil al, rootAddr t.nil ar⟩ := by
      simp only [E, hz, ha, hy, hb0, hp0, set_right_mem, set_left_mem, set_parent_mem, set_root_mem, set_color_mem, upd_same, upd_ne, hnd', ne_eq, not_false_eq_true]
    have ev : (splice_near t z y).mem b = ⟨cb, kb, y, rootAddr t.nil BL, rootAddr t.nil BR⟩ := by
      simp only [E, hz, ha, hy, hb0, hp0, set_right_mem, set_left_mem, set_parent_mem, set_root_mem, set_color_mem, upd_same, upd_ne, hnd', ne_eq, not_false_eq_true]
    have ep : (splice_near t z y).mem p = ⟨cp, kp, ctxParent t.nil rest, rootAddr t.nil S, y⟩ := by
      simp only [E, hz, ha, hy, hb0, hp0, set_right_mem, set_left_mem, set_parent_mem, set_root_mem, set_color_mem, upd_same, upd_ne, hnd', ne_eq, not_false_eq_true]
    have er : (splice_near t z y).root = t.root := by
      simp only [E, set_right_root, set_left_root, set_parent_root, set_root_root, set_color_root]
    have hfr : ∀ q, q ∉ [y, a, b, p] → (splice_near t z y).mem q = t.mem q := by
      intro q hq
      simp only [not_mem_cons_both, List.not_mem_nil, not_false_eq_true, and_true] at hq
      simp only [E, set_right_mem, set_left_mem, set_parent_mem, set_root_mem, set_color_mem, upd_ne, hq, ne_eq, not_false_eq_true]
    have enil : (splice_near t z y).mem t.nil = t.mem t.nil :=
      hfr t.nil (by simp only [not_mem_cons_both, List.not_mem_nil, hnd', not_false_eq_true, and_self])
    refine ⟨⟨?_, ?_, ?_, ?_, ?_, ?_, ?_⟩, ?_⟩
    · simp only [CtxShape, rootAddr_node, rootAddr_leaf, er, en]
      refine ⟨ep, hS.frame (frame_of_disjoint hfr ?_), hrest.frame_ctx (frame_of_disjoint hfr ?_)⟩
      all_goals simp only [List.disjoint_cons_right, List.disjoint_nil_right, hnd', not_false_eq_true,
        and_self]
    · simp only [Shape, en, rootAddr_node, rootAddr_leaf, ctxParent_L, ctxParent_R, ctxParent_nil]
      refine ⟨ey, ⟨ea, hAL.frame (frame_of_disjoint hfr ?_), hAR.frame (frame_of_disjoint hfr ?_)⟩, ev, hBL.frame (frame_of_disjoint hfr ?_), hBR.frame (frame_of_disjoint hfr ?_)⟩
      all_goals simp only [List.disjoint_cons_right, List.disjoint_nil_right, hnd', not_false_eq_true,
        and_self]
    · simp only [addrs_node, addrs_leaf, ctxAddrs_nil, ctxAddrs_L, ctxAddrs_R, List.nodup_cons,
        List.nodup_append, List.mem_append, not_mem_cons_both, not_or, List.disjoint_cons_left,
        List.disjoint_cons_right, List.disjoint_append_left, List.disjoint_append_right,
        List.append_nil, List.nil_append, List.not_mem_nil, not_false_eq_true, true_and, and_true,
        List.nodup_nil, List.disjoint_nil_left, List.disjoint_nil_right, List.cons_append,
        List.append_assoc, hnd', and_self, en, set_parent_nil, set_left_nil,
        set_right_nil, set_color_nil, set_root_nil]
    · intro q hq
      rw [eb]
      rw [en] at hq
      exact hb q (hsub q hq)
    · rw [en, enil]; exact hc
    · rw [en, enil]; exact hl
    · rw [en, enil]; exact hr
    · rw [ev]

/-- The splice of `rbtree_erase` after the successor `y` was cut out further down
(lines 295-296, 299-302): `y` takes the place, the colour and both subtrees of `z`. -/
theorem RepZ.far_splice {t : rbtree} {ctx : Ctx} {z y a b : Ptr} {c ca cb : color_t}
    {k ky ka kb : Int} {al ar bl br : Tree}
    (h : RepZ t ctx (.node z c k (.node a ca ka al ar) (.node b cb kb bl br)))
    (hy : (t.mem y).key = ky)
    (hfresh : y ∉ t.nil :: NULL ::
      (addrs (.node z c k (.node a ca ka al ar) (.node b cb kb bl br)) ++ ctxAddrs ctx))
    (hlt : y < t.brk) :
    RepZ (splice_far t z y) ctx (.node y c ky (.node a ca ka al ar) (.node b cb kb bl br))
      ∧ (splice_far t z y).mem t.nil = t.mem t.nil := by
  obtain ⟨hp, hs, hnd, hb, hc, hl, hr⟩ := h
  have hnd' := List.nodup_cons.2 ⟨hfresh, hnd⟩
  have en : (splice_far t z y).nil = t.nil := splice_far_nil t z y
  have eb : (splice_far t z y).brk = t.brk := splice_far_brk t z y
  have hsub : ∀ q, q ∈ t.nil ::
      (addrs (.node y c ky (.node a ca ka al ar) (.node b cb kb bl br)) ++ ctxAddrs ctx) →
      q = y ∨ q ∈ t.nil ::
        (addrs (.node z c k (.node a ca ka al ar) (.node b cb kb bl br)) ++ ctxAddrs ctx) := by
    intro q hq
    simp only [addrs_node, addrs_leaf, List.mem_cons, List.mem_append, List.nil_append] at hq ⊢
    tauto
  rcases ctx with _ | ⟨(⟨p, cp, kp, S⟩ | ⟨p, cp, kp, S⟩), rest⟩
  case nil =>
    simp only [addrs_node, addrs_leaf, ctxAddrs_nil, ctxAddrs_L, ctxAddrs_R, List.nodup_cons,
      List.nodup_append, List.mem_append, not_mem_cons_both, not_or, List.disjoint_cons_left,
      List.disjoint_cons_right, List.disjoint_append_left, List.disjoint_append_right,
      List.append_nil, List.nil_append, List.not_mem_nil, not_false_eq_true, true_and, and_true,
      List.nodup_nil, List.disjoint_nil_left, List.disjoint_nil_right, List.cons_append,
      List.append_assoc] at hnd'
    simp only [Shape, CtxShape, rootAddr_node, rootAddr_leaf, ctxParent_nil, ctxParent_L,
      ctxParent_R] at hs hp
    obtain ⟨hz, ⟨ha, hAL, hAR⟩, hb0, hBL, hBR⟩ := hs
    try simp only [rootAddr_leaf, rootAddr_node, ctxParent_nil, ctxParent_L, ctxParent_R]
    have E : splice_far t z y =
        set_color (set_parent (set_left (set_parent (set_root (set_parent (set_right t y b) b y) y) y t.nil) y a) a y) y c := by
      simp only [splice_far, rbtree_transplant, hz, ha, hb0, hy, set_right_mem, set_left_mem, set_parent_mem, set_root_mem, set_color_mem, set_right_nil, set_left_nil, set_parent_nil, set_root_nil, set_color_nil, upd_same, upd_ne, hnd', ne_eq,
        not_false_eq_true, not_true_eq_false, if_true, if_false]
    have ey : (splice_far t z y).mem y = ⟨c, ky, t.nil, a, b⟩ := by
      simp only [E, hz, ha, hb0, hy, set_right_mem, set_left_mem, set_parent_mem, set_root_mem, set_color_mem, upd_same, upd_ne, hnd', ne_eq, not_false_eq_true]
    have ea : (splice_far t z y).mem a = ⟨ca, ka, y, rootAddr t.nil al, rootAddr t.nil ar⟩ := by
      simp only [E, hz, ha, hb0, hy, set_right_mem, set_left_mem, set_parent_mem, set_root_mem, set_color_mem, upd_same, upd_ne, hnd', ne_eq, not_false_eq_true]
    have ev : (splice_far t z y).mem b = ⟨cb, kb, y, rootAddr t.nil bl, rootAddr t.nil br⟩ := by
      simp only [E, hz, ha, hb0, hy, set_right_mem, set_left_mem, set_parent_mem, set_root_mem, set_color_mem, upd_same, upd_ne, hnd', ne_eq, not_false_eq_true]
    have er : (splice_far t z y).root = y := by
      simp only [E, set_right_root, set_left_root, set_parent_root, set_root_root, set_color_root]
    have hfr : ∀ q, q ∉ [y, a, b, t.nil] → (splice_far t z y).mem q = t.mem q := by
      intro q hq
      simp only [not_mem_cons_both, List.not_mem_nil, not_false_eq_true, and_true] at hq
      simp only [E, set_right_mem, set_left_mem, set_parent_mem, set_root_mem, set_color_mem, upd_ne, hq, ne_eq, not_false_eq_true]
    have enil : (splice_far t z y).mem t.nil = t.mem t.nil := by
      simp only [E, set_right_mem, set_left_mem, set_parent_mem, set_root_mem, set_color_mem, upd_ne, hnd', ne_eq, not_false_eq_true]
    refine ⟨⟨?_, ?_, ?_, ?_, ?_, ?_, ?_⟩, enil⟩
    · simp only [CtxShape, rootAddr_node, rootAddr_leaf, er, en]
    · simp only [Shape, en, rootAddr_node, rootAddr_leaf, ctxParent_L, ctxParent_R, ctxParent_nil]
      refine ⟨ey, ⟨ea, hAL.frame (frame_of_disjoint hfr ?_), hAR.frame (frame_of_disjoint hfr ?_)⟩, ev, hBL.frame (frame_of_disjoint hfr ?_), hBR.frame (frame_of_disjoint hfr ?_)⟩
      all_goals simp only [List.disjoint_cons_right, List.disjoint_nil_right, hnd', not_false_eq_true,
        and_self]
    · simp only [addrs_node, addrs_leaf, ctxAddrs_nil, ctxAddrs_L, ctxAddrs_R, List.nodup_cons,
        List.nodup_append, List.mem_append, not_mem_cons_both, not_or, List.disjoint_cons_left,
        List.disjoint_cons_right, List.disjoint_append_left, List.disjoint_append_right,
        List.append_nil, List.nil_append, List.not_mem_nil, not_false_eq_true, true_and, and_true,
        List.nodup_nil, List.disjoint_nil_left, List.disjoint_nil_right, List.cons_append,
        List.append_assoc, hnd', and_self, en, set_parent_nil, set_left_nil,
        set_right_nil, set_color_nil, set_root_nil]
    · intro q hq
      rw [eb]
      rw [en] at hq
      rcases hsub q hq with e | e
      · rw [e]; exact hlt
      · exact hb q e
    · rw [en, enil]; exact hc
    · rw [en, enil]; exact hl
    · rw [en, enil]; exact hr
  case cons.L =>
    simp only [addrs_node, addrs_leaf, ctxAddrs_nil, ctxAddrs_L, ctxAddrs_R, List.nodup_cons,
      List.nodup_append, List.mem_append, not_mem_cons_both, not_or, List.disjoint_cons_left,
      List.disjoint_cons_right, List.disjoint_append_left, List.disjoint_append_right,
      List.append_nil, List.nil_append, List.not_mem_nil, not_false_eq_true, true_and, and_true,
      List.nodup_nil, List.disjoint_nil_left, List.disjoint_nil_right, List.cons_append,
      List.append_assoc] at hnd'
    simp only [Shape, CtxShape, rootAddr_node, rootAddr_leaf, ctxParent_nil, ctxParent_L,
      ctxParent_R] at hs hp
    obtain ⟨hz, ⟨ha, hAL, hAR⟩, hb0, hBL, hBR⟩ := hs
    obtain ⟨hp0, hS, hrest⟩ := hp
    try simp only [rootAddr_leaf, rootAddr_node, ctxParent_nil, ctxParent_L, ctxParent_R]
    have E : splice_far t z y =
        set_color (set_parent (set_left (set_parent (set_left (set_parent (set_right t y b) b y) p y) y p) y a) a y) y c := by
      simp only [splice_far, rbtree_transplant, hz, ha, hb0, hy, hp0, set_right_mem, set_left_mem, set_parent_mem, set_root_mem, set_color_mem, set_right_nil, set_left_nil, set_parent_nil, set_root_nil, set_color_nil, upd_same, upd_ne, hnd', ne_eq,
        not_false_eq_true, not_true_eq_false, if_true, if_false]
    have ey : (splice_far t z y).mem y = ⟨c, ky, p, a, b⟩ := by
      simp only [E, hz, ha, hb0, hy, hp0, set_right_mem, set_left_mem, set_parent_mem, set_root_mem, set_color_mem, upd_same, upd_ne, hnd', ne_eq, not_false_eq_true]
    have ea : (splice_far t z y).mem a = ⟨ca, ka, y, rootAddr t.nil al, rootAddr t.nil ar⟩ := by
      simp only [E, hz, ha, hb0, hy, hp0, set_right_mem, set_left_mem, set_parent_mem, set_root_mem, set_color_mem, upd_same, upd_ne, hnd', ne_eq, not_false_eq_true]
    have ev : (splice_far t z y).mem b = ⟨cb, kb, y, rootAddr t.nil bl, rootAddr t.nil br⟩ := by
      simp only [E, hz, ha, hb0, hy, hp0, set_right_mem, set_left_mem, set_parent_mem, set_root_mem, set_color_mem, upd_same, upd_ne, hnd', ne_eq, not_false_eq_true]
    have ep : (splice_far t z y).mem p = ⟨cp, kp, ctxParent t.nil rest, y, rootAddr t.nil S⟩ := by
      simp only [E, hz, ha, hb0, hy, hp0, set_right_mem, set_left_mem, set_parent_mem, set_root_mem, set_color_mem, upd_same, upd_ne, hnd', ne_eq, not_false_eq_true]
    have er : (splice_far t z y).root = t.root := by
      simp only [E, set_right_root, set_left_root, set_parent_root, set_root_root, set_color_root]
    have hfr : ∀ q, q ∉ [y, a, b, p] → (splice_far t z y).mem q = t.mem q := by
      intro q hq
      simp only [not_mem_cons_both, List.not_mem_nil, not_false_eq_true, and_true] at hq
      simp only [E, set_right_mem, set_left_mem, set_parent_mem, set_root_mem, set_color_mem, upd_ne, hq, ne_eq, not_false_eq_true]
    have enil : (splice_far t z y).mem t.nil = t.mem t.nil := by
      simp only [E, set_right_mem, set_left_mem, set_parent_mem, set_root_mem, set_color_mem, upd_ne, hnd', ne_eq, not_false_eq_true]
    refine ⟨⟨?_, ?_, ?_, ?_, ?_, ?_, ?_⟩, enil⟩
    · simp only [CtxShape, rootAddr_node, rootAddr_leaf, er, en]
      refine ⟨ep, hS.frame (frame_of_disjoint hfr ?_), hrest.frame_ctx (frame_of_disjoint hfr ?_)⟩
      all_goals simp only [List.disjoint_cons_right, List.disjoint_nil_right, hnd', not_false_eq_true,
        and_self]
    · simp only [Shape, en, rootAddr_node, rootAddr_leaf, ctxParent_L, ctxParent_R, ctxParent_nil]
      refine ⟨ey, ⟨ea, hAL.frame (frame_of_disjoint hfr ?_), hAR.frame (frame_of_disjoint hfr ?_)⟩, ev, hBL.frame (frame_of_disjoint hfr ?_), hBR.frame (frame_of_disjoint hfr ?_)⟩
      all_goals simp only [List.disjoint_cons_right, List.disjoint_nil_right, hnd', not_false_eq_true,
        and_self]
    · simp only [addrs_node, addrs_leaf, ctxAddrs_nil, ctxAddrs_L, ctxAddrs_R, List.nodup_cons,
        List.nodup_append, List.mem_append, not_mem_cons_both, not_or, List.disjoint_cons_left,
        List.disjoint_cons_right, List.disjoint_append_left, List.disjoint_append_right,
        List.append_nil, List.nil_append, List.not_mem_nil, not_false_eq_true, true_and, and_true,
        List.nodup_nil, List.disjoint_nil_left, List.disjoint_nil_right, List.cons_append,
        List.append_assoc, hnd', and_self, en, set_parent_nil, set_left_nil,
        set_right_nil, set_color_nil, set_root_nil]
    · intro q hq
      rw [eb]
      rw [en] at hq
      rcases hsub q hq with e | e
      · rw [e]; exact hlt
      · exact hb q e
    · rw [en, enil]; exact hc
    · rw [en, enil]; exact hl
    · rw [en, enil]; exact hr
  case cons.R =>
    simp only [addrs_node, addrs_leaf, ctxAddrs_nil, ctxAddrs_L, ctxAddrs_R, List.nodup_cons,
      List.nodup_append, List.mem_append, not_mem_cons_both, not_or, List.disjoint_cons_left,
      List.disjoint_cons_right, List.disjoint_append_left, List.disjoint_append_right,
      List.append_nil, List.nil_append, List.not_mem_nil, not_false_eq_true, true_and, and_true,
      List.nodup_nil, List.disjoint_nil_left, List.disjoint_nil_right, List.cons_append,
      List.append_assoc] at hnd'
    simp only [Shape, CtxShape, rootAddr_node, rootAddr_leaf, ctxParent_nil, ctxParent_L,
      ctxParent_R] at hs hp
    obtain ⟨hz, ⟨ha, hAL, hAR⟩, hb0, hBL, hBR⟩ := hs
    obtain ⟨hp0, hS, hrest⟩ := hp
    have hps : z ≠ rootAddr t.nil S :=
      ne_rootAddr (by simp only [hnd', not_false_eq_true]) (by simp only [hnd', not_false_eq_true])
    try simp only [rootAddr_leaf, rootAddr_node, ctxParent_nil, ctxParent_L, ctxParent_R]
    have E : splice_far t z y =
        set_color (set_parent (set_left (set_parent (set_right (set_parent (set_right t y b) b y) p y) y p) y a) a y) y c := by
      simp only [splice_far, rbtree_transplant, hz, ha, hb0, hy, hp0, set_right_mem, set_left_mem, set_parent_mem, set_root_mem, set_color_mem, set_right_nil, set_left_nil, set_parent_nil, set_root_nil, set_color_nil, upd_same, upd_ne, hnd', ne_eq,
        not_false_eq_true, not_true_eq_false, if_true, if_false, hps]
    have ey : (splice_far t z y).mem y = ⟨c, ky, p, a, b⟩ := by
      simp only [E, hz, ha, hb0, hy, hp0, set_right_mem, set_left_mem, set_parent_mem, set_root_mem, set_color_mem, upd_same, upd_ne, hnd', ne_eq, not_false_eq_true]
    have ea : (splice_far t z y).mem a = ⟨ca, ka, y, rootAddr t.nil al, rootAddr t.nil ar⟩ := by
      simp only [E, hz, ha, hb0, hy, hp0, set_right_mem, set_left_mem, set_parent_mem, set_root_mem, set_color_mem, upd_same, upd_ne, hnd', ne_eq, not_false_eq_true]
    have ev : (splice_far t z y).mem b = ⟨cb, kb, y, rootAddr t.nil bl, rootAddr t.nil br⟩ := by
      simp only [E, hz, ha, hb0, hy, hp0, set_right_mem, set_left_mem, set_parent_mem, set_root_mem, set_color_mem, upd_same, upd_ne, hnd', ne_eq, not_false_eq_true]
    have ep : (splice_far t z y).mem p = ⟨cp, kp, ctxParent t.nil rest, rootAddr t.nil S, y⟩ := by
      simp only [E, hz, ha, hb0, hy, hp0, set_right_mem, set_left_mem, set_parent_mem, set_root_mem, set_color_mem, upd_same, upd_ne, hnd', ne_eq, not_false_eq_true]
    have er : (splice_far t z y).root = t.root := by
      simp only [E, set_right_root, set_left_root, set_parent_root, set_root_root, set_color_root]
    have hfr : ∀ q, q ∉ [y, a, b, p] → (splice_far t z y).mem q = t.mem q := by
      intro q hq
      simp only [not_mem_cons_both, List.not_mem_nil, not_false_eq_true, and_true] at hq
      simp only [E, set_right_mem, set_left_mem, set_parent_mem, set_root_mem, set_color_mem, upd_ne, hq, ne_eq, not_false_eq_true]
    have enil : (splice_far t z y).mem t.nil = t.mem t.nil := by
      simp only [E, set_right_mem, set_left_mem, set_parent_mem, set_root_mem, set_color_mem, upd_ne, hnd', ne_eq, not_false_eq_true]
    refine ⟨⟨?_, ?_, ?_, ?_, ?_, ?_, ?_⟩, enil⟩
    · simp only [CtxShape, rootAddr_node, rootAddr_leaf, er, en]
      refine ⟨ep, hS.frame (frame_of_disjoint hfr ?_), hrest.frame_ctx (frame_of_disjoint hfr ?_)⟩
      all_goals simp only [List.disjoint_cons_right, List.disjoint_nil_right, hnd', not_false_eq_true,
        and_self]
    · simp only [Shape, en, rootAddr_node, rootAddr_leaf, ctxParent_L, ctxParent_R, ctxParent_nil]
      refine ⟨ey, ⟨ea, hAL.frame (frame_of_disjoint hfr ?_), hAR.frame (frame_of_disjoint hfr ?_)⟩, ev, hBL.frame (frame_of_disjoint hfr ?_), hBR.frame (frame_of_disjoint hfr ?_)⟩
      all_goals simp only [List.disjoint_cons_right, List.disjoint_nil_right, hnd', not_false_eq_true,
        and_self]
    · simp only [addrs_node, addrs_leaf, ctxAddrs_nil, ctxAddrs_L, ctxAddrs_R, List.nodup_cons,
        List.nodup_append, List.mem_append, not_mem_cons_both, not_or, List.disjoint_cons_left,
        List.disjoint_cons_right, List.disjoint_append_left, List.disjoint_append_right,
        List.append_nil, List.nil_append, List.not_mem_nil, not_false_eq_true, true_and, and_true,
        List.nodup_nil, List.disjoint_nil_left, List.disjoint_nil_right, List.cons_append,
        List.append_assoc, hnd', and_self, en, set_parent_nil, set_left_nil,
        set_right_nil, set_color_nil, set_root_nil]
    · intro q hq
      rw [eb]
      rw [en] at hq
      rcases hsub q hq with e | e
      · rw [e]; exact hlt
      · exact hb q e
    · rw [en, enil]; exact hc
    · rw [en, enil]; exact hl
    · rw [en, enil]; exact hr

theorem AllL_append {c1 c2 : Ctx} (h1 : AllL c1) (h2 : AllL c2) : AllL (c1 ++ c2) := by
  induction c1 with
  | nil => exact h2
  | cons f rest ih =>
    cases f with
    | L a c k r => exact ih h1
    | R a c k l => exact h1.elim

theorem ctxBefore_allL {lc : Ctx} (h : AllL lc) : ctxBefore lc = [] := by
  induction lc with
  | nil => rfl
  | cons f rest ih =>
    cases f with
    | L a c k r => exact ih h
    | R a c k l => exact h.elim

theorem height_plug (ctx : Ctx) (s : Tree) : ctx.length + height s ≤ height (plug ctx s) := by
  induction ctx generalizing s with
  | nil => simp [plug]
  | cons f rest ih =>
    cases f with
    | L a c k r =>
      have := ih (.node a c k s r)
      simp only [plug_L, List.length_cons, height] at this ⊢
      omega
    | R a c k l =>
      have := ih (.node a c k l s)
      simp only [plug_R, List.length_cons, height] at this ⊢
      omega

/-- A record of the tree sits at the end of some path. -/
theorem exists_plug_of_mem {T : Tree} {z : Ptr} (h : z ∈ addrs T) :
    ∃ ctx c k l r, T = plug ctx (.node z c k l r) := by
  induction T with
  | leaf => simp at h
  | node a c k l r ihl ihr =>
    simp only [addrs_node, List.mem_append, List.mem_cons] at h
    rcases h with h | h | h
    · obtain ⟨ctx, c', k', l', r', e⟩ := ihl h
      exact ⟨ctx ++ [.L a c k r], c', k', l', r', by rw [plug_append, ← e]; rfl⟩
    · subst h
      exact ⟨[], c, k, l, r, rfl⟩
    · obtain ⟨ctx, c', k', l', r', e⟩ := ihr h
      exact ⟨ctx ++ [.R a c k l], c', k', l', r', by rw [plug_append, ← e]; rfl⟩

/-- The leftmost record of a non-empty tree sits at the end of a path of left steps. -/
theorem min_view (a : Ptr) (c : color_t) (k : Int) (l r : Tree) :
    ∃ lc y cy ky yr, Tree.node a c k l r = plug lc (.node y cy ky .leaf yr) ∧ AllL lc := by
  induction l generalizing a c k r with
  | leaf => exact ⟨[], a, c, k, r, rfl, trivial⟩
  | node a' c' k' l' r' ihl _ =>
    obtain ⟨lc, y, cy, ky, yr, e, hl⟩ := ihl a' c' k' r'
    refine ⟨lc ++ [.L a c k r], y, cy, ky, yr, ?_,
      AllL_append hl (show AllL [.L a c k r] from trivial)⟩
    rw [plug_append, ← e]; rfl

theorem plug_cons_node (f : Frame) (rest : Ctx) (s : Tree) :
    ∃ a c k l r, plug (f :: rest) s = .node a c k l r := by
  induction rest generalizing f s with
  | nil => cases f <;> exact ⟨_, _, _, _, _, rfl⟩
  | cons g rest ih =>
    cases f with
    | L a c k r => exact ih g _
    | R a c k l => exact ih g _

/-- The loop of `_rbtree_min_from_node` walks down a path of left steps. -/
theorem min_walk {t : rbtree} {ctx : Ctx} :
    ∀ (lc : Ctx) (a : Ptr) (c : color_t) (k : Int) (l r : Tree) (F : Nat), AllL lc →
      RepZ t (lc ++ ctx) (.node a c k l r) →
      _rbtree_min_from_node (lc.length + F) t (rootAddr t.nil (plug lc (.node a c k l r)))
        = _rbtree_min_from_node F t a := by
  intro lc
  induction lc with
  | nil => intro a c k l r F _ _; simp
  | cons f rest ih =>
    intro a c k l r F hl h
    cases f with
    | R a' c' k' l' => exact hl.elim
    | L a' c' k' r' =>
      have h' : RepZ t (rest ++ ctx) (.node a' c' k' (.node a c k l r) r') := h.up_L
      have := ih a' c' k' (.node a c k l r) r' (F + 1) hl h'
      simp only [plug_L, List.length_cons]
      rw [show rest.length + 1 + F = rest.length + (F + 1) by omega, this,
        _rbtree_min_from_node]
      have hne : a ≠ t.nil := h.nil_ne
      simp only [h'.read, rootAddr_node, ne_eq, hne, not_false_eq_true, if_true]

theorem min_stop {t : rbtree} {ctx : Ctx} {y : Ptr} {cy : color_t} {ky : Int} {yr : Tree}
    (h : RepZ t ctx (.node y cy ky .leaf yr)) (F : Nat) :
    _rbtree_min_from_node (F + 1) t y = some y := by
  rw [_rbtree_min_from_node]
  simp only [h.read, rootAddr_leaf, ne_eq, not_true_eq_false, if_false]

/-- Removing the one record with address `z` from an in-order list without repeated
addresses. -/
theorem filter_remove (L1 L2 : List (Ptr × Int)) (z : Ptr) (k : Int)
    (h1 : z ∉ L1.map Prod.fst) (h2 : z ∉ L2.map Prod.fst) :
    (L1 ++ (z, k) :: L2).filter (fun q => decide (q.1 ≠ z)) = L1 ++ L2 := by
  have e1 : L1.filter (fun q => decide (q.1 ≠ z)) = L1 := by
    apply List.filter_eq_self.2
    intro q hq
    simp only [ne_eq, decide_eq_true_eq]
    intro e
    exact h1 (e ▸ List.mem_map_of_mem Prod.fst hq)
  have e2 : L2.filter (fun q => decide (q.1 ≠ z)) = L2 := by
    apply List.filter_eq_self.2
    intro q hq
    simp only [ne_eq, decide_eq_true_eq]
    intro e
    exact h2 (e ▸ List.mem_map_of_mem Prod.fst hq)
  simp only [List.filter_append, e1, List.filter_cons, ne_eq, not_true_eq_false, decide_False,
    e2]
  simp

theorem BH_plug_congr {lc : Ctx} {s s' : Tree} {m N : Nat} (h1 : BH s m) (h2 : BH s' m)
    (h : BH (plug lc s) N) : BH (plug lc s') N := by
  induction lc generalizing s s' m with
  | nil => rw [plug_nil] at h ⊢; rw [BH_unique h h1]; exact h2
  | cons f rest ih =>
    cases f with
    | L a c k r =>
      simp only [plug_L] at h ⊢
      obtain ⟨n, hn, _⟩ := (bh_plug rest _).1 ⟨N, h⟩
      rcases color_cases c with rfl | rfl
      · simp only [BH_red] at hn
        have : m = n := BH_unique h1 hn.1
        subst this
        exact ih (m := m) (by simp [hn.1, hn.2]) (by simp [h2, hn.2]) h
      · rw [BH_black] at hn
        obtain ⟨n', rfl, hn1, hn2⟩ := hn
        have : m = n' := BH_unique h1 hn1
        subst this
        exact ih (m := m + 1) (by simp [hn1, hn2]) (by simp [h2, hn2]) h
    | R a c k l =>
      simp only [plug_R] at h ⊢
      obtain ⟨n, hn, _⟩ := (bh_plug rest _).1 ⟨N, h⟩
      rcases color_cases c with rfl | rfl
      · simp only [BH_red] at hn
        have : m = n := BH_unique h1 hn.2
        subst this
        exact ih (m := m) (by simp [hn.1, hn.2]) (by simp [h2, hn.1]) h
      · rw [BH_black] at hn
        obtain ⟨n', rfl, hn1, hn2⟩ := hn
        have : m = n' := BH_unique h1 hn2
        subst this
        exact ih (m := m + 1) (by simp [hn1, hn2]) (by simp [h2, hn1]) h

theorem atPos_iff (ctx : Ctx) (s : Tree) : RBProps (plug ctx s) ↔ AtPos ctx s := by
  constructor
  · intro h
    have h1 := (noRedRed_plug ctx s).1 h.no_red_red
    refine ⟨h1.1, h1.2.1, h1.2.2, (bh_plug ctx s).1 h.black_height, ?_, ?_⟩
    · cases ctx with
      | nil => rfl
      | cons f rest => rw [← rootColor_plug_cons f rest s]; exact h.root_black
    · intro e; subst e; exact h.root_black
  · intro h
    refine ⟨?_, (noRedRed_plug ctx s).2 ⟨h.sub, h.path, h.edge⟩, (bh_plug ctx s).2 h.bh⟩
    cases ctx with
    | nil => exact h.top rfl
    | cons f rest => rw [rootColor_plug_cons]; exact h.root

/-- Erasing a BLACK record whose left child is the sentinel leaves the position of its
right child one BLACK record short. -/
theorem erase_right_black {ctx : Ctx} {z : Ptr} {k : Int} {r : Tree}
    (h : AtPos ctx (.node z RBTREE_BLACK k .leaf r)) : DelInv ctx r := by
  obtain ⟨n, hn, hc⟩ := h.bh
  rw [BH_black] at hn
  obtain ⟨m, rfl, hm1, hm2⟩ := hn
  simp only [BH_leaf] at hm1
  subst hm1
  exact ⟨h.sub.2.2.blacken_nrr, h.path, ⟨0, hm2, hc⟩, h.root⟩

theorem erase_left_black {ctx : Ctx} {z : Ptr} {k : Int} {l : Tree}
    (h : AtPos ctx (.node z RBTREE_BLACK k l .leaf)) : DelInv ctx l := by
  obtain ⟨n, hn, hc⟩ := h.bh
  rw [BH_black] at hn
  obtain ⟨m, rfl, hm1, hm2⟩ := hn
  simp only [BH_leaf] at hm2
  subst hm2
  exact ⟨h.sub.2.1.blacken_nrr, h.path, ⟨0, hm1, hc⟩, h.root⟩

/-- Erasing a RED record with a sentinel child keeps the tree red-black. -/
theorem erase_right_red {ctx : Ctx} {z : Ptr} {k : Int} {r : Tree}
    (h : AtPos ctx (.node z RBTREE_RED k .leaf r)) : RBProps (plug ctx r) := by
  rw [atPos_iff]
  have hs := h.sub
  simp only [NoRedRed_node, true_imp_iff, rootColor_leaf, true_and] at hs
  obtain ⟨n, hn, hc⟩ := h.bh
  simp only [BH_red] at hn
  refine ⟨hs.2.2, h.path, fun e => ?_, ⟨n, hn.2, hc⟩, h.root, fun e => ?_⟩
  · rw [hs.1] at e; exact absurd e black_ne_red
  · exact absurd (h.top e) red_ne_black

theorem erase_left_red {ctx : Ctx} {z : Ptr} {k : Int} {l : Tree}
    (h : AtPos ctx (.node z RBTREE_RED k l .leaf)) : RBProps (plug ctx l) := by
  rw [atPos_iff]
  have hs := h.sub
  simp only [NoRedRed_node, true_imp_iff, rootColor_leaf, and_true] at hs
  obtain ⟨n, hn, hc⟩ := h.bh
  simp only [BH_red] at hn
  refine ⟨hs.2.1, h.path, fun e => ?_, ⟨n, hn.1, hc⟩, h.root, fun e => ?_⟩
  · rw [hs.1] at e; exact absurd e black_ne_red
  · exact absurd (h.top e) red_ne_black

theorem plug_succ (lc ctx : Ctx) (y : Ptr) (c : color_t) (ky : Int) (l s : Tree) :
    plug (lc ++ .R y c ky l :: ctx) s = plug ctx (.node y c ky l (plug lc s)) := by
  rw [plug_append]; rfl

theorem BH_node_swap {z y : Ptr} {c : color_t} {k ky : Int} {l r : Tree} {n : Nat}
    (h : BH (.node z c k l r) n) : BH (.node y c ky l r) n := by
  rcases color_cases c with rfl | rfl
  · simpa using h
  · rw [BH_black] at h ⊢; exact h

/-- The record that takes the place of `z` has the colour and the subtrees of `z`. -/
theorem atPos_swap {ctx : Ctx} {z y : Ptr} {c : color_t} {k ky : Int} {l r : Tree}
    (h : AtPos ctx (.node z c k l r)) : AtPos ctx (.node y c ky l r) := by
  obtain ⟨n, hn, hc⟩ := h.bh
  exact ⟨h.sub, h.path, h.edge, ⟨n, BH_node_swap hn, hc⟩, h.root, h.top⟩

/-- Cutting out a BLACK successor leaves the position of its right child one BLACK record
short. -/
theorem succ_black {ctx lc : Ctx} {z y : Ptr} {c : color_t} {k ky : Int} {l yr : Tree}
    (h : AtPos ctx (.node z c k l (plug lc (.node y RBTREE_BLACK ky .leaf yr)))) :
    DelInv (lc ++ .R y c ky l :: ctx) yr := by
  have h' : RBProps (plug (lc ++ .R y c ky l :: ctx) (.node y RBTREE_BLACK ky .leaf yr)) := by
    rw [plug_succ, atPos_iff]; exact atPos_swap h
  rw [atPos_iff] at h'
  obtain ⟨n, hn, hc⟩ := h'.bh
  rw [BH_black] at hn
  obtain ⟨m, rfl, hm1, hm2⟩ := hn
  simp only [BH_leaf] at hm1
  subst hm1
  exact ⟨h'.sub.2.2.blacken_nrr, h'.path, ⟨0, hm2, hc⟩, h'.root⟩

/-- Cutting out a RED successor keeps the tree red-black. -/
theorem succ_red {ctx lc : Ctx} {z y : Ptr} {c : color_t} {k ky : Int} {l yr : Tree}
    (h : AtPos ctx (.node z c k l (plug lc (.node y RBTREE_RED ky .leaf yr)))) :
    RBProps (plug ctx (.node y c ky l (plug lc yr))) := by
  rw [atPos_iff]
  have hs := h.sub
  simp only [NoRedRed_node] at hs
  obtain ⟨hs1, hs2, hs3⟩ := hs
  rw [noRedRed_plug] at hs3
  obtain ⟨hy, hlc, hedge⟩ := hs3
  simp only [NoRedRed_node, true_imp_iff, rootColor_leaf, true_and, rootColor_node] at hy hedge
  obtain ⟨n, hn, hc⟩ := h.bh
  have hr' : NoRedRed (plug lc yr) := by
    rw [noRedRed_plug]
    exact ⟨hy.2.2, hlc, fun e => by rw [hy.1] at e; exact absurd e black_ne_red⟩
  have hbh : ∀ N, BH (plug lc (.node y RBTREE_RED ky .leaf yr)) N → BH (plug lc yr) N := by
    intro N hN
    obtain ⟨m, hm, _⟩ := (bh_plug lc _).1 ⟨N, hN⟩
    exact BH_plug_congr hm (by simp only [BH_red] at hm; exact hm.2) hN
  refine ⟨⟨fun e => ?_, hs2, hr'⟩, h.path, h.edge, ⟨n, ?_, hc⟩, h.root, h.top⟩
  · have := hs1 e
    refine ⟨this.1, ?_⟩
    cases lc with
    | nil => rw [plug_nil, rootColor_node] at this; exact absurd this.2 red_ne_black
    | cons f rest => rw [rootColor_plug_cons] at this ⊢; exact this.2
  · rcases color_cases c with rfl | rfl
    · simp only [BH_red] at hn ⊢; exact ⟨hn.1, hbh _ hn.2⟩
    · rw [BH_black] at hn ⊢
      obtain ⟨m, rfl, h1, h2⟩ := hn
      exact ⟨m, rfl, h1, hbh _ h2⟩

theorem ctxAddrs_append (c1 c2 : Ctx) : ctxAddrs (c1 ++ c2) = ctxAddrs c1 ++ ctxAddrs c2 := by
  induction c1 with
  | nil => rfl
  | cons f rest ih =>
    cases f <;> simp [ctxAddrs, ih, List.append_assoc]

theorem erase_splice_two {fuel : Nat} {t : rbtree} {z y : Ptr}
    (h1 : (t.mem z).left ≠ t.nil) (h2 : (t.mem z).right ≠ t.nil)
    (hm : _rbtree_min_from_node fuel t (t.mem z).right = some y) :
    erase_splice fuel t z =
      some ((if (t.mem y).parent = z then splice_near t z y
              else splice_far (rbtree_transplant t y (t.mem y).right) z y),
            (t.mem y).right, (t.mem y).color) := by
  unfold erase_splice
  simp only [h1, h2, if_false, hm]
  split_ifs <;> rfl

theorem erase_splice_leaf_left (fuel : Nat) {t : rbtree} {ctx : Ctx} {z : Ptr} {c : color_t}
    {k : Int} {r : Tree} (h : RepZ t ctx (.node z c k .leaf r))
    (hrb : AtPos ctx (.node z c k .leaf r)) :
    ∃ t1, erase_splice fuel t z = some (t1, rootAddr t.nil r, c)
      ∧ SpliceOut t (plug ctx (.node z c k .leaf r))
          (ctxBefore ctx ++ nodes r ++ ctxAfter ctx) t1 ctx r c := by
  obtain ⟨r1, r2, -⟩ := h.transplant_right
  refine ⟨_, ?_, r1, rbtree_transplant_nil _ _ _, rbtree_transplant_brk _ _ _, ?_, ?_, ?_, ?_,
    ?_⟩
  · unfold erase_splice
    simp only [h.read, rootAddr_leaf, if_true]
  · intro e
    subst e
    simpa only [rbtree_transplant_nil, rootAddr_leaf] using r2
  · rw [nodes_plug]
  · have := height_plug ctx (.node z c k .leaf r); omega
  · intro e; subst e; exact erase_right_black hrb
  · intro e; subst e; exact erase_right_red hrb

theorem erase_splice_leaf_right (fuel : Nat) {t : rbtree} {ctx : Ctx} {z a : Ptr}
    {c ca : color_t} {k ka : Int} {al ar : Tree}
    (h : RepZ t ctx (.node z c k (.node a ca ka al ar) .leaf))
    (hrb : AtPos ctx (.node z c k (.node a ca ka al ar) .leaf)) :
    ∃ t1, erase_splice fuel t z = some (t1, a, c)
      ∧ SpliceOut t (plug ctx (.node z c k (.node a ca ka al ar) .leaf))
          (ctxBefore ctx ++ nodes (.node a ca ka al ar) ++ ctxAfter ctx) t1 ctx
          (.node a ca ka al ar) c := by
  obtain ⟨r1, r2, -⟩ := h.transplant_left
  have hne : a ≠ t.nil := h.down_L.nil_ne
  refine ⟨_, ?_, r1, rbtree_transplant_nil _ _ _, rbtree_transplant_brk _ _ _, ?_, ?_, ?_, ?_,
    ?_⟩
  · unfold erase_splice
    simp only [h.read, rootAddr_leaf, rootAddr_node, hne, if_true, if_false]
  · intro e; cases e
  · rw [nodes_plug]
  · have := height_plug ctx (.node z c k (.node a ca ka al ar) .leaf); omega
  · intro e; subst e; exact erase_left_black hrb
  · intro e; subst e; exact erase_left_red hrb

theorem nodes_succ {lc : Ctx} (hl : AllL lc) (y : Ptr) (cy : color_t) (ky : Int) (yr : Tree) :
    nodes (plug lc (.node y cy ky .leaf yr)) = (y, ky) :: nodes (plug lc yr) := by
  simp only [nodes_plug, ctxBefore_allL hl, nodes, List.nil_append, List.cons_append]

theorem height_succ (lc ctx : Ctx) (z y : Ptr) (c cy : color_t) (k ky : Int) (l yr : Tree) :
    lc.length + 1 + ctx.length + 1
      ≤ height (plug ctx (.node z c k l (plug lc (.node y cy ky .leaf yr)))) := by
  have h1 := height_plug ctx (.node z c k l (plug lc (.node y cy ky .leaf yr)))
  have h2 := height_plug lc (.node y cy ky .leaf yr)
  simp only [height] at h1 h2 ⊢
  omega

theorem erase_splice_succ (fuel : Nat) {t : rbtree} {ctx lc : Ctx} {z a y : Ptr}
    {c ca cy : color_t} {k ka ky : Int} {al ar yr : Tree} (hl : AllL lc)
    (h : RepZ t ctx (.node z c k (.node a ca ka al ar) (plug lc (.node y cy ky .leaf yr))))
    (hrb : AtPos ctx (.node z c k (.node a ca ka al ar) (plug lc (.node y cy ky .leaf yr))))
    (hf : height (plug ctx (.node z c k (.node a ca ka al ar)
      (plug lc (.node y cy ky .leaf yr)))) < fuel) :
    ∃ t1, erase_splice fuel t z = some (t1, rootAddr t.nil yr, cy)
      ∧ SpliceOut t
          (plug ctx (.node z c k (.node a ca ka al ar) (plug lc (.node y cy ky .leaf yr))))
          (ctxBefore ctx ++ (nodes (.node a ca ka al ar) ++ (y, ky) :: nodes (plug lc yr))
            ++ ctxAfter ctx)
          t1 (lc ++ .R y c ky (.node a ca ka al ar) :: ctx) yr cy := by
  have hlen := height_succ lc ctx z y c cy k ky (.node a ca ka al ar) yr
  -- the successor seen from the root
  have hy0 : RepZ t (lc ++ .R z c k (.node a ca ka al ar) :: ctx) (.node y cy ky .leaf yr) := by
    have := h.toRep
    rw [← plug_succ] at this
    exact this.toRepZ
  have hz := h.read
  have hyr := hy0.read
  have h1 : (t.mem z).left ≠ t.nil := by
    rw [hz]; exact h.down_L.nil_ne
  have h2 : (t.mem z).right ≠ t.nil := by
    rw [hz]
    cases lc with
    | nil => exact h.down_R.nil_ne
    | cons f rest =>
      obtain ⟨b, cb, kb, bl, br, e⟩ := plug_cons_node f rest (.node y cy ky .leaf yr)
      have := h.down_R
      rw [e] at this ⊢
      exact this.nil_ne
  have hm : _rbtree_min_from_node fuel t (t.mem z).right = some y := by
    rw [hz]
    obtain ⟨F, rfl⟩ : ∃ F, fuel = lc.length + (F + 1) := ⟨fuel - lc.length - 1, by omega⟩
    show _rbtree_min_from_node (lc.length + (F + 1)) t
      (rootAddr t.nil (plug lc (.node y cy ky .leaf yr))) = some y
    rw [min_walk lc y cy ky .leaf yr (F + 1) hl hy0]
    exact min_stop hy0 F
  have hpost : nodes (plug (lc ++ .R y c ky (.node a ca ka al ar) :: ctx) yr)
      = ctxBefore ctx ++ (nodes (.node a ca ka al ar) ++ (y, ky) :: nodes (plug lc yr))
          ++ ctxAfter ctx := by
    rw [plug_succ, nodes_plug]; rfl
  have hlen' : (lc ++ .R y c ky (.node a ca ka al ar) :: ctx).length
      ≤ height (plug ctx (.node z c k (.node a ca ka al ar)
          (plug lc (.node y cy ky .leaf yr)))) := by
    simp only [List.length_append, List.length_cons]; omega
  rw [erase_splice_two h1 h2 hm, hyr]
  cases lc with
  | nil =>
    simp only [List.nil_append, ctxParent_R, if_true, rootAddr_leaf]
    rw [plug_nil] at h
    obtain ⟨r1, r2⟩ := h.near_splice
    refine ⟨_, rfl, r1.down_R, splice_near_nil _ _ _, splice_near_brk _ _ _, ?_, hpost, hlen', ?_,
      ?_⟩
    · intro e
      subst e
      simpa only [splice_near_nil, rootAddr_leaf, ctxParent_R] using r2
    · intro e; subst e; exact @succ_black _ [] _ _ _ _ _ _ _ hrb
    · intro e; subst e
      have := @succ_red _ [] _ _ _ _ _ _ _ hrb
      simpa only [List.nil_append, plug_R, plug_nil] using this
  | cons f lc' =>
    cases f with
    | R a' c' k' l' => exact hl.elim
    | L a' c' k' r' =>
      -- the parent of the successor is not `z`
      have hnd := hy0.nodup
      simp only [List.cons_append, ctxAddrs_L, ctxAddrs_append, ctxAddrs_R, addrs_node,
        addrs_leaf, List.nodup_cons, List.nodup_append, List.mem_append, not_mem_cons_both,
        not_or, List.disjoint_cons_left, List.disjoint_cons_right, List.disjoint_append_left,
        List.disjoint_append_right, List.append_nil, List.nil_append, List.not_mem_nil,
        not_false_eq_true, true_and, and_true, List.nodup_nil, List.disjoint_nil_left,
        List.disjoint_nil_right, List.append_assoc] at hnd
      have ha'z : a' ≠ z := by simp only [ne_eq, hnd, not_false_eq_true]
      have hya' : y ≠ a' := by simp only [ne_eq, hnd, not_false_eq_true]
      have hyx : y ≠ rootAddr t.nil yr :=
        ne_rootAddr (by simp only [hnd, not_false_eq_true]) (by simp only [hnd, not_false_eq_true])
      simp only [List.cons_append, ctxParent_L, ha'z, if_false, rootAddr_leaf]
      -- cut the successor out
      obtain ⟨r1, r2, r3⟩ := hy0.transplant_right
      simp only [List.cons_append, ctxParent_L, rootAddr_leaf] at r2 r3
      have hy1 : (rbtree_transplant t y (rootAddr t.nil yr)).mem y = t.mem y := r3 y hya' hyx
      have r1' : RepZ (rbtree_transplant t y (rootAddr t.nil yr)) ctx
          (.node z c k (.node a ca ka al ar) (plug (.L a' c' k' r' :: lc') yr)) := by
        have := r1.toRep
        rw [plug_succ] at this
        exact this.toRepZ
      obtain ⟨b, cb, kb, bl, br, eb⟩ := plug_cons_node (.L a' c' k' r') lc' yr
      rw [eb] at r1'
      have hfresh : y ∉ (rbtree_transplant t y (rootAddr t.nil yr)).nil :: NULL ::
          (addrs (.node z c k (.node a ca ka al ar) (.node b cb kb bl br)) ++ ctxAddrs ctx) := by
        have hp1 := addrs_plug_perm ctx (.node z c k (.node a ca ka al ar)
          (plug (.L a' c' k' r' :: lc') yr))
        have hp2 := addrs_plug_perm (.L a' c' k' r' :: lc' ++
          .R z c k (.node a ca ka al ar) :: ctx) yr
        rw [List.cons_append, ← List.cons_append, plug_succ] at hp2
        have hp := hp1.symm.trans hp2
        rw [eb] at hp
        intro hm
        simp only [rbtree_transplant_nil, List.mem_cons] at hm
        rcases hm with e | e | e
        · exact absurd e (by simp only [hnd, not_false_eq_true])
        · exact absurd e (by simp only [hnd, not_false_eq_true])
        · have := hp.mem_iff.1 e
          simp only [List.cons_append, ctxAddrs_L, ctxAddrs_append, ctxAddrs_R,
            List.mem_cons, List.mem_append, addrs_node, hnd, or_self] at this
      have hlt : y < (rbtree_transplant t y (rootAddr t.nil yr)).brk := by
        rw [rbtree_transplant_brk]
        exact hy0.bound y (by simp)
      have hky : ((rbtree_transplant t y (rootAddr t.nil yr)).mem y).key = ky := by
        rw [hy1, hyr]
      obtain ⟨q1, q2⟩ := r1'.far_splice hky hfresh hlt
      rw [← eb] at q1
      have q1' : RepZ (splice_far (rbtree_transplant t y (rootAddr t.nil yr)) z y)
          (.L a' c' k' r' :: lc' ++ .R y c ky (.node a ca ka al ar) :: ctx) yr := by
        have := q1.toRep
        rw [← plug_succ] at this
        exact this.toRepZ
      refine ⟨_, rfl, q1', ?_, ?_, ?_, hpost, hlen', ?_, ?_⟩
      · simp only [splice_far_nil, rbtree_transplant_nil]
      · simp only [splice_far_brk, rbtree_transplant_brk]
      · intro e
        subst e
        simp only [splice_far_nil, rbtree_transplant_nil, List.cons_append, ctxParent_L]
        rw [rbtree_transplant_nil] at q2
        rw [q2]
        simpa only [rootAddr_leaf] using r2
      · intro e; subst e; exact succ_black hrb
      · intro e; subst e
        have := succ_red hrb
        rw [← plug_succ] at this
        exact this

theorem erase_splice_spec (fuel : Nat) {t : rbtree} {ctx : Ctx} {z : Ptr} {c : color_t}
    {k : Int} {l r : Tree} (h : RepZ t ctx (.node z c k l r))
    (hrb : AtPos ctx (.node z c k l r))
    (hf : height (plug ctx (.node z c k l r)) < fuel) :
    ∃ t1 ctx' s oc, erase_splice fuel t z = some (t1, rootAddr t.nil s, oc)
      ∧ SpliceOut t (plug ctx (.node z c k l r))
          (ctxBefore ctx ++ (nodes l ++ nodes r) ++ ctxAfter ctx) t1 ctx' s oc := by
  cases l with
  | leaf =>
    obtain ⟨t1, e, out⟩ := erase_splice_leaf_left fuel h hrb
    exact ⟨t1, ctx, r, c, e, by simpa only [nodes, List.nil_append] using out⟩
  | node a ca ka al ar =>
    cases r with
    | leaf =>
      obtain ⟨t1, e, out⟩ := erase_splice_leaf_right fuel h hrb
      exact ⟨t1, ctx, .node a ca ka al ar, c, e,
        by simpa only [nodes, List.append_nil] using out⟩
    | node b cb kb bl br =>
      obtain ⟨lc, y, cy, ky, yr, e, hl⟩ := min_view b cb kb bl br
      rw [e] at h hrb hf ⊢
      obtain ⟨t1, e1, out⟩ := erase_splice_succ fuel hl h hrb hf
      refine ⟨t1, lc ++ .R y c ky (.node a ca ka al ar) :: ctx, yr, cy, e1, ?_⟩
      rw [nodes_succ hl]
      exact out

theorem nodes_filter_plug {ctx : Ctx} {z : Ptr} {c : color_t} {k : Int} {l r : Tree}
    (hnd : (addrs (plug ctx (.node z c k l r))).Nodup) :
    (nodes (plug ctx (.node z c k l r))).filter (fun q => decide (q.1 ≠ z))
      = ctxBefore ctx ++ (nodes l ++ nodes r) ++ ctxAfter ctx := by
  have e : nodes (plug ctx (.node z c k l r))
      = (ctxBefore ctx ++ nodes l) ++ (z, k) :: (nodes r ++ ctxAfter ctx) := by
    simp only [nodes_plug, nodes, List.append_assoc, List.cons_append]
  unfold addrs at hnd
  rw [e] at hnd ⊢
  simp only [List.map_append, List.map_cons] at hnd
  have h1 := List.nodup_append.1 hnd
  have hz1 : z ∉ List.map Prod.fst (ctxBefore ctx ++ nodes l) := by
    intro hm
    exact h1.2.2 (by simpa only [List.map_append] using hm) (List.mem_cons_self _ _)
  have hz2 : z ∉ List.map Prod.fst (nodes r ++ ctxAfter ctx) := by
    have := (List.nodup_cons.1 h1.2.1).1
    simpa only [List.map_append] using this
  rw [filter_remove _ _ z k hz1 hz2]
  simp only [List.append_assoc]

/-- What one call of `rbtree_erase` on a record of a red-black tree does. -/
theorem rbtree_erase_spec (fuel : Nat) (t : rbtree) (T : Tree) (z : Ptr)
    (hrep : Rep t T) (hrb : RBProps T) (hz : z ∈ addrs T) (hf : height T + 2 ≤ fuel) :
    ∃ t' T', rbtree_erase fuel t z = some (t', 1)
      ∧ Rep t' T' ∧ RBProps T'
      ∧ nodes T' = (nodes T).filter (fun q => decide (q.1 ≠ z))
      ∧ t'.nil = t.nil ∧ t'.brk = t.brk := by
  have hnn : ¬ (z = NULL ∨ z = t.nil) := by
    have hnd := hrep.nodup
    simp only [List.nodup_cons, List.mem_cons, not_or] at hnd
    rintro (e | e)
    · exact hnd.2.1 (e ▸ hz)
    · exact hnd.1.2 (e ▸ hz)
  have hndT : (addrs T).Nodup := (List.nodup_cons.1 (List.nodup_cons.1 hrep.nodup).2).2
  obtain ⟨ctx, c, k, l, r, rfl⟩ := exists_plug_of_mem hz
  obtain ⟨t1, ctx', s, oc, e, out⟩ := erase_splice_spec fuel hrep.toRepZ ((atPos_iff _ _).1 hrb)
    (by omega)
  rw [nodes_filter_plug hndT]
  unfold rbtree_erase
  simp only [hnn, if_false, e]
  rcases color_cases oc with rfl | rfl
  · refine ⟨t1, plug ctx' s, ?_, out.rep.toRep, out.red rfl, out.nodes, out.nil, out.brk⟩
    simp only [red_ne_black, if_false, free]
  · obtain ⟨t', T', e', res⟩ := delete_fixup_spec ctx'.length ctx' t1 s fuel (le_refl _)
      (by have := out.len; omega) out.rep out.par (out.black rfl)
    rw [out.nil] at e'
    refine ⟨t', T', ?_, res.rep, res.rb, res.nodes.trans out.nodes, ?_, ?_⟩
    · simp only [if_true, e', free]
    · rw [res.same.nil, out.nil]
    · rw [res.same.brk, out.brk]

theorem blackCounts_ne_nil (T : Tree) : blackCounts T ≠ [] := by
  induction T with
  | leaf => simp [blackCounts]
  | node a c k l r ihl _ =>
    simp only [blackCounts, ne_eq, List.map_eq_nil_iff, List.append_eq_nil, not_and]
    intro h
    exact absurd h ihl

theorem exists_mem_blackCounts (T : Tree) : ∃ m, m ∈ blackCounts T := by
  rcases h : blackCounts T with _ | ⟨m, rest⟩
  · exact absurd h (blackCounts_ne_nil T)
  · exact ⟨m, List.mem_cons_self _ _⟩

/-- The black-height of a tree is `n` exactly when every path counts `n` BLACK records. -/
theorem bh_iff_blackCounts (T : Tree) : ∀ n, BH T n ↔ ∀ m ∈ blackCounts T, m = n := by
  induction T with
  | leaf =>
    intro n
    simp only [BH_leaf, blackCounts, List.mem_singleton, forall_eq]
    exact eq_comm
  | node a c k l r ihl ihr =>
    intro n
    rcases color_cases c with rfl | rfl
    · simp only [BH_red, blackCounts, red_ne_black, if_false, List.map_id', List.mem_append,
        ihl n, ihr n]
      constructor
      · rintro ⟨h1, h2⟩ m (hm | hm)
        · exact h1 m hm
        · exact h2 m hm
      · intro h
        exact ⟨fun m hm => h m (Or.inl hm), fun m hm => h m (Or.inr hm)⟩
    · simp only [blackCounts, if_true, List.mem_map, List.mem_append]
      cases n with
      | zero =>
        simp only [BH_black_zero, false_iff]
        intro h
        obtain ⟨m, hm⟩ := exists_mem_blackCounts l
        have := h (m + 1) ⟨m, Or.inl hm, rfl⟩
        omega
      | succ n =>
        simp only [BH_black_succ, ihl n, ihr n]
        constructor
        · rintro ⟨h1, h2⟩ m ⟨m', hm' | hm', rfl⟩
          · rw [h1 m' hm']
          · rw [h2 m' hm']
        · intro h
          constructor
          · intro m hm
            have := h (m + 1) ⟨m, Or.inl hm, rfl⟩
            omega
          · intro m hm
            have := h (m + 1) ⟨m, Or.inr hm, rfl⟩
            omega

/-- Reading the parent links: no RED record of the subtree at a position has a RED record
at its parent link exactly when the subtree has no RED record with a RED child and its root
is not a RED record below a RED one. -/
theorem noRedRed_iff_parent {t : rbtree} {s : Tree} :
    ∀ {ctx : Ctx}, RepZ t ctx s →
      ((∀ a ∈ addrs s, (t.mem a).color = RBTREE_RED →
          (t.mem (t.mem a).parent).color ≠ RBTREE_RED)
        ↔ NoRedRed s ∧ (rootColor s = RBTREE_RED → ctxColor ctx = RBTREE_BLACK)) := by
  induction s with
  | leaf =>
    intro ctx _
    simp only [addrs_leaf, List.not_mem_nil, false_imp_iff, implies_true, NoRedRed_leaf,
      rootColor_leaf, black_ne_red, true_and]
  | node a c k l r ihl ihr =>
    intro ctx h
    have hl := ihl h.down_L
    have hr := ihr h.down_R
    have pc := h.parent_color
    have rd := h.read
    have split : (∀ x ∈ addrs (.node a c k l r), (t.mem x).color = RBTREE_RED →
          (t.mem (t.mem x).parent).color ≠ RBTREE_RED)
        ↔ ((∀ x ∈ addrs l, (t.mem x).color = RBTREE_RED →
              (t.mem (t.mem x).parent).color ≠ RBTREE_RED)
          ∧ (c = RBTREE_RED → ctxColor ctx ≠ RBTREE_RED)
          ∧ (∀ x ∈ addrs r, (t.mem x).color = RBTREE_RED →
              (t.mem (t.mem x).parent).color ≠ RBTREE_RED)) := by
      simp only [addrs_node, List.mem_append, List.mem_cons]
      constructor
      · intro H
        refine ⟨fun x hx => H x (Or.inl hx), ?_, fun x hx => H x (Or.inr (Or.inr hx))⟩
        have := H a (Or.inr (Or.inl rfl))
        rw [rd] at this
        simpa only [pc] using this
      · rintro ⟨H1, H2, H3⟩ x (hx | rfl | hx)
        · exact H1 x hx
        · rw [rd]
          simpa only [pc] using H2
        · exact H3 x hx
    rw [split, hl, hr]
    simp only [ctxColor_L, ctxColor_R, NoRedRed_node, rootColor_node]
    rcases color_cases c with rfl | rfl <;> rcases color_cases (rootColor l) with e1 | e1 <;>
      rcases color_cases (rootColor r) with e2 | e2 <;>
      rcases color_cases (ctxColor ctx) with e3 | e3 <;>
      simp [e1, e2, e3, red_ne_black, black_ne_red]

/-- On a state that holds the tree `T`, the colour properties read off the memory are the
colour properties of `T`. -/
theorem rbInvariants_iff {t : rbtree} {T : Tree} (h : Rep t T) :
    RBInvariants t T ↔ RBProps T := by
  have hz : RepZ t [] T := (rep_iff_repZ t T).1 h
  have hc : (t.mem t.root).color = rootColor T := by
    rw [h.root]; exact hz.root_color
  have hp := noRedRed_iff_parent hz
  simp only [ctxColor_nil, implies_true, and_true] at hp
  constructor
  · intro hi
    refine ⟨hc ▸ hi.root_black, hp.1 hi.no_red_red, ?_⟩
    obtain ⟨n, hn⟩ := hi.black_height
    exact ⟨n, (bh_iff_blackCounts T n).2 hn⟩
  · intro hr
    refine ⟨hc.trans hr.root_black, h.nil_color, hp.2 hr.no_red_red, ?_⟩
    obtain ⟨n, hn⟩ := hr.black_height
    exact ⟨n, (bh_iff_blackCounts T n).1 hn⟩

/-- The state after `new_rbtree` holds the empty tree. -/
theorem rep_new : Rep new_rbtree .leaf :=
  ⟨rfl, trivial, by decide, by decide, rfl, rfl, rfl⟩

theorem rbProps_leaf : RBProps .leaf :=
  ⟨rfl, trivial, 0, rfl⟩

theorem length_nodes (T : Tree) : (nodes T).length = size T := by
  induction T with
  | leaf => rfl
  | node a c k l r ihl ihr => simp only [nodes, List.length_append, List.length_cons, size, ihl, ihr]; omega

theorem height_le_size (T : Tree) : height T ≤ size T := by
  induction T with
  | leaf => exact le_refl _
  | node a c k l r ihl ihr => simp only [height, size]; omega

theorem length_le_of_nodup_lt (l : List Nat) (n : Nat) (hnd : l.Nodup) (hb : ∀ a ∈ l, a < n) :
    l.length ≤ n := by
  have h1 : l.toFinset ⊆ Finset.range n := by
    intro a ha
    exact Finset.mem_range.2 (hb a (List.mem_toFinset.1 ha))
  have h2 := Finset.card_le_card h1
  rw [List.toFinset_card_of_nodup hnd, Finset.card_range] at h2
  exact h2

/-- All records of the tree, the sentinel and `NULL` are different addresses below the
break, so the break bounds the size of the tree. -/
theorem Rep.size_lt_brk {t : rbtree} {T : Tree} (h : Rep t T) : size T + 2 ≤ t.brk := by
  have hb : ∀ a ∈ t.nil :: NULL :: addrs T, a < t.brk := by
    intro a ha
    simp only [List.mem_cons] at ha
    rcases ha with rfl | rfl | ha
    · exact h.bound _ (List.mem_cons_self _ _)
    · have := h.bound _ (List.mem_cons_self _ _)
      exact lt_of_le_of_lt (Nat.zero_le _) this
    · exact h.bound _ (List.mem_cons_of_mem _ ha)
  have := length_le_of_nodup_lt _ _ h.nodup hb
  simp only [List.length_cons, addrs, List.length_map, length_nodes] at this
  omega

theorem Rep.height_lt_brk {t : rbtree} {T : Tree} (h : Rep t T) : height T + 2 ≤ t.brk :=
  le_trans (Nat.add_le_add_right (height_le_size T) 2) h.size_lt_brk

theorem insert_fixup_mono : ∀ (fuel : Nat) (t : rbtree) (z : Ptr) (r : rbtree),
    rbtree_insert_fixup fuel t z = some r → rbtree_insert_fixup (fuel + 1) t z = some r := by
  intro fuel
  induction fuel with
  | zero => intro t z r h; simp [rbtree_insert_fixup] at h
  | succ n ih =>
    intro t z r h
    rw [rbtree_insert_fixup] at h ⊢
    dsimp only at h ⊢
    split_ifs at h ⊢ <;> first | exact h | exact ih _ _ _ h

theorem delete_fixup_mono : ∀ (fuel : Nat) (t : rbtree) (x : Ptr) (r : rbtree),
    rbtree_delete_fixup fuel t x = some r → rbtree_delete_fixup (fuel + 1) t x = some r := by
  intro fuel
  induction fuel with
  | zero => intro t z r h; simp [rbtree_delete_fixup] at h
  | succ n ih =>
    intro t z r h
    rw [rbtree_delete_fixup] at h ⊢
    dsimp only at h ⊢
    split_ifs at h ⊢ <;> first | exact h | exact ih _ _ _ h

theorem insert_descend_mono : ∀ (fuel : Nat) (t : rbtree) (z y x r : Ptr),
    insert_descend fuel t z y x = some r → insert_descend (fuel + 1) t z y x = some r := by
  intro fuel
  induction fuel with
  | zero => intro t z y x r h; simp [insert_descend] at h
  | succ n ih =>
    intro t z y x r h
    rw [insert_descend] at h ⊢
    dsimp only at h ⊢
    split_ifs at h ⊢ <;> first | exact h | exact ih _ _ _ _ _ h

theorem min_from_node_mono : ∀ (fuel : Nat) (t : rbtree) (x r : Ptr),
    _rbtree_min_from_node fuel t x = some r → _rbtree_min_from_node (fuel + 1) t x = some r := by
  intro fuel
  induction fuel with
  | zero => intro t x r h; simp [_rbtree_min_from_node] at h
  | succ n ih =>
    intro t x r h
    rw [_rbtree_min_from_node] at h ⊢
    split_ifs at h ⊢ <;> first | exact h | exact ih _ _ _ h

theorem fuel_mono_le {α : Type} (f : Nat → Option α)
    (hstep : ∀ n r, f n = some r → f (n + 1) = some r) {n m : Nat} (hnm : n ≤ m) {r : α}
    (h : f n = some r) : f m = some r := by
  induction hnm with
  | refl => exact h
  | step _ ih => exact hstep _ _ ih

/-- More fuel does not change what `rbtree_insert` returns. -/
theorem rbtree_insert_mono {n m : Nat} (hnm : n ≤ m) {t : rbtree} {key : Int}
    {r : rbtree × Ptr} (h : rbtree_insert n t key = some r) :
    rbtree_insert m t key = some r := by
  rw [rbtree_insert_eq] at h ⊢
  cases hd : insert_descend n (alloc_node t key) t.brk t.nil t.root with
  | none => rw [hd] at h; exact absurd h (by simp)
  | some y =>
    rw [hd] at h
    rw [fuel_mono_le (fun k => insert_descend k (alloc_node t key) t.brk t.nil t.root)
      (fun k r => insert_descend_mono k _ _ _ _ r) hnm hd]
    dsimp only at h ⊢
    cases hx : rbtree_insert_fixup n (attach (alloc_node t key) t.brk y) t.brk with
    | none => rw [hx] at h; exact absurd h (by simp)
    | some t' =>
      rw [hx] at h
      rw [fuel_mono_le (fun k => rbtree_insert_fixup k (attach (alloc_node t key) t.brk y) t.brk)
        (fun k r => insert_fixup_mono k _ _ r) hnm hx]
      exact h

theorem erase_splice_mono {n m : Nat} (hnm : n ≤ m) {t : rbtree} {z : Ptr}
    {r : rbtree × Ptr × color_t} (h : erase_splice n t z = some r) :
    erase_splice m t z = some r := by
  unfold erase_splice at h ⊢
  by_cases h1 : (t.mem z).left = t.nil
  · simp only [h1, if_true] at h ⊢
    exact h
  · by_cases h2 : (t.mem z).right = t.nil
    · simp only [h1, h2, if_true, if_false] at h ⊢
      exact h
    · simp only [h1, h2, if_false] at h ⊢
      cases hd : _rbtree_min_from_node n t (t.mem z).right with
      | none => rw [hd] at h; exact absurd h (by simp)
      | some y =>
        rw [hd] at h
        rw [fuel_mono_le (fun k => _rbtree_min_from_node k t (t.mem z).right)
          (fun k r => min_from_node_mono k _ _ r) hnm hd]
        exact h

/-- More fuel does not change what `rbtree_erase` returns. -/
theorem rbtree_erase_mono {n m : Nat} (hnm : n ≤ m) {t : rbtree} {z : Ptr}
    {r : rbtree × Int} (h : rbtree_erase n t z = some r) :
    rbtree_erase m t z = some r := by
  unfold rbtree_erase at h ⊢
  split_ifs at h ⊢ with h0
  · exact h
  · cases hd : erase_splice n t z with
    | none => rw [hd] at h; exact absurd h (by simp)
    | some q =>
      obtain ⟨t1, x, oc⟩ := q
      rw [hd] at h
      rw [erase_splice_mono hnm hd]
      dsimp only at h ⊢
      split_ifs at h ⊢
      · cases hx : rbtree_delete_fixup n t1 x with
        | none => rw [hx] at h; exact absurd h (by simp)
        | some t' =>
          rw [hx] at h
          rw [fuel_mono_le (fun k => rbtree_delete_fixup k t1 x)
            (fun k r => delete_fixup_mono k _ _ r) hnm hx]
          exact h
      · exact h

theorem keys_eq_map (T : Tree) : keys T = (nodes T).map Prod.snd := rfl

theorem bstOrder_iff_sorted (T : Tree) : BSTOrder T ↔ (keys T).Sorted (· ≤ ·) := by
  induction T with
  | leaf => simp [BSTOrder, keys_leaf]
  | node a c k l r ihl ihr =>
    simp only [BSTOrder, keys_node, List.Sorted, List.pairwise_append, List.pairwise_cons,
      List.mem_cons, ihl, ihr]
    constructor
    · rintro ⟨h1, h2, h3, h4⟩
      refine ⟨h3, ⟨h2, h4⟩, ?_⟩
      rintro x hx y (rfl | hy)
      · exact h1 x hx
      · exact le_trans (h1 x hx) (h2 y hy)
    · rintro ⟨h3, ⟨h2, h4⟩, h5⟩
      exact ⟨fun x hx => h5 x hx k (Or.inl rfl), h2, h3, h4⟩

/-- Where the descent of `rbtree_insert` puts the new record: after all records with a key
at most `key` and before all records with a larger key. -/
theorem nodes_insCtx (key : Int) (N : Tree) :
    ∀ (s : Tree) (ctx : Ctx), (keys s).Sorted (· ≤ ·) →
      ∃ n1 n2, nodes s = n1 ++ n2 ∧ (∀ q ∈ n1, q.2 ≤ key) ∧ (∀ q ∈ n2, key < q.2)
        ∧ nodes (plug (insCtx key s ctx) N)
            = ctxBefore ctx ++ (n1 ++ nodes N ++ n2) ++ ctxAfter ctx := by
  intro s
  induction s with
  | leaf =>
    intro ctx _
    refine ⟨[], [], rfl, by simp, by simp, ?_⟩
    simp only [insCtx, nodes_plug, List.nil_append, List.append_nil]
  | node a c k l r ihl ihr =>
    intro ctx hs
    have hb := (bstOrder_iff_sorted (.node a c k l r)).2 hs
    obtain ⟨hl, hr, bl, br⟩ := hb
    have sl := (bstOrder_iff_sorted l).1 bl
    have sr := (bstOrder_iff_sorted r).1 br
    unfold insCtx
    split_ifs with hk
    · obtain ⟨n1, n2, e, h1, h2, e'⟩ := ihl (.L a c k r :: ctx) sl
      refine ⟨n1, n2 ++ (a, k) :: nodes r, ?_, h1, ?_, ?_⟩
      · simp only [nodes, e, List.append_assoc]
      · intro q hq
        simp only [List.mem_append, List.mem_cons] at hq
        rcases hq with hq | rfl | hq
        · exact h2 q hq
        · exact hk
        · exact lt_of_lt_of_le hk (hr q.2 (List.mem_map_of_mem Prod.snd hq))
      · rw [e']
        simp only [ctxBefore, ctxAfter, List.append_assoc, List.cons_append]
    · obtain ⟨n1, n2, e, h1, h2, e'⟩ := ihr (.R a c k l :: ctx) sr
      refine ⟨nodes l ++ (a, k) :: n1, n2, ?_, ?_, h2, ?_⟩
      · simp only [nodes, e, List.append_assoc, List.cons_append]
      · intro q hq
        simp only [List.mem_append, List.mem_cons] at hq
        rcases hq with hq | rfl | hq
        · exact le_trans (hl q.2 (List.mem_map_of_mem Prod.snd hq)) (not_lt.1 hk)
        · exact not_lt.1 hk
        · exact h1 q hq
      · rw [e']
        simp only [ctxBefore, ctxAfter, List.append_assoc, List.cons_append,
          List.nil_append]

theorem nodes_insTree (key : Int) (z : Ptr) (T : Tree) (hs : (keys T).Sorted (· ≤ ·)) :
    ∃ n1 n2, nodes T = n1 ++ n2 ∧ (∀ q ∈ n1, q.2 ≤ key) ∧ (∀ q ∈ n2, key < q.2)
      ∧ nodes (insTree key z T) = n1 ++ (z, key) :: n2 := by
  obtain ⟨n1, n2, e, h1, h2, e'⟩ := nodes_insCtx key (.node z RBTREE_RED key .leaf .leaf) T [] hs
  refine ⟨n1, n2, e, h1, h2, ?_⟩
  unfold insTree
  rw [e']
  simp only [ctxBefore, ctxAfter, nodes, List.nil_append, List.append_nil, List.append_assoc,
    List.cons_append]

/-- Putting a key between the keys at most it and the keys above it keeps a sorted list
sorted. -/
theorem sorted_insert_split {s1 s2 : List Int} {k : Int} (hs : (s1 ++ s2).Sorted (· ≤ ·))
    (h1 : ∀ x ∈ s1, x ≤ k) (h2 : ∀ x ∈ s2, k < x) : (s1 ++ k :: s2).Sorted (· ≤ ·) := by
  simp only [List.Sorted, List.pairwise_append, List.pairwise_cons, List.mem_cons] at hs ⊢
  refine ⟨hs.1, ⟨fun x hx => le_of_lt (h2 x hx), hs.2.1⟩, ?_⟩
  rintro x hx y (rfl | hy)
  · exact h1 x hx
  · exact hs.2.2 x hx y hy

/-- The in-order list of a tree without repeated addresses splits at the record `z`, and
dropping the entries with address `z` drops exactly that one. -/
theorem nodes_remove_split {T : Tree} {z : Ptr} (hnd : (addrs T).Nodup) (hz : z ∈ addrs T) :
    ∃ n1 n2 k, nodes T = n1 ++ (z, k) :: n2
      ∧ (nodes T).filter (fun q => decide (q.1 ≠ z)) = n1 ++ n2 := by
  unfold addrs at hnd hz
  obtain ⟨⟨z', k⟩, hq, rfl⟩ := List.mem_map.1 hz
  obtain ⟨n1, n2, e⟩ := List.append_of_mem hq
  refine ⟨n1, n2, k, e, ?_⟩
  rw [e] at hnd ⊢
  simp only [List.map_append, List.map_cons] at hnd
  have h1 := List.nodup_append.1 hnd
  have hz1 : z' ∉ List.map Prod.fst n1 := fun hm => h1.2.2 hm (List.mem_cons_self _ _)
  have hz2 : z' ∉ List.map Prod.fst n2 := (List.nodup_cons.1 h1.2.1).1
  exact filter_remove _ _ z' k hz1 hz2

theorem sorted_remove {s1 s2 : List Int} {k : Int} (hs : (s1 ++ k :: s2).Sorted (· ≤ ·)) :
    (s1 ++ s2).Sorted (· ≤ ·) := by
  simp only [List.Sorted, List.pairwise_append, List.pairwise_cons, List.mem_cons] at hs ⊢
  exact ⟨hs.1, hs.2.1.2, fun x hx y hy => hs.2.2 x hx y (Or.inr hy)⟩

/-- Two trees held by the same memory below the same pointer are the same tree. -/
theorem Shape.unique_shape {m : Ptr → node_t} {nil : Ptr} :
    ∀ (T T' : Tree) (par par' : Ptr), Shape m nil par T → Shape m nil par' T' →
      rootAddr nil T = rootAddr nil T' → nil ∉ addrs T → nil ∉ addrs T' → T = T' := by
  intro T
  induction T with
  | leaf =>
    intro T' par par' _ _ e _ h2
    cases T' with
    | leaf => rfl
    | node a c k l r =>
      simp only [rootAddr_leaf, rootAddr_node] at e
      exact absurd (by simp [e]) h2
  | node a c k l r ihl ihr =>
    intro T' par par' h h' e h1 h2
    cases T' with
    | leaf =>
      simp only [rootAddr_leaf, rootAddr_node] at e
      exact absurd (by simp [e]) h1
    | node a' c' k' l' r' =>
      simp only [rootAddr_node] at e
      subst e
      obtain ⟨r1, s1, s2⟩ := h
      obtain ⟨r2, s1', s2'⟩ := h'
      rw [r1] at r2
      simp only [node_t.mk.injEq] at r2
      obtain ⟨ec, ek, _, el, er⟩ := r2
      simp only [addrs_node, List.mem_append, List.mem_cons, not_or] at h1 h2
      rw [ihl l' _ _ s1 s1' el h1.1 h2.1, ihr r' _ _ s2 s2' er h1.2.2 h2.2.2, ec, ek]

/-- A state holds at most one tree. -/
theorem Rep.unique {t : rbtree} {T T' : Tree} (h : Rep t T) (h' : Rep t T') : T = T' := by
  have n1 : t.nil ∉ addrs T := fun hm =>
    (List.nodup_cons.1 h.nodup).1 (List.mem_cons_of_mem _ hm)
  have n2 : t.nil ∉ addrs T' := fun hm =>
    (List.nodup_cons.1 h'.nodup).1 (List.mem_cons_of_mem _ hm)
  exact Shape.unique_shape T T' _ _ h.shape h'.shape (h.root.symm.trans h'.root) n1 n2

/-- One call of `rbtree_insert` on a red-black tree with sorted keys, with the place the
new record takes in the in-order list. -/
theorem insert_step (fuel : Nat) (t : rbtree) (T : Tree) (key : Int)
    (hrep : Rep t T) (hrb : RBProps T) (hs : (keys T).Sorted (· ≤ ·))
    (hf : height T + 2 ≤ fuel) :
    ∃ t' T' n1 n2, rbtree_insert fuel t key = some (t', t.brk)
      ∧ Rep t' T' ∧ RBProps T'
      ∧ nodes T = n1 ++ n2 ∧ (∀ q ∈ n1, q.2 ≤ key) ∧ (∀ q ∈ n2, key < q.2)
      ∧ nodes T' = n1 ++ (t.brk, key) :: n2
      ∧ (keys T').Sorted (· ≤ ·) ∧ t'.nil = t.nil ∧ t'.brk = t.brk + 1 := by
  obtain ⟨t', T', e, hrep', hrb', hn, hnil, hbrk⟩ := rbtree_insert_spec fuel t T key hrep hrb hf
  obtain ⟨n1, n2, e1, h1, h2, e2⟩ := nodes_insTree key t.brk T hs
  refine ⟨t', T', n1, n2, e, hrep', hrb', e1, h1, h2, hn.trans e2, ?_, hnil, hbrk⟩
  rw [keys_eq_map, hn.trans e2, List.map_append, List.map_cons]
  apply sorted_insert_split
  · rw [← List.map_append, ← e1]; exact hs
  · intro x hx
    obtain ⟨q, hq, rfl⟩ := List.mem_map.1 hx
    exact h1 q hq
  · intro x hx
    obtain ⟨q, hq, rfl⟩ := List.mem_map.1 hx
    exact h2 q hq

/-- One call of `rbtree_erase` on a record of a red-black tree, with the place the record
leaves in the in-order list. -/
theorem erase_step (fuel : Nat) (t : rbtree) (T : Tree) (z : Ptr)
    (hrep : Rep t T) (hrb : RBProps T) (hz : z ∈ addrs T) (hf : height T + 2 ≤ fuel) :
    ∃ t' T' n1 n2 k, rbtree_erase fuel t z = some (t', 1)
      ∧ Rep t' T' ∧ RBProps T'
      ∧ nodes T = n1 ++ (z, k) :: n2 ∧ nodes T' = n1 ++ n2
      ∧ ((keys T).Sorted (· ≤ ·) → (keys T').Sorted (· ≤ ·))
      ∧ t'.nil = t.nil ∧ t'.brk = t.brk := by
  obtain ⟨t', T', e, hrep', hrb', hn, hnil, hbrk⟩ := rbtree_erase_spec fuel t T z hrep hrb hz hf
  have hndT : (addrs T).Nodup := (List.nodup_cons.1 (List.nodup_cons.1 hrep.nodup).2).2
  obtain ⟨n1, n2, k, e1, e2⟩ := nodes_remove_split hndT hz
  refine ⟨t', T', n1, n2, k, e, hrep', hrb', e1, hn.trans e2, ?_, hnil, hbrk⟩
  intro hs
  rw [keys_eq_map, e1, List.map_append, List.map_cons] at hs
  rw [keys_eq_map, hn.trans e2, List.map_append]
  exact sorted_remove hs

/-- Every reachable state holds a red-black tree with sorted keys. -/
theorem reachable_valid {t : rbtree} (h : Reachable t) :
    ∃ T, Rep t T ∧ RBProps T ∧ (keys T).Sorted (· ≤ ·) := by
  induction h with
  | new => exact ⟨.leaf, rep_new, rbProps_leaf, List.sorted_nil⟩
  | @insert t t' z fuel key _ e ih =>
    obtain ⟨T, hrep, hrb, hs⟩ := ih
    have e1 := rbtree_insert_mono (le_max_left fuel (height T + 2)) e
    obtain ⟨t'', T', n1, n2, e2, hrep', hrb', _, _, _, _, hs', _, _⟩ :=
      insert_step (max fuel (height T + 2)) t T key hrep hrb hs (le_max_right _ _)
    rw [e2] at e1
    simp only [Option.some.injEq, Prod.mk.injEq] at e1
    rw [← e1.1]
    exact ⟨T', hrep', hrb', hs'⟩
  | @erase t t' T0 ret fuel z _ hrep0 hz e ih =>
    obtain ⟨T, hrep, hrb, hs⟩ := ih
    have eT := hrep0.unique hrep
    subst eT
    have e1 := rbtree_erase_mono (le_max_left fuel (height T0 + 2)) e
    obtain ⟨t'', T', n1, n2, k, e2, hrep', hrb', _, _, hs', _, _⟩ :=
      erase_step (max fuel (height T0 + 2)) t T0 z hrep hrb hz (le_max_right _ _)
    rw [e2] at e1
    simp only [Option.some.injEq, Prod.mk.injEq] at e1
    rw [← e1.1]
    exact ⟨T', hrep', hrb', hs' hs⟩

/-- A run of inserts on a valid tree returns, given fuel for its longest descent, and ends
in a valid tree. -/
theorem run_inserts_valid (fuel : Nat) :
    ∀ (ks : List Int) (t : rbtree) (T : Tree), Rep t T → RBProps T →
      (keys T).Sorted (· ≤ ·) → ks.length + t.brk ≤ fuel →
      ∃ t' T', run_ops fuel (ks.map Op.insert) t = some t' ∧ Rep t' T' ∧ RBProps T'
        ∧ (keys T').Sorted (· ≤ ·) ∧ (keys T').Perm (ks ++ keys T) := by
  intro ks
  induction ks with
  | nil =>
    intro t T hrep hrb hs _
    exact ⟨t, T, rfl, hrep, hrb, hs, List.Perm.refl _⟩
  | cons k ks ih =>
    intro t T hrep hrb hs hf
    have hh := hrep.height_lt_brk
    simp only [List.length_cons] at hf
    obtain ⟨t1, T1, n1, n2, e, hrep1, hrb1, e1, _, _, e2, hs1, _, hbrk⟩ :=
      insert_step fuel t T k hrep hrb hs (by omega)
    obtain ⟨t', T', e', hrep', hrb', hs', hp⟩ := ih t1 T1 hrep1 hrb1 hs1
      (by have hb : @Eq Nat t1.brk (t.brk + 1) := hbrk; omega)
    refine ⟨t', T', ?_, hrep', hrb', hs', hp.trans ?_⟩
    · simp only [List.map_cons, run_ops, e, e']
    · rw [keys_eq_map T1, e2, keys_eq_map T, e1]
      simp only [List.map_append, List.map_cons, List.cons_append]
      rw [List.perm_iff_count]
      intro x
      simp only [List.count_append, List.count_cons]
      omega

/-- A run of inserts leads from reachable states to reachable states. -/
theorem reachable_run_inserts (fuel : Nat) :
    ∀ (ks : List Int) (t t' : rbtree), Reachable t →
      run_ops fuel (ks.map Op.insert) t = some t' → Reachable t' := by
  intro ks
  induction ks with
  | nil =>
    intro t t' h e
    simp only [List.map_nil, run_ops, Option.some.injEq] at e
    exact e ▸ h
  | cons k ks ih =>
    intro t t' h e
    simp only [List.map_cons, run_ops] at e
    cases hi : rbtree_insert fuel t k with
    | none => rw [hi] at e; exact absurd e (by simp)
    | some q =>
      obtain ⟨t1, z⟩ := q
      rw [hi] at e
      exact ih t1 t' (Reachable.insert fuel k h hi) e

theorem AllR_append {c1 c2 : Ctx} (h1 : AllR c1) (h2 : AllR c2) : AllR (c1 ++ c2) := by
  induction c1 with
  | nil => exact h2
  | cons f rest ih =>
    cases f with
    | R a c k l => exact ih h1
    | L a c k r => exact h1.elim

theorem ctxAfter_allR {lc : Ctx} (h : AllR lc) : ctxAfter lc = [] := by
  induction lc with
  | nil => rfl
  | cons f rest ih =>
    cases f with
    | R a c k l => exact ih h
    | L a c k r => exact h.elim

/-- The rightmost record of a non-empty tree sits at the end of a path of right steps. -/
theorem max_view (a : Ptr) (c : color_t) (k : Int) (l r : Tree) :
    ∃ lc y cy ky yl, Tree.node a c k l r = plug lc (.node y cy ky yl .leaf) ∧ AllR lc := by
  induction r generalizing a c k l with
  | leaf => exact ⟨[], a, c, k, l, rfl, trivial⟩
  | node a' c' k' l' r' _ ihr =>
    obtain ⟨lc, y, cy, ky, yl, e, hl⟩ := ihr a' c' k' l'
    refine ⟨lc ++ [.R a c k l], y, cy, ky, yl, ?_,
      AllR_append hl (show AllR [.R a c k l] from trivial)⟩
    rw [plug_append, ← e]; rfl

/-- The loop of `rbtree_max` walks down a path of right steps. -/
theorem max_walk {t : rbtree} {ctx : Ctx} :
    ∀ (lc : Ctx) (a : Ptr) (c : color_t) (k : Int) (l r : Tree) (F : Nat), AllR lc →
      RepZ t (lc ++ ctx) (.node a c k l r) →
      max_loop (lc.length + F) t (rootAddr t.nil (plug lc (.node a c k l r)))
        = max_loop F t a := by
  intro lc
  induction lc with
  | nil => intro a c k l r F _ _; simp
  | cons f rest ih =>
    intro a c k l r F hl h
    cases f with
    | L a' c' k' r' => exact hl.elim
    | R a' c' k' l' =>
      have h' : RepZ t (rest ++ ctx) (.node a' c' k' l' (.node a c k l r)) := h.up_R
      have := ih a' c' k' l' (.node a c k l r) (F + 1) hl h'
      simp only [plug_R, List.length_cons]
      rw [show rest.length + 1 + F = rest.length + (F + 1) by omega, this, max_loop]
      have hne : a ≠ t.nil := h.nil_ne
      simp only [h'.read, rootAddr_node, ne_eq, hne, not_false_eq_true, if_true]

theorem max_stop {t : rbtree} {ctx : Ctx} {y : Ptr} {cy : color_t} {ky : Int} {yl : Tree}
    (h : RepZ t ctx (.node y cy ky yl .leaf)) (F : Nat) :
    max_loop (F + 1) t y = some y := by
  rw [max_loop]
  simp only [h.read, rootAddr_leaf, ne_eq, not_true_eq_false, if_false]

/-- The memory stores at every address of the tree the key the tree lists for it. -/
theorem Shape.key_of_mem {m : Ptr → node_t} {nil : Ptr} {a : Ptr} {k : Int} :
    ∀ (T : Tree) (par : Ptr), Shape m nil par T → (a, k) ∈ nodes T → (m a).key = k := by
  intro T
  induction T with
  | leaf => intro par _ h; simp [nodes] at h
  | node a' c' k' l r ihl ihr =>
    intro par hs h
    simp only [nodes, List.mem_append, List.mem_cons, Prod.mk.injEq] at h
    rcases h with h | ⟨rfl, rfl⟩ | h
    · exact ihl _ hs.2.1 h
    · rw [hs.1]
    · exact ihr _ hs.2.2 h

theorem Rep.key_mem_keys {t : rbtree} {T : Tree} (h : Rep t T) {a : Ptr} (ha : a ∈ addrs T) :
    (t.mem a).key ∈ keys T := by
  unfold addrs at ha
  obtain ⟨⟨a', k⟩, hq, rfl⟩ := List.mem_map.1 ha
  rw [Shape.key_of_mem T _ h.shape hq]
  exact List.mem_map_of_mem Prod.snd hq

theorem Rep.exists_of_mem_keys {t : rbtree} {T : Tree} (h : Rep t T) {k : Int}
    (hk : k ∈ keys T) : ∃ a ∈ addrs T, (t.mem a).key = k := by
  unfold keys at hk
  obtain ⟨⟨a, k'⟩, hq, rfl⟩ := List.mem_map.1 hk
  exact ⟨a, List.mem_map_of_mem Prod.fst hq, Shape.key_of_mem T _ h.shape hq⟩

theorem Rep.ne_nil_of_mem {t : rbtree} {T : Tree} (h : Rep t T) {a : Ptr} (ha : a ∈ addrs T) :
    a ≠ NULL ∧ a ≠ t.nil := by
  have hnd := h.nodup
  simp only [List.nodup_cons, List.mem_cons, not_or] at hnd
  exact ⟨fun e => hnd.2.1 (e ▸ ha), fun e => hnd.1.2 (e ▸ ha)⟩

/-- The loop of `rbtree_find` on a subtree with sorted keys: it stops at a record of the
subtree with the wanted key when there is one and at the sentinel when there is none. -/
theorem find_loop_spec {t : rbtree} (key : Int) :
    ∀ (s : Tree) (ctx : Ctx) (fuel : Nat), RepZ t ctx s → (keys s).Sorted (· ≤ ·) →
      height s + 1 ≤ fuel →
      ∃ x, find_loop fuel t key (rootAddr t.nil s) = some x
        ∧ (key ∈ keys s → x ∈ addrs s ∧ (t.mem x).key = key)
        ∧ (key ∉ keys s → x = t.nil) := by
  intro s
  induction s with
  | leaf =>
    intro ctx fuel _ _ hf
    obtain ⟨f, rfl⟩ : ∃ f, fuel = f + 1 := ⟨fuel - 1, by simp only [height] at hf; omega⟩
    refine ⟨t.nil, ?_, by simp, fun _ => rfl⟩
    rw [find_loop]
    simp only [rootAddr_leaf, ne_eq, not_true_eq_false, false_and, if_false]
  | node a c k l r ihl ihr =>
    intro ctx fuel h hs hf
    simp only [height] at hf
    obtain ⟨f, rfl⟩ : ∃ f, fuel = f + 1 := ⟨fuel - 1, by omega⟩
    have hb := (bstOrder_iff_sorted (.node a c k l r)).2 hs
    obtain ⟨hl, hr, bl, br⟩ := hb
    have sl := (bstOrder_iff_sorted l).1 bl
    have sr := (bstOrder_iff_sorted r).1 br
    have hne : a ≠ t.nil := h.nil_ne
    rw [find_loop]
    by_cases hk : k = key
    · subst hk
      refine ⟨a, ?_, fun _ => ⟨by simp, by rw [h.read]⟩, fun hn => absurd (by simp) hn⟩
      simp only [rootAddr_node, h.read, ne_eq, not_true_eq_false, and_false, if_false]
    · simp only [rootAddr_node, h.read, ne_eq, hne, hk, not_false_eq_true, and_self, if_true]
      by_cases hlt : key < k
      · simp only [hlt, if_true]
        obtain ⟨x, e, h1, h2⟩ := ihl (.L a c k r :: ctx) f h.down_L sl (by omega)
        have hiff : key ∈ keys (.node a c k l r) ↔ key ∈ keys l := by
          simp only [keys_node, List.mem_append, List.mem_cons]
          constructor
          · rintro (h' | h' | h')
            · exact h'
            · exact absurd h'.symm hk
            · exact absurd (hr key h') (not_le.2 hlt)
          · exact Or.inl
        refine ⟨x, e, fun hm => ?_, fun hn => h2 (fun hm => hn (hiff.2 hm))⟩
        obtain ⟨hx, hkx⟩ := h1 (hiff.1 hm)
        exact ⟨by simp only [addrs_node, List.mem_append]; exact Or.inl hx, hkx⟩
      · simp only [hlt, if_false]
        obtain ⟨x, e, h1, h2⟩ := ihr (.R a c k l :: ctx) f h.down_R sr (by omega)
        have hgt : k < key := lt_of_le_of_ne (not_lt.1 hlt) hk
        have hiff : key ∈ keys (.node a c k l r) ↔ key ∈ keys r := by
          simp only [keys_node, List.mem_append, List.mem_cons]
          constructor
          · rintro (h' | h' | h')
            · exact absurd (hl key h') (not_le.2 hgt)
            · exact absurd h'.symm hk
            · exact h'
          · exact fun h' => Or.inr (Or.inr h')
        refine ⟨x, e, fun hm => ?_, fun hn => h2 (fun hm => hn (hiff.2 hm))⟩
        obtain ⟨hx, hkx⟩ := h1 (hiff.1 hm)
        exact ⟨by simp only [addrs_node, List.mem_append, List.mem_cons]
                  exact Or.inr (Or.inr hx), hkx⟩

/-- What `rbtree_find` returns on a tree with sorted keys. -/
theorem rbtree_find_spec (fuel : Nat) (t : rbtree) (T : Tree) (key : Int)
    (hrep : Rep t T) (hs : (keys T).Sorted (· ≤ ·)) (hf : height T + 1 ≤ fuel) :
    ∃ x, rbtree_find fuel t key = some x
      ∧ (key ∈ keys T → x ≠ NULL ∧ x ≠ t.nil ∧ x ∈ addrs T ∧ (t.mem x).key = key)
      ∧ (key ∉ keys T → x = NULL) := by
  obtain ⟨x, e, h1, h2⟩ := find_loop_spec key T [] fuel ((rep_iff_repZ t T).1 hrep) hs hf
  rw [← hrep.root] at e
  unfold rbtree_find
  rw [e]
  by_cases hm : key ∈ keys T
  · obtain ⟨hx, hk⟩ := h1 hm
    obtain ⟨n1, n2⟩ := hrep.ne_nil_of_mem hx
    exact ⟨x, by simp only [n2, if_false], fun _ => ⟨n1, n2, hx, hk⟩, fun hn => absurd hm hn⟩
  · have := h2 hm
    subst this
    exact ⟨NULL, by simp only [if_true], fun h' => absurd h' hm, fun _ => rfl⟩

/-- What `rbtree_min` returns: the sentinel on the empty tree, else the first record in
order. -/
theorem rbtree_min_spec (fuel : Nat) (t : rbtree) (T : Tree) (hrep : Rep t T)
    (hf : height T + 1 ≤ fuel) :
    ∃ x, rbtree_min fuel t = some x
      ∧ (T = .leaf → x = t.nil)
      ∧ (T ≠ .leaf → ∃ k rest, nodes T = (x, k) :: rest) := by
  unfold rbtree_min
  rw [hrep.root]
  cases T with
  | leaf =>
    obtain ⟨f, rfl⟩ : ∃ f, fuel = f + 1 := ⟨fuel - 1, by omega⟩
    refine ⟨t.nil, ?_, fun _ => rfl, fun h => absurd rfl h⟩
    rw [_rbtree_min_from_node]
    simp only [rootAddr_leaf, hrep.nil_left, ne_eq, not_true_eq_false, if_false]
  | node a c k l r =>
    obtain ⟨lc, y, cy, ky, yr, e, hl⟩ := min_view a c k l r
    rw [e] at hrep hf ⊢
    have hz : RepZ t (lc ++ []) (.node y cy ky .leaf yr) := by
      rw [List.append_nil]; exact hrep.toRepZ
    have hh := height_plug lc (.node y cy ky .leaf yr)
    simp only [height] at hh
    obtain ⟨F, rfl⟩ : ∃ F, fuel = lc.length + (F + 1) := ⟨fuel - lc.length - 1, by omega⟩
    refine ⟨y, ?_, fun h => ?_, fun _ => ⟨ky, nodes yr ++ ctxAfter lc, ?_⟩⟩
    · rw [min_walk lc y cy ky .leaf yr (F + 1) hl hz]
      exact min_stop hz F
    · obtain ⟨_, _, _, _, _, e'⟩ : ∃ a c k l r, plug lc (.node y cy ky .leaf yr)
          = .node a c k l r := ⟨a, c, k, l, r, e.symm⟩
      rw [e'] at h
      exact absurd h (by simp)
    · simp only [nodes_plug, ctxBefore_allL hl, nodes, List.nil_append, List.cons_append]

/-- What `rbtree_max` returns: the sentinel on the empty tree, else the last record in
order. -/
theorem rbtree_max_spec (fuel : Nat) (t : rbtree) (T : Tree) (hrep : Rep t T)
    (hf : height T + 1 ≤ fuel) :
    ∃ x, rbtree_max fuel t = some x
      ∧ (T = .leaf → x = t.nil)
      ∧ (T ≠ .leaf → ∃ k front, nodes T = front ++ [(x, k)]) := by
  unfold rbtree_max
  rw [hrep.root]
  cases T with
  | leaf =>
    obtain ⟨f, rfl⟩ : ∃ f, fuel = f + 1 := ⟨fuel - 1, by omega⟩
    refine ⟨t.nil, ?_, fun _ => rfl, fun h => absurd rfl h⟩
    rw [max_loop]
    simp only [rootAddr_leaf, hrep.nil_right, ne_eq, not_true_eq_false, if_false]
  | node a c k l r =>
    obtain ⟨lc, y, cy, ky, yl, e, hl⟩ := max_view a c k l r
    rw [e] at hrep hf ⊢
    have hz : RepZ t (lc ++ []) (.node y cy ky yl .leaf) := by
      rw [List.append_nil]; exact hrep.toRepZ
    have hh := height_plug lc (.node y cy ky yl .leaf)
    simp only [height] at hh
    obtain ⟨F, rfl⟩ : ∃ F, fuel = lc.length + (F + 1) := ⟨fuel - lc.length - 1, by omega⟩
    refine ⟨y, ?_, fun h => ?_, fun _ => ⟨ky, ctxBefore lc ++ nodes yl, ?_⟩⟩
    · rw [max_walk lc y cy ky yl .leaf (F + 1) hl hz]
      exact max_stop hz F
    · obtain ⟨_, _, _, _, _, e'⟩ : ∃ a c k l r, plug lc (.node y cy ky yl .leaf)
          = .node a c k l r := ⟨a, c, k, l, r, e.symm⟩
      rw [e'] at h
      exact absurd h (by simp)
    · simp only [nodes_plug, ctxAfter_allR hl, nodes, List.append_nil, List.append_assoc]

/-- C1: `rbtree_insert` preserves the colour invariants.  On every state that holds a tree
with a BLACK root, a BLACK sentinel, no RED record below a RED parent and the same number
of BLACK records on every path down to the sentinel, the call returns for every key (given
fuel for the height of the tree) and leaves a state that holds a tree with the same four
properties; hence so does every run of inserts that starts from `new_rbtree`. -/
theorem rbtree_insert_preserves_colour_invariants :
    (∀ (fuel : Nat) (t : rbtree) (T : Tree) (key : Int), Rep t T → RBInvariants t T →
      height T + 2 ≤ fuel →
      ∃ t' z T', rbtree_insert fuel t key = some (t', z) ∧ Rep t' T' ∧ RBInvariants t' T')
    ∧ (∀ (ks : List Int) (fuel : Nat), ks.length + 2 ≤ fuel →
      ∃ t' T', run_ops fuel (ks.map Op.insert) new_rbtree = some t' ∧ Rep t' T'
        ∧ RBInvariants t' T') := by
  constructor
  · intro fuel t T key hrep hinv hf
    obtain ⟨t', T', e, hrep', hrb', _⟩ :=
      rbtree_insert_spec fuel t T key hrep ((rbInvariants_iff hrep).1 hinv) hf
    exact ⟨t', t.brk, T', e, hrep', (rbInvariants_iff hrep').2 hrb'⟩
  · intro ks fuel hf
    obtain ⟨t', T', e, hrep', hrb', _, _⟩ :=
      run_inserts_valid fuel ks new_rbtree .leaf rep_new rbProps_leaf List.sorted_nil hf
    exact ⟨t', T', e, hrep', (rbInvariants_iff hrep').2 hrb'⟩

/-- The third insert of the run 1, 2, 3, the one that rotates, as an instance of C1. -/
theorem rbtree_insert_preserves_colour_invariants_witness :
    ∃ t' z T', rbtree_insert 4 (state_of 4 [.insert 1, .insert 2]) 3 = some (t', z)
      ∧ Rep t' T' ∧ RBInvariants t' T' :=
  rbtree_insert_preserves_colour_invariants.1 4 (state_of 4 [.insert 1, .insert 2])
    (.node 2 RBTREE_BLACK 1 .leaf (.node 3 RBTREE_RED 2 .leaf .leaf)) 3 (by decide)
    ((rbInvariants_iff (by decide)).2 ⟨rfl, by simp, 1, by simp⟩) (by decide)

/-- C2: `rbtree_erase` preserves the red-black invariants.  On every state that holds a
tree with the four colour properties (its parent links are those of the tree) and every
record `z` of that tree, the call returns 1 (given fuel for the height of the tree) and
leaves a state that holds a tree with the same four properties; hence every state reached
from `new_rbtree` by inserts and erases of records in the tree holds such a tree. -/
theorem rbtree_erase_preserves_invariants :
    (∀ (fuel : Nat) (t : rbtree) (T : Tree) (z : Ptr), Rep t T → RBInvariants t T →
      z ∈ addrs T → height T + 2 ≤ fuel →
      ∃ t' T', rbtree_erase fuel t z = some (t', 1) ∧ Rep t' T' ∧ RBInvariants t' T')
    ∧ (∀ t, Reachable t → ∃ T, Rep t T ∧ RBInvariants t T) := by
  constructor
  · intro fuel t T z hrep hinv hz hf
    obtain ⟨t', T', e, hrep', hrb', _⟩ :=
      rbtree_erase_spec fuel t T z hrep ((rbInvariants_iff hrep).1 hinv) hz hf
    exact ⟨t', T', e, hrep', (rbInvariants_iff hrep').2 hrb'⟩
  · intro t h
    obtain ⟨T, hrep, hrb, _⟩ := reachable_valid h
    exact ⟨T, hrep, (rbInvariants_iff hrep).2 hrb⟩

/-- Erasing the BLACK record with key 1 from the tree of the run 1, 2, 3, 4, 5,
as an instance of C2. -/
theorem rbtree_erase_preserves_invariants_witness :
    ∃ t' T', rbtree_erase 5
        (state_of 7 [.insert 1, .insert 2, .insert 3, .insert 4, .insert 5]) 2 = some (t', 1)
      ∧ Rep t' T' ∧ RBInvariants t' T' :=
  rbtree_erase_preserves_invariants.1 5
    (state_of 7 [.insert 1, .insert 2, .insert 3, .insert 4, .insert 5])
    (.node 3 RBTREE_BLACK 2 (.node 2 RBTREE_BLACK 1 .leaf .leaf)
      (.node 5 RBTREE_BLACK 4 (.node 4 RBTREE_RED 3 .leaf .leaf)
        (.node 6 RBTREE_RED 5 .leaf .leaf)))
    2 (by decide!) ((rbInvariants_iff (by decide!)).2 ⟨rfl, by simp, 2, by simp⟩)
    (by decide) (by decide)

/-- C3: `rbtree_insert` keeps the tree ordered.  On every state that holds a red-black
tree whose in-order keys are non-decreasing, the call returns and the in-order keys
afterwards are the old ones with `key` put in right after all elements that are at most
`key`: again non-decreasing and one element longer.  Inserting 10, 20, 5 into a new tree
gives the in-order keys 5, 10, 20. -/
theorem rbtree_insert_keeps_order :
    (∀ (fuel : Nat) (t : rbtree) (T : Tree) (key : Int), Rep t T → RBInvariants t T →
      (keys T).Sorted (· ≤ ·) → height T + 2 ≤ fuel →
      ∃ t' z T' s1 s2, rbtree_insert fuel t key = some (t', z) ∧ Rep t' T'
        ∧ keys T = s1 ++ s2 ∧ (∀ x ∈ s1, x ≤ key) ∧ (∀ x ∈ s2, key < x)
        ∧ keys T' = s1 ++ key :: s2 ∧ (keys T').Sorted (· ≤ ·)
        ∧ (keys T').length = (keys T).length + 1)
    ∧ (∃ t T, run_ops 4 [.insert 10, .insert 20, .insert 5] new_rbtree = some t ∧ Rep t T
        ∧ keys T = [5, 10, 20]) := by
  constructor
  · intro fuel t T key hrep hinv hs hf
    obtain ⟨t', T', n1, n2, e, hrep', _, e1, h1, h2, e2, hs', _, _⟩ :=
      insert_step fuel t T key hrep ((rbInvariants_iff hrep).1 hinv) hs hf
    refine ⟨t', t.brk, T', n1.map Prod.snd, n2.map Prod.snd, e, hrep', ?_, ?_, ?_, ?_, hs',
      ?_⟩
    · rw [keys_eq_map, e1, List.map_append]
    · intro x hx
      obtain ⟨q, hq, rfl⟩ := List.mem_map.1 hx
      exact h1 q hq
    · intro x hx
      obtain ⟨q, hq, rfl⟩ := List.mem_map.1 hx
      exact h2 q hq
    · rw [keys_eq_map, e2, List.map_append, List.map_cons]
    · rw [keys_eq_map, keys_eq_map, e2, e1]
      simp only [List.length_map, List.length_append, List.length_cons]
      omega
  · exact ⟨state_of 4 [.insert 10, .insert 20, .insert 5],
      .node 2 RBTREE_BLACK 10 (.node 4 RBTREE_RED 5 .leaf .leaf)
        (.node 3 RBTREE_RED 20 .leaf .leaf), rfl, by decide!, by decide⟩

/-- Inserting 5 into the tree of the run 10, 20, as an instance of C3. -/
theorem rbtree_insert_keeps_order_witness :
    ∃ t' z T' s1 s2, rbtree_insert 4 (state_of 4 [.insert 10, .insert 20]) 5 = some (t', z)
      ∧ Rep t' T'
      ∧ keys (.node 2 RBTREE_BLACK 10 .leaf (.node 3 RBTREE_RED 20 .leaf .leaf)) = s1 ++ s2
      ∧ (∀ x ∈ s1, x ≤ 5) ∧ (∀ x ∈ s2, 5 < x)
      ∧ keys T' = s1 ++ 5 :: s2 ∧ (keys T').Sorted (· ≤ ·)
      ∧ (keys T').length
        = (keys (.node 2 RBTREE_BLACK 10 .leaf (.node 3 RBTREE_RED 20 .leaf .leaf))).length + 1 :=
  rbtree_insert_keeps_order.1 4 (state_of 4 [.insert 10, .insert 20])
    (.node 2 RBTREE_BLACK 10 .leaf (.node 3 RBTREE_RED 20 .leaf .leaf)) 5 (by decide)
    ((rbInvariants_iff (by decide)).2 ⟨rfl, by simp, 1, by simp⟩) (by decide) (by decide)

/-- C4: `rbtree_erase` removes exactly the given record.  On every state that holds a
red-black tree and every record `z` of it (with no, one or two children, the root or not)
the call returns 1 and the in-order list of records afterwards is the old one with the
single entry of `z` taken out, all others in their old order.  After inserting 1 to 7 in
increasing order and erasing the record with key 4 the in-order keys are
1, 2, 3, 5, 6, 7. -/
theorem rbtree_erase_removes_node :
    (∀ (fuel : Nat) (t : rbtree) (T : Tree) (z : Ptr), Rep t T → RBInvariants t T →
      z ∈ addrs T → height T + 2 ≤ fuel →
      ∃ t' T' n1 n2 k, rbtree_erase fuel t z = some (t', 1) ∧ Rep t' T'
        ∧ nodes T = n1 ++ (z, k) :: n2 ∧ nodes T' = n1 ++ n2
        ∧ keys T = n1.map Prod.snd ++ k :: n2.map Prod.snd
        ∧ keys T' = n1.map Prod.snd ++ n2.map Prod.snd)
    ∧ (∃ t z t' T',
        run_ops 9 [.insert 1, .insert 2, .insert 3, .insert 4, .insert 5, .insert 6, .insert 7]
          new_rbtree = some t
        ∧ rbtree_find 9 t 4 = some z ∧ rbtree_erase 9 t z = some (t', 1) ∧ Rep t' T'
        ∧ keys T' = [1, 2, 3, 5, 6, 7]) := by
  constructor
  · intro fuel t T z hrep hinv hz hf
    obtain ⟨t', T', n1, n2, k, e, hrep', _, e1, e2, _, _, _⟩ :=
      erase_step fuel t T z hrep ((rbInvariants_iff hrep).1 hinv) hz hf
    refine ⟨t', T', n1, n2, k, e, hrep', e1, e2, ?_, ?_⟩
    · rw [keys_eq_map, e1, List.map_append, List.map_cons]
    · rw [keys_eq_map, e2, List.map_append]
  · exact ⟨state_of 9
        [.insert 1, .insert 2, .insert 3, .insert 4, .insert 5, .insert 6, .insert 7],
      5, _, .node 3 RBTREE_BLACK 2 (.node 2 RBTREE_BLACK 1 .leaf .leaf)
      (.node 6 RBTREE_RED 5 (.node 4 RBTREE_BLACK 3 .leaf .leaf)
        (.node 7 RBTREE_BLACK 6 .leaf (.node 8 RBTREE_RED 7 .leaf .leaf))),
      rfl, by decide!, rfl, by decide!, by decide⟩

/-- Erasing the root, a record with two children, from the tree of the run 10, 20, 5, as
an instance of C4. -/
theorem rbtree_erase_removes_node_witness :
    ∃ t' T' n1 n2 k,
      rbtree_erase 4 (state_of 4 [.insert 10, .insert 20, .insert 5]) 2 = some (t', 1)
      ∧ Rep t' T'
      ∧ nodes (.node 2 RBTREE_BLACK 10 (.node 4 RBTREE_RED 5 .leaf .leaf)
          (.node 3 RBTREE_RED 20 .leaf .leaf)) = n1 ++ (2, k) :: n2
      ∧ nodes T' = n1 ++ n2
      ∧ keys (.node 2 RBTREE_BLACK 10 (.node 4 RBTREE_RED 5 .leaf .leaf)
          (.node 3 RBTREE_RED 20 .leaf .leaf)) = n1.map Prod.snd ++ k :: n2.map Prod.snd
      ∧ keys T' = n1.map Prod.snd ++ n2.map Prod.snd :=
  rbtree_erase_removes_node.1 4 (state_of 4 [.insert 10, .insert 20, .insert 5])
    (.node 2 RBTREE_BLACK 10 (.node 4 RBTREE_RED 5 .leaf .leaf)
      (.node 3 RBTREE_RED 20 .leaf .leaf)) 2 (by decide!)
    ((rbInvariants_iff (by decide!)).2 ⟨rfl, by simp, 1, by simp⟩) (by decide) (by decide)

/-- The first and the last entry of a sorted list bound all entries. -/
theorem sorted_head_le {k : Int} {rest : List Int} (hs : (k :: rest).Sorted (· ≤ ·))
    {x : Int} (hx : x ∈ k :: rest) : k ≤ x := by
  simp only [List.Sorted, List.pairwise_cons] at hs
  rcases List.mem_cons.1 hx with rfl | hx
  · exact le_refl _
  · exact hs.1 x hx

theorem sorted_le_last {k : Int} {front : List Int} (hs : (front ++ [k]).Sorted (· ≤ ·))
    {x : Int} (hx : x ∈ front ++ [k]) : x ≤ k := by
  simp only [List.Sorted, List.pairwise_append, List.mem_singleton, forall_eq] at hs
  rcases List.mem_append.1 hx with hx | hx
  · exact hs.2.2 x hx
  · rw [List.mem_singleton.1 hx]

theorem Rep.root_nil_iff {t : rbtree} {T : Tree} (h : Rep t T) : t.root = t.nil ↔ T = .leaf := by
  constructor
  · intro e
    cases T with
    | leaf => rfl
    | node a c k l r =>
      have := (h.ne_nil_of_mem (a := a) (by simp)).2
      rw [h.root, rootAddr_node] at e
      exact absurd e this
  · rintro rfl
    exact h.root

/-- C5: `rbtree_find` is a correct membership lookup on every tree reachable by inserts and
erases, duplicate keys allowed.  The call returns (given fuel for the height of the tree);
when some record of the tree stores `key` the result is a record of the tree, neither
`NULL` nor the sentinel, whose key is `key`; when no record of the tree stores `key` the
result is `NULL`. -/
theorem rbtree_find_correct (t : rbtree) (T : Tree) (key : Int) (fuel : Nat)
    (hreach : Reachable t) (hrep : Rep t T) (hf : height T + 1 ≤ fuel) :
    ∃ x, rbtree_find fuel t key = some x
      ∧ ((∃ a ∈ addrs T, (t.mem a).key = key) →
          x ≠ NULL ∧ x ≠ t.nil ∧ x ∈ addrs T ∧ (t.mem x).key = key)
      ∧ ((∀ a ∈ addrs T, (t.mem a).key ≠ key) → x = NULL) := by
  obtain ⟨T0, hrep0, _, hs⟩ := reachable_valid hreach
  have eT := hrep0.unique hrep
  subst eT
  obtain ⟨x, e, h1, h2⟩ := rbtree_find_spec fuel t T0 key hrep hs hf
  refine ⟨x, e, ?_, ?_⟩
  · rintro ⟨a, ha, hk⟩
    exact h1 (hk ▸ hrep.key_mem_keys ha)
  · intro hn
    apply h2
    intro hm
    obtain ⟨a, ha, hk⟩ := hrep.exists_of_mem_keys hm
    exact hn a ha hk

/-- The lookup of the key 1 in the tree of the run 1, 1, 1, as an instance of C5. -/
theorem rbtree_find_correct_witness :
    ∃ x, rbtree_find 3 (state_of 5 [.insert 1, .insert 1, .insert 1]) 1 = some x
      ∧ ((∃ a ∈ addrs (.node 3 RBTREE_BLACK 1 (.node 2 RBTREE_RED 1 .leaf .leaf)
              (.node 4 RBTREE_RED 1 .leaf .leaf)),
            ((state_of 5 [.insert 1, .insert 1, .insert 1]).mem a).key = 1) →
          x ≠ NULL ∧ x ≠ (state_of 5 [.insert 1, .insert 1, .insert 1]).nil
            ∧ x ∈ addrs (.node 3 RBTREE_BLACK 1 (.node 2 RBTREE_RED 1 .leaf .leaf)
                (.node 4 RBTREE_RED 1 .leaf .leaf))
            ∧ ((state_of 5 [.insert 1, .insert 1, .insert 1]).mem x).key = 1)
      ∧ ((∀ a ∈ addrs (.node 3 RBTREE_BLACK 1 (.node 2 RBTREE_RED 1 .leaf .leaf)
              (.node 4 RBTREE_RED 1 .leaf .leaf)),
            ((state_of 5 [.insert 1, .insert 1, .insert 1]).mem a).key ≠ 1) → x = NULL) :=
  rbtree_find_correct (state_of 5 [.insert 1, .insert 1, .insert 1])
    (.node 3 RBTREE_BLACK 1 (.node 2 RBTREE_RED 1 .leaf .leaf)
      (.node 4 RBTREE_RED 1 .leaf .leaf)) 1 3
    (reachable_run_inserts 5 [1, 1, 1] new_rbtree _ Reachable.new rfl) (by decide!)
    (by decide)

/-- C6: `rbtree_to_array` does not export the tree.  Its body is `return 0;`: for every
tree, buffer and capacity it returns 0 and leaves the buffer as it was, so on a tree with
the five keys 1 to 5 and capacity 2 it returns 0, not 2, and writes nothing. -/
theorem rbtree_to_array_returns_zero :
    (∀ (t : rbtree) (arr : Nat → Int) (n : Nat), rbtree_to_array t arr n = (t, arr, 0))
    ∧ (∃ t T,
        run_ops 7 [.insert 1, .insert 2, .insert 3, .insert 4, .insert 5] new_rbtree = some t
        ∧ Rep t T ∧ keys T = [1, 2, 3, 4, 5]
        ∧ (rbtree_to_array t (fun _ => 0) 2).2.2 = 0
        ∧ (rbtree_to_array t (fun _ => 0) 2).2.2 ≠ 2
        ∧ (rbtree_to_array t (fun _ => 0) 2).2.1 0 ≠ 1) :=
  ⟨fun _ _ _ => rfl,
    state_of 7 [.insert 1, .insert 2, .insert 3, .insert 4, .insert 5],
    .node 3 RBTREE_BLACK 2 (.node 2 RBTREE_BLACK 1 .leaf .leaf)
      (.node 5 RBTREE_BLACK 4 (.node 4 RBTREE_RED 3 .leaf .leaf)
        (.node 6 RBTREE_RED 5 .leaf .leaf)),
    rfl, by decide!, by decide, rfl, by decide, by decide⟩

/-- C7, as the specification states it, fails: after inserting the key 1 three times the
root stores 1 and so does its left child, which is not strictly below it. -/
theorem strict_left_order_counterexample :
    ∃ t T, run_ops 5 [.insert 1, .insert 1, .insert 1] new_rbtree = some t ∧ Rep t T
      ∧ ¬ StrictLeftOrder T :=
  ⟨state_of 5 [.insert 1, .insert 1, .insert 1],
    .node 3 RBTREE_BLACK 1 (.node 2 RBTREE_RED 1 .leaf .leaf)
      (.node 4 RBTREE_RED 1 .leaf .leaf),
    rfl, by decide!, fun h => absurd (h.1 1 (by decide)) (by decide)⟩

/-- C7, amended: after every insert and erase of any run that starts from a new tree,
duplicate keys allowed, at every record of the tree all keys in its left subtree are at
most its key and all keys in its right subtree are at least its key. -/
theorem search_order_reachable (t : rbtree) (h : Reachable t) :
    ∃ T, Rep t T ∧ BSTOrder T := by
  obtain ⟨T, hrep, _, hs⟩ := reachable_valid h
  exact ⟨T, hrep, (bstOrder_iff_sorted T).2 hs⟩

/-- The tree of the run 1, 1, 1 as an instance of the amended C7. -/
theorem search_order_reachable_witness :
    ∃ T, Rep (state_of 5 [.insert 1, .insert 1, .insert 1]) T ∧ BSTOrder T :=
  search_order_reachable (state_of 5 [.insert 1, .insert 1, .insert 1])
    (reachable_run_inserts 5 [1, 1, 1] new_rbtree _ Reachable.new rfl)

/-- C8: `rbtree_min` and `rbtree_max`.  On every state that holds a tree with
non-decreasing in-order keys both calls return (given fuel for the height of the tree);
on an empty tree (the root is the sentinel) both return the sentinel, and on a non-empty
tree `rbtree_min` returns a record of the tree whose key is at most every key of the tree
and `rbtree_max` one whose key is at least every key of the tree. -/
theorem rbtree_min_max_correct (t : rbtree) (T : Tree) (fuel : Nat) (hrep : Rep t T)
    (hs : (keys T).Sorted (· ≤ ·)) (hf : height T + 1 ≤ fuel) :
    ∃ mn mx, rbtree_min fuel t = some mn ∧ rbtree_max fuel t = some mx
      ∧ (t.root = t.nil → mn = t.nil ∧ mx = t.nil)
      ∧ (t.root ≠ t.nil → mn ∈ addrs T ∧ mx ∈ addrs T
          ∧ ∀ a ∈ addrs T, (t.mem mn).key ≤ (t.mem a).key
              ∧ (t.mem a).key ≤ (t.mem mx).key) := by
  obtain ⟨mn, e1, a1, b1⟩ := rbtree_min_spec fuel t T hrep hf
  obtain ⟨mx, e2, a2, b2⟩ := rbtree_max_spec fuel t T hrep hf
  refine ⟨mn, mx, e1, e2, fun h => ?_, fun h => ?_⟩
  · have hT := hrep.root_nil_iff.1 h
    exact ⟨a1 hT, a2 hT⟩
  · have hT : T ≠ .leaf := fun e => h (hrep.root_nil_iff.2 e)
    obtain ⟨k1, rest, n1⟩ := b1 hT
    obtain ⟨k2, front, n2⟩ := b2 hT
    have m1 : (mn, k1) ∈ nodes T := by rw [n1]; exact List.mem_cons_self _ _
    have m2 : (mx, k2) ∈ nodes T := by rw [n2]; simp
    have hk1 := Shape.key_of_mem T _ hrep.shape m1
    have hk2 := Shape.key_of_mem T _ hrep.shape m2
    refine ⟨List.mem_map_of_mem Prod.fst m1, List.mem_map_of_mem Prod.fst m2, ?_⟩
    intro a ha
    have hka := hrep.key_mem_keys ha
    constructor
    · rw [hk1]
      have hs1 := hs
      rw [keys_eq_map, n1, List.map_cons] at hs1
      apply sorted_head_le hs1
      rw [keys_eq_map, n1, List.map_cons] at hka
      exact hka
    · rw [hk2]
      have hs2 := hs
      rw [keys_eq_map, n2, List.map_append, List.map_cons, List.map_nil] at hs2
      apply sorted_le_last hs2
      rw [keys_eq_map, n2, List.map_append, List.map_cons, List.map_nil] at hka
      exact hka

/-- An instance of C8: a tree emptied again by an erase, whose root is the sentinel
again. -/
theorem rbtree_min_max_correct_witness :
    (∃ mn mx, rbtree_min 1 (state_of 3 [.insert 5, .erase 2]) = some mn
      ∧ rbtree_max 1 (state_of 3 [.insert 5, .erase 2]) = some mx
      ∧ ((state_of 3 [.insert 5, .erase 2]).root = (state_of 3 [.insert 5, .erase 2]).nil →
          mn = (state_of 3 [.insert 5, .erase 2]).nil
            ∧ mx = (state_of 3 [.insert 5, .erase 2]).nil)
      ∧ ((state_of 3 [.insert 5, .erase 2]).root ≠ (state_of 3 [.insert 5, .erase 2]).nil →
          mn ∈ addrs .leaf ∧ mx ∈ addrs .leaf
          ∧ ∀ a ∈ addrs .leaf,
              ((state_of 3 [.insert 5, .erase 2]).mem mn).key
                  ≤ ((state_of 3 [.insert 5, .erase 2]).mem a).key
              ∧ ((state_of 3 [.insert 5, .erase 2]).mem a).key
                  ≤ ((state_of 3 [.insert 5, .erase 2]).mem mx).key))
    ∧ (state_of 3 [.insert 5, .erase 2]).root = (state_of 3 [.insert 5, .erase 2]).nil :=
  ⟨rbtree_min_max_correct (state_of 3 [.insert 5, .erase 2]) .leaf 1 (by decide!)
      List.sorted_nil (by decide), by decide!⟩

/-- C9: `rbtree_erase` with a `NULL` handle or with the sentinel of the tree returns 0 and
changes nothing: the state after the call, with the root and every field of every record,
is the state before it. -/
theorem rbtree_erase_null_or_sentinel_noop (fuel : Nat) (t : rbtree) :
    rbtree_erase fuel t NULL = some (t, 0) ∧ rbtree_erase fuel t t.nil = some (t, 0) := by
  constructor <;> simp [rbtree_erase]

/-- C10, as the specification states it, fails, on a handle that was never freed: after the
inserts of 1, 2, 3 the caller allocates a record of its own, sets its colour to RED, its key
to 9 and its three links to the sentinel, and passes it to `rbtree_erase`.  The record is
no record of the tree, yet the call returns 1 and sets the root to the sentinel: the tree
that held the keys 1, 2, 3 is empty afterwards and `rbtree_find` of 2 returns `NULL`. -/
theorem rbtree_erase_foreign_handle_counterexample :
    ∃ t T m t1 t',
      run_ops 5 [.insert 1, .insert 2, .insert 3] new_rbtree = some t
      ∧ Rep t T ∧ keys T = [1, 2, 3]
      ∧ malloc t = (m, 5)
      ∧ t1 = set_parent (set_right (set_left (set_key (set_color m 5 RBTREE_RED) 5 9)
          5 m.nil) 5 m.nil) 5 m.nil
      ∧ Rep t1 T ∧ 5 ∉ addrs T ∧ 5 ≠ NULL ∧ 5 ≠ t1.nil
      ∧ rbtree_erase 5 t1 5 = some (t', 1)
      ∧ Rep t' .leaf ∧ t'.root = t'.nil ∧ rbtree_find 5 t' 2 = some NULL :=
  ⟨state_of 5 [.insert 1, .insert 2, .insert 3],
    .node 3 RBTREE_BLACK 2 (.node 2 RBTREE_RED 1 .leaf .leaf)
      (.node 4 RBTREE_RED 3 .leaf .leaf),
    _, _, _, rfl, by decide!, by decide, rfl, rfl, by decide!, by decide, by decide,
    by decide!, rfl, by decide!, by decide!, by decide!⟩

/-- C10, amended: `rbtree_erase` returns 0 and leaves the tree unchanged only for a `NULL`
handle and for the sentinel; for every other handle, of a record in the tree or not, it
makes no membership test and returns 1 whenever it returns.  (The handle is read as a
record that is still allocated: reading a record after `free` is undefined in C, and the
statement says nothing about it.) -/
theorem rbtree_erase_fails_only_on_null_or_sentinel (fuel : Nat) (t : rbtree) (z : Ptr)
    (t' : rbtree) (ret : Int) (h : rbtree_erase fuel t z = some (t', ret)) :
    ((z = NULL ∨ z = t.nil) → ret = 0 ∧ t' = t)
      ∧ (z ≠ NULL → z ≠ t.nil → ret = 1) := by
  unfold rbtree_erase at h
  constructor
  · intro hz
    rw [if_pos hz] at h
    simp only [Option.some.injEq, Prod.mk.injEq] at h
    exact ⟨h.2.symm, h.1.symm⟩
  · intro h1 h2
    rw [if_neg (by simp [h1, h2])] at h
    cases hd : erase_splice fuel t z with
    | none => rw [hd] at h; exact absurd h (by simp)
    | some q =>
      obtain ⟨t1, x, oc⟩ := q
      rw [hd] at h
      dsimp only at h
      split_ifs at h
      · cases hx : rbtree_delete_fixup fuel t1 x with
        | none => rw [hx] at h; exact absurd h (by simp)
        | some t2 =>
          rw [hx] at h
          simp only [Option.some.injEq, Prod.mk.injEq] at h
          exact h.2.symm
      · simp only [Option.some.injEq, Prod.mk.injEq] at h
        exact h.2.symm

/-- The erase of a record the caller made, after the inserts of 1, 2, 3, as an instance of
the amended C10: the handle is neither `NULL` nor the sentinel and the call returns 1. -/
theorem rbtree_erase_fails_only_on_null_or_sentinel_witness :
    ∃ t1 t',
      t1 = set_parent (set_right (set_left (set_key (set_color
          (malloc (state_of 5 [.insert 1, .insert 2, .insert 3])).1 5 RBTREE_RED) 5 9)
          5 (state_of 5 [.insert 1, .insert 2, .insert 3]).nil)
          5 (state_of 5 [.insert 1, .insert 2, .insert 3]).nil)
          5 (state_of 5 [.insert 1, .insert 2, .insert 3]).nil
      ∧ rbtree_erase 5 t1 5 = some (t', 1)
      ∧ ((5 = NULL ∨ 5 = t1.nil) → (1 : Int) = 0 ∧ t' = t1)
      ∧ (5 ≠ NULL → 5 ≠ t1.nil → (1 : Int) = 1) :=
  ⟨_, _, rfl, rfl, rbtree_erase_fails_only_on_null_or_sentinel 5 _ 5 _ 1 rfl⟩

/-- A tree of black-height `b` has at least `2 ^ b - 1` records. -/
theorem bh_size : ∀ (T : Tree) (b : Nat), BH T b → 2 ^ b ≤ size T + 1 := by
  intro T
  induction T with
  | leaf =>
    intro b h
    simp only [BH_leaf] at h
    subst h
    simp [size]
  | node a c k l r ihl ihr =>
    intro b h
    rcases color_cases c with rfl | rfl
    · simp only [BH_red] at h
      have := ihl b h.1
      simp only [size]
      omega
    · rw [BH_black] at h
      obtain ⟨b', rfl, h1, h2⟩ := h
      have e1 := ihl b' h1
      have e2 := ihr b' h2
      simp only [size, pow_succ]
      omega

/-- Without a RED record below a RED one, the height of a tree of black-height `b` is at
most `2 * b`, plus one when the root is RED. -/
theorem bh_height : ∀ (T : Tree) (b : Nat), NoRedRed T → BH T b →
    height T ≤ 2 * b + (if rootColor T = RBTREE_RED then 1 else 0) := by
  intro T
  induction T with
  | leaf =>
    intro b _ _
    simp [height]
  | node a c k l r ihl ihr =>
    intro b hn h
    simp only [NoRedRed_node] at hn
    obtain ⟨hc, hl, hr⟩ := hn
    rcases color_cases c with rfl | rfl
    · simp only [BH_red] at h
      obtain ⟨cl, cr⟩ := hc rfl
      have e1 := ihl b hl h.1
      have e2 := ihr b hr h.2
      simp only [cl, cr, black_ne_red, if_false, Nat.add_zero] at e1 e2
      simp only [height, rootColor_node, if_true]
      omega
    · rw [BH_black] at h
      obtain ⟨b', rfl, h1, h2⟩ := h
      have e1 := ihl b' hl h1
      have e2 := ihr b' hr h2
      have f1 : (if rootColor l = RBTREE_RED then 1 else 0) ≤ 1 := by split_ifs <;> omega
      have f2 : (if rootColor r = RBTREE_RED then 1 else 0) ≤ 1 := by split_ifs <;> omega
      simp only [height, rootColor_node, black_ne_red, if_false]
      omega

/-- The balance of a red-black tree: with `n` records and height `h`,
`2 ^ ceil (h / 2) ≤ n + 1`. -/
theorem rbProps_balance {T : Tree} (h : RBProps T) :
    2 ^ ((height T + 1) / 2) ≤ size T + 1 := by
  obtain ⟨b, hb⟩ := h.black_height
  have e1 := bh_size T b hb
  have e2 := bh_height T b h.no_red_red hb
  simp only [h.root_black, black_ne_red, if_false, Nat.add_zero] at e2
  have e3 : (height T + 1) / 2 ≤ b := by omega
  exact le_trans (Nat.pow_le_pow_right (by decide) e3) e1

/-- The in-order list before and after the new record of `rbtree_insert`. -/
theorem nodes_insTree_split (key : Int) (z : Ptr) (T : Tree) :
    nodes T = ctxBefore (insCtx key T []) ++ ctxAfter (insCtx key T [])
      ∧ nodes (insTree key z T)
          = ctxBefore (insCtx key T []) ++ (z, key) :: ctxAfter (insCtx key T []) := by
  constructor
  · have := nodes_plug (insCtx key T []) .leaf
    rw [plug_insCtx, plug_nil] at this
    rw [this]
    simp only [nodes, List.append_nil]
  · unfold insTree
    rw [nodes_plug]
    simp only [nodes, List.nil_append, List.append_assoc, List.cons_append]

/-- C19: the balance bound.  Every state reached from `new_rbtree` by inserts and erases of
records in the tree holds a tree with `n` records and height `h` (the records on the
longest path from the root down to the sentinel) such that `2 ^ ceil (h / 2) ≤ n + 1`, and
so `h ≤ 2 * log2 (n + 1)`. -/
theorem reachable_balance (t : rbtree) (h : Reachable t) :
    ∃ T, Rep t T ∧ 2 ^ ((height T + 1) / 2) ≤ size T + 1
      ∧ height T ≤ 2 * Nat.log 2 (size T + 1) := by
  obtain ⟨T, hrep, hrb, _⟩ := reachable_valid h
  have hb := rbProps_balance hrb
  refine ⟨T, hrep, hb, ?_⟩
  have := Nat.le_log_of_pow_le (by decide : 1 < 2) hb
  omega

/-- The tree of the run 1 to 7 as an instance of C19. -/
theorem reachable_balance_witness :
    ∃ T, Rep (state_of 9 [.insert 1, .insert 2, .insert 3, .insert 4, .insert 5, .insert 6,
        .insert 7]) T
      ∧ 2 ^ ((height T + 1) / 2) ≤ size T + 1
      ∧ height T ≤ 2 * Nat.log 2 (size T + 1) :=
  reachable_balance _ (reachable_run_inserts 9 [1, 2, 3, 4, 5, 6, 7] new_rbtree _
    Reachable.new rfl)

/-- C17: handles of other records stay valid over `rbtree_erase`.  On every state that
holds a red-black tree and every record `z` of it the call returns 1, and every record of
the tree other than `z` is a record of the tree afterwards, with the key it had; `z` is
no record of the tree any more and no record is added. -/
theorem rbtree_erase_keeps_other_nodes (fuel : Nat) (t : rbtree) (T : Tree) (z : Ptr)
    (hrep : Rep t T) (hinv : RBInvariants t T) (hz : z ∈ addrs T)
    (hf : height T + 2 ≤ fuel) :
    ∃ t' T', rbtree_erase fuel t z = some (t', 1) ∧ Rep t' T'
      ∧ (∀ a ∈ addrs T, a ≠ z → a ∈ addrs T' ∧ (t'.mem a).key = (t.mem a).key)
      ∧ z ∉ addrs T' ∧ (∀ a ∈ addrs T', a ∈ addrs T) := by
  obtain ⟨t', T', n1, n2, k, e, hrep', _, e1, e2, _, _, _⟩ :=
    erase_step fuel t T z hrep ((rbInvariants_iff hrep).1 hinv) hz hf
  have hnd : (addrs T).Nodup := (List.nodup_cons.1 (List.nodup_cons.1 hrep.nodup).2).2
  unfold addrs at hnd
  rw [e1, List.map_append, List.map_cons] at hnd
  have h1 := List.nodup_append.1 hnd
  have hz1 : z ∉ List.map Prod.fst n1 := fun hm => h1.2.2 hm (List.mem_cons_self _ _)
  have hz2 : z ∉ List.map Prod.fst n2 := (List.nodup_cons.1 h1.2.1).1
  refine ⟨t', T', e, hrep', ?_, ?_, ?_⟩
  · intro a ha hne
    unfold addrs at ha
    obtain ⟨⟨a', ka⟩, hq, rfl⟩ := List.mem_map.1 ha
    have hq' : (a', ka) ∈ nodes T' := by
      rw [e2]
      rw [e1] at hq
      simp only [List.mem_append, List.mem_cons, Prod.mk.injEq] at hq ⊢
      rcases hq with hq | ⟨rfl, _⟩ | hq
      · exact Or.inl hq
      · exact absurd rfl hne
      · exact Or.inr hq
    refine ⟨List.mem_map_of_mem Prod.fst hq', ?_⟩
    rw [Shape.key_of_mem T' _ hrep'.shape hq', Shape.key_of_mem T _ hrep.shape
      (show (a', ka) ∈ nodes T by rw [e1] at hq ⊢; exact hq)]
  · unfold addrs
    rw [e2, List.map_append, List.mem_append]
    rintro (hm | hm)
    · exact hz1 hm
    · exact hz2 hm
  · intro a ha
    unfold addrs at ha ⊢
    rw [e2] at ha
    rw [e1]
    simp only [List.map_append, List.map_cons, List.mem_append, List.mem_cons] at ha ⊢
    rcases ha with ha | ha
    · exact Or.inl ha
    · exact Or.inr (Or.inr ha)

/-- Erasing the root of the tree of the run 10, 20, 5, whose in-order successor is moved
into its place, as an instance of C17. -/
theorem rbtree_erase_keeps_other_nodes_witness :
    ∃ t' T',
      rbtree_erase 4 (state_of 4 [.insert 10, .insert 20, .insert 5]) 2 = some (t', 1)
      ∧ Rep t' T'
      ∧ (∀ a ∈ addrs (.node 2 RBTREE_BLACK 10 (.node 4 RBTREE_RED 5 .leaf .leaf)
            (.node 3 RBTREE_RED 20 .leaf .leaf)), a ≠ 2 →
          a ∈ addrs T'
            ∧ (t'.mem a).key = ((state_of 4 [.insert 10, .insert 20, .insert 5]).mem a).key)
      ∧ 2 ∉ addrs T'
      ∧ (∀ a ∈ addrs T', a ∈ addrs (.node 2 RBTREE_BLACK 10 (.node 4 RBTREE_RED 5 .leaf .leaf)
            (.node 3 RBTREE_RED 20 .leaf .leaf))) :=
  rbtree_erase_keeps_other_nodes 4 (state_of 4 [.insert 10, .insert 20, .insert 5])
    (.node 2 RBTREE_BLACK 10 (.node 4 RBTREE_RED 5 .leaf .leaf)
      (.node 3 RBTREE_RED 20 .leaf .leaf)) 2 (by decide!)
    ((rbInvariants_iff (by decide!)).2 ⟨rfl, by simp, 1, by simp⟩) (by decide) (by decide)

/-- C11: the handle `rbtree_insert` returns is a usable erase handle.  On every state that
holds a red-black tree the call returns a handle that is neither `NULL` nor the sentinel,
is a record of the tree after the call and stores `key`; and `rbtree_erase` with that
handle returns 1 and leaves a tree with the in-order records, and so the in-order keys,
the tree had before the insert. -/
theorem rbtree_insert_erase_round_trip (fuel : Nat) (t : rbtree) (T : Tree) (key : Int)
    (hrep : Rep t T) (hinv : RBInvariants t T) (hf : height T + 2 ≤ fuel) :
    ∃ t' h T', rbtree_insert fuel t key = some (t', h) ∧ Rep t' T'
      ∧ h ≠ NULL ∧ h ≠ t'.nil ∧ h ∈ addrs T' ∧ (t'.mem h).key = key
      ∧ ∀ fuel2, height T' + 2 ≤ fuel2 →
          ∃ t'' T'', rbtree_erase fuel2 t' h = some (t'', 1) ∧ Rep t'' T''
            ∧ nodes T'' = nodes T ∧ keys T'' = keys T := by
  obtain ⟨t', T', e, hrep', hrb', hn, _, _⟩ :=
    rbtree_insert_spec fuel t T key hrep ((rbInvariants_iff hrep).1 hinv) hf
  obtain ⟨s1, s2⟩ := nodes_insTree_split key t.brk T
  rw [s2] at hn
  have hq : (t.brk, key) ∈ nodes T' := by rw [hn]; simp
  have hmem : t.brk ∈ addrs T' := List.mem_map_of_mem Prod.fst hq
  obtain ⟨n1, n2⟩ := hrep'.ne_nil_of_mem hmem
  refine ⟨t', t.brk, T', e, hrep', n1, n2, hmem, Shape.key_of_mem T' _ hrep'.shape hq, ?_⟩
  intro fuel2 hf2
  obtain ⟨t'', T'', e', hrep'', _, hn', _, _⟩ :=
    rbtree_erase_spec fuel2 t' T' t.brk hrep' hrb' hmem hf2
  have hfresh : t.brk ∉ addrs T := fun hm =>
    absurd (hrep.bound t.brk (List.mem_cons_of_mem _ hm)) (lt_irrefl _)
  unfold addrs at hfresh
  rw [s1, List.map_append, List.mem_append, not_or] at hfresh
  have hnodes : nodes T'' = nodes T := by
    rw [hn', hn, filter_remove _ _ t.brk key hfresh.1 hfresh.2, ← s1]
  exact ⟨t'', T'', e', hrep'', hnodes, by rw [keys_eq_map, keys_eq_map, hnodes]⟩

/-- Inserting 3 into the tree of the run 1, 2 and erasing it again, as an instance of
C11. -/
theorem rbtree_insert_erase_round_trip_witness :
    ∃ t' h T', rbtree_insert 4 (state_of 4 [.insert 1, .insert 2]) 3 = some (t', h)
      ∧ Rep t' T' ∧ h ≠ NULL ∧ h ≠ t'.nil ∧ h ∈ addrs T' ∧ (t'.mem h).key = 3
      ∧ ∀ fuel2, height T' + 2 ≤ fuel2 →
          ∃ t'' T'', rbtree_erase fuel2 t' h = some (t'', 1) ∧ Rep t'' T''
            ∧ nodes T'' = nodes (.node 2 RBTREE_BLACK 1 .leaf (.node 3 RBTREE_RED 2 .leaf .leaf))
            ∧ keys T'' = keys (.node 2 RBTREE_BLACK 1 .leaf (.node 3 RBTREE_RED 2 .leaf .leaf)) :=
  rbtree_insert_erase_round_trip 4 (state_of 4 [.insert 1, .insert 2])
    (.node 2 RBTREE_BLACK 1 .leaf (.node 3 RBTREE_RED 2 .leaf .leaf)) 3 (by decide)
    ((rbInvariants_iff (by decide)).2 ⟨rfl, by simp, 1, by simp⟩) (by decide)

/-- The record `left_rotate` leaves at every address. -/
theorem left_rotate_mem (t : rbtree) (x : Ptr) (h : LeftPre t x) (a : Ptr) :
    (left_rotate t x).mem a =
      if a = x then
        { t.mem x with right := (t.mem (t.mem x).right).left, parent := (t.mem x).right }
      else if a = (t.mem x).right then
        { t.mem (t.mem x).right with left := x, parent := (t.mem x).parent }
      else if a = (t.mem (t.mem x).right).left ∧ (t.mem (t.mem x).right).left ≠ t.nil then
        { t.mem a with parent := x }
      else if a = (t.mem x).parent ∧ (t.mem x).parent ≠ t.nil then
        (if x = (t.mem (t.mem x).parent).left then { t.mem a with left := (t.mem x).right }
         else { t.mem a with right := (t.mem x).right })
      else t.mem a := by
  obtain ⟨yx, bx, by_, px, py, pb⟩ := h
  generalize hy : (t.mem x).right = y at *
  generalize hb : (t.mem y).left = b at *
  generalize hp : (t.mem x).parent = p at *
  have xy : x ≠ y := fun e => yx e.symm
  have xb : x ≠ b := fun e => bx e.symm
  have yb : y ≠ b := fun e => by_ e.symm
  have xp : x ≠ p := fun e => px e.symm
  have yp : y ≠ p := fun e => py e.symm
  have hl2 : ∀ q : Ptr, (x = q) = (q = x) := fun q => propext ⟨Eq.symm, Eq.symm⟩
  by_cases hbn : b = t.nil
  · by_cases hpn : p = t.nil <;> by_cases hl : (t.mem p).left = x
    all_goals
      simp only [left_rotate, hy, hb, hp, set_right_mem, set_left_mem, set_parent_mem,
        set_root_mem, set_right_nil, set_left_nil, set_parent_nil, set_root_nil, upd_same,
        upd_ne yx, upd_ne xy, upd_ne bx, upd_ne xb, upd_ne by_, upd_ne yb, upd_ne px, upd_ne xp,
        upd_ne py, upd_ne yp, hbn, hpn, hl2 (t.mem p).left, hl, ne_eq, not_true_eq_false,
        not_false_eq_true, if_true, if_false, and_true, and_false]
    all_goals (clear hl2; simp only [upd]; split_ifs <;> first | rfl | simp_all)
  · have pb' : p ≠ b := pb hbn
    have bp : b ≠ p := fun e => pb' e.symm
    by_cases hpn : p = t.nil <;> by_cases hl : (t.mem p).left = x
    all_goals
      simp only [left_rotate, hy, hb, hp, set_right_mem, set_left_mem, set_parent_mem,
        set_root_mem, set_right_nil, set_left_nil, set_parent_nil, set_root_nil, upd_same,
        upd_ne yx, upd_ne xy, upd_ne bx, upd_ne xb, upd_ne by_, upd_ne yb, upd_ne px, upd_ne xp,
        upd_ne py, upd_ne yp, upd_ne pb', upd_ne bp, hbn, hpn, hl2 (t.mem p).left, hl, ne_eq,
        not_true_eq_false, not_false_eq_true, if_true, if_false, and_true, and_false]
    all_goals (clear hl2; simp only [upd]; split_ifs <;> first | rfl | simp_all)

/-- The record `right_rotate` leaves at every address. -/
theorem right_rotate_mem (t : rbtree) (y : Ptr) (h : RightPre t y) (a : Ptr) :
    (right_rotate t y).mem a =
      if a = y then
        { t.mem y with left := (t.mem (t.mem y).left).right, parent := (t.mem y).left }
      else if a = (t.mem y).left then
        { t.mem (t.mem y).left with right := y, parent := (t.mem y).parent }
      else if a = (t.mem (t.mem y).left).right ∧ (t.mem (t.mem y).left).right ≠ t.nil then
        { t.mem a with parent := y }
      else if a = (t.mem y).parent ∧ (t.mem y).parent ≠ t.nil then
        (if y = (t.mem (t.mem y).parent).left then { t.mem a with left := (t.mem y).left }
         else { t.mem a with right := (t.mem y).left })
      else t.mem a := by
  obtain ⟨xy, by_, bx, py, px, pb⟩ := h
  generalize hx : (t.mem y).left = x at *
  generalize hb : (t.mem x).right = b at *
  generalize hp : (t.mem y).parent = p at *
  have yx : y ≠ x := fun e => xy e.symm
  have yb : y ≠ b := fun e => by_ e.symm
  have xb : x ≠ b := fun e => bx e.symm
  have yp : y ≠ p := fun e => py e.symm
  have xp : x ≠ p := fun e => px e.symm
  have hl2 : ∀ q : Ptr, (y = q) = (q = y) := fun q => propext ⟨Eq.symm, Eq.symm⟩
  by_cases hbn : b = t.nil
  · by_cases hpn : p = t.nil <;> by_cases hl : (t.mem p).left = y
    all_goals
      simp only [right_rotate, hx, hb, hp, set_right_mem, set_left_mem, set_parent_mem,
        set_root_mem, set_right_nil, set_left_nil, set_parent_nil, set_root_nil, upd_same,
        upd_ne yx, upd_ne xy, upd_ne bx, upd_ne xb, upd_ne by_, upd_ne yb, upd_ne px, upd_ne xp,
        upd_ne py, upd_ne yp, hbn, hpn, hl2 (t.mem p).left, hl, ne_eq, not_true_eq_false,
        not_false_eq_true, if_true, if_false, and_true, and_false]
    all_goals (clear hl2; simp only [upd]; split_ifs <;> first | rfl | simp_all)
  · have pb' : p ≠ b := pb hbn
    have bp : b ≠ p := fun e => pb' e.symm
    by_cases hpn : p = t.nil <;> by_cases hl : (t.mem p).left = y
    all_goals
      simp only [right_rotate, hx, hb, hp, set_right_mem, set_left_mem, set_parent_mem,
        set_root_mem, set_right_nil, set_left_nil, set_parent_nil, set_root_nil, upd_same,
        upd_ne yx, upd_ne xy, upd_ne bx, upd_ne xb, upd_ne by_, upd_ne yb, upd_ne px, upd_ne xp,
        upd_ne py, upd_ne yp, upd_ne pb', upd_ne bp, hbn, hpn, hl2 (t.mem p).left, hl, ne_eq,
        not_true_eq_false, not_false_eq_true, if_true, if_false, and_true, and_false]
    all_goals (clear hl2; simp only [upd]; split_ifs <;> first | rfl | simp_all)

/-- The root pointer after `left_rotate`. -/
theorem left_rotate_root (t : rbtree) (x : Ptr) (h : LeftPre t x) :
    (left_rotate t x).root = if (t.mem x).parent = t.nil then (t.mem x).right else t.root := by
  obtain ⟨yx, bx, by_, px, py, pb⟩ := h
  have xy : x ≠ (t.mem x).right := fun e => yx e.symm
  have xb : x ≠ (t.mem (t.mem x).right).left := fun e => bx e.symm
  by_cases hbn : (t.mem (t.mem x).right).left = t.nil <;>
    by_cases hpn : (t.mem x).parent = t.nil <;>
    by_cases hl : x = (t.mem (t.mem x).parent).left
  all_goals
    simp only [left_rotate, set_right_mem, set_left_mem, set_parent_mem, set_root_mem,
      set_right_nil, set_left_nil, set_parent_nil, set_root_nil, set_right_root, set_left_root,
      set_parent_root, set_root_root, upd_same, upd_ne yx, upd_ne xy, upd_ne bx, upd_ne xb,
      hbn, hpn, ne_eq, not_true_eq_false, not_false_eq_true, if_true, if_false]
  all_goals (split_ifs <;> rfl)

/-- The root pointer after `right_rotate`. -/
theorem right_rotate_root (t : rbtree) (y : Ptr) (h : RightPre t y) :
    (right_rotate t y).root = if (t.mem y).parent = t.nil then (t.mem y).left else t.root := by
  obtain ⟨xy, by_, bx, py, px, pb⟩ := h
  have yx : y ≠ (t.mem y).left := fun e => xy e.symm
  have yb : y ≠ (t.mem (t.mem y).left).right := fun e => by_ e.symm
  by_cases hbn : (t.mem (t.mem y).left).right = t.nil <;>
    by_cases hpn : (t.mem y).parent = t.nil <;>
    by_cases hl : y = (t.mem (t.mem y).parent).left
  all_goals
    simp only [right_rotate, set_right_mem, set_left_mem, set_parent_mem, set_root_mem,
      set_right_nil, set_left_nil, set_parent_nil, set_root_nil, set_right_root, set_left_root,
      set_parent_root, set_root_root, upd_same, upd_ne yx, upd_ne xy, upd_ne by_, upd_ne yb,
      hbn, hpn, ne_eq, not_true_eq_false, not_false_eq_true, if_true, if_false]
  all_goals (split_ifs <;> rfl)

theorem rbtree_eq {t t' : rbtree} (h1 : t'.root = t.root) (h2 : t'.nil = t.nil)
    (h3 : ∀ a, t'.mem a = t.mem a) (h4 : t'.brk = t.brk) : t' = t := by
  cases t
  cases t'
  simp only at h1 h2 h3 h4
  subst h1 h2 h4
  have : ‹Ptr → node_t› = _ := funext h3
  subst this
  rfl

theorem ctxParent_mem_or (nil : Ptr) (ctx : Ctx) :
    ctxParent nil ctx = nil ∨ ctxParent nil ctx ∈ ctxAddrs ctx := by
  cases ctx with
  | nil => exact Or.inl rfl
  | cons f rest =>
    right
    cases f <;> simp

theorem RepZ.ctxParent_ne {t : rbtree} {ctx : Ctx} {a : Ptr} {c : color_t} {k : Int}
    {l r : Tree} (h : RepZ t ctx (.node a c k l r)) : ctxParent t.nil ctx ≠ a := by
  rcases ctxParent_mem_or t.nil ctx with e | e
  · rw [e]; exact fun e' => h.nil_ne e'.symm
  · exact fun e' => h.hole_ne e (by rw [rootAddr_node]; exact e'.symm)

theorem RepZ.ctx_addr_ne_nil {t : rbtree} {ctx : Ctx} {s : Tree} (h : RepZ t ctx s) {q : Ptr}
    (hq : q ∈ ctxAddrs ctx) : q ≠ t.nil := by
  have := (List.nodup_cons.1 h.nodup).1
  intro e
  apply this
  rw [← e]
  exact List.mem_cons_of_mem _ (List.mem_append_right _ hq)

/-- Around a record `x` of a tree whose right link is not the sentinel, the heap looks as
`left_rotate` needs it. -/
theorem Rep.left_pivot {t : rbtree} {T : Tree} {x : Ptr} (hrep : Rep t T) (hx : x ∈ addrs T)
    (hr : (t.mem x).right ≠ t.nil) :
    ∃ ctx cx kx A y cy ky B C, T = plug ctx (.node x cx kx A (.node y cy ky B C))
      ∧ (t.mem x).right = y ∧ (t.mem y).left = rootAddr t.nil B
      ∧ (t.mem x).parent = ctxParent t.nil ctx ∧ LeftPre t x ∧ LeftLinks t x := by
  obtain ⟨ctx, cx, kx, A, R, rfl⟩ := exists_plug_of_mem hx
  have h := hrep.toRepZ
  have rx := h.read
  cases R with
  | leaf => rw [rx] at hr; exact absurd rfl hr
  | node y cy ky B C =>
    have hY := h.down_R
    have ry := hY.read
    have hB := hY.down_L
    simp only [ctxParent_R, rootAddr_node] at ry
    have ex : (t.mem x).right = y := by rw [rx]; rfl
    have ep : (t.mem x).parent = ctxParent t.nil ctx := by rw [rx]
    have eb : (t.mem y).left = rootAddr t.nil B := by rw [ry]
    have yx : y ≠ x := by
      have := hY.hole_ne (q := x) (by simp)
      simpa only [rootAddr_node] using this
    have bx : rootAddr t.nil B ≠ x := hB.hole_ne (by simp)
    have by_ : rootAddr t.nil B ≠ y := hB.hole_ne (by simp)
    have px : ctxParent t.nil ctx ≠ x := h.ctxParent_ne
    have py : ctxParent t.nil ctx ≠ y := by
      rcases ctxParent_mem_or t.nil ctx with e | e
      · rw [e]; exact fun e' => hY.nil_ne e'.symm
      · exact fun e' => hY.hole_ne (q := ctxParent t.nil ctx) (by simp [e])
          (by rw [rootAddr_node]; exact e'.symm)
    have pb : rootAddr t.nil B ≠ t.nil → ctxParent t.nil ctx ≠ rootAddr t.nil B := by
      intro hb
      rcases ctxParent_mem_or t.nil ctx with e | e
      · rw [e]; exact fun e' => hb e'.symm
      · exact fun e' => hB.hole_ne (q := ctxParent t.nil ctx) (by simp [e]) e'.symm
    refine ⟨ctx, cx, kx, A, y, cy, ky, B, C, rfl, ex, eb, ep, ?_, ?_⟩
    · refine ⟨?_, ?_, ?_, ?_, ?_, ?_⟩
      · rw [ex]; exact yx
      · rw [ex, eb]; exact bx
      · rw [ex, eb]; exact by_
      · rw [ep]; exact px
      · rw [ep, ex]; exact py
      · rw [ex, eb, ep]; exact pb
    · refine ⟨?_, ?_, ?_, ?_⟩
      · rw [ex, ry]
      · rw [ex, eb]
        intro hb
        cases B with
        | leaf => exact absurd rfl hb
        | node b cb kb BL BR => rw [rootAddr_node, hB.read]; rfl
      · rw [ep, ex]
        intro hp
        cases ctx with
        | nil => exact absurd rfl hp
        | cons f rest =>
          cases f with
          | L p c k r =>
            left
            simp only [ctxParent_L]
            rw [h.up_L.read]; rfl
          | R p c k l =>
            right
            simp only [ctxParent_R]
            have hl := h.up_R.down_L
            rw [h.up_R.read]
            refine ⟨rfl, hl.hole_ne (by simp), hl.hole_ne (by simp)⟩
      · rw [ep]
        intro hp
        cases ctx with
        | nil => exact h.path
        | cons f rest =>
          have := h.ctx_addr_ne_nil (q := ctxParent t.nil (f :: rest)) (by cases f <;> simp)
          exact absurd hp this

/-- Around a record `y` of a tree whose left link is not the sentinel, the heap looks as
`right_rotate` needs it. -/
theorem Rep.right_pivot {t : rbtree} {T : Tree} {y : Ptr} (hrep : Rep t T) (hy : y ∈ addrs T)
    (hl : (t.mem y).left ≠ t.nil) :
    ∃ ctx cy ky x cx kx A B C, T = plug ctx (.node y cy ky (.node x cx kx A B) C)
      ∧ (t.mem y).left = x ∧ (t.mem x).right = rootAddr t.nil B
      ∧ (t.mem y).parent = ctxParent t.nil ctx ∧ RightPre t y ∧ RightLinks t y := by
  obtain ⟨ctx, cy, ky, L, C, rfl⟩ := exists_plug_of_mem hy
  have h := hrep.toRepZ
  have ry := h.read
  cases L with
  | leaf => rw [ry] at hl; exact absurd rfl hl
  | node x cx kx A B =>
    have hX := h.down_L
    have rx := hX.read
    have hB := hX.down_R
    simp only [ctxParent_L, rootAddr_node] at rx
    have ey : (t.mem y).left = x := by rw [ry]; rfl
    have ep : (t.mem y).parent = ctxParent t.nil ctx := by rw [ry]
    have eb : (t.mem x).right = rootAddr t.nil B := by rw [rx]
    have xy : x ≠ y := by
      have := hX.hole_ne (q := y) (by simp)
      simpa only [rootAddr_node] using this
    have by_ : rootAddr t.nil B ≠ y := hB.hole_ne (by simp)
    have bx : rootAddr t.nil B ≠ x := hB.hole_ne (by simp)
    have py : ctxParent t.nil ctx ≠ y := h.ctxParent_ne
    have px : ctxParent t.nil ctx ≠ x := by
      rcases ctxParent_mem_or t.nil ctx with e | e
      · rw [e]; exact fun e' => hX.nil_ne e'.symm
      · exact fun e' => hX.hole_ne (q := ctxParent t.nil ctx) (by simp [e])
          (by rw [rootAddr_node]; exact e'.symm)
    have pb : rootAddr t.nil B ≠ t.nil → ctxParent t.nil ctx ≠ rootAddr t.nil B := by
      intro hb
      rcases ctxParent_mem_or t.nil ctx with e | e
      · rw [e]; exact fun e' => hb e'.symm
      · exact fun e' => hB.hole_ne (q := ctxParent t.nil ctx) (by simp [e]) e'.symm
    refine ⟨ctx, cy, ky, x, cx, kx, A, B, C, rfl, ey, eb, ep, ?_, ?_⟩
    · refine ⟨?_, ?_, ?_, ?_, ?_, ?_⟩
      · rw [ey]; exact xy
      · rw [ey, eb]; exact by_
      · rw [ey, eb]; exact bx
      · rw [ep]; exact py
      · rw [ep, ey]; exact px
      · rw [ey, eb, ep]; exact pb
    · refine ⟨?_, ?_, ?_, ?_⟩
      · rw [ey, rx]
      · rw [ey, eb]
        intro hb
        cases B with
        | leaf => exact absurd rfl hb
        | node b cb kb BL BR => rw [rootAddr_node, hB.read]; rfl
      · rw [ep, ey]
        intro hp
        cases ctx with
        | nil => exact absurd rfl hp
        | cons f rest =>
          cases f with
          | L p c k r =>
            left
            simp only [ctxParent_L]
            rw [h.up_L.read]; rfl
          | R p c k l =>
            right
            simp only [ctxParent_R]
            have hl' := h.up_R.down_L
            rw [h.up_R.read]
            refine ⟨rfl, hl'.hole_ne (by simp), hl'.hole_ne (by simp)⟩
      · rw [ep]
        intro hp
        cases ctx with
        | nil => exact h.path
        | cons f rest =>
          have := h.ctx_addr_ne_nil (q := ctxParent t.nil (f :: rest)) (by cases f <;> simp)
          exact absurd hp this

/-- Rotating left at `x` and then right at the child that rose gives back the state. -/
theorem right_left_rotate (t : rbtree) (x : Ptr) (pre : LeftPre t x) (lk : LeftLinks t x) :
    right_rotate (left_rotate t x) (t.mem x).right = t := by
  have m := left_rotate_mem t x pre
  have rt := left_rotate_root t x pre
  obtain ⟨yx, bx, by_, px, py, pb⟩ := pre
  obtain ⟨yp, bp, slot, root⟩ := lk
  generalize hy : (t.mem x).right = y at *
  generalize hb : (t.mem y).left = b at *
  generalize hp : (t.mem x).parent = p at *
  have xy : x ≠ y := fun e => yx e.symm
  have e_x : (left_rotate t x).mem x = { t.mem x with right := b, parent := y } := by
    rw [m, if_pos rfl]
  have e_y : (left_rotate t x).mem y = { t.mem y with left := x, parent := p } := by
    rw [m, if_neg yx, if_pos rfl]
  have pre' : RightPre (left_rotate t x) y := by
    refine ⟨?_, ?_, ?_, ?_, ?_, ?_⟩ <;> simp only [e_x, e_y, left_rotate_nil]
    · exact xy
    · exact by_
    · exact bx
    · exact py
    · exact px
    · exact pb
  have m' := right_rotate_mem (left_rotate t x) y pre'
  have rt' := right_rotate_root (left_rotate t x) y pre'
  simp only [e_x, e_y, left_rotate_nil] at m' rt'
  apply rbtree_eq
  · rw [rt', rt]
    by_cases hpn : p = t.nil
    · simp only [hpn, if_true]; exact (root hpn).symm
    · simp only [hpn, if_false]
  · simp only [right_rotate_nil, left_rotate_nil]
  · intro a
    rw [m']
    by_cases h1 : a = y
    · subst h1
      simp only [if_true, e_y]
      rw [← hb, ← yp]
    · rw [if_neg h1]
      by_cases h2 : a = x
      · subst h2
        simp only [if_true, e_x]
        rw [← hy, ← hp]
      · rw [if_neg h2]
        by_cases h3 : a = b ∧ b ≠ t.nil
        · obtain ⟨rfl, hbn⟩ := h3
          simp only [hbn, ne_eq, not_false_eq_true, and_self, if_true]
          rw [m, if_neg h2, if_neg h1, if_pos ⟨rfl, hbn⟩]
          simp only
          rw [← bp hbn]
        · rw [if_neg h3]
          by_cases h4 : a = p ∧ p ≠ t.nil
          · obtain ⟨rfl, hpn⟩ := h4
            simp only [hpn, ne_eq, not_false_eq_true, and_self, if_true]
            have h3' : ¬ (a = b ∧ b ≠ t.nil) := h3
            have ma : (left_rotate t x).mem a
                = if x = (t.mem a).left then { t.mem a with left := y }
                  else { t.mem a with right := y } := by
              rw [m, if_neg h2, if_neg h1, if_neg h3', if_pos ⟨rfl, hpn⟩]
            rcases slot hpn with sl | ⟨sr, nl, nly⟩
            · rw [ma, if_pos sl.symm]
              simp only [if_true]
              rw [← sl]
            · have nl' : ¬ x = (t.mem a).left := fun e => nl e.symm
              have nly' : ¬ y = (t.mem a).left := fun e => nly e.symm
              rw [ma, if_neg nl']
              simp only [nly', if_false]
              rw [← sr]
          · rw [if_neg h4, m, if_neg h2, if_neg h1, if_neg h3, if_neg h4]
  · simp only [right_rotate_brk, left_rotate_brk]

/-- Rotating right at `y` and then left at the child that rose gives back the state. -/
theorem left_right_rotate (t : rbtree) (y : Ptr) (pre : RightPre t y) (lk : RightLinks t y) :
    left_rotate (right_rotate t y) (t.mem y).left = t := by
  have m := right_rotate_mem t y pre
  have rt := right_rotate_root t y pre
  obtain ⟨xy, by_, bx, py, px, pb⟩ := pre
  obtain ⟨xp, bp, slot, root⟩ := lk
  generalize hx : (t.mem y).left = x at *
  generalize hb : (t.mem x).right = b at *
  generalize hp : (t.mem y).parent = p at *
  have yx : y ≠ x := fun e => xy e.symm
  have e_y : (right_rotate t y).mem y = { t.mem y with left := b, parent := x } := by
    rw [m, if_pos rfl]
  have e_x : (right_rotate t y).mem x = { t.mem x with right := y, parent := p } := by
    rw [m, if_neg xy, if_pos rfl]
  have pre' : LeftPre (right_rotate t y) x := by
    refine ⟨?_, ?_, ?_, ?_, ?_, ?_⟩ <;> simp only [e_y, e_x, right_rotate_nil]
    · exact yx
    · exact bx
    · exact by_
    · exact px
    · exact py
    · exact pb
  have m' := left_rotate_mem (right_rotate t y) x pre'
  have rt' := left_rotate_root (right_rotate t y) x pre'
  simp only [e_y, e_x, right_rotate_nil] at m' rt'
  apply rbtree_eq
  · rw [rt', rt]
    by_cases hpn : p = t.nil
    · simp only [hpn, if_true]; exact (root hpn).symm
    · simp only [hpn, if_false]
  · simp only [left_rotate_nil, right_rotate_nil]
  · intro a
    rw [m']
    by_cases h1 : a = x
    · subst h1
      simp only [if_true, e_x]
      rw [← hb, ← xp]
    · rw [if_neg h1]
      by_cases h2 : a = y
      · subst h2
        simp only [if_true, e_y]
        rw [← hx, ← hp]
      · rw [if_neg h2]
        by_cases h3 : a = b ∧ b ≠ t.nil
        · obtain ⟨rfl, hbn⟩ := h3
          simp only [hbn, ne_eq, not_false_eq_true, and_self, if_true]
          rw [m, if_neg h2, if_neg h1, if_pos ⟨rfl, hbn⟩]
          simp only
          rw [← bp hbn]
        · rw [if_neg h3]
          by_cases h4 : a = p ∧ p ≠ t.nil
          · obtain ⟨rfl, hpn⟩ := h4
            simp only [hpn, ne_eq, not_false_eq_true, and_self, if_true]
            have h3' : ¬ (a = b ∧ b ≠ t.nil) := h3
            have ma : (right_rotate t y).mem a
                = if y = (t.mem a).left then { t.mem a with left := x }
                  else { t.mem a with right := x } := by
              rw [m, if_neg h2, if_neg h1, if_neg h3', if_pos ⟨rfl, hpn⟩]
            rcases slot hpn with sl | ⟨sr, nl, nly⟩
            · rw [ma, if_pos sl.symm]
              simp only [if_true]
              rw [← sl]
            · have nl' : ¬ y = (t.mem a).left := fun e => nl e.symm
              have nly' : ¬ x = (t.mem a).left := fun e => nly e.symm
              rw [ma, if_neg nl']
              simp only [nly', if_false]
              rw [← sr]
          · rw [if_neg h4, m, if_neg h2, if_neg h1, if_neg h3, if_neg h4]
  · simp only [left_rotate_brk, right_rotate_brk]

/-- Which parent back-references `left_rotate` changes, and where it hangs the risen
child. -/
theorem left_rotate_frame (t : rbtree) (x : Ptr) (pre : LeftPre t x) (lk : LeftLinks t x) :
    (∀ a, parent_changed t (left_rotate t x) a ↔
        a = x ∨ a = (t.mem x).right
          ∨ (a = (t.mem (t.mem x).right).left ∧ (t.mem (t.mem x).right).left ≠ t.nil))
    ∧ ((t.mem x).parent = t.nil → (left_rotate t x).root = (t.mem x).right)
    ∧ ((t.mem x).parent ≠ t.nil → (left_rotate t x).root = t.root
        ∧ ((t.mem (t.mem x).parent).left = x →
            ((left_rotate t x).mem (t.mem x).parent).left = (t.mem x).right
            ∧ ((left_rotate t x).mem (t.mem x).parent).right = (t.mem (t.mem x).parent).right)
        ∧ ((t.mem (t.mem x).parent).left ≠ x →
            ((left_rotate t x).mem (t.mem x).parent).right = (t.mem x).right
            ∧ ((left_rotate t x).mem (t.mem x).parent).left = (t.mem (t.mem x).parent).left)) := by
  have m := left_rotate_mem t x pre
  have rt := left_rotate_root t x pre
  obtain ⟨yx, bx, by_, px, py, pb⟩ := pre
  obtain ⟨yp, bp, slot, root⟩ := lk
  generalize hy : (t.mem x).right = y at *
  generalize hb : (t.mem y).left = b at *
  generalize hp : (t.mem x).parent = p at *
  refine ⟨?_, ?_, ?_⟩
  · intro a
    unfold parent_changed
    rw [m]
    by_cases h1 : a = x
    · subst h1
      simp only [if_true, true_or, iff_true, hp]
      exact fun e => py e.symm
    · rw [if_neg h1]
      by_cases h2 : a = y
      · subst h2
        simp only [if_true, true_or, or_true, iff_true, yp]
        exact px
      · rw [if_neg h2]
        by_cases h3 : a = b ∧ b ≠ t.nil
        · rw [if_pos h3]
          simp only [h3, ne_eq, not_false_eq_true, and_self, or_true, iff_true]
          obtain ⟨rfl, hbn⟩ := h3
          rw [bp hbn]
          exact yx.symm
        · rw [if_neg h3]
          simp only [h1, h2, h3, or_self, iff_false, not_not]
          by_cases h4 : a = p ∧ p ≠ t.nil
          · rw [if_pos h4]
            split_ifs <;> rfl
          · rw [if_neg h4]
  · intro hpn
    rw [rt, if_pos hpn]
  · intro hpn
    have mp : (left_rotate t x).mem p
        = if x = (t.mem p).left then { t.mem p with left := y }
          else { t.mem p with right := y } := by
      rw [m, if_neg px, if_neg py]
      by_cases hbn : b = t.nil
      · rw [if_neg (fun h => h.2 hbn), if_pos ⟨rfl, hpn⟩]
      · rw [if_neg (fun h => pb hbn h.1), if_pos ⟨rfl, hpn⟩]
    refine ⟨by rw [rt, if_neg hpn], ?_, ?_⟩
    · intro hl
      rw [mp, if_pos hl.symm]
      exact ⟨rfl, rfl⟩
    · intro hl
      rw [mp, if_neg (fun e => hl e.symm)]
      exact ⟨rfl, rfl⟩

/-- Which parent back-references `right_rotate` changes, and where it hangs the risen
child. -/
theorem right_rotate_frame (t : rbtree) (y : Ptr) (pre : RightPre t y) (lk : RightLinks t y) :
    (∀ a, parent_changed t (right_rotate t y) a ↔
        a = y ∨ a = (t.mem y).left
          ∨ (a = (t.mem (t.mem y).left).right ∧ (t.mem (t.mem y).left).right ≠ t.nil))
    ∧ ((t.mem y).parent = t.nil → (right_rotate t y).root = (t.mem y).left)
    ∧ ((t.mem y).parent ≠ t.nil → (right_rotate t y).root = t.root
        ∧ ((t.mem (t.mem y).parent).left = y →
            ((right_rotate t y).mem (t.mem y).parent).left = (t.mem y).left
            ∧ ((right_rotate t y).mem (t.mem y).parent).right = (t.mem (t.mem y).parent).right)
        ∧ ((t.mem (t.mem y).parent).left ≠ y →
            ((right_rotate t y).mem (t.mem y).parent).right = (t.mem y).left
            ∧ ((right_rotate t y).mem (t.mem y).parent).left = (t.mem (t.mem y).parent).left)) := by
  have m := right_rotate_mem t y pre
  have rt := right_rotate_root t y pre
  obtain ⟨xy, by_, bx, py, px, pb⟩ := pre
  obtain ⟨xp, bp, slot, root⟩ := lk
  generalize hx : (t.mem y).left = x at *
  generalize hb : (t.mem x).right = b at *
  generalize hp : (t.mem y).parent = p at *
  refine ⟨?_, ?_, ?_⟩
  · intro a
    unfold parent_changed
    rw [m]
    by_cases h1 : a = y
    · subst h1
      simp only [if_true, true_or, iff_true, hp]
      exact fun e => px e.symm
    · rw [if_neg h1]
      by_cases h2 : a = x
      · subst h2
        simp only [if_true, true_or, or_true, iff_true, xp]
        exact py
      · rw [if_neg h2]
        by_cases h3 : a = b ∧ b ≠ t.nil
        · rw [if_pos h3]
          simp only [h3, ne_eq, not_false_eq_true, and_self, or_true, iff_true]
          obtain ⟨rfl, hbn⟩ := h3
          rw [bp hbn]
          exact xy.symm
        · rw [if_neg h3]
          simp only [h1, h2, h3, or_self, iff_false, not_not]
          by_cases h4 : a = p ∧ p ≠ t.nil
          · rw [if_pos h4]
            split_ifs <;> rfl
          · rw [if_neg h4]
  · intro hpn
    rw [rt, if_pos hpn]
  · intro hpn
    have mp : (right_rotate t y).mem p
        = if y = (t.mem p).left then { t.mem p with left := x }
          else { t.mem p with right := x } := by
      rw [m, if_neg py, if_neg px]
      by_cases hbn : b = t.nil
      · rw [if_neg (fun h => h.2 hbn), if_pos ⟨rfl, hpn⟩]
      · rw [if_neg (fun h => pb hbn h.1), if_pos ⟨rfl, hpn⟩]
    refine ⟨by rw [rt, if_neg hpn], ?_, ?_⟩
    · intro hl
      rw [mp, if_pos hl.symm]
      exact ⟨rfl, rfl⟩
    · intro hl
      rw [mp, if_neg (fun e => hl e.symm)]
      exact ⟨rfl, rfl⟩

/-- C13: rotations preserve the in-order sequence of records.  On every state that holds a
tree and every record `x` of it whose right link is not the sentinel, the state after
`left_rotate(t, x)` holds a tree with the same in-order list of records, and so of keys;
the same for `right_rotate(t, y)` when the left link of `y` is not the sentinel.  The
pivot may be the root or not. -/
theorem rotations_preserve_inorder :
    (∀ (t : rbtree) (T : Tree) (x : Ptr), Rep t T → x ∈ addrs T → (t.mem x).right ≠ t.nil →
      ∃ T', Rep (left_rotate t x) T' ∧ nodes T' = nodes T ∧ keys T' = keys T)
    ∧ (∀ (t : rbtree) (T : Tree) (y : Ptr), Rep t T → y ∈ addrs T →
      (t.mem y).left ≠ t.nil →
      ∃ T', Rep (right_rotate t y) T' ∧ nodes T' = nodes T ∧ keys T' = keys T) := by
  constructor
  · intro t T x hrep hx hr
    obtain ⟨ctx, cx, kx, A, y, cy, ky, B, C, rfl, _, _, _, _, _⟩ := hrep.left_pivot hx hr
    have h' := hrep.toRepZ.rot_left.1.toRep
    have e : nodes (plug ctx (.node y cy ky (.node x cx kx A B) C))
        = nodes (plug ctx (.node x cx kx A (.node y cy ky B C))) := by
      simp only [nodes_plug, nodes, List.append_assoc, List.cons_append]
    exact ⟨_, h', e, by rw [keys_eq_map, keys_eq_map, e]⟩
  · intro t T y hrep hy hl
    obtain ⟨ctx, cy, ky, x, cx, kx, A, B, C, rfl, _, _, _, _, _⟩ := hrep.right_pivot hy hl
    have h' := hrep.toRepZ.rot_right.1.toRep
    have e : nodes (plug ctx (.node x cx kx A (.node y cy ky B C)))
        = nodes (plug ctx (.node y cy ky (.node x cx kx A B) C)) := by
      simp only [nodes_plug, nodes, List.append_assoc, List.cons_append]
    exact ⟨_, h', e, by rw [keys_eq_map, keys_eq_map, e]⟩

/-- A left rotation at the record with key 4, which is not the root, in the tree of the run
1 to 5, as an instance of C13. -/
theorem rotations_preserve_inorder_witness :
    ∃ T', Rep (left_rotate
        (state_of 7 [.insert 1, .insert 2, .insert 3, .insert 4, .insert 5]) 5) T'
      ∧ nodes T' = nodes (.node 3 RBTREE_BLACK 2 (.node 2 RBTREE_BLACK 1 .leaf .leaf)
          (.node 5 RBTREE_BLACK 4 (.node 4 RBTREE_RED 3 .leaf .leaf)
            (.node 6 RBTREE_RED 5 .leaf .leaf)))
      ∧ keys T' = keys (.node 3 RBTREE_BLACK 2 (.node 2 RBTREE_BLACK 1 .leaf .leaf)
          (.node 5 RBTREE_BLACK 4 (.node 4 RBTREE_RED 3 .leaf .leaf)
            (.node 6 RBTREE_RED 5 .leaf .leaf))) :=
  rotations_preserve_inorder.1
    (state_of 7 [.insert 1, .insert 2, .insert 3, .insert 4, .insert 5])
    (.node 3 RBTREE_BLACK 2 (.node 2 RBTREE_BLACK 1 .leaf .leaf)
      (.node 5 RBTREE_BLACK 4 (.node 4 RBTREE_RED 3 .leaf .leaf)
        (.node 6 RBTREE_RED 5 .leaf .leaf)))
    5 (by decide!) (by decide) (by decide!)

/-- C18: the rotations are mutually inverse.  On every state that holds a tree and every
record `x` of it whose right link `y` is not the sentinel, `left_rotate(t, x)` followed by
`right_rotate(t, y)` gives back the state: the root pointer and every field of every
record, the sentinel included, are as before; the same for `right_rotate(t, y)` followed by
`left_rotate(t, x)` when the left link `x` of `y` is not the sentinel. -/
theorem rotations_mutually_inverse :
    (∀ (t : rbtree) (T : Tree) (x : Ptr), Rep t T → x ∈ addrs T → (t.mem x).right ≠ t.nil →
      right_rotate (left_rotate t x) (t.mem x).right = t)
    ∧ (∀ (t : rbtree) (T : Tree) (y : Ptr), Rep t T → y ∈ addrs T →
      (t.mem y).left ≠ t.nil →
      left_rotate (right_rotate t y) (t.mem y).left = t) := by
  constructor
  · intro t T x hrep hx hr
    obtain ⟨_, _, _, _, _, _, _, _, _, _, _, _, _, pre, lk⟩ := hrep.left_pivot hx hr
    exact right_left_rotate t x pre lk
  · intro t T y hrep hy hl
    obtain ⟨_, _, _, _, _, _, _, _, _, _, _, _, _, pre, lk⟩ := hrep.right_pivot hy hl
    exact left_right_rotate t y pre lk

/-- A left rotation at the root of the tree of the run 1 to 5 followed by a right rotation
at the record that rose, as an instance of C18. -/
theorem rotations_mutually_inverse_witness :
    right_rotate (left_rotate
        (state_of 7 [.insert 1, .insert 2, .insert 3, .insert 4, .insert 5]) 3)
      ((state_of 7 [.insert 1, .insert 2, .insert 3, .insert 4, .insert 5]).mem 3).right
      = state_of 7 [.insert 1, .insert 2, .insert 3, .insert 4, .insert 5] :=
  rotations_mutually_inverse.1
    (state_of 7 [.insert 1, .insert 2, .insert 3, .insert 4, .insert 5])
    (.node 3 RBTREE_BLACK 2 (.node 2 RBTREE_BLACK 1 .leaf .leaf)
      (.node 5 RBTREE_BLACK 4 (.node 4 RBTREE_RED 3 .leaf .leaf)
        (.node 6 RBTREE_RED 5 .leaf .leaf)))
    3 (by decide!) (by decide) (by decide!)

/-- C14, as the specification states it, fails: in the tree of the run 1, 2 the right
child of the root has no left subtree, and `left_rotate` at the root changes the parent
back-reference of two records only, the pivot and the child that rises; the inner subtree
root is the sentinel and its parent back-reference stays as it was. -/
theorem rotation_three_parents_counterexample :
    ∃ t T, run_ops 4 [.insert 1, .insert 2] new_rbtree = some t ∧ Rep t T
      ∧ 2 ∈ addrs T ∧ (t.mem 2).right ≠ t.nil
      ∧ ¬ parent_changed t (left_rotate t 2) (t.mem (t.mem 2).right).left
      ∧ ∀ a, parent_changed t (left_rotate t 2) a ↔ a = 2 ∨ a = 3 := by
  refine ⟨state_of 4 [.insert 1, .insert 2],
    .node 2 RBTREE_BLACK 1 .leaf (.node 3 RBTREE_RED 2 .leaf .leaf), rfl, by decide!,
    by decide, by decide!, by decide!, ?_⟩
  have hrep : Rep (state_of 4 [.insert 1, .insert 2])
      (.node 2 RBTREE_BLACK 1 .leaf (.node 3 RBTREE_RED 2 .leaf .leaf)) := by decide!
  obtain ⟨_, _, _, _, _, _, _, _, _, _, _, _, _, pre, lk⟩ :=
    hrep.left_pivot (x := 2) (by decide) (by decide!)
  intro a
  rw [(left_rotate_frame _ 2 pre lk).1 a]
  have e1 : ((state_of 4 [.insert 1, .insert 2]).mem 2).right = 3 := by decide!
  have e2 : ((state_of 4 [.insert 1, .insert 2]).mem 3).left
      = (state_of 4 [.insert 1, .insert 2]).nil := by decide!
  rw [e1, e2]
  simp only [ne_eq, not_true_eq_false, and_false, or_false]

/-- C14, amended: on every state that holds a tree, `left_rotate` at a record whose right
link is not the sentinel and `right_rotate` at a record whose left link is not the
sentinel change the parent back-reference of the pivot, of the child that rises and, when
it is not the sentinel, of the root of that child's inner subtree, and of no other address;
the root pointer takes the risen child when the pivot was the root, else the child slot of
the pivot's former parent that held the pivot takes it and the other slot and the root
pointer stay. -/
theorem rotation_frame :
    (∀ (t : rbtree) (T : Tree) (x : Ptr), Rep t T → x ∈ addrs T → (t.mem x).right ≠ t.nil →
      (∀ a, parent_changed t (left_rotate t x) a ↔
          a = x ∨ a = (t.mem x).right
            ∨ (a = (t.mem (t.mem x).right).left ∧ (t.mem (t.mem x).right).left ≠ t.nil))
      ∧ (t.mem x).right ≠ x ∧ (t.mem (t.mem x).right).left ≠ x
      ∧ (t.mem (t.mem x).right).left ≠ (t.mem x).right
      ∧ ((t.mem x).parent = t.nil → (left_rotate t x).root = (t.mem x).right)
      ∧ ((t.mem x).parent ≠ t.nil → (left_rotate t x).root = t.root
          ∧ ((t.mem (t.mem x).parent).left = x →
              ((left_rotate t x).mem (t.mem x).parent).left = (t.mem x).right
              ∧ ((left_rotate t x).mem (t.mem x).parent).right
                  = (t.mem (t.mem x).parent).right)
          ∧ ((t.mem (t.mem x).parent).left ≠ x →
              ((left_rotate t x).mem (t.mem x).parent).right = (t.mem x).right
              ∧ ((left_rotate t x).mem (t.mem x).parent).left
                  = (t.mem (t.mem x).parent).left)))
    ∧ (∀ (t : rbtree) (T : Tree) (y : Ptr), Rep t T → y ∈ addrs T →
      (t.mem y).left ≠ t.nil →
      (∀ a, parent_changed t (right_rotate t y) a ↔
          a = y ∨ a = (t.mem y).left
            ∨ (a = (t.mem (t.mem y).left).right ∧ (t.mem (t.mem y).left).right ≠ t.nil))
      ∧ (t.mem y).left ≠ y ∧ (t.mem (t.mem y).left).right ≠ y
      ∧ (t.mem (t.mem y).left).right ≠ (t.mem y).left
      ∧ ((t.mem y).parent = t.nil → (right_rotate t y).root = (t.mem y).left)
      ∧ ((t.mem y).parent ≠ t.nil → (right_rotate t y).root = t.root
          ∧ ((t.mem (t.mem y).parent).left = y →
              ((right_rotate t y).mem (t.mem y).parent).left = (t.mem y).left
              ∧ ((right_rotate t y).mem (t.mem y).parent).right
                  = (t.mem (t.mem y).parent).right)
          ∧ ((t.mem (t.mem y).parent).left ≠ y →
              ((right_rotate t y).mem (t.mem y).parent).right = (t.mem y).left
              ∧ ((right_rotate t y).mem (t.mem y).parent).left
                  = (t.mem (t.mem y).parent).left))) := by
  constructor
  · intro t T x hrep hx hr
    obtain ⟨_, _, _, _, _, _, _, _, _, _, _, _, _, pre, lk⟩ := hrep.left_pivot hx hr
    obtain ⟨f1, f2, f3⟩ := left_rotate_frame t x pre lk
    exact ⟨f1, pre.yx, pre.bx, pre.by_, f2, f3⟩
  · intro t T y hrep hy hl
    obtain ⟨_, _, _, _, _, _, _, _, _, _, _, _, _, pre, lk⟩ := hrep.right_pivot hy hl
    obtain ⟨f1, f2, f3⟩ := right_rotate_frame t y pre lk
    exact ⟨f1, pre.xy, pre.by_, pre.bx, f2, f3⟩

/-- A left rotation at the root of the tree of the run 1 to 5, whose rising child has a left
subtree: the record with key 3 at its root is one of the three whose parent back-reference
changes, as an instance of the amended C14. -/
theorem rotation_frame_witness :
    parent_changed (state_of 7 [.insert 1, .insert 2, .insert 3, .insert 4, .insert 5])
        (left_rotate (state_of 7 [.insert 1, .insert 2, .insert 3, .insert 4, .insert 5]) 3) 4
      ↔ 4 = 3
        ∨ 4 = ((state_of 7 [.insert 1, .insert 2, .insert 3, .insert 4, .insert 5]).mem 3).right
        ∨ (4 = ((state_of 7 [.insert 1, .insert 2, .insert 3, .insert 4, .insert 5]).mem
                ((state_of 7 [.insert 1, .insert 2, .insert 3, .insert 4, .insert 5]).mem
                  3).right).left
            ∧ ((state_of 7 [.insert 1, .insert 2, .insert 3, .insert 4, .insert 5]).mem
                ((state_of 7 [.insert 1, .insert 2, .insert 3, .insert 4, .insert 5]).mem
                  3).right).left
              ≠ (state_of 7 [.insert 1, .insert 2, .insert 3, .insert 4, .insert 5]).nil) :=
  (rotation_frame.1
    (state_of 7 [.insert 1, .insert 2, .insert 3, .insert 4, .insert 5])
    (.node 3 RBTREE_BLACK 2 (.node 2 RBTREE_BLACK 1 .leaf .leaf)
      (.node 5 RBTREE_BLACK 4 (.node 4 RBTREE_RED 3 .leaf .leaf)
        (.node 6 RBTREE_RED 5 .leaf .leaf)))
    3 (by decide!) (by decide) (by decide!)).1 4

theorem write_keys_append (l1 l2 : List Int) (arr : Nat → Int) (i n : Nat) :
    write_keys (l1 ++ l2) arr i n
      = write_keys l2 (write_keys l1 arr i n).1 (write_keys l1 arr i n).2 n := by
  induction l1 generalizing arr i with
  | nil => rfl
  | cons k ks ih =>
    simp only [List.cons_append, write_keys]
    split_ifs
    · exact ih _ _
    · exact ih _ _

theorem write_keys_index (ks : List Int) (arr : Nat → Int) (i n : Nat) (h : i ≤ n) :
    (write_keys ks arr i n).2 = min (i + ks.length) n := by
  induction ks generalizing arr i with
  | nil => simp [write_keys, h]
  | cons k ks ih =>
    simp only [write_keys, List.length_cons]
    split_ifs with hlt
    · rw [ih _ _ (by omega)]
      congr 1
      omega
    · have e : i = n := by omega
      subst e
      rw [ih _ _ (le_refl _)]
      simp

theorem write_keys_get (ks : List Int) (arr : Nat → Int) (i n : Nat) (h : i ≤ n) (j : Nat) :
    (j < i ∨ min (i + ks.length) n ≤ j → (write_keys ks arr i n).1 j = arr j)
      ∧ (i ≤ j → j < min (i + ks.length) n →
          ks[j - i]? = some ((write_keys ks arr i n).1 j)) := by
  induction ks generalizing arr i with
  | nil =>
    simp only [write_keys, List.length_nil, Nat.add_zero, implies_true, true_and]
    intro h1 h2
    omega
  | cons k ks ih =>
    simp only [write_keys, List.length_cons]
    split_ifs with hlt
    · obtain ⟨a1, a2⟩ := ih (Function.update arr i k) (i + 1) (by omega)
      constructor
      · intro hj
        rw [a1 (by omega)]
        exact Function.update_noteq (by omega) _ _
      · intro h1 h2
        by_cases e : j = i
        · subst e
          rw [a1 (by omega)]
          simp
        · have := a2 (by omega) (by omega)
          rw [← this]
          rw [show j - i = (j - (i + 1)) + 1 by omega, List.getElem?_cons_succ]
    · have e : i = n := by omega
      subst e
      obtain ⟨a1, a2⟩ := ih arr i (le_refl _)
      constructor
      · intro hj
        exact a1 (by omega)
      · intro h1 h2
        omega

/-- The walk of `inorder_traversal` over a subtree writes the keys of the subtree in
order. -/
theorem inorder_traversal_spec {t : rbtree} (n : Nat) :
    ∀ (s : Tree) (ctx : Ctx) (fuel : Nat) (arr : Nat → Int) (i : Nat), RepZ t ctx s →
      height s + 1 ≤ fuel →
      inorder_traversal fuel t (rootAddr t.nil s) arr i n = some (write_keys (keys s) arr i n) := by
  intro s
  induction s with
  | leaf =>
    intro ctx fuel arr i _ hf
    obtain ⟨f, rfl⟩ : ∃ f, fuel = f + 1 := ⟨fuel - 1, by omega⟩
    rw [inorder_traversal]
    simp only [rootAddr_leaf, if_true, keys_leaf, write_keys]
  | node a c k l r ihl ihr =>
    intro ctx fuel arr i h hf
    simp only [height] at hf
    obtain ⟨f, rfl⟩ : ∃ f, fuel = f + 1 := ⟨fuel - 1, by omega⟩
    have hne : a ≠ t.nil := h.nil_ne
    have rd := h.read
    have el : (if rootAddr t.nil l ≠ t.nil
          then inorder_traversal f t (rootAddr t.nil l) arr i n else some (arr, i))
        = some (write_keys (keys l) arr i n) := by
      cases l with
      | leaf => simp only [rootAddr_leaf, ne_eq, not_true_eq_false, if_false, keys_leaf,
          write_keys]
      | node a' c' k' l' r' =>
        have hn' : a' ≠ t.nil := h.down_L.nil_ne
        simp only [rootAddr_node, ne_eq, hn', not_false_eq_true, if_true]
        have := ihl _ f arr i h.down_L (by omega)
        simpa only [rootAddr_node] using this
    have er : ∀ (arr' : Nat → Int) (i' : Nat), (if rootAddr t.nil r ≠ t.nil
          then inorder_traversal f t (rootAddr t.nil r) arr' i' n else some (arr', i'))
        = some (write_keys (keys r) arr' i' n) := by
      intro arr' i'
      cases r with
      | leaf => simp only [rootAddr_leaf, ne_eq, not_true_eq_false, if_false, keys_leaf,
          write_keys]
      | node a' c' k' l' r' =>
        have hn' : a' ≠ t.nil := h.down_R.nil_ne
        simp only [rootAddr_node, ne_eq, hn', not_false_eq_true, if_true]
        have := ihr _ f arr' i' h.down_R (by omega)
        simpa only [rootAddr_node] using this
    rw [inorder_traversal]
    simp only [rootAddr_node, hne, if_false, rd]
    rw [el]
    by_cases hlt : (write_keys (keys l) arr i n).2 < n
    · simp only [hlt, if_true]
      rw [er]
      simp only [keys_node, write_keys_append, write_keys, hlt, if_true]
    · simp only [hlt, if_false]
      rw [er]
      simp only [keys_node, write_keys_append, write_keys, hlt, if_false]

/-- C20: the in-order helper is a correct bounded export.  On every state that holds a tree
with in-order keys `s`, for every capacity `n` and buffer `arr`, the call
`inorder_traversal(t, t->root, arr, 0, n)` returns (given fuel for the height of the
tree) the index `min(|s|, n)`, the buffer holds `s[i]` at every `i < min(|s|, n)`, and
every other index of the buffer, so every index from `n` on, is as it was. -/
theorem inorder_traversal_bounded_export (t : rbtree) (T : Tree) (fuel : Nat)
    (arr : Nat → Int) (n : Nat) (hrep : Rep t T) (hf : height T + 1 ≤ fuel) :
    ∃ arr', inorder_traversal fuel t t.root arr 0 n = some (arr', min (keys T).length n)
      ∧ (∀ i, i < min (keys T).length n → (keys T)[i]? = some (arr' i))
      ∧ (∀ j, min (keys T).length n ≤ j → arr' j = arr j) := by
  have e := inorder_traversal_spec n T [] fuel arr 0 ((rep_iff_repZ t T).1 hrep) hf
  rw [← hrep.root] at e
  have hi := write_keys_index (keys T) arr 0 n (Nat.zero_le _)
  rw [Nat.zero_add] at hi
  refine ⟨(write_keys (keys T) arr 0 n).1, ?_, ?_, ?_⟩
  · rw [e, ← hi]
  · intro i h
    have := (write_keys_get (keys T) arr 0 n (Nat.zero_le _) i).2 (Nat.zero_le _)
      (by rw [Nat.zero_add]; exact h)
    simpa only [Nat.sub_zero] using this
  · intro j h
    exact (write_keys_get (keys T) arr 0 n (Nat.zero_le _) j).1
      (Or.inr (by rw [Nat.zero_add]; exact h))

/-- The export of the tree of the run 1 to 5 into a zeroed buffer of capacity 2, as
an instance of C20. -/
theorem inorder_traversal_bounded_export_witness :
    ∃ arr', inorder_traversal 4
          (state_of 7 [.insert 1, .insert 2, .insert 3, .insert 4, .insert 5])
          (state_of 7 [.insert 1, .insert 2, .insert 3, .insert 4, .insert 5]).root
          (fun _ => 0) 0 2
        = some (arr', min (keys (.node 3 RBTREE_BLACK 2 (.node 2 RBTREE_BLACK 1 .leaf .leaf)
            (.node 5 RBTREE_BLACK 4 (.node 4 RBTREE_RED 3 .leaf .leaf)
              (.node 6 RBTREE_RED 5 .leaf .leaf)))).length 2)
      ∧ (∀ i, i < min (keys (.node 3 RBTREE_BLACK 2 (.node 2 RBTREE_BLACK 1 .leaf .leaf)
            (.node 5 RBTREE_BLACK 4 (.node 4 RBTREE_RED 3 .leaf .leaf)
              (.node 6 RBTREE_RED 5 .leaf .leaf)))).length 2 →
          (keys (.node 3 RBTREE_BLACK 2 (.node 2 RBTREE_BLACK 1 .leaf .leaf)
            (.node 5 RBTREE_BLACK 4 (.node 4 RBTREE_RED 3 .leaf .leaf)
              (.node 6 RBTREE_RED 5 .leaf .leaf))))[i]? = some (arr' i))
      ∧ (∀ j, min (keys (.node 3 RBTREE_BLACK 2 (.node 2 RBTREE_BLACK 1 .leaf .leaf)
            (.node 5 RBTREE_BLACK 4 (.node 4 RBTREE_RED 3 .leaf .leaf)
              (.node 6 RBTREE_RED 5 .leaf .leaf)))).length 2 ≤ j →
          arr' j = (fun _ => 0) j) :=
  inorder_traversal_bounded_export
    (state_of 7 [.insert 1, .insert 2, .insert 3, .insert 4, .insert 5])
    (.node 3 RBTREE_BLACK 2 (.node 2 RBTREE_BLACK 1 .leaf .leaf)
      (.node 5 RBTREE_BLACK 4 (.node 4 RBTREE_RED 3 .leaf .leaf)
        (.node 6 RBTREE_RED 5 .leaf .leaf)))
    4 (fun _ => 0) 2 (by decide!) (by decide)

/-- A call of `rbtree_insert` on a reachable state leaves the record of the sentinel as it
was, whatever the fuel it returns with. -/
theorem reachable_insert_mem_nil {t t' : rbtree} {z : Ptr} (fuel : Nat) (key : Int)
    (h : Reachable t) (e : rbtree_insert fuel t key = some (t', z)) :
    t'.nil = t.nil ∧ t'.mem t'.nil = t.mem t.nil := by
  obtain ⟨T, hrep, hrb, _⟩ := reachable_valid h
  have e1 := rbtree_insert_mono (le_max_left fuel (height T + 2)) e
  obtain ⟨t'', T', e2, _, _, _, hnil, _, hmem⟩ :=
    rbtree_insert_full (max fuel (height T + 2)) t T key hrep hrb (le_max_right _ _)
  rw [e2] at e1
  simp only [Option.some.injEq, Prod.mk.injEq] at e1
  rw [← e1.1, hnil]
  exact ⟨rfl, hmem⟩

/-- C12, as the specification states it, fails: in the tree of the run 1, 2 the record with
key 2 is a record of the tree, and after `rbtree_erase` of it the parent link of the
sentinel points to the record with key 1, not to the sentinel. -/
theorem sentinel_parent_counterexample :
    ∃ t0 T0 t, run_ops 4 [.insert 1, .insert 2] new_rbtree = some t0 ∧ Rep t0 T0
      ∧ 3 ∈ addrs T0 ∧ rbtree_erase 4 t0 3 = some (t, 1)
      ∧ (t.mem t.nil).parent ≠ t.nil :=
  ⟨state_of 4 [.insert 1, .insert 2],
    .node 2 RBTREE_BLACK 1 .leaf (.node 3 RBTREE_RED 2 .leaf .leaf),
    state_of 4 [.insert 1, .insert 2, .erase 3], rfl, by decide!, by decide, rfl, by decide!⟩

/-- C12, amended: in the tree `new_rbtree` returns the sentinel is BLACK and its left, right
and parent links point to the sentinel; in every state reached from it by inserts and by
erases of records in the tree the sentinel is BLACK and its left and right links point to
the sentinel, and `rbtree_insert` leaves the whole record of the sentinel, the parent link
included, as it was.  (Only `rbtree_erase` writes the parent link of the sentinel.) -/
theorem sentinel_invariant :
    ((new_rbtree.mem new_rbtree.nil).color = RBTREE_BLACK
      ∧ (new_rbtree.mem new_rbtree.nil).left = new_rbtree.nil
      ∧ (new_rbtree.mem new_rbtree.nil).right = new_rbtree.nil
      ∧ (new_rbtree.mem new_rbtree.nil).parent = new_rbtree.nil)
    ∧ (∀ t, Reachable t →
      (t.mem t.nil).color = RBTREE_BLACK ∧ (t.mem t.nil).left = t.nil
        ∧ (t.mem t.nil).right = t.nil
        ∧ ∀ (fuel : Nat) (key : Int) (t' : rbtree) (z : Ptr),
            rbtree_insert fuel t key = some (t', z) →
            t'.nil = t.nil ∧ t'.mem t'.nil = t.mem t.nil) := by
  refine ⟨⟨rfl, rfl, rfl, rfl⟩, ?_⟩
  intro t h
  obtain ⟨T, hrep, _, _⟩ := reachable_valid h
  exact ⟨hrep.nil_color, hrep.nil_left, hrep.nil_right,
    fun fuel key t' z e => reachable_insert_mem_nil fuel key h e⟩

/-- The state after the erase that moved the parent link of the sentinel, as an instance
of the amended C12. -/
theorem sentinel_invariant_witness :
    ((state_of 4 [.insert 1, .insert 2]).mem (state_of 4 [.insert 1, .insert 2]).nil).color
        = RBTREE_BLACK
      ∧ ((state_of 4 [.insert 1, .insert 2]).mem (state_of 4 [.insert 1, .insert 2]).nil).left
        = (state_of 4 [.insert 1, .insert 2]).nil
      ∧ ((state_of 4 [.insert 1, .insert 2]).mem (state_of 4 [.insert 1, .insert 2]).nil).right
        = (state_of 4 [.insert 1, .insert 2]).nil
      ∧ ∀ (fuel : Nat) (key : Int) (t' : rbtree) (z : Ptr),
          rbtree_insert fuel (state_of 4 [.insert 1, .insert 2]) key = some (t', z) →
          t'.nil = (state_of 4 [.insert 1, .insert 2]).nil
            ∧ t'.mem t'.nil
              = (state_of 4 [.insert 1, .insert 2]).mem (state_of 4 [.insert 1, .insert 2]).nil :=
  sentinel_invariant.2 (state_of 4 [.insert 1, .insert 2])
    (reachable_run_inserts 4 [1, 2] new_rbtree _ Reachable.new rfl)

/-- One loop test of `rbtree_delete_fixup`, in terms of the body of the loop. -/
theorem rbtree_delete_fixup_succ (fuel : Nat) (t : rbtree) (x : Ptr) :
    rbtree_delete_fixup (fuel + 1) t x =
      if x ≠ t.root ∧ (t.mem x).color = RBTREE_BLACK then
        rbtree_delete_fixup fuel (delete_fixup_body t x).1 (delete_fixup_body t x).2
      else some (set_color t x RBTREE_BLACK) := by
  rw [rbtree_delete_fixup]
  unfold delete_fixup_body
  dsimp only
  split_ifs <;> rfl

/-- The function `rbtree_delete_fixup` is its loop followed by `x->color = RBTREE_BLACK`. -/
theorem rbtree_delete_fixup_eq_loop (fuel : Nat) : ∀ (t : rbtree) (x : Ptr),
    rbtree_delete_fixup fuel t x
      = (delete_fixup_loop fuel t x).map (fun p => set_color p.1 p.2 RBTREE_BLACK) := by
  induction fuel with
  | zero => intro t x; rfl
  | succ fuel ih =>
    intro t x
    rw [rbtree_delete_fixup_succ, delete_fixup_loop]
    split_ifs
    · exact ih _ _
    · rfl

/-- The loop of `rbtree_delete_fixup` is left only at the root or at a RED record. -/
theorem delete_fixup_loop_exit (fuel : Nat) : ∀ (t : rbtree) (x : Ptr) (t2 : rbtree) (x2 : Ptr),
    delete_fixup_loop fuel t x = some (t2, x2) →
    x2 = t2.root ∨ (t2.mem x2).color = RBTREE_RED := by
  induction fuel with
  | zero => intro t x t2 x2 h; simp [delete_fixup_loop] at h
  | succ fuel ih =>
    intro t x t2 x2 h
    rw [delete_fixup_loop] at h
    split_ifs at h with hc
    · exact ih _ _ _ _ h
    · simp only [Option.some.injEq, Prod.mk.injEq] at h
      obtain ⟨rfl, rfl⟩ := h
      by_cases hr : x = t.root
      · exact Or.inl hr
      · right
        rcases color_cases (t.mem x).color with h1 | h1
        · exact h1
        · exact absurd ⟨hr, h1⟩ hc

/-- One iteration of the loop of `rbtree_delete_fixup` moves `x` to its parent (Case B) or
sets it to the root (Case D). -/
theorem delete_fixup_body_moves (t : rbtree) (x : Ptr) :
    (delete_fixup_body t x).2 = ((delete_fixup_body t x).1.mem x).parent
      ∨ (delete_fixup_body t x).2 = (delete_fixup_body t x).1.root := by
  unfold delete_fixup_body
  dsimp only
  split_ifs
  all_goals first
    | (left; simp only [set_color_mem_parent]; done)
    | (right; rfl)

/-- C15: the delete fix-up terminates and ends with `x` BLACK.  On every state that holds
a red-black tree and every record `z` of it, the splice of `rbtree_erase` returns a state
`t1`, a position `x` and the colour that left the tree; when that colour is BLACK, the case
in which `rbtree_erase` calls `rbtree_delete_fixup(t1, x)`, the loop of the fix-up returns
within `height + 2` loop tests, at an `x2` that is the root or RED, the function returns
that state with `x2` coloured BLACK, and the result holds a red-black tree.  Every
iteration of the loop moves `x` to its parent (Case B) or sets it to the root (Case D). -/
theorem delete_fixup_terminates (fuel : Nat) (t : rbtree) (T : Tree) (z : Ptr)
    (hrep : Rep t T) (hinv : RBInvariants t T) (hz : z ∈ addrs T)
    (hf : height T + 2 ≤ fuel) :
    ∃ t1 x oc, erase_splice fuel t z = some (t1, x, oc)
      ∧ (oc = RBTREE_BLACK →
          ∃ t2 x2 T', delete_fixup_loop fuel t1 x = some (t2, x2)
            ∧ (x2 = t2.root ∨ (t2.mem x2).color = RBTREE_RED)
            ∧ rbtree_delete_fixup fuel t1 x = some (set_color t2 x2 RBTREE_BLACK)
            ∧ ((set_color t2 x2 RBTREE_BLACK).mem x2).color = RBTREE_BLACK
            ∧ Rep (set_color t2 x2 RBTREE_BLACK) T'
            ∧ RBInvariants (set_color t2 x2 RBTREE_BLACK) T')
      ∧ ∀ s y, (delete_fixup_body s y).2 = ((delete_fixup_body s y).1.mem y).parent
          ∨ (delete_fixup_body s y).2 = (delete_fixup_body s y).1.root := by
  have hrb := (rbInvariants_iff hrep).1 hinv
  obtain ⟨ctx, c, k, l, r, rfl⟩ := exists_plug_of_mem hz
  obtain ⟨t1, ctx', s, oc, e, out⟩ := erase_splice_spec fuel hrep.toRepZ ((atPos_iff _ _).1 hrb)
    (by omega)
  refine ⟨t1, rootAddr t.nil s, oc, e, ?_, delete_fixup_body_moves⟩
  intro hoc
  obtain ⟨t', T', e', res⟩ := delete_fixup_spec ctx'.length ctx' t1 s fuel (le_refl _)
    (by have := out.len; omega) out.rep out.par (out.black hoc)
  rw [out.nil] at e'
  have e2 := e'
  rw [rbtree_delete_fixup_eq_loop, Option.map_eq_some'] at e2
  obtain ⟨⟨t2, x2⟩, el, rfl⟩ := e2
  refine ⟨t2, x2, T', el, delete_fixup_loop_exit fuel _ _ _ _ el, e', ?_, res.rep,
    (rbInvariants_iff res.rep).2 res.rb⟩
  simp only [set_color_mem, upd_same]

/-- Erasing the BLACK leaf with key 1 from the tree of the run 1 to 5, where the fix-up
starts at the sentinel and runs Case D, as an instance of C15. -/
theorem delete_fixup_terminates_witness :
    ∃ t1 x oc,
      erase_splice 5 (state_of 7 [.insert 1, .insert 2, .insert 3, .insert 4, .insert 5]) 2
        = some (t1, x, oc)
      ∧ (oc = RBTREE_BLACK →
          ∃ t2 x2 T', delete_fixup_loop 5 t1 x = some (t2, x2)
            ∧ (x2 = t2.root ∨ (t2.mem x2).color = RBTREE_RED)
            ∧ rbtree_delete_fixup 5 t1 x = some (set_color t2 x2 RBTREE_BLACK)
            ∧ ((set_color t2 x2 RBTREE_BLACK).mem x2).color = RBTREE_BLACK
            ∧ Rep (set_color t2 x2 RBTREE_BLACK) T'
            ∧ RBInvariants (set_color t2 x2 RBTREE_BLACK) T')
      ∧ ∀ s y, (delete_fixup_body s y).2 = ((delete_fixup_body s y).1.mem y).parent
          ∨ (delete_fixup_body s y).2 = (delete_fixup_body s y).1.root :=
  delete_fixup_terminates 5
    (state_of 7 [.insert 1, .insert 2, .insert 3, .insert 4, .insert 5])
    (.node 3 RBTREE_BLACK 2 (.node 2 RBTREE_BLACK 1 .leaf .leaf)
      (.node 5 RBTREE_BLACK 4 (.node 4 RBTREE_RED 3 .leaf .leaf)
        (.node 6 RBTREE_RED 5 .leaf .leaf)))
    2 (by decide!) ((rbInvariants_iff (by decide!)).2 ⟨rfl, by simp, 2, by simp⟩)
    (by decide) (by decide)

/-- One loop test of `rbtree_insert_fixup`, in terms of the body of the loop. -/
theorem rbtree_insert_fixup_succ (fuel : Nat) (t : rbtree) (z : Ptr) :
    rbtree_insert_fixup (fuel + 1) t z =
      if (t.mem (t.mem z).parent).color = RBTREE_RED then
        rbtree_insert_fixup fuel (insert_fixup_body t z).1 (insert_fixup_body t z).2
      else some (set_color t t.root RBTREE_BLACK) := by
  rw [rbtree_insert_fixup]
  unfold insert_fixup_body
  dsimp only
  split_ifs <;> rfl

theorem ctxRootColor_black_cons {f : Frame} {rest : Ctx} (hf : f.color = RBTREE_BLACK)
    (h : ctxRootColor rest = RBTREE_BLACK) : ctxRootColor (f :: rest) = RBTREE_BLACK := by
  cases rest with
  | nil => exact hf
  | cons g rest => exact h

/-- Where the loop of `rbtree_insert_fixup` runs its body, the parent of `z` is a record
below the root and the grandparent is a record. -/
theorem insert_fixup_guard {t : rbtree} {z : Ptr} (h : InsAt t z)
    (hred : (t.mem (t.mem z).parent).color = RBTREE_RED) :
    (t.mem z).parent ≠ t.nil ∧ (t.mem z).parent ≠ t.root
      ∧ (t.mem (t.mem z).parent).parent ≠ t.nil := by
  obtain ⟨ctx, c, k, l, r, h, hroot⟩ := h
  have hz := h.read
  rw [hz] at hred ⊢
  simp only at hred ⊢
  rw [h.parent_color] at hred
  rcases ctx with _ | ⟨f, _ | ⟨g, rest⟩⟩
  · simp at hred
  · cases f <;> simp_all [ctxRootColor]
  rcases f with ⟨p, cp, kp, b⟩ | ⟨p, cp, kp, b⟩ <;>
    rcases g with ⟨g, cg, kg, u⟩ | ⟨g, cg, kg, u⟩
  · have hP := h.up_L
    have hp := hP.read
    have hr := hP.ne_root
    simp only [rootAddr_node] at hr
    simp only [ctxParent_L, hp]
    exact ⟨hP.nil_ne, hr, hP.up_L.nil_ne⟩
  · have hP := h.up_L
    have hp := hP.read
    have hr := hP.ne_root
    simp only [rootAddr_node] at hr
    simp only [ctxParent_L, ctxParent_R, hp]
    exact ⟨hP.nil_ne, hr, hP.up_R.nil_ne⟩
  · have hP := h.up_R
    have hp := hP.read
    have hr := hP.ne_root
    simp only [rootAddr_node] at hr
    simp only [ctxParent_L, ctxParent_R, hp]
    exact ⟨hP.nil_ne, hr, hP.up_L.nil_ne⟩
  · have hP := h.up_R
    have hp := hP.read
    have hr := hP.ne_root
    simp only [rootAddr_node] at hr
    simp only [ctxParent_R, hp]
    exact ⟨hP.nil_ne, hr, hP.up_R.nil_ne⟩

/-- One iteration of the loop of `rbtree_insert_fixup`: the invariant at `z` is kept; with
a RED uncle the new `z` is the grandparent (Case A), and with a BLACK uncle the new `z` has
a BLACK parent (Cases B and C), so that the next loop test leaves the loop. -/
theorem insert_fixup_body_step {t : rbtree} {z : Ptr} (h : InsAt t z)
    (hred : (t.mem (t.mem z).parent).color = RBTREE_RED) :
    ∃ t' z', insert_fixup_body t z = (t', z') ∧ InsAt t' z'
      ∧ ((t.mem (insert_fixup_uncle t z)).color = RBTREE_RED →
          z' = (t.mem (t.mem z).parent).parent)
      ∧ ((t.mem (insert_fixup_uncle t z)).color ≠ RBTREE_RED →
          (t'.mem (t'.mem z').parent).color = RBTREE_BLACK) := by
  obtain ⟨ctx, c, k, l, r, h, hroot⟩ := h
  have hz0 := h.read
  rw [hz0] at hred
  simp only at hred
  rw [h.parent_color] at hred
  rcases ctx with _ | ⟨f, _ | ⟨g, rest⟩⟩
  · simp at hred
  · cases f <;> simp_all [ctxRootColor]
  have hroot2 := ctxRootColor_tail (ctxRootColor_tail hroot)
  rcases g with ⟨g, cg, kg, u⟩ | ⟨g, cg, kg, u⟩
  · -- the parent is a left child
    rcases color_cases (rootColor u) with hu | hu
    · -- RED uncle: recolour and move up two levels
      obtain ⟨y, ky, ul, ur, rfl⟩ := rootColor_red hu
      rcases f with ⟨p, cp, kp, b⟩ | ⟨p, cp, kp, b⟩
      · simp only [ctxColor_L] at hred
        subst hred
        have hz := h.read
        have hp := h.up_L.read
        have hg := h.up_L.up_L.read
        have hy := h.up_L.up_L.down_R.read
        have r1 := (h.up_L.recolor RBTREE_BLACK).1
        have r2 := (r1.up_L.down_R.recolor RBTREE_BLACK).1
        have r3 := (r2.up_R.recolor RBTREE_RED).1
        refine ⟨_, g, ?_, ⟨rest, _, _, _, _, r3, hroot2⟩, ?_, ?_⟩
        · unfold insert_fixup_body
          simp only [hz, hp, hg, hy, rootAddr_node, if_true, if_false, set_color_mem_parent, ctxParent_L, ctxParent_R]
        · intro _
          simp only [hz, hp, rootAddr_node, if_true, if_false, set_color_mem_parent, ctxParent_L, ctxParent_R]
        · intro hn
          exfalso
          apply hn
          unfold insert_fixup_uncle
          simp only [hz, hp, hg, hy, rootAddr_node, if_true, if_false, set_color_mem_parent, ctxParent_L, ctxParent_R]
      · simp only [ctxColor_R] at hred
        subst hred
        have hz := h.read
        have hp := h.up_R.read
        have hg := h.up_R.up_L.read
        have hy := h.up_R.up_L.down_R.read
        have r1 := (h.up_R.recolor RBTREE_BLACK).1
        have r2 := (r1.up_L.down_R.recolor RBTREE_BLACK).1
        have r3 := (r2.up_R.recolor RBTREE_RED).1
        refine ⟨_, g, ?_, ⟨rest, _, _, _, _, r3, hroot2⟩, ?_, ?_⟩
        · unfold insert_fixup_body
          simp only [hz, hp, hg, hy, rootAddr_node, if_true, if_false, set_color_mem_parent, ctxParent_L, ctxParent_R]
        · intro _
          simp only [hz, hp, rootAddr_node, if_true, if_false, set_color_mem_parent, ctxParent_L, ctxParent_R]
        · intro hn
          exfalso
          apply hn
          unfold insert_fixup_uncle
          simp only [hz, hp, hg, hy, rootAddr_node, if_true, if_false, set_color_mem_parent, ctxParent_L, ctxParent_R]
    · -- BLACK uncle: one or two rotations
      rcases f with ⟨p, cp, kp, b⟩ | ⟨p, cp, kp, b⟩
      · simp only [ctxColor_L] at hred
        subst hred
        have hz := h.read
        have hp := h.up_L.read
        have hg := h.up_L.up_L.read
        have hy := h.up_L.up_L.down_R.root_color
        rw [hu] at hy
        have hyc : ¬ (t.mem (rootAddr t.nil u)).color = RBTREE_RED := by
          rw [hy]; exact black_ne_red
        have hzs := h.ne_sibling_L
        have r2 := (h.up_L.recolor RBTREE_BLACK).1
        have r3 := (r2.up_L.recolor RBTREE_RED).1
        have r4 := r3.rot_right.1
        refine ⟨_, z, ?_, ⟨_, _, _, _, _, r4.down_L,
          ctxRootColor_black_cons rfl hroot2⟩, ?_, ?_⟩
        · unfold insert_fixup_body
          simp only [hz, hp, hg, hyc, hzs, rootAddr_node, if_true, if_false, set_color_mem_parent, ctxParent_L, ctxParent_R]
        · intro hr
          exfalso
          apply hyc
          unfold insert_fixup_uncle at hr
          simp only [hz, hp, hg, rootAddr_node, if_true, if_false, set_color_mem_parent, ctxParent_L, ctxParent_R] at hr
          exact hr
        · intro _
          have hq := r4.down_L.read
          have hc := r4.down_L.parent_color
          rw [hq]
          exact hc
      · simp only [ctxColor_R] at hred
        subst hred
        have hz := h.read
        have hp := h.up_R.read
        have hg := h.up_R.up_L.read
        have hy := h.up_R.up_L.down_R.root_color
        rw [hu] at hy
        have hyc : ¬ (t.mem (rootAddr t.nil u)).color = RBTREE_RED := by
          rw [hy]; exact black_ne_red
        have r1 := h.up_R.rot_left.1
        have hp1 := r1.down_L.read
        have hz1 := r1.read
        have r2 := (r1.recolor RBTREE_BLACK).1
        have r3 := (r2.up_L.recolor RBTREE_RED).1
        have r4 := r3.rot_right.1
        refine ⟨_, p, ?_, ⟨_, _, _, _, _, r4.down_L,
          ctxRootColor_black_cons rfl hroot2⟩, ?_, ?_⟩
        · unfold insert_fixup_body
          simp only [hz, hp, hg, hyc, hp1, hz1, rootAddr_node, if_true, if_false, set_color_mem_parent, ctxParent_L, ctxParent_R]
        · intro hr
          exfalso
          apply hyc
          unfold insert_fixup_uncle at hr
          simp only [hz, hp, hg, rootAddr_node, if_true, if_false, set_color_mem_parent, ctxParent_L, ctxParent_R] at hr
          exact hr
        · intro _
          have hq := r4.down_L.read
          have hc := r4.down_L.parent_color
          rw [hq]
          exact hc
  · -- the parent is a right child
    rcases color_cases (rootColor u) with hu | hu
    · -- RED uncle: recolour and move up two levels
      obtain ⟨y, ky, ul, ur, rfl⟩ := rootColor_red hu
      rcases f with ⟨p, cp, kp, b⟩ | ⟨p, cp, kp, b⟩
      · simp only [ctxColor_L] at hred
        subst hred
        have hz := h.read
        have hp := h.up_L.read
        have hg := h.up_L.up_R.read
        have hy := h.up_L.up_R.down_L.read
        have hne : p ≠ y := by simpa only [rootAddr_node] using h.up_L.ne_sibling_R
        have r1 := (h.up_L.recolor RBTREE_BLACK).1
        have r2 := (r1.up_R.down_L.recolor RBTREE_BLACK).1
        have r3 := (r2.up_L.recolor RBTREE_RED).1
        refine ⟨_, g, ?_, ⟨rest, _, _, _, _, r3, hroot2⟩, ?_, ?_⟩
        · unfold insert_fixup_body
          simp only [hz, hp, hg, hy, hne, rootAddr_node, if_true, if_false, set_color_mem_parent, ctxParent_L, ctxParent_R]
        · intro _
          simp only [hz, hp, rootAddr_node, if_true, if_false, set_color_mem_parent, ctxParent_L, ctxParent_R]
        · intro hn
          exfalso
          apply hn
          unfold insert_fixup_uncle
          simp only [hz, hp, hg, hy, hne, rootAddr_node, if_true, if_false, set_color_mem_parent, ctxParent_L, ctxParent_R]
      · simp only [ctxColor_R] at hred
        subst hred
        have hz := h.read
        have hp := h.up_R.read
        have hg := h.up_R.up_R.read
        have hy := h.up_R.up_R.down_L.read
        have hne : p ≠ y := by simpa only [rootAddr_node] using h.up_R.ne_sibling_R
        have r1 := (h.up_R.recolor RBTREE_BLACK).1
        have r2 := (r1.up_R.down_L.recolor RBTREE_BLACK).1
        have r3 := (r2.up_L.recolor RBTREE_RED).1
        refine ⟨_, g, ?_, ⟨rest, _, _, _, _, r3, hroot2⟩, ?_, ?_⟩
        · unfold insert_fixup_body
          simp only [hz, hp, hg, hy, hne, rootAddr_node, if_true, if_false, set_color_mem_parent, ctxParent_L, ctxParent_R]
        · intro _
          simp only [hz, hp, rootAddr_node, if_true, if_false, set_color_mem_parent, ctxParent_L, ctxParent_R]
        · intro hn
          exfalso
          apply hn
          unfold insert_fixup_uncle
          simp only [hz, hp, hg, hy, hne, rootAddr_node, if_true, if_false, set_color_mem_parent, ctxParent_L, ctxParent_R]
    · -- BLACK uncle: one or two rotations
      rcases f with ⟨p, cp, kp, b⟩ | ⟨p, cp, kp, b⟩
      · simp only [ctxColor_L] at hred
        subst hred
        have hz := h.read
        have hp := h.up_L.read
        have hg := h.up_L.up_R.read
        have hy := h.up_L.up_R.down_L.root_color
        rw [hu] at hy
        have hyc : ¬ (t.mem (rootAddr t.nil u)).color = RBTREE_RED := by
          rw [hy]; exact black_ne_red
        have hne := h.up_L.ne_sibling_R
        have r1 := h.up_L.rot_right.1
        have hp1 := r1.down_R.read
        have hz1 := r1.read
        have r2 := (r1.recolor RBTREE_BLACK).1
        have r3 := (r2.up_R.recolor RBTREE_RED).1
        have r4 := r3.rot_left.1
        refine ⟨_, p, ?_, ⟨_, _, _, _, _, r4.down_R,
          ctxRootColor_black_cons rfl hroot2⟩, ?_, ?_⟩
        · unfold insert_fixup_body
          simp only [hz, hp, hg, hyc, hp1, hz1, hne, rootAddr_node, if_true, if_false, set_color_mem_parent, ctxParent_L, ctxParent_R]
        · intro hr
          exfalso
          apply hyc
          unfold insert_fixup_uncle at hr
          simp only [hz, hp, hg, hne, rootAddr_node, if_true, if_false, set_color_mem_parent, ctxParent_L, ctxParent_R] at hr
          exact hr
        · intro _
          have hq := r4.down_R.read
          have hc := r4.down_R.parent_color
          rw [hq]
          exact hc
      · simp only [ctxColor_R] at hred
        subst hred
        have hz := h.read
        have hp := h.up_R.read
        have hg := h.up_R.up_R.read
        have hy := h.up_R.up_R.down_L.root_color
        rw [hu] at hy
        have hyc : ¬ (t.mem (rootAddr t.nil u)).color = RBTREE_RED := by
          rw [hy]; exact black_ne_red
        have hne := h.up_R.ne_sibling_R
        have hzs := h.ne_sibling_R
        have r2 := (h.up_R.recolor RBTREE_BLACK).1
        have r3 := (r2.up_R.recolor RBTREE_RED).1
        have r4 := r3.rot_left.1
        refine ⟨_, z, ?_, ⟨_, _, _, _, _, r4.down_R,
          ctxRootColor_black_cons rfl hroot2⟩, ?_, ?_⟩
        · unfold insert_fixup_body
          simp only [hz, hp, hg, hyc, hzs, hne, rootAddr_node, if_true, if_false, set_color_mem_parent, ctxParent_L, ctxParent_R]
        · intro hr
          exfalso
          apply hyc
          unfold insert_fixup_uncle at hr
          simp only [hz, hp, hg, hne, rootAddr_node, if_true, if_false, set_color_mem_parent, ctxParent_L, ctxParent_R] at hr
          exact hr
        · intro _
          have hq := r4.down_R.read
          have hc := r4.down_R.parent_color
          rw [hq]
          exact hc

/-- The invariant of the loop of `rbtree_insert_fixup` holds at every state the loop
reaches. -/
theorem insert_fixup_iter_inv (n : Nat) : ∀ (t : rbtree) (z : Ptr), InsAt t z →
    InsAt (insert_fixup_iter n t z).1 (insert_fixup_iter n t z).2 := by
  induction n with
  | zero => intro t z h; exact h
  | succ n ih =>
    intro t z h
    rw [insert_fixup_iter]
    split_ifs with hred
    · obtain ⟨t', z', e, h', _, _⟩ := insert_fixup_body_step h hred
      rw [e]
      exact ih t' z' h'
    · exact h

/-- C16: the insert fix-up terminates.  On every state that holds a red-black tree, the
descent of `rbtree_insert` ends at a parent `y`, and from the state in which the new RED
record `z` hangs below `y` the loop of `rbtree_insert_fixup` returns within `height + 2`
loop tests, so that `rbtree_insert` returns.  At every state the loop reaches in which the
parent of `z` is RED, that is whenever the body runs, the parent is a record that is not
the root and the grandparent is a record; with a RED uncle the body moves `z` to the
grandparent (Case A), and with a BLACK uncle it leaves `z` with a BLACK parent (Cases B
and C), so that the next loop test leaves the loop. -/
theorem insert_fixup_terminates (fuel : Nat) (t : rbtree) (T : Tree) (key : Int)
    (hrep : Rep t T) (hinv : RBInvariants t T) (hf : height T + 2 ≤ fuel) :
    ∃ y t', insert_descend fuel (alloc_node t key) t.brk t.nil t.root = some y
      ∧ rbtree_insert_fixup fuel (attach (alloc_node t key) t.brk y) t.brk = some t'
      ∧ rbtree_insert fuel t key = some (t', t.brk)
      ∧ ∀ n s z, insert_fixup_iter n (attach (alloc_node t key) t.brk y) t.brk = (s, z) →
          (s.mem (s.mem z).parent).color = RBTREE_RED →
          (s.mem z).parent ≠ s.nil ∧ (s.mem z).parent ≠ s.root
            ∧ (s.mem (s.mem z).parent).parent ≠ s.nil
            ∧ ((s.mem (insert_fixup_uncle s z)).color = RBTREE_RED →
                (insert_fixup_body s z).2 = (s.mem (s.mem z).parent).parent)
            ∧ ((s.mem (insert_fixup_uncle s z)).color ≠ RBTREE_RED →
                ((insert_fixup_body s z).1.mem
                  ((insert_fixup_body s z).1.mem (insert_fixup_body s z).2).parent).color
                  = RBTREE_BLACK) := by
  have hrb := (rbInvariants_iff hrep).1 hinv
  obtain ⟨hdesc, hatt, _, inv, hlen⟩ := insert_handoff fuel t T key hrep hrb hf
  obtain ⟨t', T', e, _⟩ := insert_fixup_spec (height T) (insCtx key T []) _ t.brk key
    .leaf .leaf fuel hlen hf hatt inv
  refine ⟨_, t', hdesc, e, ?_, ?_⟩
  · rw [rbtree_insert_eq, hdesc]
    simp only [e]
  · intro n s z hs hred
    have h0 : InsAt (attach (alloc_node t key) t.brk (ctxParent t.nil (insCtx key T []))) t.brk :=
      ⟨_, _, _, _, _, hatt, inv.root⟩
    have hn := insert_fixup_iter_inv n _ _ h0
    rw [hs] at hn
    obtain ⟨g1, g2, g3⟩ := insert_fixup_guard hn hred
    obtain ⟨t2, z2, eb, _, hA, hB⟩ := insert_fixup_body_step hn hred
    rw [eb]
    exact ⟨g1, g2, g3, hA, hB⟩

/-- Inserting 4 into the tree of the run 1, 2, 3, where the loop runs Case A once and leaves
at the root, as an instance of C16. -/
theorem insert_fixup_terminates_witness :
    ∃ y t',
      insert_descend 4 (alloc_node (state_of 4 [.insert 1, .insert 2, .insert 3]) 4)
          (state_of 4 [.insert 1, .insert 2, .insert 3]).brk
          (state_of 4 [.insert 1, .insert 2, .insert 3]).nil
          (state_of 4 [.insert 1, .insert 2, .insert 3]).root = some y
      ∧ rbtree_insert_fixup 4
          (attach (alloc_node (state_of 4 [.insert 1, .insert 2, .insert 3]) 4)
            (state_of 4 [.insert 1, .insert 2, .insert 3]).brk y)
          (state_of 4 [.insert 1, .insert 2, .insert 3]).brk = some t'
      ∧ rbtree_insert 4 (state_of 4 [.insert 1, .insert 2, .insert 3]) 4
          = some (t', (state_of 4 [.insert 1, .insert 2, .insert 3]).brk)
      ∧ ∀ n s z,
          insert_fixup_iter n
            (attach (alloc_node (state_of 4 [.insert 1, .insert 2, .insert 3]) 4)
              (state_of 4 [.insert 1, .insert 2, .insert 3]).brk y)
            (state_of 4 [.insert 1, .insert 2, .insert 3]).brk = (s, z) →
          (s.mem (s.mem z).parent).color = RBTREE_RED →
          (s.mem z).parent ≠ s.nil ∧ (s.mem z).parent ≠ s.root
            ∧ (s.mem (s.mem z).parent).parent ≠ s.nil
            ∧ ((s.mem (insert_fixup_uncle s z)).color = RBTREE_RED →
                (insert_fixup_body s z).2 = (s.mem (s.mem z).parent).parent)
            ∧ ((s.mem (insert_fixup_uncle s z)).color ≠ RBTREE_RED →
                ((insert_fixup_body s z).1.mem
                  ((insert_fixup_body s z).1.mem (insert_fixup_body s z).2).parent).color
                  = RBTREE_BLACK) :=
  insert_fixup_terminates 4 (state_of 4 [.insert 1, .insert 2, .insert 3])
    (.node 3 RBTREE_BLACK 2 (.node 2 RBTREE_RED 1 .leaf .leaf)
      (.node 4 RBTREE_RED 3 .leaf .leaf))
    4 (by decide!) ((rbInvariants_iff (by decide!)).2 ⟨rfl, by simp, 1, by simp⟩)
    (by decide)

end RB
